import Mathlib

/-!
# vDDS: a shallow embedding of the fan-out core

Sequential embedding of `vdds::spsc_queue`, `vdds::sub_queue`, `vdds::topic`,
`vdds::domain`, the notifiers, the typed facades `vdds::pub` and `vdds::sub`, and the
query records of `vdds::query`.
Every member function is run to completion on an explicit state; atomics are
plain fields, and the memory orderings of the loads and stores are dropped.
The records handed to the logging backend (`hogl::post`) and the string cache
behind the trace-format strings are left out: they do not feed back into the
state of the queues and topics.

Machine integers are naturals.  `size_t` and `uint64_t` are 64 bits wide,
`uint32_t` and `unsigned int` are 32 bits wide; an operation that can leave the
range is written with an explicit `%`.  The `unsigned` indices of the loops over
the topic, subscriber and publisher vectors count the positions of a vector held
in memory and are written without a reduction.

A blocking `wait_for` is described by what it hands to the waiting primitive and
by whether its wake-up predicate held on entry; time itself is not modelled.
`domain::kick` and `domain::shutdown`, which shutdown-test.cc calls, are in none
of the source files and are modelled from the specification.

The logging library is outside the repository.  What `hogl::add_area` hands back
to the constructors of `domain` and `topic` is an argument `area` of `domain.ctor`,
`topic.ctor`, `domain.create_topic_area` and the facade constructors, which throw on
a null area; `domain.new`, `topic.new` and `domain.create_topic` describe the calls
that return.

A shared payload is the address its `shared_ptr` points at, and its reference
count is the number of envelope objects pointing at it: those constructed in the
slots of the queues and those the callers hold.  The ring is compared with a
bounded FIFO list (`bounded_fifo`) through `spsc_queue.to_fifo`.
-/

namespace vdds

/-- Largest `size_t` value of a 64-bit target. -/
def SIZE_MAX : Nat := 2 ^ 64 - 1

/-- Number of `uint32_t` values. -/
def UINT32_MOD : Nat := 2 ^ 32

/-- Number of `uint64_t` values. -/
def UINT64_MOD : Nat := 2 ^ 64

/-- Value of `spsc_queue::kCacheLineSize` (64 bytes, the fallback of the source and the
value of `std::hardware_destructive_interference_size` on x86-64). -/
def kCacheLineSize : Nat := 64

/-- Value of `spsc_queue::kPadding` for an element type of `sizeofT` bytes:
`(kCacheLineSize - 1) / sizeof(T) + 1`. -/
def kPadding (sizeofT : Nat) : Nat := (kCacheLineSize - 1) / sizeofT + 1

/-! ## `spsc_queue<T>` (detail/spsc-queue.hpp) -/

/-- State of a `spsc_queue<T>`.  `_slots` is the allocated array of
`_capacity + 2 * kPadding` slots; a slot holds `none` while no object is
constructed in it.  `sizeofT` stands for `sizeof(T)`, which fixes `kPadding`. -/
structure spsc_queue (T : Type) where
  sizeofT : Nat
  _capacity : Nat
  _slots : List (Option T)
  _write_idx : Nat
  _read_idx_cache : Nat
  _read_idx : Nat
  _write_idx_cache : Nat
deriving DecidableEq

namespace spsc_queue

variable {T : Type}

/-- The value `_capacity` has at the end of the constructor for the argument `capacity`:
raised to at least 1, incremented for the slack slot (a `size_t` increment), then clamped
to `SIZE_MAX - 2 * kPadding`. -/
def ctor_capacity (sizeofT capacity : Nat) : Nat :=
  let c0 := capacity
  let c1 := if c0 < 1 then 1 else c0
  let c2 := (c1 + 1) % 2 ^ 64
  if c2 > SIZE_MAX - 2 * kPadding sizeofT then SIZE_MAX - 2 * kPadding sizeofT else c2

/-- Constructor `spsc_queue(capacity)`: allocates `_capacity + 2 * kPadding` raw slots, all
four indices start at 0.  (The allocation is taken to succeed.) -/
def new (sizeofT capacity : Nat) : spsc_queue T :=
  { sizeofT := sizeofT
    _capacity := ctor_capacity sizeofT capacity
    _slots := List.replicate (ctor_capacity sizeofT capacity + 2 * kPadding sizeofT) none
    _write_idx := 0
    _read_idx_cache := 0
    _read_idx := 0
    _write_idx_cache := 0 }

/-- Member `emplace(v)` (and `push(v)`, which forwards to it).  Returns the `bool` and the
state after the call.  The indices stay below `_capacity`, so `w_idx + 1` is written
without a reduction. -/
def emplace (q : spsc_queue T) (v : T) : Bool × spsc_queue T :=
  let w_idx := q._write_idx
  let next_w_idx := if w_idx + 1 = q._capacity then 0 else w_idx + 1
  if next_w_idx = q._read_idx_cache then
    let q1 := { q with _read_idx_cache := q._read_idx }
    if next_w_idx = q1._read_idx_cache then (false, q1)
    else
      (true, { q1 with _slots := q1._slots.set (w_idx + kPadding q.sizeofT) (some v)
                       _write_idx := next_w_idx })
  else
    (true, { q with _slots := q._slots.set (w_idx + kPadding q.sizeofT) (some v)
                    _write_idx := next_w_idx })

/-- Member `push(const T&)`: `return emplace(v)`. -/
def push (q : spsc_queue T) (v : T) : Bool × spsc_queue T := q.emplace v

/-- Member `front()`: the returned pointer is the index of the slot in `_slots`
(`none` for `nullptr`), together with the state after the call. -/
def front (q : spsc_queue T) : Option Nat × spsc_queue T :=
  let r_idx := q._read_idx
  if r_idx = q._write_idx_cache then
    let q1 := { q with _write_idx_cache := q._write_idx }
    if r_idx = q1._write_idx_cache then (none, q1)
    else (some (r_idx + kPadding q.sizeofT), q1)
  else (some (r_idx + kPadding q.sizeofT), q)

/-- Member `pop()`: destroys the object in the slot at the read index and advances the
read index.  (The `assert` is a precondition and is not part of the state change.) -/
def pop (q : spsc_queue T) : spsc_queue T :=
  let r_idx := q._read_idx
  let next_r_idx := if r_idx + 1 = q._capacity then 0 else r_idx + 1
  { q with _slots := q._slots.set (r_idx + kPadding q.sizeofT) none
           _read_idx := next_r_idx }

/-- The object a slot pointer points at, if one is constructed there. -/
def deref (q : spsc_queue T) (n : Nat) : Option T := (q._slots.getD n none)

/-- Member `pop(T& v)`: `front`, then on a non-null pointer `v = *n; pop()`.  Returns the
`bool`, the value of `v` after the call and the state after the call.  Reading a slot
without an object leaves `v` as it was. -/
def pop_out (q : spsc_queue T) (v : T) : Bool × T × spsc_queue T :=
  match q.front with
  | (none, q1) => (false, v, q1)
  | (some n, q1) => (true, (q1.deref n).getD v, q1.pop)

/-- Member `size()`: the difference of the indices as a `ptrdiff_t`, plus `_capacity`
when negative, converted to `size_t` by `static_cast<size_t>`. -/
def size (q : spsc_queue T) : Nat :=
  let diff : Int := (q._write_idx : Int) - (q._read_idx : Int)
  let diff := if diff < 0 then diff + (q._capacity : Int) else diff
  (diff % (2 ^ 64 : Int)).toNat

/-- Member `empty()`. -/
def empty (q : spsc_queue T) : Bool := decide (q._write_idx = q._read_idx)

/-- Member `capacity()`: `_capacity - 1` in `size_t`. -/
def capacity (q : spsc_queue T) : Nat := (q._capacity + 2 ^ 64 - 1) % 2 ^ 64

/-- Member `write_available()`: the difference read index minus write index as a
`ptrdiff_t`, plus `_capacity` when negative, converted to `size_t` by
`static_cast<size_t>` (a difference that is still negative wraps). -/
def write_available (q : spsc_queue T) : Nat :=
  let diff : Int := (q._read_idx : Int) - (q._write_idx : Int)
  let diff := if diff < 0 then diff + (q._capacity : Int) else diff
  (diff % (2 ^ 64 : Int)).toNat

/-- Number of steps from index `a` forward to index `b` on a ring of `K` slots. -/
def dist (K a b : Nat) : Nat := if a ≤ b then b - a else b + K - a

/-- Index of the slot `j` steps after the read index, with wrap-around. -/
def slot_at (q : spsc_queue T) (j : Nat) : Nat :=
  if q._read_idx + j < q._capacity then q._read_idx + j else q._read_idx + j - q._capacity

/-- The queued elements, oldest first: the slots from the read index up to (excluding) the
write index. -/
def contents (q : spsc_queue T) : List (Option T) :=
  (List.range (dist q._capacity q._read_idx q._write_idx)).map
    (fun j => q.deref (q.slot_at j + kPadding q.sizeofT))

/-- Representation invariant of the ring: the slot array is the allocated one, every index
is inside the ring, the producer's cached read index lies behind the read index, the
consumer's cached write index lies between the read and the write index, and every slot
from the read index up to the write index holds an object (`live`). -/
structure Inv (q : spsc_queue T) : Prop where
  cap_ge : 2 ≤ q._capacity
  cap_le : q._capacity + 2 * kPadding q.sizeofT ≤ SIZE_MAX
  slots_len : q._slots.length = q._capacity + 2 * kPadding q.sizeofT
  w_lt : q._write_idx < q._capacity
  r_lt : q._read_idx < q._capacity
  rc_lt : q._read_idx_cache < q._capacity
  wc_lt : q._write_idx_cache < q._capacity
  rc_behind : dist q._capacity q._read_idx_cache q._read_idx
                + dist q._capacity q._read_idx q._write_idx < q._capacity
  wc_between : dist q._capacity q._read_idx q._write_idx_cache
                ≤ dist q._capacity q._read_idx q._write_idx
  live : ∃ vs : List T, q.contents = vs.map some

/-- States of a `spsc_queue<T>` that a program can reach: the constructor (with an argument
below `SIZE_MAX`, so that the increment for the slack slot does not wrap), followed by any
interleaving of `emplace`/`push`, `front` and `pop`.  `pop()` "must be called only after
front() has returned a non-nullptr": it is taken in the states in which the consumer's
cached write index differs from the read index, which is what a non-null `front()` leaves
behind and what pushes in between do not change. -/
inductive Reachable : spsc_queue T → Prop where
  | ctor (sizeofT capacity : Nat) (h : capacity < SIZE_MAX) :
      Reachable (spsc_queue.new sizeofT capacity)
  | emplace (q : spsc_queue T) (v : T) : Reachable q → Reachable (q.emplace v).2
  | front (q : spsc_queue T) : Reachable q → Reachable q.front.2
  | pop (q : spsc_queue T) : Reachable q → q._read_idx ≠ q._write_idx_cache →
      Reachable q.pop

/-- Pushes the values of `vs` in order; returns the `bool` of every push, in order, and
the final state. -/
def push_all (q : spsc_queue T) : List T → List Bool × spsc_queue T
  | [] => ([], q)
  | v :: vs =>
    let r := q.push v
    let rest := push_all r.2 vs
    (r.1 :: rest.1, rest.2)

/-- Calls `pop(v)` `n` times on the same variable `v`; returns the `bool` and the value of
`v` after every call, in order, and the final state. -/
def pop_n (q : spsc_queue T) (v : T) : Nat → List (Bool × T) × spsc_queue T
  | 0 => ([], q)
  | n + 1 =>
    let r := q.pop_out v
    let rest := pop_n r.2.2 r.2.1 n
    ((r.1, r.2.1) :: rest.1, rest.2)

end spsc_queue

/-! ## `data` (data.hpp) -/

/-- The message envelope `vdds::data`.  `shared` is the `std::shared_ptr` handle (`none` for
a null handle, otherwise the address of the payload), `plain` the byte array. -/
structure data where
  seqno : Nat
  timestamp : Nat
  shared : Option Nat
  plain : List Nat
deriving DecidableEq

/-- Value of `sizeof(vdds::data)`. -/
def sizeof_data : Nat := 256

/-! ## `notifier` (notifier.hpp) -/

/-- A notifier object: `notifier_polling`, or `notifier_cv` with its forced timeout `_ft`
(nanoseconds) and its trigger count `_count` (`uint32_t`). -/
inductive notifier where
  | polling
  | cv (_ft : Int) (_count : Nat)
deriving DecidableEq

namespace notifier

/-- Virtual `notify()`: a no-op of the base class for `notifier_polling`, `_count++` for
`notifier_cv`. -/
def notify : notifier → notifier
  | polling => polling
  | cv ft c => cv ft ((c + 1) % UINT32_MOD)

/-- Virtual `shutdown(ft)`: a no-op of the base class for `notifier_polling`; `_count++`
and `_ft = ft` for `notifier_cv`. -/
def shutdown (n : notifier) (ft : Int) : notifier :=
  match n with
  | polling => polling
  | cv _ c => cv ft ((c + 1) % UINT32_MOD)

end notifier

/-- Calls `notify()` through the pointer `p` into the store `ns` of notifier objects (a
pointer is an index into the store). -/
def store_notify (ns : List notifier) (p : Nat) : List notifier :=
  match ns[p]? with
  | some n => ns.set p n.notify
  | none => ns

/-- Calls `shutdown(ft)` through the pointer `p` into the store `ns` of notifier objects. -/
def store_shutdown (ns : List notifier) (p : Nat) (ft : Int) : List notifier :=
  match ns[p]? with
  | some n => ns.set p (n.shutdown ft)
  | none => ns

/-! ## `sub_queue` (sub-queue.hpp, sub-queue.cc) -/

/-- State of a `sub_queue`.  `_notifier` is the notifier pointer (`none` for null).  The
mutex is free between calls and is not part of the state. -/
structure sub_queue where
  _fifo : spsc_queue data
  _drop_count : Nat
  _push_count : Nat
  _notifier : Option Nat
  _name : String
  _data_type : String
  _capacity : Nat
  _trace_fmt : String
deriving DecidableEq

namespace sub_queue

/-- Constructor `sub_queue(name, topic_name, dt, capacity, n)`. -/
def new (name topic_name dt : String) (capacity : Nat) (n : Option Nat) : sub_queue :=
  { _fifo := spsc_queue.new sizeof_data capacity
    _drop_count := 0
    _push_count := 0
    _notifier := n
    _name := name
    _data_type := dt
    _capacity := capacity
    _trace_fmt := "vdds-pop " ++ topic_name ++ " " ++ name
                    ++ " # ph:X # seqno:%llu timestamp:%llu" }

/-- Member `capacity()`. -/
def capacity (q : sub_queue) : Nat := q._capacity

/-- Member `size()`: `_capacity - _fifo.write_available()` in `size_t`. -/
def size (q : sub_queue) : Nat :=
  (((q._capacity : Int) - (q._fifo.write_available : Int)) % (2 ^ 64 : Int)).toNat

/-- Member `push_count()`. -/
def push_count (q : sub_queue) : Nat := q._push_count

/-- Member `drop_count()`. -/
def drop_count (q : sub_queue) : Nat := q._drop_count

/-- Member `kick(need_lock)`: `notify()` on the bound notifier, if any. -/
def kick (q : sub_queue) (_need_lock : Bool) (ns : List notifier) : List notifier :=
  match q._notifier with
  | some p => store_notify ns p
  | none => ns

/-- Member `push(d, need_lock)`: counts the push, pushes into the fifo, counts a drop when
the fifo refused, then kicks.  Both counters are `uint32_t`.  Locking and unlocking the
mutex around the update leaves no trace in the sequential state. -/
def push (q : sub_queue) (d : data) (need_lock : Bool) (ns : List notifier) :
    sub_queue × List notifier :=
  let q1 := { q with _push_count := (q._push_count + 1) % UINT32_MOD }
  let r := q1._fifo.push d
  let q2 := { q1 with _fifo := r.2 }
  let q3 := if !r.1 then { q2 with _drop_count := (q2._drop_count + 1) % UINT32_MOD } else q2
  (q3, q3.kick need_lock ns)

/-- Member `pop(d)`: `return _fifo.pop(d)`. -/
def pop (q : sub_queue) (d : data) : Bool × data × sub_queue :=
  let r := q._fifo.pop_out d
  (r.1, r.2.1, { q with _fifo := r.2.2 })

/-- Member `shutdown(t, need_lock)`: forwards to the bound notifier, if any. -/
def shutdown (q : sub_queue) (t : Int) (_need_lock : Bool) (ns : List notifier) :
    List notifier :=
  match q._notifier with
  | some p => store_shutdown ns p t
  | none => ns

/-- States of a `sub_queue` that a program can reach: the constructor with a capacity below
`SIZE_MAX`, followed by any interleaving of `push` and `pop`. -/
inductive Reachable : sub_queue → Prop where
  | ctor (name topic_name dt : String) (capacity : Nat) (n : Option Nat)
      (h : capacity < SIZE_MAX) : Reachable (sub_queue.new name topic_name dt capacity n)
  | push (q : sub_queue) (d : data) (need_lock : Bool) (ns : List notifier) :
      Reachable q → Reachable (q.push d need_lock ns).1
  | pop (q : sub_queue) (d : data) : Reachable q → Reachable (q.pop d).2.2

/-- Pushes the envelopes of `ds` in order, without a lock. -/
def push_list (q : sub_queue) (ns : List notifier) : List data → sub_queue × List notifier
  | [] => (q, ns)
  | d :: ds => push_list (q.push d false ns).1 (q.push d false ns).2 ds

end sub_queue

/-! ## `pub_handle` and `topic` (topic.hpp, topic.cc) -/

/-- Modelled from the spec: `pub_handle` (pub-handle.hpp is not among the sources), "name,
topic-name, cached trace-format string", constructed as `pub_handle(name, topic_name)`.
The text of the trace-format string is not given; it only feeds the trace record and is
left out. -/
structure pub_handle where
  _name : String
  _topic_name : String
deriving DecidableEq

/-- Constructor `pub_handle(name, topic_name)`. -/
def pub_handle.new (name topic_name : String) : pub_handle :=
  { _name := name, _topic_name := topic_name }

/-- The membership snapshot `topic::cache`: the vectors of `sub_queue*` and `pub_handle*`.
A pointer is the address of the object in the topic's object store. -/
structure cache where
  subs : List Nat
  pubs : List Nat
deriving DecidableEq

/-- State of a `topic`.  `_cache_ptr` is the cache object the atomic pointer points at.
`sub_heap` and `pub_heap` hold the `sub_queue` and `pub_handle` objects the topic created
with `new`, by address; a deleted object leaves `none` behind.  The log area and the
shared mutex are not part of the state. -/
structure topic where
  _domain : String
  _name : String
  _data_type : String
  _next_seqno : Nat
  _cache_ptr : cache
  _cache_refcnt : Nat
  sub_heap : List (Option sub_queue)
  pub_heap : List (Option pub_handle)
deriving DecidableEq

namespace topic

/-- The topic that the constructor `topic(domain, name, data_type)` leaves when it
returns: sequence counter 0, an empty cache, reference count 0.  The constructor with
its `throw` on a null log area is `topic.ctor`. -/
def new (domain name data_type : String) : topic :=
  { _domain := domain
    _name := name
    _data_type := data_type
    _next_seqno := 0
    _cache_ptr := { subs := [], pubs := [] }
    _cache_refcnt := 0
    sub_heap := []
    pub_heap := [] }

/-- Constructor `topic(domain, name, data_type)`.  `area` is what `hogl::add_area` hands
back (`false` for a null pointer): on a null area the constructor throws
`std::logic_error("failed to create log area")`, for which `none` stands; otherwise it
returns and leaves `topic.new`. -/
def ctor (area : Bool) (domain name data_type : String) : Option topic :=
  if area then some (topic.new domain name data_type) else none

/-- Member `cache_get()`: `_cache_refcnt.fetch_add(1)` (a `uint32_t`), then the load of the
cache pointer. -/
def cache_get (t : topic) : cache × topic :=
  (t._cache_ptr, { t with _cache_refcnt := (t._cache_refcnt + 1) % UINT32_MOD })

/-- Member `cache_put(c)`: `_cache_refcnt.fetch_sub(1)` (a `uint32_t`). -/
def cache_put (t : topic) : topic :=
  { t with _cache_refcnt := (t._cache_refcnt + UINT32_MOD - 1) % UINT32_MOD }

/-- Member `cache_copy()`: a copy of the current cache. -/
def cache_copy (t : topic) : cache := t._cache_ptr

/-- Member `cache_swap(nc)`: exchanges the cache pointer, spins until the reference count
is 0, deletes the old cache.  With no other thread running the spin loop ends only if the
count is 0 already; `none` stands for a call that never returns. -/
def cache_swap (t : topic) (nc : cache) : Option topic :=
  let t1 := { t with _cache_ptr := nc }
  if t1._cache_refcnt ≠ 0 then none else some t1

/-- Member `subscribe(name, qsize, ntfr)`: returns the pointer to the new queue and the
state after the call.  `new sub_queue` places the object at the next free address. -/
def subscribe (t : topic) (name : String) (qsize : Nat) (ntfr : Option Nat) :
    Option (Nat × topic) :=
  let q := t.sub_heap.length
  let t1 := { t with sub_heap := t.sub_heap ++ [some (sub_queue.new name t._name t._data_type
                                                        qsize ntfr)] }
  let c := t1.cache_copy
  let c := { c with subs := c.subs ++ [q] }
  (t1.cache_swap c).map (fun t2 => (q, t2))

/-- Member `unsubscribe(q)`: erases the first occurrence of `q` from a copy of the cache,
swaps it in and deletes the queue.  `none` also stands for a call on a pointer that is not
a live queue of the topic (its dereference is undefined). -/
def unsubscribe (t : topic) (q : Nat) : Option topic :=
  match t.sub_heap.getD q none with
  | none => none
  | some _ =>
    let c := t.cache_copy
    let c := { c with subs := c.subs.erase q }
    (t.cache_swap c).map (fun t2 => { t2 with sub_heap := t2.sub_heap.set q none })

/-- Member `publish(name)`: returns the pointer to the new handle and the state after the
call. -/
def publish (t : topic) (name : String) : Option (Nat × topic) :=
  let p := t.pub_heap.length
  let t1 := { t with pub_heap := t.pub_heap ++ [some (pub_handle.new name t._name)] }
  let c := t1.cache_copy
  let c := { c with pubs := c.pubs ++ [p] }
  (t1.cache_swap c).map (fun t2 => (p, t2))

/-- Member `unpublish(p)`: erases the first occurrence of `p` from a copy of the cache,
swaps it in and deletes the handle.  `none` also stands for a call on a pointer that is
not a live handle of the topic. -/
def unpublish (t : topic) (p : Nat) : Option topic :=
  match t.pub_heap.getD p none with
  | none => none
  | some _ =>
    let c := t.cache_copy
    let c := { c with pubs := c.pubs.erase p }
    (t.cache_swap c).map (fun t2 => { t2 with pub_heap := t2.pub_heap.set p none })

/-- The loop `for (auto &q : c->subs) q->push(d, need_lock)` of `topic::push`, over the
object store and the notifier store. -/
def push_subs (d : data) (need_lock : Bool) :
    List Nat → List (Option sub_queue) → List notifier → List (Option sub_queue) × List notifier
  | [], heap, ns => (heap, ns)
  | q :: qs, heap, ns =>
    match heap.getD q none with
    | some sq =>
      push_subs d need_lock qs (heap.set q (some (sq.push d need_lock ns).1))
        (sq.push d need_lock ns).2
    | none => push_subs d need_lock qs heap ns

/-- Member `push(ph, d)`: stamps `d.seqno` with `_next_seqno.fetch_add(1)` (a `uint64_t`),
pins the cache, pushes a copy of `d` into every subscriber queue of the cache and releases
the cache.  Returns the caller's envelope after the call, the state after the call and the
notifier store.  The handle `ph` only feeds the trace record. -/
def push (t : topic) (_ph : Nat) (d : data) (ns : List notifier) :
    data × topic × List notifier :=
  let d1 := { d with seqno := t._next_seqno }
  let t1 := { t with _next_seqno := (t._next_seqno + 1) % UINT64_MOD }
  let c := t1.cache_get.1
  let t2 := t1.cache_get.2
  let need_lock := decide (c.pubs.length > 1)
  let r := push_subs d1 need_lock c.subs t2.sub_heap ns
  let t3 := { t2 with sub_heap := r.1 }
  (d1, t3.cache_put, r.2)

/-- Member `pop(sq, d)`: `sq->pop(d)`.  Returns the `bool`, the caller's envelope after the
call and the state after the call; `none` stands for a call on a pointer that is not a
live queue of the topic. -/
def pop (t : topic) (sq : Nat) (d : data) : Option (Bool × data × topic) :=
  match t.sub_heap.getD sq none with
  | none => none
  | some q =>
    some ((q.pop d).1, (q.pop d).2.1, { t with sub_heap := t.sub_heap.set sq (some (q.pop d).2.2) })

end topic

/-- A registration call on a topic: `subscribe(name, qsize, ntfr)` or `publish(name)`. -/
inductive registration where
  | sub (name : String) (qsize : Nat) (ntfr : Option Nat)
  | pub (name : String)
deriving DecidableEq

/-- A call on a topic. -/
inductive topic_op where
  | subscribe (name : String) (qsize : Nat) (ntfr : Option Nat)
  | unsubscribe (q : Nat)
  | publish (name : String)
  | unpublish (p : Nat)
  | push (ph : Nat) (d : data)
  | pop (sq : Nat) (d : data)
deriving DecidableEq

/-- What a call on a topic hands back: the new pointer of `subscribe` and `publish`, the
caller's envelope after `push`, the `bool` and the caller's envelope after `pop`. -/
inductive topic_out where
  | subscribed (q : Nat)
  | unsubscribed
  | published (p : Nat)
  | unpublished
  | pushed (d : data)
  | popped (ok : Bool) (d : data)
deriving DecidableEq

namespace topic

/-- Runs the registration calls of `regs` in order. -/
def setup (t : topic) : List registration → Option topic
  | [] => some t
  | registration.sub name qsize ntfr :: regs =>
    match t.subscribe name qsize ntfr with
    | some r => setup r.2 regs
    | none => none
  | registration.pub name :: regs =>
    match t.publish name with
    | some r => setup r.2 regs
    | none => none

/-- Pushes the envelopes of `ds` in order (each with its publisher handle); returns the
caller's envelopes after the calls, the final state and the notifier store. -/
def push_list (t : topic) (ns : List notifier) :
    List (Nat × data) → List data × topic × List notifier
  | [] => ([], t, ns)
  | (ph, d) :: ds =>
    let r := t.push ph d ns
    let rest := push_list r.2.1 r.2.2 ds
    (r.1 :: rest.1, rest.2)

/-- Calls `pop(sq, d)` `n` times on the same variable `d`; returns the `bool` and the value
of `d` after every call, in order, and the final state. -/
def pop_n (t : topic) (sq : Nat) (d : data) : Nat → Option (List (Bool × data) × topic)
  | 0 => some ([], t)
  | n + 1 =>
    match t.pop sq d with
    | none => none
    | some r =>
      match pop_n r.2.2 sq r.2.1 n with
      | none => none
      | some rest => some ((r.1, r.2.1) :: rest.1, rest.2)

/-- One call on a topic. -/
def step (t : topic) (ns : List notifier) : topic_op → Option (topic_out × topic × List notifier)
  | topic_op.subscribe name qsize ntfr =>
    (t.subscribe name qsize ntfr).map (fun r => (topic_out.subscribed r.1, r.2, ns))
  | topic_op.unsubscribe q => (t.unsubscribe q).map (fun t1 => (topic_out.unsubscribed, t1, ns))
  | topic_op.publish name => (t.publish name).map (fun r => (topic_out.published r.1, r.2, ns))
  | topic_op.unpublish p => (t.unpublish p).map (fun t1 => (topic_out.unpublished, t1, ns))
  | topic_op.push ph d => some (topic_out.pushed (t.push ph d ns).1, (t.push ph d ns).2)
  | topic_op.pop sq d => (t.pop sq d).map (fun r => (topic_out.popped r.1 r.2.1, r.2.2, ns))

/-- Runs the calls of `ops` in order; returns what every call handed back, the final state
and the notifier store. -/
def run (t : topic) (ns : List notifier) :
    List topic_op → Option (List topic_out × topic × List notifier)
  | [] => some ([], t, ns)
  | op :: ops =>
    match t.step ns op with
    | none => none
    | some r =>
      match run r.2.1 r.2.2 ops with
      | none => none
      | some rest => some (r.1 :: rest.1, rest.2)

/-- Invariant of a topic between two calls: the sequence counter is a `uint64_t`, no reader
holds the cache, the subscriber pointers of the cache are pairwise distinct, and each of
them points at a live queue in a reachable state. -/
structure Inv (t : topic) : Prop where
  seqno_lt : t._next_seqno < UINT64_MOD
  refcnt : t._cache_refcnt = 0
  nodup : t._cache_ptr.subs.Nodup
  live : ∀ p ∈ t._cache_ptr.subs, ∃ q, t.sub_heap.getD p none = some q ∧ sub_queue.Reachable q

/-- A topic on which nothing was pushed yet and nothing was unsubscribed: the sequence
counter is 0, the cache lists every queue ever created, in creation order, and every queue
is as its constructor left it, with a capacity `c < 2^32` that satisfies `P`. -/
def Fresh (P : Nat → Prop) (t : topic) : Prop :=
  t._next_seqno = 0 ∧ t._cache_refcnt = 0
    ∧ t._cache_ptr.subs = List.range t.sub_heap.length
    ∧ ∀ o ∈ t.sub_heap, ∃ name tn dt c nt,
        o = some (sub_queue.new name tn dt c nt) ∧ P c ∧ c < UINT32_MOD

/-- The envelopes of `ds` as `topic::push` stamps them when the sequence counter is `s`
before the first push. -/
def stamp (s : Nat) : List (Nat × data) → List data
  | [] => []
  | (_, d) :: ds => { d with seqno := s } :: stamp ((s + 1) % UINT64_MOD) ds

end topic

/-- Whether a call on a topic is a `push`. -/
def topic_op.is_push : topic_op → Bool
  | topic_op.push _ _ => true
  | _ => false

/-- The seqno of the envelope a `push` handed back; `none` for every other call. -/
def topic_out.pushed_seqno : topic_out → Option Nat
  | topic_out.pushed d => some d.seqno
  | _ => none

/-- Whether a call handed back `true` from `pop`. -/
def topic_out.is_popped : topic_out → Bool
  | topic_out.popped ok _ => ok
  | _ => false

/-- Whether a registration call is a `subscribe`. -/
def registration.is_sub : registration → Bool
  | registration.sub _ _ _ => true
  | registration.pub _ => false

/-- The envelope a `pop` that returned `true` handed out; `none` for every other call. -/
def topic_out.popped_data : topic_out → Option data
  | topic_out.popped true d => some d
  | _ => none

/-- Whether the arguments of a call fit their C++ types: the `qsize` of `subscribe` is an
`unsigned int`. -/
def topic_op.typed : topic_op → Prop
  | topic_op.subscribe _ qsize _ => qsize < UINT32_MOD
  | _ => True

namespace topic

/-- Well-formedness of a topic between two calls, kept by every call: the sequence counter
is a `uint64_t`, no reader holds the cache, the cache lists every live queue and every
live handle exactly once, and every live queue is in a reachable state with a capacity
below 2^32. -/
structure WF (t : topic) : Prop where
  seqno_lt : t._next_seqno < UINT64_MOD
  refcnt : t._cache_refcnt = 0
  subs_nodup : t._cache_ptr.subs.Nodup
  pubs_nodup : t._cache_ptr.pubs.Nodup
  sub_live : ∀ p, p ∈ t._cache_ptr.subs ↔ ∃ q, t.sub_heap.getD p none = some q
  sub_ok : ∀ p q, t.sub_heap.getD p none = some q →
    sub_queue.Reachable q ∧ q._capacity < UINT32_MOD
  pub_live : ∀ p, p ∈ t._cache_ptr.pubs ↔ ∃ h, t.pub_heap.getD p none = some h

end topic

/-! ## Query records (query.hpp, query.cc) -/

namespace query

/-- Publisher info `query::pub_info`. -/
structure pub_info where
  name : String
deriving DecidableEq

/-- Subscriber info `query::sub_info`; the four numbers are `uint32_t`. -/
structure sub_info where
  name : String
  push_count : Nat
  drop_count : Nat
  qcapacity : Nat
  qsize : Nat
deriving DecidableEq

/-- Topic info `query::topic_info`; `push_count` is a `uint64_t`. -/
structure topic_info where
  name : String
  data_type : String
  subs : List sub_info
  pubs : List pub_info
  push_count : Nat
deriving DecidableEq

/-- Domain info `query::domain_info`. -/
structure domain_info where
  name : String
  topics : List topic_info
deriving DecidableEq

/-- Query filter `query::filter`: topic name or "any", data type name or "any". -/
structure filter where
  topic_name : String
  data_type : String
deriving DecidableEq

/-- A value-initialised `pub_info`, as `std::vector::resize` appends it. -/
def pub_info.dflt : pub_info := { name := "" }

/-- A value-initialised `sub_info`, as `std::vector::resize` appends it. -/
def sub_info.dflt : sub_info :=
  { name := "", push_count := 0, drop_count := 0, qcapacity := 0, qsize := 0 }

/-- A value-initialised `topic_info`, as `std::vector::resize` appends it. -/
def topic_info.dflt : topic_info :=
  { name := "", data_type := "", subs := [], pubs := [], push_count := 0 }

/-- `query::clear(topic_info&)`. -/
def clear_topic (ti : topic_info) : topic_info :=
  { ti with name := "", data_type := "", subs := [], pubs := [] }

/-- `query::clear(domain_info&)`. -/
def clear (_di : domain_info) : domain_info := { name := "", topics := [] }

/-- The default argument `query::filter{"any","any"}` of `domain::query` and
`domain::dump`. -/
def filter.any : filter := { topic_name := "any", data_type := "any" }

end query

/-- `std::vector::resize(n)`: keeps the first `n` elements and fills up with
value-initialised ones. -/
def resize {α : Type} (l : List α) (n : Nat) (dflt : α) : List α :=
  l.take n ++ List.replicate (n - l.length) dflt

namespace topic

/-- Body of the first loop of `topic::query`: the five assignments to `ti.subs[i]` from
the queue `c->subs[i]`; `qcapacity` and `qsize` are conversions of a `size_t` to
`uint32_t`. -/
def query_sub (t : topic) (subs : List query.sub_info) (i : Nat) : List query.sub_info :=
  match t.sub_heap.getD (t._cache_ptr.subs.getD i 0) none with
  | some q =>
    subs.set i { name := q._name
                 qcapacity := q.capacity % UINT32_MOD
                 qsize := q.size % UINT32_MOD
                 push_count := q.push_count
                 drop_count := q.drop_count }
  | none => subs

/-- Body of the second loop of `topic::query`: `ti.pubs[i].name = c->pubs[i]->name()`. -/
def query_pub (t : topic) (pubs : List query.pub_info) (i : Nat) : List query.pub_info :=
  match t.pub_heap.getD (t._cache_ptr.pubs.getD i 0) none with
  | some h => pubs.set i { name := h._name }
  | none => pubs

/-- Member `query(ti)`: returns the record after the call.  The two counting loops run
their index over the positions of the cache vectors. -/
def query (t : topic) (ti : query.topic_info) : query.topic_info :=
  let c := t._cache_ptr
  let ti1 := { ti with name := t._name
                       data_type := t._data_type
                       push_count := t._next_seqno
                       subs := resize ti.subs c.subs.length query.sub_info.dflt
                       pubs := resize ti.pubs c.pubs.length query.pub_info.dflt }
  let ti2 := { ti1 with subs := (List.range c.subs.length).foldl t.query_sub ti1.subs }
  { ti2 with pubs := (List.range c.pubs.length).foldl t.query_pub ti2.pubs }

end topic

/-! ## `domain` (domain.hpp, domain.cc) -/

/-- State of a `domain`: its name and the vector of owned topics.  A `topic*` is the
position of the topic in the vector (topics are never removed).  The log area and the
shared mutex are not part of the state. -/
structure domain where
  _name : String
  _topics : List topic
deriving DecidableEq

namespace domain

/-- The domain that the constructor `domain(name)` leaves when it returns.  The
constructor with its `throw` on a null log area is `domain.ctor`. -/
def new (name : String) : domain := { _name := name, _topics := [] }

/-- Constructor `domain(name)`.  `area` is what `hogl::add_area` hands back (`false` for a
null pointer): on a null area the constructor throws
`std::logic_error("failed to create log area")`, for which `none` stands. -/
def ctor (area : Bool) (name : String) : Option domain :=
  if area then some (domain.new name) else none

/-- The loop of `create_topic` over the topics from position `i` on: `some r` when the
loop returned `r` (the pointer of the topic with that name if the data types match, null
otherwise), `none` when it ran to the end. -/
def create_topic_scan (name data_type : String) : List topic → Nat → Option (Option Nat)
  | [], _ => none
  | p :: ps, i =>
    if p._name = name then
      if p._data_type = data_type then some (some i) else some none
    else create_topic_scan name data_type ps (i + 1)

/-- Member `create_topic(name, data_type)`, for a call that returns (the constructor of a
new topic does not throw): returns the topic pointer (`none` for null) and the state
after the call.  The call with the throw of the topic constructor is
`create_topic_area`. -/
def create_topic (dm : domain) (name data_type : String) : Option Nat × domain :=
  match create_topic_scan name data_type dm._topics 0 with
  | some r => (r, dm)
  | none =>
    (some dm._topics.length,
      { dm with _topics := dm._topics ++ [topic.new dm._name name data_type] })

/-- Member `create_topic(name, data_type)` with the outcome `area` of `hogl::add_area` in
the constructor of a new topic.  When no topic has the name, `std::make_unique<topic>`
runs the constructor; if that throws, the exception leaves `create_topic` before
`push_back`, for which `none` stands, and the domain is as it was.  Otherwise the result
is the pointer (`none` for null) and the state after the call. -/
def create_topic_area (dm : domain) (area : Bool) (name data_type : String) :
    Option (Option Nat × domain) :=
  match create_topic_scan name data_type dm._topics 0 with
  | some r => some (r, dm)
  | none =>
    match topic.ctor area dm._name name data_type with
    | none => none
    | some nt => some (some dm._topics.length, { dm with _topics := dm._topics ++ [nt] })

/-- The filter condition in the words of the specification: the topic name of the filter
is "any" or the name of the topic, and the data type of the filter is "any" or the data
type of the topic. -/
def filter_matches (flt : query.filter) (t : topic) : Bool :=
  decide ((flt.topic_name = "any" ∨ flt.topic_name = t._name)
    ∧ (flt.data_type = "any" ∨ flt.data_type = t._data_type))

/-- Body of the loop of the unfiltered branch of `domain::query`:
`_topics[i]->query(di.topics[i])`. -/
def query_all_step (dm : domain) (tis : List query.topic_info) (i : Nat) :
    List query.topic_info :=
  match dm._topics[i]?, tis[i]? with
  | some t, some ti => tis.set i (t.query ti)
  | _, _ => tis

/-- Body of the loop of the filtered branch of `domain::query`, on the index `i` and the
vector `di.topics`. -/
def query_filtered_step (flt : query.filter) (st : Nat × List query.topic_info) (t : topic) :
    Nat × List query.topic_info :=
  if flt.topic_name ≠ "any" ∧ flt.topic_name ≠ t._name then st
  else if flt.data_type ≠ "any" ∧ flt.data_type ≠ t._data_type then st
  else
    let tis := resize st.2 (st.1 + 1) query.topic_info.dflt
    match tis[st.1]? with
    | some ti => (st.1 + 1, tis.set st.1 (t.query ti))
    | none => (st.1 + 1, tis)

/-- Member `query(di, flt)`: returns the record after the call. -/
def query (dm : domain) (di : query.domain_info) (flt : query.filter) : query.domain_info :=
  let di1 := query.clear di
  let di2 := { di1 with name := dm._name }
  if flt.topic_name = "any" ∧ flt.data_type = "any" then
    let tis := resize di2.topics dm._topics.length query.topic_info.dflt
    { di2 with topics := (List.range dm._topics.length).foldl dm.query_all_step tis }
  else
    { di2 with topics := (dm._topics.foldl (query_filtered_step flt) (0, di2.topics)).2 }

end domain

/-- A call on a domain or on one of its topics: `create_topic(name, data_type)`, or a call
on the topic behind the pointer `tp`. -/
inductive domain_op where
  | create_topic (name data_type : String)
  | on_topic (tp : Nat) (op : topic_op)
deriving DecidableEq

namespace domain

/-- One call; `none` stands for a call through a null or foreign topic pointer and for a
topic call that does not return. -/
def step (dm : domain) (ns : List notifier) : domain_op → Option (domain × List notifier)
  | domain_op.create_topic name data_type => some ((dm.create_topic name data_type).2, ns)
  | domain_op.on_topic tp op =>
    match dm._topics[tp]? with
    | none => none
    | some t => (t.step ns op).map (fun r => ({ dm with _topics := dm._topics.set tp r.2.1 }, r.2.2))

/-- Runs the calls of `ops` in order. -/
def run (dm : domain) (ns : List notifier) : List domain_op → Option (domain × List notifier)
  | [] => some (dm, ns)
  | op :: ops =>
    match dm.step ns op with
    | none => none
    | some r => run r.1 r.2 ops

/-- States of a domain that a program can reach: the constructor, followed by any sequence
of `create_topic` calls and of calls on its topics. -/
inductive Reachable : domain → Prop where
  | ctor (name : String) : Reachable (domain.new name)
  | step (dm : domain) (ns : List notifier) (op : domain_op) (dm1 : domain)
      (ns1 : List notifier) : Reachable dm → dm.step ns op = some (dm1, ns1) → Reachable dm1

end domain

/-! ## Observations on a run of topic calls -/

/-- The envelope a `push` handed back to its caller; `none` for every other call. -/
def topic_out.pushed_data : topic_out → Option data
  | topic_out.pushed d => some d
  | _ => none

namespace topic

/-- The envelopes that the calls `pop(q, _)` among `ops` handed out with result `true`, in
call order; `outs` is what the calls handed back, position by position. -/
def popped_from (q : Nat) : List topic_op → List topic_out → List data
  | topic_op.pop sq _ :: ops, topic_out.popped true d :: outs =>
    if sq = q then d :: popped_from q ops outs else popped_from q ops outs
  | _ :: ops, _ :: outs => popped_from q ops outs
  | _, _ => []

/-- The call `subscribe(name)` with the default arguments `qsize = 16` and
`ntfr = nullptr` of the declaration in topic.hpp. -/
def subscribe_dflt (t : topic) (name : String) : Option (Nat × topic) :=
  t.subscribe name 16 none

end topic

/-! ## Waiting on a notifier (notifier.hpp) -/

/-- What a `wait_for` call did: the timeout (nanoseconds) it handed to the waiting
primitive, and whether it had to wait, that is whether the wake-up predicate was false on
entry.  A call that has to wait blocks until it is notified or the timeout has passed. -/
structure wait_result where
  timeout : Int
  waited : Bool
deriving DecidableEq

namespace notifier

/-- The timeout `notifier_cv::wait_for(t)` hands to the condition variable,
`_ft.count() ? _ft : t`; `notifier_polling::wait_for(t)` sleeps for `t`. -/
def effective_timeout : notifier → Int → Int
  | polling, t => t
  | cv ft _, t => if ft ≠ 0 then ft else t

/-- Virtual `wait_for(t)`.  `notifier_polling`: `sleep_for(t)`.  `notifier_cv`:
`_cv.wait_for(ul, _ft.count() ? _ft : t, [&]{return _count;})`, which returns at once when
`_count` is not 0 and waits otherwise, then `_count = 0`. -/
def wait_for : notifier → Int → wait_result × notifier
  | polling, t => ({ timeout := t, waited := true }, polling)
  | cv ft c, t =>
    ({ timeout := if ft ≠ 0 then ft else t, waited := decide (c = 0) }, cv ft 0)

/-- Calls `notify()` `k` times in a row. -/
def notify_n : Nat → notifier → notifier
  | 0, n => n
  | k + 1, n => notify_n k n.notify

/-- Runs calls on one notifier in order: `notify()` for `none`, `wait_for(t)` for
`some t`. -/
def run_calls : notifier → List (Option Int) → notifier
  | n, [] => n
  | n, none :: cs => run_calls n.notify cs
  | n, some t :: cs => run_calls (n.wait_for t).2 cs

end notifier

/-! ## Size and layout of `data` (data.hpp) -/

/-- `sizeof(data::seqno_t)`: a `uint64_t`. -/
def sizeof_seqno_t : Nat := 8

/-- `sizeof(data::timestamp_t)`: a `uint64_t`. -/
def sizeof_timestamp_t : Nat := 8

/-- `sizeof(data::shared_p)` on a target with pointers of `sizeof_ptr` bytes: a
`std::shared_ptr` object holds the stored pointer and the pointer to the control block. -/
def sizeof_shared_p (sizeof_ptr : Nat) : Nat := 2 * sizeof_ptr

/-- Number of elements, and `sizeof`, of `data::plain_t`:
`256 - sizeof(seqno_t) - sizeof(timestamp_t) - sizeof(shared_p)`, in `size_t`. -/
def sizeof_plain_t (sizeof_ptr : Nat) : Nat :=
  (256 + 2 ^ (8 * sizeof_ptr) - sizeof_seqno_t - sizeof_timestamp_t
    - sizeof_shared_p sizeof_ptr) % 2 ^ (8 * sizeof_ptr)

/-- The members of `struct data` in declaration order, each with its size and its
alignment: `seqno`, `timestamp` (`uint64_t`, aligned to 8 on a 64-bit target), `shared`
(aligned as a pointer), `plain` (bytes). -/
def data_members (sizeof_ptr : Nat) : List (Nat × Nat) :=
  [(sizeof_seqno_t, 8), (sizeof_timestamp_t, 8), (sizeof_shared_p sizeof_ptr, sizeof_ptr),
    (sizeof_plain_t sizeof_ptr, 1)]

/-- The smallest multiple of `align` that is not below `off`. -/
def align_up (off align : Nat) : Nat := (off + align - 1) / align * align

/-- Offsets of the members of a struct laid out from offset `off` on: every member is
placed, in declaration order, at the next offset that is a multiple of its alignment.
Returns the offsets and the offset behind the last member. -/
def struct_offsets : List (Nat × Nat) → Nat → List Nat × Nat
  | [], off => ([], off)
  | (size, align) :: ms, off =>
    let o := align_up off align
    let r := struct_offsets ms (o + size)
    (o :: r.1, r.2)

/-- Size of a struct: the offset behind its last member, rounded up to the largest
alignment of a member. -/
def struct_sizeof (ms : List (Nat × Nat)) : Nat :=
  align_up (struct_offsets ms 0).2 ((ms.map (fun m => m.2)).foldl max 1)

/-! ## Typed facades `pub<T>` and `sub<T>` (pub.hpp, sub.hpp) -/

/-- What the facades use of a message type `T`: `sizeof(T)` and the static member
`T::data_type`. -/
structure msg_type where
  sizeofT : Nat
  data_type : String
deriving DecidableEq

/-- The `static_assert(sizeof(T) == sizeof(data), ...)` in the constructors of `pub<T>` and
`sub<T>`: the facade can be instantiated for `T` only if it holds. -/
def msg_type.static_assert (T : msg_type) : Bool := T.sizeofT == sizeof_data

/-- State of a `pub<T>`: the handle pointer and the topic pointer. -/
structure pub where
  _handle : Nat
  _topic : Nat
deriving DecidableEq

/-- State of a `sub<T>`: the queue pointer and the topic pointer. -/
structure sub where
  _queue : Nat
  _topic : Nat
deriving DecidableEq

/-- Constructor `pub<T>(vd, name, topic_name)`; `area` is the outcome of
`hogl::add_area` in the constructor of a new topic.  Returns the new object, or `none`
when a `std::logic_error` left the constructor (thrown by the constructor of the new
topic inside `create_topic`, or by `pub` itself on a null topic pointer), and the domain
after the call; the outer `none` stands for a call that does not return. -/
def pub.new (T : msg_type) (vd : domain) (area : Bool) (name topic_name : String) :
    Option (Option pub × domain) :=
  match vd.create_topic_area area topic_name T.data_type with
  | none => some (none, vd)
  | some (none, vd1) => some (none, vd1)
  | some (some tp, vd1) =>
    match vd1._topics[tp]? with
    | none => none
    | some t =>
      (t.publish name).map (fun r =>
        (some { _handle := r.1, _topic := tp }, { vd1 with _topics := vd1._topics.set tp r.2 }))

/-- Constructor `sub<T>(vd, name, topic_name, qsize, ntfr)`; `qsize` is a `size_t` and is
converted to the `unsigned int` parameter of `topic::subscribe`; `area` is the outcome
of `hogl::add_area` in the constructor of a new topic.  Returns the new object, or
`none` when a `std::logic_error` left the constructor (thrown by the constructor of the
new topic inside `create_topic`, or by `sub` itself on a null topic pointer), and the
domain after the call; the outer `none` stands for a call that does not return. -/
def sub.new (T : msg_type) (vd : domain) (area : Bool) (name topic_name : String)
    (qsize : Nat) (ntfr : Option Nat) : Option (Option sub × domain) :=
  match vd.create_topic_area area topic_name T.data_type with
  | none => some (none, vd)
  | some (none, vd1) => some (none, vd1)
  | some (some tp, vd1) =>
    match vd1._topics[tp]? with
    | none => none
    | some t =>
      (t.subscribe name (qsize % UINT32_MOD) ntfr).map (fun r =>
        (some { _queue := r.1, _topic := tp }, { vd1 with _topics := vd1._topics.set tp r.2 }))

/-! ## `domain::kick` and `domain::shutdown` -/

namespace topic

/-- The notifier pointers of the subscriber queues of the membership snapshot, in order;
a queue without a notifier contributes none. -/
def notifier_ptrs (t : topic) : List Nat :=
  t._cache_ptr.subs.filterMap (fun q => (t.sub_heap.getD q none).bind (fun sq => sq._notifier))

/-- Modelled from the spec: the part of `domain::kick` that handles one topic (neither
`domain::kick` nor a member of `topic` it could call is among the sources), "forward to
every subscriber queue's notifier": `sub_queue::kick` on every queue of the membership
snapshot, in order. -/
def kick_subs (t : topic) (ns : List notifier) : List notifier :=
  t._cache_ptr.subs.foldl
    (fun ns1 q =>
      match t.sub_heap.getD q none with
      | some sq => sq.kick false ns1
      | none => ns1)
    ns

/-- Modelled from the spec: the part of `domain::shutdown` that handles one topic (not
among the sources), "forward to every subscriber queue's notifier":
`sub_queue::shutdown(duration)` on every queue of the membership snapshot, in order. -/
def shutdown_subs (t : topic) (d : Int) (ns : List notifier) : List notifier :=
  t._cache_ptr.subs.foldl
    (fun ns1 q =>
      match t.sub_heap.getD q none with
      | some sq => sq.shutdown d false ns1
      | none => ns1)
    ns

end topic

namespace domain

/-- Modelled from the spec: `domain::kick(filter)` (declared and defined in none of the
sources; shutdown-test.cc calls it), "`kick(filter)` and `shutdown(duration, filter)`
iterate matching topics and forward to every subscriber queue's notifier", the traversal
being that of `dump(filter)`.  Returns the notifier store after the call. -/
def kick (dm : domain) (flt : query.filter) (ns : List notifier) : List notifier :=
  dm._topics.foldl (fun ns1 t => if filter_matches flt t then t.kick_subs ns1 else ns1) ns

/-- Modelled from the spec: `domain::shutdown(duration, filter)` (declared and defined in
none of the sources; shutdown-test.cc calls it), "`kick(filter)` and
`shutdown(duration, filter)` iterate matching topics and forward to every subscriber
queue's notifier".  Returns the notifier store after the call. -/
def shutdown (dm : domain) (d : Int) (flt : query.filter) (ns : List notifier) :
    List notifier :=
  dm._topics.foldl (fun ns1 t => if filter_matches flt t then t.shutdown_subs d ns1 else ns1)
    ns

end domain

/-! ## The bounded FIFO list behind the ring -/

/-- The bounded FIFO list the ring is compared with, in the words of the specification: the
queued elements, oldest first, and the capacity `N`. -/
structure bounded_fifo (T : Type) where
  items : List T
  N : Nat

namespace bounded_fifo

variable {T : Type}

/-- Push on the list: appends at the tail unless the list holds `N` elements. -/
def push (l : bounded_fifo T) (v : T) : Bool × bounded_fifo T :=
  if l.items.length < l.N then (true, { l with items := l.items ++ [v] }) else (false, l)

/-- Front of the list: its head, if any. -/
def front (l : bounded_fifo T) : Option T := l.items.head?

/-- Pop on the list: removes the head. -/
def pop (l : bounded_fifo T) : bounded_fifo T := { l with items := l.items.tail }

/-- Size of the list. -/
def size (l : bounded_fifo T) : Nat := l.items.length

/-- Whether the list is empty. -/
def empty (l : bounded_fifo T) : Bool := l.items.isEmpty

end bounded_fifo

/-- The list a ring state stands for: the objects in the slots from the read index up to
the write index, and `capacity()`. -/
def spsc_queue.to_fifo {T : Type} (q : spsc_queue T) : bounded_fifo T :=
  { items := q.contents.filterMap id, N := q.capacity }

/-! ## Owners of a shared payload -/

/-- Number of envelope objects among `os` (`none` for a slot without an object) whose
`shared` handle points at the payload at address `a`. -/
def owners (a : Nat) (os : List (Option data)) : Nat :=
  (os.filter (fun o =>
    match o with
    | some d => decide (d.shared = some a)
    | none => false)).length

/-- Number of envelope objects in the slots of the queue behind a `sub_queue*` whose
`shared` handle points at the payload at address `a`; a dead pointer has no queue. -/
def sub_queue.slot_owners (a : Nat) (o : Option sub_queue) : Nat :=
  match o with
  | some q => owners a q._fifo._slots
  | none => 0

/-- Number of envelope objects in the slots of the topic's queues whose `shared` handle
points at the payload at address `a`. -/
def topic.queue_owners (t : topic) (a : Nat) : Nat :=
  (t.sub_heap.map (sub_queue.slot_owners a)).sum

/-- What `use_count()` returns for the payload at address `a` when the only handles to it
are those of envelopes: the number of `shared_ptr` objects that point at it, which sit in
the envelope objects constructed in the slots of the topic's queues and in the envelopes
`locals` that the callers hold. -/
def topic.use_count (t : topic) (a : Nat) (locals : List data) : Nat :=
  t.queue_owners a + owners a (locals.map some)

end vdds

/-! ## Theorems -/

namespace vdds

theorem kPadding_pos (s : Nat) : 1 ≤ kPadding s := by
  unfold kPadding; exact Nat.le_add_left 1 _

theorem kPadding_le (s : Nat) : kPadding s ≤ 64 := by
  unfold kPadding kCacheLineSize
  have h : (64 - 1) / s ≤ 64 - 1 := Nat.div_le_self (64 - 1) s
  exact Nat.add_le_add_right h 1

theorem getD_set_ne {α : Type} (l : List α) (i j : Nat) (v d : α) (h : i ≠ j) :
    (l.set i v).getD j d = l.getD j d := by
  simp [List.getD_eq_getElem?_getD, List.getElem?_set_ne h]

theorem getD_set_eq {α : Type} (l : List α) (i : Nat) (v d : α) (h : i < l.length) :
    (l.set i v).getD i d = v := by
  simp [List.getD_eq_getElem?_getD, h]

namespace spsc_queue

variable {T : Type}

theorem ctor_capacity_bounds (s c : Nat) (h : c < SIZE_MAX) :
    2 ≤ ctor_capacity s c ∧ ctor_capacity s c + 2 * kPadding s ≤ SIZE_MAX := by
  have h1 := kPadding_le s
  unfold ctor_capacity
  unfold SIZE_MAX at *
  simp only []
  split_ifs <;> omega

theorem new_inv (s c : Nat) (h : c < SIZE_MAX) : Inv (spsc_queue.new s c : spsc_queue T) := by
  have hb := ctor_capacity_bounds s c h
  refine ⟨hb.1, hb.2, ?_, ?_, ?_, ?_, ?_, ?_, ?_, ⟨[], ?_⟩⟩
  all_goals simp [spsc_queue.new, dist, contents]
  all_goals omega

theorem size_eq_dist (q : spsc_queue T) (h : Inv q) :
    q.size = dist q._capacity q._read_idx q._write_idx := by
  have h1 := h.w_lt
  have h2 := h.r_lt
  have h3 := h.cap_le
  unfold SIZE_MAX at h3
  unfold size dist
  simp only []
  split_ifs <;> omega


theorem emplace_full (q : spsc_queue T) (v : T) (h : Inv q)
    (hf : (if q._write_idx + 1 = q._capacity then 0 else q._write_idx + 1) = q._read_idx) :
    q.emplace v = (false, { q with _read_idx_cache := q._read_idx }) := by
  have h8 := h.rc_behind
  have h5 := h.r_lt
  have h4 := h.w_lt
  have h6 := h.rc_lt
  have hc : (if q._write_idx + 1 = q._capacity then 0 else q._write_idx + 1)
      = q._read_idx_cache := by
    simp only [dist] at h8
    split_ifs at h8 hf ⊢ <;> omega
  unfold emplace
  simp only []
  rw [if_pos hc, if_pos hf]

theorem emplace_ok (q : spsc_queue T) (v : T)
    (hf : (if q._write_idx + 1 = q._capacity then 0 else q._write_idx + 1) ≠ q._read_idx) :
    q.emplace v = (true,
      { q with _read_idx_cache :=
                 if (if q._write_idx + 1 = q._capacity then 0 else q._write_idx + 1)
                      = q._read_idx_cache then q._read_idx else q._read_idx_cache
               _slots := q._slots.set (q._write_idx + kPadding q.sizeofT) (some v)
               _write_idx := if q._write_idx + 1 = q._capacity then 0 else q._write_idx + 1 }) := by
  unfold emplace
  simp only []
  by_cases c1 : (if q._write_idx + 1 = q._capacity then 0 else q._write_idx + 1)
      = q._read_idx_cache
  · rw [if_pos c1, if_neg hf, if_pos c1]
  · rw [if_neg c1, if_neg c1]


theorem dist_next (K r w : Nat) (hr : r < K)
    (hf : (if w + 1 = K then 0 else w + 1) ≠ r) :
    dist K r (if w + 1 = K then 0 else w + 1) = dist K r w + 1 := by
  unfold dist
  split_ifs at hf ⊢ <;> omega

theorem slot_at_congr (q q' : spsc_queue T) (hr : q._read_idx = q'._read_idx)
    (hc : q._capacity = q'._capacity) (j : Nat) : q.slot_at j = q'.slot_at j := by
  unfold slot_at; rw [hr, hc]

theorem slot_at_dist (q : spsc_queue T) (hr : q._read_idx < q._capacity)
    (hw : q._write_idx < q._capacity) :
    q.slot_at (dist q._capacity q._read_idx q._write_idx) = q._write_idx := by
  unfold slot_at dist
  split_ifs <;> omega

theorem slot_at_ne (q : spsc_queue T) (hr : q._read_idx < q._capacity) (j : Nat)
    (hj : j < dist q._capacity q._read_idx q._write_idx) :
    q.slot_at j ≠ q._write_idx := by
  unfold slot_at
  unfold dist at hj
  split_ifs at hj ⊢ <;> omega

theorem emplace_ok_contents (q : spsc_queue T) (v : T) (h : Inv q)
    (hf : (if q._write_idx + 1 = q._capacity then 0 else q._write_idx + 1) ≠ q._read_idx) :
    (q.emplace v).2.contents = q.contents ++ [some v] := by
  have hk := kPadding_pos q.sizeofT
  rw [emplace_ok q v hf]
  unfold contents
  simp only [dist_next q._capacity q._read_idx q._write_idx h.r_lt hf]
  rw [List.range_succ, List.map_append]
  congr 1
  · apply List.map_congr_left
    intro j hj
    have hj' := slot_at_ne q h.r_lt j (List.mem_range.mp hj)
    simp only [deref, slot_at] at hj' ⊢
    apply getD_set_ne
    omega
  · simp only [List.map_cons, List.map_nil, deref]
    have e := slot_at_dist q h.r_lt h.w_lt
    simp only [slot_at] at e ⊢
    rw [e, getD_set_eq]
    rw [h.slots_len]; have := h.w_lt; omega


theorem contents_length (q : spsc_queue T) :
    q.contents.length = dist q._capacity q._read_idx q._write_idx := by
  simp [contents]

theorem contents_eq_nil_iff (q : spsc_queue T) (h : Inv q) :
    q.contents = [] ↔ q._write_idx = q._read_idx := by
  have h4 := h.w_lt
  have h5 := h.r_lt
  rw [← List.length_eq_zero, contents_length]
  unfold dist
  split_ifs <;> omega

theorem emplace_inv (q : spsc_queue T) (v : T) (h : Inv q) : Inv (q.emplace v).2 := by
  have h1 := h.cap_ge
  have h4 := h.w_lt
  have h5 := h.r_lt
  have h6 := h.rc_lt
  have h8 := h.rc_behind
  have h9 := h.wc_between
  by_cases hf : (if q._write_idx + 1 = q._capacity then 0 else q._write_idx + 1) = q._read_idx
  · rw [emplace_full q v h hf]
    refine ⟨h.cap_ge, h.cap_le, h.slots_len, h.w_lt, h.r_lt, h.r_lt, h.wc_lt, ?_, h.wc_between,
      h.live⟩
    simp only [dist] at h8 ⊢
    split_ifs at h8 ⊢ <;> omega
  · have hc := emplace_ok_contents q v h hf
    obtain ⟨vs, hvs⟩ := h.live
    have hl : ∃ ws : List T, (q.emplace v).2.contents = ws.map some :=
      ⟨vs ++ [v], by rw [hc, hvs]; simp⟩
    rw [emplace_ok q v hf] at hl ⊢
    refine ⟨h.cap_ge, h.cap_le, ?_, ?_, h.r_lt, ?_, h.wc_lt, ?_, ?_, hl⟩
    · simp only [List.length_set]; exact h.slots_len
    · simp only []; split_ifs <;> omega
    · simp only []; split_ifs <;> omega
    · simp only [dist] at h8 ⊢
      split_ifs at h8 hf ⊢ <;> omega
    · simp only [dist] at h9 ⊢
      split_ifs at h9 hf ⊢ <;> omega

theorem front_empty (q : spsc_queue T) (h : Inv q) (he : q._write_idx = q._read_idx) :
    q.front = (none, q) := by
  have h9 := h.wc_between
  have h5 := h.r_lt
  have h7 := h.wc_lt
  have hc : q._read_idx = q._write_idx_cache := by
    simp only [dist] at h9
    split_ifs at h9 <;> omega
  unfold front
  simp only []
  rw [if_pos hc, if_pos he.symm]
  cases q
  simp only [mk.injEq, Prod.mk.injEq, true_and] at *
  omega

theorem front_nonempty (q : spsc_queue T) (he : q._write_idx ≠ q._read_idx) :
    q.front = (some (q._read_idx + kPadding q.sizeofT),
      { q with _write_idx_cache :=
                 if q._read_idx = q._write_idx_cache then q._write_idx else q._write_idx_cache }) := by
  unfold front
  simp only []
  by_cases c : q._read_idx = q._write_idx_cache
  · rw [if_pos c, if_neg (Ne.symm he), if_pos c]
  · rw [if_neg c, if_neg c]

theorem front_inv (q : spsc_queue T) (h : Inv q) : Inv q.front.2 := by
  by_cases he : q._write_idx = q._read_idx
  · rw [front_empty q h he]; exact h
  · rw [front_nonempty q he]
    have h4 := h.w_lt
    have h7 := h.wc_lt
    refine ⟨h.cap_ge, h.cap_le, h.slots_len, h.w_lt, h.r_lt, h.rc_lt, ?_, h.rc_behind, ?_, h.live⟩
    · simp only []; split_ifs <;> omega
    · have h9 := h.wc_between
      simp only []
      split_ifs
      · exact le_refl _
      · exact h9


theorem pop_contents (q : spsc_queue T) (h : Inv q) (he : q._write_idx ≠ q._read_idx) :
    q.pop.contents = q.contents.tail := by
  have h1 := h.cap_ge
  have h4 := h.w_lt
  have h5 := h.r_lt
  have hd : dist q._capacity q._read_idx q._write_idx
      = dist q._capacity (if q._read_idx + 1 = q._capacity then 0 else q._read_idx + 1)
          q._write_idx + 1 := by
    unfold dist; split_ifs <;> omega
  unfold contents
  rw [hd, List.range_succ_eq_map]
  simp only [pop, List.map_cons, List.tail_cons, List.map_map]
  apply List.map_congr_left
  intro j hj
  have hj' := List.mem_range.mp hj
  simp only [Function.comp, deref, slot_at, Nat.succ_eq_add_one]
  rw [getD_set_ne]
  · congr 1
    unfold dist at hj'
    split_ifs at hj' ⊢ <;> omega
  · unfold dist at hj'
    split_ifs at hj' ⊢ <;> omega

theorem nonempty_of_cache (q : spsc_queue T) (h : Inv q)
    (hc : q._read_idx ≠ q._write_idx_cache) : q._write_idx ≠ q._read_idx := by
  have h5 := h.r_lt
  have h7 := h.wc_lt
  have h9 := h.wc_between
  unfold dist at h9
  split_ifs at h9 <;> omega

theorem pop_inv (q : spsc_queue T) (h : Inv q) (hwc : q._read_idx ≠ q._write_idx_cache) :
    Inv q.pop := by
  have he := nonempty_of_cache q h hwc
  have h1 := h.cap_ge
  have h4 := h.w_lt
  have h5 := h.r_lt
  have h6 := h.rc_lt
  have h7 := h.wc_lt
  have h8 := h.rc_behind
  have h9 := h.wc_between
  have hc := pop_contents q h he
  obtain ⟨vs, hvs⟩ := h.live
  have hl : ∃ ws : List T, q.pop.contents = ws.map some :=
    ⟨vs.tail, by rw [hc, hvs]; cases vs <;> simp⟩
  refine ⟨h.cap_ge, h.cap_le, ?_, h.w_lt, ?_, h.rc_lt, h.wc_lt, ?_, ?_, hl⟩
  · simp only [pop, List.length_set]; exact h.slots_len
  · simp only [pop]; split_ifs <;> omega
  · simp only [pop, dist] at h8 ⊢
    split_ifs at h8 ⊢ <;> omega
  · simp only [pop, dist] at h9 ⊢
    split_ifs at h9 ⊢ <;> omega


theorem reachable_inv (q : spsc_queue T) (h : Reachable q) : Inv q := by
  induction h with
  | ctor s c h => exact new_inv s c h
  | emplace q v _ ih => exact emplace_inv q v ih
  | front q _ ih => exact front_inv q ih
  | pop q _ hc ih => exact pop_inv q ih hc


theorem capacity_eq (q : spsc_queue T) (h : Inv q) : q.capacity = q._capacity - 1 := by
  have h1 := h.cap_ge
  have h2 := h.cap_le
  unfold capacity
  unfold SIZE_MAX at h2
  omega

theorem full_iff (q : spsc_queue T) (h : Inv q) :
    (if q._write_idx + 1 = q._capacity then 0 else q._write_idx + 1) = q._read_idx
      ↔ q.contents.length = q.capacity := by
  have h1 := h.cap_ge
  have h4 := h.w_lt
  have h5 := h.r_lt
  rw [contents_length, capacity_eq q h]
  unfold dist
  split_ifs <;> omega

theorem contents_length_le (q : spsc_queue T) (h : Inv q) :
    q.contents.length ≤ q.capacity := by
  have h1 := h.cap_ge
  have h4 := h.w_lt
  have h5 := h.r_lt
  rw [contents_length, capacity_eq q h]
  unfold dist
  split_ifs <;> omega

theorem front_contents (q : spsc_queue T) : q.front.2.contents = q.contents := by
  unfold front
  simp only []
  split_ifs <;> rfl

theorem contents_head (q : spsc_queue T) (h : Inv q) (o : Option T) (rest : List (Option T))
    (hc : q.contents = o :: rest) : q.deref (q._read_idx + kPadding q.sizeofT) = o := by
  have h5 := h.r_lt
  have hl : 0 < dist q._capacity q._read_idx q._write_idx := by
    rw [← contents_length, hc]; simp
  obtain ⟨n, hn⟩ : ∃ n, dist q._capacity q._read_idx q._write_idx = n + 1 :=
    ⟨dist q._capacity q._read_idx q._write_idx - 1, by omega⟩
  unfold contents at hc
  rw [hn, List.range_succ_eq_map] at hc
  simp only [List.map_cons, List.cons.injEq] at hc
  have h0 : q.slot_at 0 = q._read_idx := by
    unfold slot_at; split_ifs <;> omega
  rw [h0] at hc
  exact hc.1

theorem pop_out_empty (q : spsc_queue T) (h : Inv q) (he : q.contents = []) (v : T) :
    q.pop_out v = (false, v, q) := by
  have hw := (contents_eq_nil_iff q h).mp he
  unfold pop_out
  rw [front_empty q h hw]

theorem pop_out_nonempty (q : spsc_queue T) (h : Inv q) (x : T) (rest : List (Option T))
    (hc : q.contents = some x :: rest) (v : T) :
    q.pop_out v = (true, x, q.front.2.pop) ∧ q.front.2.pop.contents = rest := by
  have hw : q._write_idx ≠ q._read_idx := by
    intro e
    rw [(contents_eq_nil_iff q h).mpr e] at hc
    exact List.noConfusion hc
  have hd := contents_head q h (some x) rest hc
  constructor
  · unfold pop_out
    rw [front_nonempty q hw]
    simp only [deref] at hd ⊢
    rw [hd]
    rfl
  · have hi := front_inv q h
    rw [pop_contents q.front.2 hi, front_contents, hc]
    · rfl
    · rw [front_nonempty q hw]; exact hw

theorem pop_out_inv (q : spsc_queue T) (h : Inv q) (v : T) : Inv (q.pop_out v).2.2 := by
  by_cases he : q._write_idx = q._read_idx
  · rw [pop_out_empty q h ((contents_eq_nil_iff q h).mpr he)]; exact h
  · unfold pop_out
    rw [front_nonempty q he]
    have hi := front_inv q h
    rw [front_nonempty q he] at hi
    apply pop_inv _ hi
    simp only []
    split_ifs with c
    · exact Ne.symm he
    · exact c

theorem pop_out_reachable (q : spsc_queue T) (h : Reachable q) (v : T) :
    Reachable (q.pop_out v).2.2 := by
  have hi := reachable_inv q h
  by_cases he : q._write_idx = q._read_idx
  · rw [pop_out_empty q hi ((contents_eq_nil_iff q hi).mpr he)]; exact h
  · unfold pop_out
    have hf := Reachable.front q h
    rw [front_nonempty q he] at hf ⊢
    apply Reachable.pop _ hf
    simp only []
    split_ifs with c
    · exact Ne.symm he
    · exact c


theorem push_all_spec (vs : List T) : ∀ (q : spsc_queue T) (cs : List T), Inv q →
    q.contents = cs.map some → cs.length + vs.length ≤ q.capacity →
    (q.push_all vs).1 = List.replicate vs.length true
      ∧ (q.push_all vs).2.contents = (cs ++ vs).map some
      ∧ Inv (q.push_all vs).2
      ∧ (q.push_all vs).2.capacity = q.capacity := by
  induction vs with
  | nil =>
    intro q cs h hc _
    simp [push_all, hc, h]
  | cons v vs ih =>
    intro q cs h hc hl
    have hnf : ¬ (if q._write_idx + 1 = q._capacity then 0 else q._write_idx + 1)
        = q._read_idx := by
      rw [full_iff q h, hc]
      simp only [List.length_map, List.length_cons] at hl ⊢
      omega
    have h1 : (q.push v).1 = true := by
      unfold push; rw [emplace_ok q v hnf]
    have h2 : (q.push v).2.contents = (cs ++ [v]).map some := by
      unfold push; rw [emplace_ok_contents q v h hnf, hc]; simp
    have h3 : Inv (q.push v).2 := emplace_inv q v h
    have h4 : (q.push v).2.capacity = q.capacity := by
      unfold push; rw [emplace_ok q v hnf]; rfl
    have hl' : (cs ++ [v]).length + vs.length ≤ (q.push v).2.capacity := by
      rw [h4]; simp only [List.length_append, List.length_cons, List.length_nil] at hl ⊢
      omega
    obtain ⟨i1, i2, i3, i4⟩ := ih (q.push v).2 (cs ++ [v]) h3 h2 hl'
    refine ⟨?_, ?_, ?_, ?_⟩
    · simp only [push_all, List.length_cons, List.replicate_succ, h1, i1]
    · simp only [push_all, i2, List.append_assoc, List.singleton_append]
    · simpa only [push_all] using i3
    · simp only [push_all, i4, h4]

theorem pop_n_spec (xs : List T) : ∀ (q : spsc_queue T) (rest : List T) (v0 : T), Inv q →
    q.contents = (xs ++ rest).map some →
    (q.pop_n v0 xs.length).1 = xs.map (fun x => (true, x))
      ∧ (q.pop_n v0 xs.length).2.contents = rest.map some
      ∧ Inv (q.pop_n v0 xs.length).2 := by
  induction xs with
  | nil =>
    intro q rest v0 h hc
    simp only [List.length_nil, pop_n, List.map_nil, true_and]
    exact ⟨by simpa using hc, h⟩
  | cons x xs ih =>
    intro q rest v0 h hc
    have hc' : q.contents = some x :: (xs ++ rest).map some := by
      rw [hc]; simp
    obtain ⟨e1, e2⟩ := pop_out_nonempty q h x _ hc' v0
    have hi := pop_out_inv q h v0
    rw [e1] at hi
    obtain ⟨i1, i2, i3⟩ := ih q.front.2.pop rest x hi e2
    simp only [List.length_cons, pop_n, e1, List.map_cons, i1, i2, i3, and_self]

theorem reachable_capacity_pos (q : spsc_queue T) (h : Reachable q) : 1 ≤ q.capacity := by
  have hi := reachable_inv q h
  have := hi.cap_ge
  rw [capacity_eq q hi]; omega

end spsc_queue

/-- C1: SPSC round trip.  For every reachable `spsc_queue` (its capacity is at least 1) that
is empty, and every sequence `vs` of at most `capacity()` values: pushing `vs` in order
returns `true` for every push, the following `vs.length` calls of `pop(out)` all return
`true` and yield the values of `vs` in the same order, and afterwards the ring is empty. -/
theorem C1_spsc_round_trip {T : Type} (q : spsc_queue T) (hq : spsc_queue.Reachable q)
    (he : q.empty = true) (vs : List T) (hn : vs.length ≤ q.capacity) (v0 : T) :
    1 ≤ q.capacity
      ∧ (q.push_all vs).1 = List.replicate vs.length true
      ∧ ((q.push_all vs).2.pop_n v0 vs.length).1 = vs.map (fun v => (true, v))
      ∧ ((q.push_all vs).2.pop_n v0 vs.length).2.empty = true
      ∧ ((q.push_all vs).2.pop_n v0 vs.length).2.contents = [] := by
  have hi := spsc_queue.reachable_inv q hq
  have hc : q.contents = ([] : List T).map some := by
    rw [List.map_nil, spsc_queue.contents_eq_nil_iff q hi]
    simpa [spsc_queue.empty] using he
  obtain ⟨p1, p2, p3, _⟩ := spsc_queue.push_all_spec vs q [] hi hc (by simpa using hn)
  rw [List.nil_append] at p2
  obtain ⟨o1, o2, o3⟩ := spsc_queue.pop_n_spec vs (q.push_all vs).2 [] v0 p3
    (by simpa using p2)
  refine ⟨spsc_queue.reachable_capacity_pos q hq, p1, o1, ?_, by simpa using o2⟩
  rw [List.map_nil, spsc_queue.contents_eq_nil_iff _ o3] at o2
  simp [spsc_queue.empty, o2]

/-- Witness for C1: a ring of capacity 2 that has already been used once (so the pushes
wrap around the end of the slot array) takes `[10, 20]` and gives them back in order. -/
theorem C1_spsc_round_trip_witness :
    (((((spsc_queue.new 8 2 : spsc_queue Nat).push 7).2.pop_out 0).2.2.push_all [10, 20]).2.pop_n
        0 2).1 = [(true, 10), (true, 20)] :=
  (C1_spsc_round_trip (((spsc_queue.new 8 2 : spsc_queue Nat).push 7).2.pop_out 0).2.2
    (spsc_queue.pop_out_reachable _
      (spsc_queue.Reachable.emplace _ 7 (spsc_queue.Reachable.ctor 8 2 (by decide))) 0)
    (by decide) [10, 20] (by decide) 0).2.2.1

/-- C2: a push into a full ring is refused and changes nothing that can be observed.  For
every reachable `spsc_queue` that holds exactly `capacity()` elements, `emplace` (and
`push`, which is the same call) returns `false` and leaves the queued elements and their
order, `size()`, the slot array, the read index and the write index unchanged. -/
theorem C2_push_full_unchanged {T : Type} (q : spsc_queue T) (hq : spsc_queue.Reachable q)
    (hfull : q.contents.length = q.capacity) (v : T) :
    q.push v = q.emplace v
      ∧ (q.emplace v).1 = false
      ∧ (q.emplace v).2.contents = q.contents
      ∧ (q.emplace v).2.size = q.size
      ∧ (q.emplace v).2._slots = q._slots
      ∧ (q.emplace v).2._read_idx = q._read_idx
      ∧ (q.emplace v).2._write_idx = q._write_idx := by
  have hi := spsc_queue.reachable_inv q hq
  have hf := (spsc_queue.full_iff q hi).mpr hfull
  refine ⟨rfl, ?_⟩
  rw [spsc_queue.emplace_full q v hi hf]
  exact ⟨rfl, rfl, rfl, rfl, rfl, rfl⟩

/-- Witness for C2: the ring of capacity 1 that holds the value 5 refuses the value 6. -/
theorem C2_push_full_unchanged_witness :
    (((spsc_queue.new 8 1 : spsc_queue Nat).push 5).2.emplace 6).1 = false
      ∧ (((spsc_queue.new 8 1 : spsc_queue Nat).push 5).2.emplace 6).2.contents = [some 5] :=
  have h := C2_push_full_unchanged ((spsc_queue.new 8 1 : spsc_queue Nat).push 5).2
    (spsc_queue.Reachable.emplace _ 5 (spsc_queue.Reachable.ctor 8 1 (by decide)))
    (by decide) 6
  ⟨h.2.1, h.2.2.1.trans (by decide)⟩

/-- C3: in every reachable state of a `spsc_queue`, whatever the value of the producer's
cached read index, `emplace`/`push` returns `false` exactly when the ring holds
`capacity()` elements; in every other state it returns `true`, the queued elements become
the old ones followed by the pushed value, and their number grows by one. -/
theorem C3_push_false_iff_full {T : Type} (q : spsc_queue T) (hq : spsc_queue.Reachable q)
    (v : T) :
    ((q.emplace v).1 = false ↔ q.contents.length = q.capacity)
      ∧ (q.contents.length ≠ q.capacity →
          (q.emplace v).1 = true
            ∧ (q.emplace v).2.contents = q.contents ++ [some v]
            ∧ (q.emplace v).2.contents.length = q.contents.length + 1) := by
  have hi := spsc_queue.reachable_inv q hq
  by_cases hf : (if q._write_idx + 1 = q._capacity then 0 else q._write_idx + 1) = q._read_idx
  · have hfull := (spsc_queue.full_iff q hi).mp hf
    rw [spsc_queue.emplace_full q v hi hf]
    exact ⟨⟨fun _ => hfull, fun _ => rfl⟩, fun hne => absurd hfull hne⟩
  · have hnfull : q.contents.length ≠ q.capacity := fun e => hf ((spsc_queue.full_iff q hi).mpr e)
    have hc := spsc_queue.emplace_ok_contents q v hi hf
    have h1 : (q.emplace v).1 = true := by rw [spsc_queue.emplace_ok q v hf]
    refine ⟨⟨fun e => ?_, fun e => absurd e hnfull⟩, fun _ => ⟨h1, hc, ?_⟩⟩
    · rw [h1] at e; exact Bool.noConfusion e
    · rw [hc]; simp

/-- Witness for C3: on a ring of capacity 1 that was filled and drained once, the
producer's cached read index (0) is stale (the read index is 1); the push of 9 rereads
the read index, succeeds and leaves `[9]` queued. -/
theorem C3_push_false_iff_full_witness :
    (((((spsc_queue.new 8 1 : spsc_queue Nat).push 7).2.pop_out 0).2.2.emplace 9).1 = true)
      ∧ ((((spsc_queue.new 8 1 : spsc_queue Nat).push 7).2.pop_out 0).2.2.emplace 9).2.contents
          = [some 9] :=
  have h := (C3_push_false_iff_full (((spsc_queue.new 8 1 : spsc_queue Nat).push 7).2.pop_out 0).2.2
    (spsc_queue.pop_out_reachable _
      (spsc_queue.Reachable.emplace _ 7 (spsc_queue.Reachable.ctor 8 1 (by decide))) 0)
    9).2 (by decide)
  ⟨h.1, h.2.1.trans (by decide)⟩

end vdds

namespace vdds

namespace sub_queue

theorem push_fst_full (q : sub_queue) (d : data) (nl : Bool) (ns : List notifier)
    (hi : spsc_queue.Inv q._fifo) (hf : q._fifo.contents.length = q._fifo.capacity) :
    (q.push d nl ns).1 =
      { q with _push_count := (q._push_count + 1) % UINT32_MOD
               _fifo := { q._fifo with _read_idx_cache := q._fifo._read_idx }
               _drop_count := (q._drop_count + 1) % UINT32_MOD } := by
  have hf' := (spsc_queue.full_iff q._fifo hi).mpr hf
  unfold push
  simp only [spsc_queue.push, spsc_queue.emplace_full q._fifo d hi hf']
  rfl

theorem push_fst_ok (q : sub_queue) (d : data) (nl : Bool) (ns : List notifier)
    (hi : spsc_queue.Inv q._fifo) (hf : q._fifo.contents.length ≠ q._fifo.capacity) :
    (q.push d nl ns).1 =
      { q with _push_count := (q._push_count + 1) % UINT32_MOD
               _fifo := (q._fifo.emplace d).2 } := by
  have hf' : ¬ (if q._fifo._write_idx + 1 = q._fifo._capacity then 0
      else q._fifo._write_idx + 1) = q._fifo._read_idx :=
    fun e => hf ((spsc_queue.full_iff q._fifo hi).mp e)
  unfold push
  simp only [spsc_queue.push, spsc_queue.emplace_ok q._fifo d hf']
  rfl

theorem push_fifo (q : sub_queue) (d : data) (nl : Bool) (ns : List notifier) :
    (q.push d nl ns).1._fifo = (q._fifo.emplace d).2 := by
  unfold push
  simp only [spsc_queue.push]
  split_ifs <;> rfl

theorem reachable_fifo (q : sub_queue) (h : Reachable q) : spsc_queue.Reachable q._fifo := by
  induction h with
  | ctor name tn dt c n h => exact spsc_queue.Reachable.ctor _ c h
  | push q d nl ns _ ih => rw [push_fifo]; exact spsc_queue.Reachable.emplace _ d ih
  | pop q d _ ih => exact spsc_queue.pop_out_reachable _ ih d

theorem sub_push_list_spec (ds : List data) : ∀ (q : sub_queue) (ns : List notifier)
    (cs : List data), spsc_queue.Inv q._fifo → q._fifo.contents = cs.map some →
    q._push_count < UINT32_MOD → q._drop_count < UINT32_MOD →
    (q.push_list ns ds).1._push_count = (q._push_count + ds.length) % UINT32_MOD
      ∧ (q.push_list ns ds).1._drop_count
          = (q._drop_count + (cs.length + ds.length - q._fifo.capacity)) % UINT32_MOD
      ∧ (q.push_list ns ds).1._fifo.contents = ((cs ++ ds).take q._fifo.capacity).map some
      ∧ spsc_queue.Inv (q.push_list ns ds).1._fifo
      ∧ (q.push_list ns ds).1._fifo.capacity = q._fifo.capacity
      ∧ (q.push_list ns ds).1._capacity = q._capacity := by
  induction ds with
  | nil =>
    intro q ns cs hi hc hp hdr
    have hle := spsc_queue.contents_length_le q._fifo hi
    rw [hc, List.length_map] at hle
    refine ⟨?_, ?_, ?_, hi, rfl, rfl⟩
    · simp only [push_list, List.length_nil, Nat.add_zero]
      exact (Nat.mod_eq_of_lt hp).symm
    · simp only [push_list, List.length_nil, Nat.add_zero]
      rw [Nat.sub_eq_zero_of_le hle, Nat.add_zero]
      exact (Nat.mod_eq_of_lt hdr).symm
    · simp only [push_list, List.append_nil]
      rw [List.take_of_length_le hle, hc]
  | cons d ds ih =>
    intro q ns cs hi hc hp hdr
    have hle := spsc_queue.contents_length_le q._fifo hi
    rw [hc, List.length_map] at hle
    have hM : 0 < UINT32_MOD := by unfold UINT32_MOD; omega
    have hstep : (q.push_list ns (d :: ds)).1
        = ((q.push d false ns).1.push_list (q.push d false ns).2 ds).1 := rfl
    have hi' : spsc_queue.Inv (q.push d false ns).1._fifo := by
      rw [push_fifo]; exact spsc_queue.emplace_inv _ d hi
    by_cases hf : q._fifo.contents.length = q._fifo.capacity
    · have e := push_fst_full q d false ns hi hf
      have ep : (q.push d false ns).1._push_count = (q._push_count + 1) % UINT32_MOD := by
        rw [e]
      have ed : (q.push d false ns).1._drop_count = (q._drop_count + 1) % UINT32_MOD := by
        rw [e]
      have ec : (q.push d false ns).1._capacity = q._capacity := by rw [e]
      have hcap : (q.push d false ns).1._fifo.capacity = q._fifo.capacity := by rw [e]; rfl
      have hc' : (q.push d false ns).1._fifo.contents = cs.map some := by
        rw [e]; exact hc
      obtain ⟨i1, i2, i3, i4, i5, i6⟩ := ih (q.push d false ns).1 (q.push d false ns).2 cs hi' hc'
        (by rw [ep]; exact Nat.mod_lt _ hM) (by rw [ed]; exact Nat.mod_lt _ hM)
      rw [hc, List.length_map] at hf
      rw [hstep]
      refine ⟨?_, ?_, ?_, i4, ?_, ?_⟩
      · rw [i1, ep, Nat.mod_add_mod, List.length_cons]
        exact congrArg (fun x => x % UINT32_MOD) (by omega)
      · rw [i2, ed, hcap, Nat.mod_add_mod, List.length_cons]
        exact congrArg (fun x => x % UINT32_MOD) (by omega)
      · rw [i3, hcap, List.take_append_of_le_length (by omega),
          List.take_append_of_le_length (by omega)]
      · rw [i5, hcap]
      · rw [i6, ec]
    · have e := push_fst_ok q d false ns hi hf
      have ep : (q.push d false ns).1._push_count = (q._push_count + 1) % UINT32_MOD := by
        rw [e]
      have ed : (q.push d false ns).1._drop_count = q._drop_count := by
        rw [e]
      have ec : (q.push d false ns).1._capacity = q._capacity := by rw [e]
      have hf' : ¬ (if q._fifo._write_idx + 1 = q._fifo._capacity then 0
          else q._fifo._write_idx + 1) = q._fifo._read_idx :=
        fun e => hf ((spsc_queue.full_iff q._fifo hi).mp e)
      have hc' : (q.push d false ns).1._fifo.contents = (cs ++ [d]).map some := by
        rw [push_fifo, spsc_queue.emplace_ok_contents q._fifo d hi hf', hc]; simp
      have hcap : (q.push d false ns).1._fifo.capacity = q._fifo.capacity := by
        rw [push_fifo, spsc_queue.emplace_ok q._fifo d hf']; rfl
      obtain ⟨i1, i2, i3, i4, i5, i6⟩ :=
        ih (q.push d false ns).1 (q.push d false ns).2 (cs ++ [d]) hi' hc'
          (by rw [ep]; exact Nat.mod_lt _ hM) (by rw [ed]; exact hdr)
      rw [hc, List.length_map] at hf
      rw [hstep]
      refine ⟨?_, ?_, ?_, i4, ?_, ?_⟩
      · rw [i1, ep, Nat.mod_add_mod, List.length_cons]
        exact congrArg (fun x => x % UINT32_MOD) (by omega)
      · rw [i2, ed, hcap, List.length_cons, List.length_append, List.length_cons,
          List.length_nil]
        exact congrArg (fun x => x % UINT32_MOD) (by omega)
      · rw [i3, hcap, List.append_assoc, List.singleton_append]
      · rw [i5, hcap]
      · rw [i6, ec]

theorem new_counts (name tn dt : String) (c : Nat) (n : Option Nat) :
    (sub_queue.new name tn dt c n)._push_count = 0
      ∧ (sub_queue.new name tn dt c n)._drop_count = 0
      ∧ (sub_queue.new name tn dt c n)._capacity = c
      ∧ (sub_queue.new name tn dt c n)._fifo = spsc_queue.new sizeof_data c :=
  ⟨rfl, rfl, rfl, rfl⟩

theorem new_contents (s c : Nat) : (spsc_queue.new s c : spsc_queue data).contents = [] := by
  simp [spsc_queue.new, spsc_queue.contents, spsc_queue.dist]

theorem new_fifo_capacity (s c : Nat) (h : c < SIZE_MAX) (h' : c < SIZE_MAX - 2 * kPadding s - 1) :
    (spsc_queue.new s c : spsc_queue data).capacity = max c 1 := by
  rw [spsc_queue.capacity_eq _ (spsc_queue.new_inv s c h)]
  have hk := kPadding_le s
  unfold SIZE_MAX at h h'
  simp only [spsc_queue.new, spsc_queue.ctor_capacity, SIZE_MAX]
  split_ifs <;> omega

theorem reachable_counts (q : sub_queue) (h : Reachable q) :
    q._push_count < UINT32_MOD ∧ q._drop_count < UINT32_MOD := by
  have hM : 0 < UINT32_MOD := by unfold UINT32_MOD; omega
  induction h with
  | ctor name tn dt c n h => exact ⟨hM, hM⟩
  | push q d nl ns _ ih =>
    unfold push
    simp only []
    split_ifs
    · exact ⟨Nat.mod_lt _ hM, Nat.mod_lt _ hM⟩
    · exact ⟨Nat.mod_lt _ hM, ih.2⟩
  | pop q d _ ih => exact ih

theorem push_push_count (q : sub_queue) (d : data) (nl : Bool) (ns : List notifier) :
    (q.push d nl ns).1._push_count = (q._push_count + 1) % UINT32_MOD := by
  unfold push
  simp only []
  split_ifs <;> rfl

theorem push_list_reachable (ds : List data) : ∀ (q : sub_queue) (ns : List notifier),
    Reachable q → Reachable (q.push_list ns ds).1 := by
  induction ds with
  | nil => intro q ns h; exact h
  | cons d ds ih =>
    intro q ns h
    exact ih _ _ (Reachable.push q d false ns h)

end sub_queue

/-- C4: `sub_queue::pop(d)`, which is `spsc_queue::pop(T&)` on the fifo.  In every reachable
state of a subscriber queue it returns `false` exactly when no envelope is queued, and
then the caller's envelope and the whole queue state are unchanged; otherwise it returns
`true`, the caller's envelope becomes the oldest queued envelope, exactly that envelope
leaves the queue (the rest keeps its order) and the counters are untouched. -/
theorem C4_pop_false_iff_empty (q : sub_queue) (hq : sub_queue.Reachable q) (d : data) :
    ((q.pop d).1 = false ↔ q._fifo.contents = [])
      ∧ (q._fifo.contents = [] → q.pop d = (false, d, q))
      ∧ (q._fifo.contents ≠ [] →
          (q.pop d).1 = true
            ∧ q._fifo.contents = some (q.pop d).2.1 :: (q.pop d).2.2._fifo.contents
            ∧ (q.pop d).2.2._push_count = q._push_count
            ∧ (q.pop d).2.2._drop_count = q._drop_count) := by
  have hi := spsc_queue.reachable_inv q._fifo (sub_queue.reachable_fifo q hq)
  have hempty : q._fifo.contents = [] → q.pop d = (false, d, q) := by
    intro he
    unfold sub_queue.pop
    rw [spsc_queue.pop_out_empty q._fifo hi he]
  have hne : q._fifo.contents ≠ [] →
      (q.pop d).1 = true
        ∧ q._fifo.contents = some (q.pop d).2.1 :: (q.pop d).2.2._fifo.contents
        ∧ (q.pop d).2.2._push_count = q._push_count
        ∧ (q.pop d).2.2._drop_count = q._drop_count := by
    intro hn
    obtain ⟨vs, hvs⟩ := hi.live
    cases vs with
    | nil => exact absurd hvs hn
    | cons x rest =>
      obtain ⟨e1, e2⟩ := spsc_queue.pop_out_nonempty q._fifo hi x (rest.map some) hvs d
      unfold sub_queue.pop
      rw [e1]
      refine ⟨rfl, ?_, rfl, rfl⟩
      show q._fifo.contents = some x :: q._fifo.front.2.pop.contents
      rw [hvs, e2]; rfl
  refine ⟨⟨fun h => ?_, fun h => by rw [hempty h]⟩, hempty, hne⟩
  by_contra hn
  rw [(hne hn).1] at h
  exact Bool.noConfusion h

/-- Witness for C4: popping from a queue of capacity 4 that holds one envelope hands that
envelope out and leaves the queue empty. -/
theorem C4_pop_false_iff_empty_witness :
    (((sub_queue.new "s" "t" "T" 4 none).push ⟨0, 7, none, [1]⟩ false []).1.pop
        ⟨9, 9, none, []⟩).2.1 = ⟨0, 7, none, [1]⟩ :=
  have h := (C4_pop_false_iff_empty ((sub_queue.new "s" "t" "T" 4 none).push ⟨0, 7, none, [1]⟩ false []).1
    (sub_queue.Reachable.push _ _ false []
      (sub_queue.Reachable.ctor "s" "t" "T" 4 none (by decide))) ⟨9, 9, none, []⟩).2.2 (by decide)
  by
    have e := h.2.1
    have e' : (((sub_queue.new "s" "t" "T" 4 none).push ⟨0, 7, none, [1]⟩ false []).1)._fifo.contents
        = [some ⟨0, 7, none, [1]⟩] := by decide
    rw [e'] at e
    simp only [List.cons.injEq, Option.some.injEq] at e
    exact e.1.symm

/-- C7 (amended): in every reachable state of a subscriber queue, `push(d, need_lock)`, for
either value of `need_lock`, increases `push_count` by one modulo 2^32 (exactly one while
the counter is below 2^32 - 1); if the ring is full it increases `drop_count` by one
modulo 2^32 and leaves the queued envelopes unchanged, and otherwise it leaves
`drop_count` unchanged and appends a copy of `d` at the tail. -/
theorem C7_sub_push_counts (q : sub_queue) (hq : sub_queue.Reachable q) (d : data)
    (need_lock : Bool) (ns : List notifier) :
    (q.push d need_lock ns).1._push_count = (q._push_count + 1) % UINT32_MOD
      ∧ (q._push_count + 1 < UINT32_MOD →
          (q.push d need_lock ns).1._push_count = q._push_count + 1)
      ∧ (q._fifo.contents.length = q._fifo.capacity →
          (q.push d need_lock ns).1._drop_count = (q._drop_count + 1) % UINT32_MOD
            ∧ (q._drop_count + 1 < UINT32_MOD →
                (q.push d need_lock ns).1._drop_count = q._drop_count + 1)
            ∧ (q.push d need_lock ns).1._fifo.contents = q._fifo.contents)
      ∧ (q._fifo.contents.length ≠ q._fifo.capacity →
          (q.push d need_lock ns).1._drop_count = q._drop_count
            ∧ (q.push d need_lock ns).1._fifo.contents = q._fifo.contents ++ [some d]) := by
  have hi := spsc_queue.reachable_inv q._fifo (sub_queue.reachable_fifo q hq)
  refine ⟨sub_queue.push_push_count q d need_lock ns, fun h => ?_, fun hf => ?_, fun hf => ?_⟩
  · rw [sub_queue.push_push_count, Nat.mod_eq_of_lt h]
  · rw [sub_queue.push_fst_full q d need_lock ns hi hf]
    exact ⟨rfl, fun h => Nat.mod_eq_of_lt h, rfl⟩
  · have hf' : ¬ (if q._fifo._write_idx + 1 = q._fifo._capacity then 0
        else q._fifo._write_idx + 1) = q._fifo._read_idx :=
      fun e => hf ((spsc_queue.full_iff q._fifo hi).mp e)
    refine ⟨by rw [sub_queue.push_fst_ok q d need_lock ns hi hf], ?_⟩
    rw [sub_queue.push_fifo, spsc_queue.emplace_ok_contents q._fifo d hi hf']

/-- Witness for C7: the second push into a queue of capacity 1 is dropped. -/
theorem C7_sub_push_counts_witness :
    (((sub_queue.new "s" "t" "T" 1 none).push ⟨0, 1, none, []⟩ false []).1.push
        ⟨1, 2, none, []⟩ true []).1._drop_count = (0 + 1) % UINT32_MOD :=
  ((C7_sub_push_counts ((sub_queue.new "s" "t" "T" 1 none).push ⟨0, 1, none, []⟩ false []).1
    (sub_queue.Reachable.push _ _ false []
      (sub_queue.Reachable.ctor "s" "t" "T" 1 none (by decide)))
    ⟨1, 2, none, []⟩ true []).2.2.1 (by decide)).1

/-- Counterexample to C7 as stated: the queue reached by 2^32 - 1 pushes has
`push_count` 4294967295, and the next push sets it to 0 instead of 4294967296. -/
theorem C7_push_count_wraps :
    sub_queue.Reachable ((sub_queue.new "s" "t" "T" 1 none).push_list []
        (List.replicate 4294967295 ⟨0, 0, none, []⟩)).1
      ∧ ((sub_queue.new "s" "t" "T" 1 none).push_list []
          (List.replicate 4294967295 ⟨0, 0, none, []⟩)).1._push_count = 4294967295
      ∧ (((sub_queue.new "s" "t" "T" 1 none).push_list []
          (List.replicate 4294967295 ⟨0, 0, none, []⟩)).1.push ⟨0, 0, none, []⟩ false
            []).1._push_count = 0 := by
  have hr := sub_queue.Reachable.ctor "s" "t" "T" 1 none (by decide)
  have hs := sub_queue.sub_push_list_spec (List.replicate 4294967295 ⟨0, 0, none, []⟩)
    (sub_queue.new "s" "t" "T" 1 none) [] []
    (spsc_queue.reachable_inv _ (sub_queue.reachable_fifo _ hr))
    (sub_queue.new_contents _ _) (by decide) (by decide)
  have h1 : ((sub_queue.new "s" "t" "T" 1 none).push_list []
      (List.replicate 4294967295 ⟨0, 0, none, []⟩)).1._push_count = 4294967295 := by
    rw [hs.1, List.length_replicate]; decide
  refine ⟨sub_queue.push_list_reachable _ _ _ hr, h1, ?_⟩
  rw [sub_queue.push_push_count, h1]; decide

/-- C9 (what the code does): `sub_queue::size()` is not the number of queued envelopes.  A
freshly constructed queue of capacity 16 holds no envelope and reports size 16; after the
Overflow scenario (capacity 4, 10 pushes, no pop) the queue holds 4 envelopes and reports
size 3. -/
theorem C9_size_off_by_one :
    (sub_queue.new "s" "t" "T" 16 none)._fifo.contents.length = 0
      ∧ (sub_queue.new "s" "t" "T" 16 none).size = 16
      ∧ ((sub_queue.new "s" "t" "T" 4 none).push_list []
          (List.replicate 10 ⟨0, 0, none, []⟩)).1._fifo.contents.length = 4
      ∧ ((sub_queue.new "s" "t" "T" 4 none).push_list []
          (List.replicate 10 ⟨0, 0, none, []⟩)).1.size = 3 := by
  refine ⟨by decide, by decide, by decide, by decide⟩

end vdds

namespace vdds

namespace sub_queue

theorem push_fst_indep (q : sub_queue) (d : data) (nl : Bool) (ns : List notifier) :
    (q.push d nl ns).1 = (q.push d false []).1 := rfl

theorem push_list_indep (ds : List data) : ∀ (q : sub_queue) (ns : List notifier),
    (q.push_list ns ds).1 = (q.push_list [] ds).1 := by
  induction ds with
  | nil => intro q ns; rfl
  | cons d ds ih =>
    intro q ns
    simp only [push_list]
    rw [ih _ (q.push d false ns).2, ih _ (q.push d false []).2]
    rfl

end sub_queue

namespace topic

theorem push_subs_spec (d : data) (nl : Bool) (ps : List Nat) :
    ∀ (heap : List (Option sub_queue)) (ns : List notifier), ps.Nodup →
      (push_subs d nl ps heap ns).1.length = heap.length
        ∧ ∀ p, (push_subs d nl ps heap ns).1.getD p none
            = if p ∈ ps then (heap.getD p none).map (fun q => (q.push d false []).1)
              else heap.getD p none := by
  induction ps with
  | nil => intro heap ns _; simp [push_subs]
  | cons a ps ih =>
    intro heap ns hnd
    rw [List.nodup_cons] at hnd
    cases hq : heap.getD a none with
    | none =>
      simp only [push_subs, hq]
      obtain ⟨i1, i2⟩ := ih heap ns hnd.2
      refine ⟨i1, fun p => ?_⟩
      rw [i2 p]
      by_cases hp : p = a
      · subst hp
        rw [if_neg hnd.1, if_pos (List.mem_cons_self _ _), hq]
        rfl
      · simp [hp]
    | some sq =>
      simp only [push_subs, hq]
      obtain ⟨i1, i2⟩ := ih (heap.set a (some (sq.push d nl ns).1)) (sq.push d nl ns).2 hnd.2
      refine ⟨by rw [i1, List.length_set], fun p => ?_⟩
      rw [i2 p]
      have ha : a < heap.length := by
        by_contra hge
        rw [List.getD_eq_default _ _ (Nat.le_of_not_lt hge)] at hq
        exact Option.noConfusion hq
      by_cases hp : p = a
      · subst hp
        simp only [hnd.1, if_false, List.mem_cons, true_or, if_true]
        rw [getD_set_eq _ _ _ _ ha, hq]
        rfl
      · have hpa : a ≠ p := fun e => hp e.symm
        rw [getD_set_ne _ _ _ _ _ hpa]
        simp [hp]

theorem push_fst (t : topic) (ph : Nat) (d : data) (ns : List notifier) :
    (t.push ph d ns).1 = { d with seqno := t._next_seqno } := rfl

theorem push_next_seqno (t : topic) (ph : Nat) (d : data) (ns : List notifier) :
    (t.push ph d ns).2.1._next_seqno = (t._next_seqno + 1) % UINT64_MOD := rfl

theorem push_cache (t : topic) (ph : Nat) (d : data) (ns : List notifier) :
    (t.push ph d ns).2.1._cache_ptr = t._cache_ptr := rfl

theorem push_refcnt (t : topic) (ph : Nat) (d : data) (ns : List notifier)
    (h : t._cache_refcnt = 0) : (t.push ph d ns).2.1._cache_refcnt = 0 := by
  simp only [push, cache_put, cache_get, h]
  decide

theorem push_heap (t : topic) (ph : Nat) (d : data) (ns : List notifier)
    (hnd : t._cache_ptr.subs.Nodup) :
    (t.push ph d ns).2.1.sub_heap.length = t.sub_heap.length
      ∧ ∀ p, (t.push ph d ns).2.1.sub_heap.getD p none
          = if p ∈ t._cache_ptr.subs then
              (t.sub_heap.getD p none).map
                (fun q => (q.push { d with seqno := t._next_seqno } false []).1)
            else t.sub_heap.getD p none :=
  push_subs_spec { d with seqno := t._next_seqno } (decide (t._cache_ptr.pubs.length > 1))
    t._cache_ptr.subs t.sub_heap ns hnd

theorem push_inv (t : topic) (ph : Nat) (d : data) (ns : List notifier) (h : Inv t) :
    Inv (t.push ph d ns).2.1 := by
  refine ⟨?_, push_refcnt t ph d ns h.refcnt, ?_, ?_⟩
  · rw [push_next_seqno]; exact Nat.mod_lt _ (by unfold UINT64_MOD; omega)
  · rw [push_cache]; exact h.nodup
  · rw [push_cache]
    intro p hp
    obtain ⟨q, hq, hr⟩ := h.live p hp
    refine ⟨(q.push { d with seqno := t._next_seqno } false []).1, ?_, ?_⟩
    · rw [(push_heap t ph d ns h.nodup).2 p, if_pos hp, hq]; rfl
    · exact sub_queue.Reachable.push q _ false [] hr

theorem topic_push_list_spec (pushes : List (Nat × data)) : ∀ (t : topic) (ns : List notifier),
    Inv t →
    (t.push_list ns pushes).1 = stamp t._next_seqno pushes
      ∧ Inv (t.push_list ns pushes).2.1
      ∧ (t.push_list ns pushes).2.1._cache_ptr = t._cache_ptr
      ∧ (t.push_list ns pushes).2.1._next_seqno
          = (t._next_seqno + pushes.length) % UINT64_MOD
      ∧ ∀ p ∈ t._cache_ptr.subs, ∀ q, t.sub_heap.getD p none = some q →
          (t.push_list ns pushes).2.1.sub_heap.getD p none
            = some (q.push_list [] (stamp t._next_seqno pushes)).1 := by
  induction pushes with
  | nil =>
    intro t ns h
    refine ⟨rfl, h, rfl, ?_, fun p _ q hq => hq⟩
    exact (Nat.mod_eq_of_lt h.seqno_lt).symm
  | cons a pushes ih =>
    intro t ns h
    obtain ⟨ph, d⟩ := a
    obtain ⟨i1, i2, i3, i4, i5⟩ := ih (t.push ph d ns).2.1 (t.push ph d ns).2.2
      (push_inv t ph d ns h)
    rw [push_next_seqno] at i1 i4 i5
    rw [push_cache] at i3 i5
    refine ⟨?_, i2, i3, ?_, ?_⟩
    · simp only [push_list, stamp, i1, push_fst]
    · simp only [push_list, i4, List.length_cons]
      rw [Nat.mod_add_mod]
      exact congrArg (fun x => x % UINT64_MOD) (by omega)
    · intro p hp q hq
      have hq' : (t.push ph d ns).2.1.sub_heap.getD p none
          = some (q.push { d with seqno := t._next_seqno } false []).1 := by
        rw [(push_heap t ph d ns h.nodup).2 p, if_pos hp, hq]; rfl
      have := i5 p hp _ hq'
      simp only [push_list, stamp]
      rw [this]
      exact congrArg some (sub_queue.push_list_indep _ _ (sub_queue.push q _ false []).2).symm

theorem uint32_lt_size_max (c : Nat) (h : c < UINT32_MOD) : c < SIZE_MAX := by
  unfold UINT32_MOD at h; unfold SIZE_MAX; omega

theorem fresh_new (P : Nat → Prop) (domain name dt : String) :
    Fresh P (topic.new domain name dt) :=
  ⟨rfl, rfl, rfl, fun o ho => absurd ho (List.not_mem_nil o)⟩

theorem fresh_subscribe (P : Nat → Prop) (t : topic) (h : Fresh P t) (name : String)
    (qsize : Nat) (ntfr : Option Nat) (hq : P qsize ∧ qsize < UINT32_MOD) :
    ∃ t1, t.subscribe name qsize ntfr = some (t.sub_heap.length, t1) ∧ Fresh P t1
      ∧ t1._cache_ptr.subs = t._cache_ptr.subs ++ [t.sub_heap.length]
      ∧ t1._cache_ptr.pubs = t._cache_ptr.pubs := by
  obtain ⟨h1, h2, h3, h4⟩ := h
  refine ⟨{ t with sub_heap := t.sub_heap ++ [some (sub_queue.new name t._name t._data_type
                                                        qsize ntfr)]
                   _cache_ptr := { subs := t._cache_ptr.subs ++ [t.sub_heap.length]
                                   pubs := t._cache_ptr.pubs } }, ?_, ?_, rfl, rfl⟩
  · simp only [subscribe, cache_swap, cache_copy, h2]
    rfl
  · refine ⟨h1, h2, ?_, ?_⟩
    · simp only [List.length_append, List.length_cons, List.length_nil, List.range_succ, h3]
    · intro o ho
      simp only [List.mem_append, List.mem_singleton] at ho
      rcases ho with ho | ho
      · exact h4 o ho
      · exact ⟨name, t._name, t._data_type, qsize, ntfr, ho, hq.1, hq.2⟩

theorem fresh_publish (P : Nat → Prop) (t : topic) (h : Fresh P t) (name : String) :
    ∃ t1, t.publish name = some (t.pub_heap.length, t1) ∧ Fresh P t1
      ∧ t1._cache_ptr.subs = t._cache_ptr.subs
      ∧ t1._cache_ptr.pubs = t._cache_ptr.pubs ++ [t.pub_heap.length] := by
  obtain ⟨h1, h2, h3, h4⟩ := h
  refine ⟨{ t with pub_heap := t.pub_heap ++ [some (pub_handle.new name t._name)]
                   _cache_ptr := { subs := t._cache_ptr.subs
                                   pubs := t._cache_ptr.pubs ++ [t.pub_heap.length] } },
    ?_, ⟨h1, h2, h3, h4⟩, rfl, rfl⟩
  simp only [publish, cache_swap, cache_copy, h2]
  rfl

theorem fresh_setup (P : Nat → Prop) (regs : List registration) : ∀ (t : topic), Fresh P t →
    (∀ name qsize ntfr, registration.sub name qsize ntfr ∈ regs →
      P qsize ∧ qsize < UINT32_MOD) →
    ∃ t1, t.setup regs = some t1 ∧ Fresh P t1
      ∧ t1._cache_ptr.subs.length
          = t._cache_ptr.subs.length + (regs.filter registration.is_sub).length
      ∧ t1._cache_ptr.pubs.length
          = t._cache_ptr.pubs.length + (regs.filter (fun r => !r.is_sub)).length := by
  induction regs with
  | nil => intro t h _; exact ⟨t, rfl, h, rfl, rfl⟩
  | cons r regs ih =>
    intro t h hfit
    have hfit' : ∀ name qsize ntfr, registration.sub name qsize ntfr ∈ regs →
        P qsize ∧ qsize < UINT32_MOD :=
      fun a b c hm => hfit a b c (List.mem_cons_of_mem _ hm)
    cases r with
    | sub name qsize ntfr =>
      obtain ⟨t1, e1, f1, s1, p1⟩ :=
        fresh_subscribe P t h name qsize ntfr (hfit name qsize ntfr (List.mem_cons_self _ _))
      obtain ⟨t2, e2, f2, s2, p2⟩ := ih t1 f1 hfit'
      refine ⟨t2, ?_, f2, ?_, ?_⟩
      · simp only [setup, e1, e2]
      · rw [s2, s1]; simp [registration.is_sub]; omega
      · rw [p2, p1]; simp [registration.is_sub]
    | pub name =>
      obtain ⟨t1, e1, f1, s1, p1⟩ := fresh_publish P t h name
      obtain ⟨t2, e2, f2, s2, p2⟩ := ih t1 f1 hfit'
      refine ⟨t2, ?_, f2, ?_, ?_⟩
      · simp only [setup, e1, e2]
      · rw [s2, s1]; simp [registration.is_sub]
      · rw [p2, p1]; simp [registration.is_sub]; omega

theorem fresh_live (P : Nat → Prop) (t : topic) (h : Fresh P t) (p : Nat)
    (hp : p ∈ t._cache_ptr.subs) :
    ∃ name tn dt c nt, t.sub_heap.getD p none = some (sub_queue.new name tn dt c nt)
      ∧ P c ∧ c < UINT32_MOD := by
  obtain ⟨_, _, h3, h4⟩ := h
  rw [h3, List.mem_range] at hp
  have hm : t.sub_heap[p] ∈ t.sub_heap := List.getElem_mem hp
  obtain ⟨name, tn, dt, c, nt, e, hc⟩ := h4 _ hm
  refine ⟨name, tn, dt, c, nt, ?_, hc⟩
  rw [List.getD_eq_getElem _ _ hp, e]

theorem fresh_inv (P : Nat → Prop) (t : topic) (h : Fresh P t) : Inv t := by
  refine ⟨?_, h.2.1, ?_, ?_⟩
  · rw [h.1]; unfold UINT64_MOD; omega
  · rw [h.2.2.1]; exact List.nodup_range _
  · intro p hp
    obtain ⟨name, tn, dt, c, nt, e, _, hc⟩ := fresh_live P t h p hp
    exact ⟨_, e, sub_queue.Reachable.ctor name tn dt c nt (uint32_lt_size_max c hc)⟩

theorem pop_some (t : topic) (sq : Nat) (d : data) (q : sub_queue)
    (hq : t.sub_heap.getD sq none = some q) :
    t.pop sq d = some ((q.pop d).1, (q.pop d).2.1,
      { t with sub_heap := t.sub_heap.set sq (some (q.pop d).2.2) }) := by
  simp only [pop, hq]

theorem heap_lt (heap : List (Option sub_queue)) (sq : Nat) (q : sub_queue)
    (hq : heap.getD sq none = some q) : sq < heap.length := by
  by_contra hge
  rw [List.getD_eq_default _ _ (Nat.le_of_not_lt hge)] at hq
  exact Option.noConfusion hq

theorem topic_pop_n_spec (sq : Nat) (xs : List data) : ∀ (t : topic) (rest : List data) (d0 : data)
    (q : sub_queue), t.sub_heap.getD sq none = some q → spsc_queue.Inv q._fifo →
    q._fifo.contents = (xs ++ rest).map some →
    ∃ t1 q1, t.pop_n sq d0 xs.length = some (xs.map (fun x => (true, x)), t1)
      ∧ t1.sub_heap.getD sq none = some q1 ∧ spsc_queue.Inv q1._fifo
      ∧ q1._fifo.contents = rest.map some
      ∧ q1._push_count = q._push_count ∧ q1._drop_count = q._drop_count := by
  induction xs with
  | nil =>
    intro t rest d0 q hq hi hc
    exact ⟨t, q, rfl, hq, hi, by simpa using hc, rfl, rfl⟩
  | cons x xs ih =>
    intro t rest d0 q hq hi hc
    have hc' : q._fifo.contents = some x :: (xs ++ rest).map some := by
      rw [hc]; simp
    obtain ⟨e1, e2⟩ := spsc_queue.pop_out_nonempty q._fifo hi x _ hc' d0
    have hinv := spsc_queue.pop_out_inv q._fifo hi d0
    rw [e1] at hinv
    have hpop : q.pop d0 = (true, x, { q with _fifo := q._fifo.front.2.pop }) := by
      simp only [sub_queue.pop, e1]
    have hlt := heap_lt t.sub_heap sq q hq
    obtain ⟨t1, q1, i1, i2, i3, i4, i5, i6⟩ :=
      ih { t with sub_heap := t.sub_heap.set sq (some { q with _fifo := q._fifo.front.2.pop }) }
        rest x { q with _fifo := q._fifo.front.2.pop }
        (by simp only []; rw [getD_set_eq _ _ _ _ hlt]) hinv e2
    refine ⟨t1, q1, ?_, i2, i3, i4, i5, i6⟩
    simp only [List.length_cons, pop_n, pop_some t sq d0 q hq, hpop, i1, List.map_cons]

theorem pop_empty (t : topic) (sq : Nat) (d : data) (q : sub_queue)
    (hq : t.sub_heap.getD sq none = some q) (hi : spsc_queue.Inv q._fifo)
    (hc : q._fifo.contents = []) :
    (t.pop sq d).map (fun r => (r.1, r.2.1)) = some (false, d) := by
  rw [pop_some t sq d q hq]
  simp only [sub_queue.pop, spsc_queue.pop_out_empty q._fifo hi hc, Option.map_some']

theorem stamp_length (pushes : List (Nat × data)) : ∀ s, (stamp s pushes).length = pushes.length := by
  induction pushes with
  | nil => intro s; rfl
  | cons a pushes ih => intro s; obtain ⟨ph, d⟩ := a; simp [stamp, ih]

theorem stamp_seqno (pushes : List (Nat × data)) : ∀ s, s < UINT64_MOD →
    (stamp s pushes).map (fun d => d.seqno)
      = (List.range pushes.length).map (fun i => (s + i) % UINT64_MOD) := by
  induction pushes with
  | nil => intro s _; rfl
  | cons a pushes ih =>
    intro s hs
    obtain ⟨ph, d⟩ := a
    have hM : 0 < UINT64_MOD := by unfold UINT64_MOD; omega
    simp only [stamp, List.map_cons, List.length_cons, List.range_succ_eq_map, List.map_map,
      ih _ (Nat.mod_lt (s + 1) hM)]
    refine congrArg₂ _ ?_ (List.map_congr_left fun i _ => ?_)
    · simp [Nat.mod_eq_of_lt hs]
    · simp only [Function.comp, Nat.succ_eq_add_one, Nat.mod_add_mod]
      exact congrArg (fun x => x % UINT64_MOD) (by omega)

theorem stamp_seqno_range (pushes : List (Nat × data)) (h : pushes.length ≤ UINT64_MOD) :
    (stamp 0 pushes).map (fun d => d.seqno) = List.range pushes.length := by
  have hM : 0 < UINT64_MOD := by unfold UINT64_MOD; omega
  rw [stamp_seqno pushes 0 hM]
  conv_rhs => rw [← List.map_id (List.range pushes.length)]
  apply List.map_congr_left
  intro i hi
  rw [List.mem_range] at hi
  simp only [Nat.zero_add, id]
  exact Nat.mod_eq_of_lt (by omega)

end topic

namespace sub_queue

theorem fresh_push_list (name tn dt : String) (c : Nat) (nt : Option Nat) (hc : c < UINT32_MOD)
    (ds : List data) :
    ((sub_queue.new name tn dt c nt).push_list [] ds).1._push_count = ds.length % UINT32_MOD
      ∧ ((sub_queue.new name tn dt c nt).push_list [] ds).1._drop_count
          = (ds.length - max c 1) % UINT32_MOD
      ∧ ((sub_queue.new name tn dt c nt).push_list [] ds).1._fifo.contents
          = (ds.take (max c 1)).map some
      ∧ spsc_queue.Inv ((sub_queue.new name tn dt c nt).push_list [] ds).1._fifo
      ∧ ((sub_queue.new name tn dt c nt).push_list [] ds).1._fifo.capacity = max c 1
      ∧ ((sub_queue.new name tn dt c nt).push_list [] ds).1._capacity = c := by
  have hM : 0 < UINT32_MOD := by unfold UINT32_MOD; omega
  have hs := topic.uint32_lt_size_max c hc
  have hk := kPadding_le sizeof_data
  have hcap : (sub_queue.new name tn dt c nt)._fifo.capacity = max c 1 :=
    new_fifo_capacity sizeof_data c hs (by unfold UINT32_MOD at hc; unfold SIZE_MAX; omega)
  obtain ⟨i1, i2, i3, i4, i5, i6⟩ := sub_push_list_spec ds (sub_queue.new name tn dt c nt) [] []
    (spsc_queue.new_inv sizeof_data c hs) (new_contents _ _) hM hM
  rw [hcap] at i2 i3 i5
  refine ⟨?_, ?_, ?_, i4, i5, i6⟩
  · rw [i1]; exact congrArg (fun x => x % UINT32_MOD) (Nat.zero_add _)
  · rw [i2]
    exact congrArg (fun x => x % UINT32_MOD)
      (show 0 + (0 + ds.length - max c 1) = ds.length - max c 1 by
        rw [Nat.zero_add, Nat.zero_add])
  · rw [i3]; rfl

end sub_queue

/-- C5: fan-out.  On a fresh topic set up by any sequence of `subscribe` and `publish`
calls (so with any number `k` of subscribers and any number of publishers, in particular
one), every subscriber queue having a capacity of at least `n` (and below 2^32, `qsize`
being an `unsigned int`): the setup succeeds, and after `n` pushes and no pop, every
subscriber pops exactly `n` envelopes, each pop returning `true`; they carry the seqnos
`0, 1, ..., n-1` in that order and are the envelopes the pushes handed back to the
publisher; the next pop of the subscriber returns `false` (and leaves the caller's
envelope as it was). -/
theorem C5_fan_out (domain name dt : String) (regs : List registration)
    (pushes : List (Nat × data)) (ns : List notifier)
    (hfit : ∀ sname qsize ntfr, registration.sub sname qsize ntfr ∈ regs →
      pushes.length ≤ qsize ∧ qsize < UINT32_MOD) :
    ∃ t0, (topic.new domain name dt).setup regs = some t0
      ∧ t0._cache_ptr.subs.length = (regs.filter registration.is_sub).length
      ∧ t0._cache_ptr.pubs.length = (regs.filter (fun r => !r.is_sub)).length
      ∧ ∀ sq ∈ t0._cache_ptr.subs, ∀ d0, ∃ popped t2,
          (t0.push_list ns pushes).2.1.pop_n sq d0 pushes.length = some (popped, t2)
            ∧ popped.map (fun r => (r.1, r.2.seqno))
                = (List.range pushes.length).map (fun i => (true, i))
            ∧ popped.map (fun r => r.2) = (t0.push_list ns pushes).1
            ∧ ∀ d1, (t2.pop sq d1).map (fun r => (r.1, r.2.1)) = some (false, d1) := by
  obtain ⟨t0, e0, f0, s0, p0⟩ :=
    topic.fresh_setup (fun c => pushes.length ≤ c) regs _ (topic.fresh_new _ domain name dt) hfit
  have hinv := topic.fresh_inv _ t0 f0
  obtain ⟨l1, l2, l3, l4, l5⟩ := topic.topic_push_list_spec pushes t0 ns hinv
  rw [f0.1] at l1 l5
  refine ⟨t0, e0, by simpa [topic.new] using s0, by simpa [topic.new] using p0, ?_⟩
  intro sq hsq d0
  obtain ⟨qname, tn, qdt, c, nt, eq, hn, hc⟩ := topic.fresh_live _ t0 f0 sq hsq
  obtain ⟨c1, c2, c3, c4, c5, c6⟩ :=
    sub_queue.fresh_push_list qname tn qdt c nt hc (topic.stamp 0 pushes)
  have hq := l5 sq hsq _ eq
  have htake : (topic.stamp 0 pushes).take (max c 1) = topic.stamp 0 pushes := by
    apply List.take_of_length_le
    rw [topic.stamp_length]
    exact le_trans hn (le_max_left c 1)
  rw [htake] at c3
  obtain ⟨t2, q2, o1, o2, o3, o4, _, _⟩ :=
    topic.topic_pop_n_spec sq (topic.stamp 0 pushes) (t0.push_list ns pushes).2.1 [] d0 _ hq c4
      (by rw [c3, List.append_nil])
  rw [topic.stamp_length] at o1
  have hseq : (topic.stamp 0 pushes).map (fun d => d.seqno) = List.range pushes.length := by
    apply topic.stamp_seqno_range
    unfold UINT32_MOD at hc; unfold UINT64_MOD; omega
  refine ⟨_, t2, o1, ?_, ?_, fun d1 => topic.pop_empty t2 sq d1 q2 o2 o3 (by simpa using o4)⟩
  · rw [List.map_map, ← hseq, List.map_map]; rfl
  · rw [List.map_map, l1]
    exact List.map_id _

/-- Witness for C5: one publisher, two subscribers with queue sizes 4 and 16, three
pushes; each subscriber pops seqno 0, 1, 2. -/
theorem C5_fan_out_witness :
    ∃ t0, (topic.new "" "/t" "X").setup
        [registration.sub "s0" 4 none, registration.pub "p", registration.sub "s1" 16 none]
          = some t0
      ∧ t0._cache_ptr.subs.length = 2 ∧ t0._cache_ptr.pubs.length = 1
      ∧ ∀ sq ∈ t0._cache_ptr.subs, ∃ popped t2,
          (t0.push_list [] [(0, ⟨7, 100, none, [1]⟩), (0, ⟨7, 101, none, [2]⟩),
              (0, ⟨7, 102, none, [3]⟩)]).2.1.pop_n sq ⟨0, 0, none, []⟩ 3 = some (popped, t2)
            ∧ popped.map (fun r => (r.1, r.2.seqno)) = [(true, 0), (true, 1), (true, 2)] := by
  obtain ⟨t0, h0, h1, h2, h3⟩ := C5_fan_out "" "/t" "X"
    [registration.sub "s0" 4 none, registration.pub "p", registration.sub "s1" 16 none]
    [(0, ⟨7, 100, none, [1]⟩), (0, ⟨7, 101, none, [2]⟩), (0, ⟨7, 102, none, [3]⟩)] []
    (by
      intro sname qsize ntfr h
      simp only [List.mem_cons, registration.sub.injEq, List.mem_singleton, List.mem_nil_iff,
        or_false, false_or, reduceCtorEq] at h
      rcases h with ⟨_, h, _⟩ | ⟨_, h, _⟩ <;> subst h <;> decide)
  refine ⟨t0, h0, h1, h2, fun sq hsq => ?_⟩
  obtain ⟨popped, t2, p1, p2, _⟩ := h3 sq hsq ⟨0, 0, none, []⟩
  exact ⟨popped, t2, p1, p2⟩

end vdds

namespace vdds

namespace topic

theorem cache_swap_seqno (t t1 : topic) (c : cache) (h : t.cache_swap c = some t1) :
    t1._next_seqno = t._next_seqno ∧ t1.sub_heap = t.sub_heap ∧ t1.pub_heap = t.pub_heap
      ∧ t1._cache_ptr = c ∧ t1._cache_refcnt = 0 ∧ t._cache_refcnt = 0 := by
  unfold cache_swap at h
  simp only [] at h
  split_ifs at h with hc
  have e := Option.some.inj h
  subst e
  exact ⟨rfl, rfl, rfl, rfl, by simpa using hc, by simpa using hc⟩

theorem step_seqno (t : topic) (ns : List notifier) (op : topic_op) (o : topic_out)
    (t1 : topic) (ns1 : List notifier) (h : t.step ns op = some (o, t1, ns1)) :
    (op.is_push = true →
        o.pushed_seqno = some t._next_seqno
          ∧ t1._next_seqno = (t._next_seqno + 1) % UINT64_MOD)
      ∧ (op.is_push = false → o.pushed_seqno = none ∧ t1._next_seqno = t._next_seqno) := by
  cases op with
  | subscribe name qsize ntfr =>
    simp only [step, subscribe, Option.map_eq_some', Option.map_map] at h
    obtain ⟨a, ha, e⟩ := h
    simp only [Function.comp, Prod.mk.injEq] at e
    obtain ⟨e1, e2, _⟩ := e
    subst e1 e2
    exact ⟨fun c => absurd c (by simp [topic_op.is_push]),
      fun _ => ⟨rfl, (cache_swap_seqno _ _ _ ha).1⟩⟩
  | publish name =>
    simp only [step, publish, Option.map_eq_some', Option.map_map] at h
    obtain ⟨a, ha, e⟩ := h
    simp only [Function.comp, Prod.mk.injEq] at e
    obtain ⟨e1, e2, _⟩ := e
    subst e1 e2
    exact ⟨fun c => absurd c (by simp [topic_op.is_push]),
      fun _ => ⟨rfl, (cache_swap_seqno _ _ _ ha).1⟩⟩
  | unsubscribe q =>
    simp only [step, unsubscribe, Option.map_eq_some'] at h
    obtain ⟨a, ha, e⟩ := h
    simp only [Prod.mk.injEq] at e
    obtain ⟨e1, e2, _⟩ := e
    subst e1 e2
    refine ⟨fun c => absurd c (by simp [topic_op.is_push]), fun _ => ⟨rfl, ?_⟩⟩
    split at ha
    · exact Option.noConfusion ha
    · simp only [Option.map_eq_some'] at ha
      obtain ⟨b, hb, e⟩ := ha
      subst e
      exact (cache_swap_seqno _ _ _ hb).1
  | unpublish p =>
    simp only [step, unpublish, Option.map_eq_some'] at h
    obtain ⟨a, ha, e⟩ := h
    simp only [Prod.mk.injEq] at e
    obtain ⟨e1, e2, _⟩ := e
    subst e1 e2
    refine ⟨fun c => absurd c (by simp [topic_op.is_push]), fun _ => ⟨rfl, ?_⟩⟩
    split at ha
    · exact Option.noConfusion ha
    · simp only [Option.map_eq_some'] at ha
      obtain ⟨b, hb, e⟩ := ha
      subst e
      exact (cache_swap_seqno _ _ _ hb).1
  | push ph d =>
    simp only [step, Option.some.injEq, Prod.mk.injEq] at h
    obtain ⟨e1, e2⟩ := h
    subst e1
    have e3 : t1 = (t.push ph d ns).2.1 := by rw [e2]
    subst e3
    exact ⟨fun _ => ⟨rfl, rfl⟩, fun c => absurd c (by simp [topic_op.is_push])⟩
  | pop sq d =>
    simp only [step, Option.map_eq_some'] at h
    obtain ⟨a, ha, e⟩ := h
    simp only [Prod.mk.injEq] at e
    obtain ⟨e1, e2, _⟩ := e
    subst e1 e2
    refine ⟨fun c => absurd c (by simp [topic_op.is_push]), fun _ => ⟨rfl, ?_⟩⟩
    unfold pop at ha
    split at ha
    · exact Option.noConfusion ha
    · have e := Option.some.inj ha
      subst e
      rfl

theorem push_fst_seqno (t : topic) (ph : Nat) (d : data) (ns : List notifier) :
    (t.push ph d ns).1.seqno = t._next_seqno := rfl

theorem run_seqno (ops : List topic_op) : ∀ (t : topic) (ns : List notifier)
    (outs : List topic_out) (t1 : topic) (ns1 : List notifier),
    t.run ns ops = some (outs, t1, ns1) → t._next_seqno < UINT64_MOD →
    outs.filterMap topic_out.pushed_seqno
        = (List.range (ops.filter topic_op.is_push).length).map
            (fun i => (t._next_seqno + i) % UINT64_MOD)
      ∧ t1._next_seqno = (t._next_seqno + (ops.filter topic_op.is_push).length) % UINT64_MOD := by
  have hM : 0 < UINT64_MOD := by unfold UINT64_MOD; omega
  induction ops with
  | nil =>
    intro t ns outs t1 ns1 h hs
    simp only [run, Option.some.injEq, Prod.mk.injEq] at h
    obtain ⟨e1, e2, _⟩ := h
    subst e1 e2
    exact ⟨rfl, (Nat.mod_eq_of_lt hs).symm⟩
  | cons op ops ih =>
    intro t ns outs t1 ns1 h hs
    simp only [run] at h
    split at h
    · exact Option.noConfusion h
    · rename_i r hr
      split at h
      · exact Option.noConfusion h
      · rename_i rest hrest
        simp only [Option.some.injEq, Prod.mk.injEq] at h
        obtain ⟨e1, e2⟩ := h
        subst e1
        have e3 : rest.2 = (t1, ns1) := e2
        obtain ⟨r1, r2, r3⟩ := r
        obtain ⟨o1, o2, o3⟩ := rest
        simp only [Prod.mk.injEq] at e3
        obtain ⟨e4, e5⟩ := e3
        subst e4 e5
        have hst := step_seqno t ns op r1 r2 r3 hr
        cases hp : op.is_push with
        | true =>
          obtain ⟨s1, s2⟩ := hst.1 hp
          obtain ⟨i1, i2⟩ := ih r2 r3 o1 o2 o3 hrest (by rw [s2]; exact Nat.mod_lt _ hM)
          rw [s2] at i1 i2
          simp only [List.filterMap_cons, s1, List.filter_cons, hp, if_true, List.length_cons,
            List.range_succ_eq_map, List.map_cons, List.map_map, i1, i2]
          refine ⟨congrArg₂ _ ?_ (List.map_congr_left fun i _ => ?_), ?_⟩
          · simp [Nat.mod_eq_of_lt hs]
          · simp only [Function.comp, Nat.succ_eq_add_one, Nat.mod_add_mod]
            exact congrArg (fun x => x % UINT64_MOD) (by omega)
          · rw [Nat.mod_add_mod]
            exact congrArg (fun x => x % UINT64_MOD) (by omega)
        | false =>
          obtain ⟨s1, s2⟩ := hst.2 hp
          obtain ⟨i1, i2⟩ := ih r2 r3 o1 o2 o3 hrest (by rw [s2]; exact hs)
          rw [s2] at i1 i2
          simp only [List.filterMap_cons, s1, List.filter_cons, hp, i1, i2]
          exact ⟨rfl, rfl⟩

end topic

/-- C6 (amended): on a topic run from its constructor through any sequence of calls
(subscribe, unsubscribe, publish, unpublish, push with any handle and any envelope, pop),
the `i`-th push (counting from 0) hands back the envelope with seqno `i mod 2^64`, and the
sequence counter ends at the number of pushes modulo 2^64.  While at most 2^64 pushes were
made the seqnos are `0, 1, ..., n-1`, hence strictly increasing in push order and
pairwise distinct, and while fewer than 2^64 were made the counter equals their number. -/
theorem C6_seqno_is_push_index (domain name dt : String) (ops : List topic_op)
    (ns : List notifier) (outs : List topic_out) (t1 : topic) (ns1 : List notifier)
    (h : (topic.new domain name dt).run ns ops = some (outs, t1, ns1)) :
    outs.filterMap topic_out.pushed_seqno
        = (List.range (ops.filter topic_op.is_push).length).map (fun i => i % UINT64_MOD)
      ∧ t1._next_seqno = (ops.filter topic_op.is_push).length % UINT64_MOD
      ∧ ((ops.filter topic_op.is_push).length ≤ UINT64_MOD →
          outs.filterMap topic_out.pushed_seqno
              = List.range (ops.filter topic_op.is_push).length
            ∧ (outs.filterMap topic_out.pushed_seqno).Pairwise (fun a b => a < b)
            ∧ (outs.filterMap topic_out.pushed_seqno).Nodup)
      ∧ ((ops.filter topic_op.is_push).length < UINT64_MOD →
          t1._next_seqno = (ops.filter topic_op.is_push).length) := by
  have hM : 0 < UINT64_MOD := by unfold UINT64_MOD; omega
  obtain ⟨r1, r2⟩ := topic.run_seqno ops _ ns outs t1 ns1 h hM
  have e0 : (topic.new domain name dt)._next_seqno = 0 := rfl
  rw [e0] at r1 r2
  simp only [Nat.zero_add] at r1 r2
  have hr : (ops.filter topic_op.is_push).length ≤ UINT64_MOD →
      outs.filterMap topic_out.pushed_seqno = List.range (ops.filter topic_op.is_push).length := by
    intro hle
    rw [r1]
    conv_rhs => rw [← List.map_id (List.range (ops.filter topic_op.is_push).length)]
    apply List.map_congr_left
    intro i hi
    rw [List.mem_range] at hi
    exact Nat.mod_eq_of_lt (by omega)
  refine ⟨r1, r2, fun hle => ⟨hr hle, ?_, ?_⟩, fun hlt => ?_⟩
  · rw [hr hle]; exact List.pairwise_lt_range _
  · rw [hr hle]; exact List.nodup_range _
  · rw [r2]; exact Nat.mod_eq_of_lt hlt

/-- Witness for C6: two pushes through different handles, with a subscribe in between;
the caller's seqnos 77 and 88 are replaced by 0 and 1. -/
theorem C6_seqno_is_push_index_witness :
    ∃ outs t1 ns1, (topic.new "" "/t" "X").run []
        [topic_op.push 3 ⟨77, 5, none, []⟩, topic_op.subscribe "s" 4 none,
          topic_op.push 9 ⟨88, 6, none, []⟩] = some (outs, t1, ns1)
      ∧ outs.filterMap topic_out.pushed_seqno = [0, 1] := by
  have hs : ((topic.new "" "/t" "X").run []
      [topic_op.push 3 ⟨77, 5, none, []⟩, topic_op.subscribe "s" 4 none,
        topic_op.push 9 ⟨88, 6, none, []⟩]).isSome = true := by decide
  obtain ⟨⟨outs, t1, ns1⟩, h⟩ := Option.isSome_iff_exists.mp hs
  exact ⟨outs, t1, ns1, h,
    ((C6_seqno_is_push_index "" "/t" "X" _ [] outs t1 ns1 h).2.2.1 (by decide)).1⟩

/-- Counterexample to C6 as stated: after 2^64 pushes the sequence counter is 0 again, not
2^64, and push number 2^64 (counting from 0) hands back seqno 0. -/
theorem C6_seqno_wraps :
    ((topic.new "" "/t" "X").push_list []
        (List.replicate 18446744073709551616 (0, ⟨0, 0, none, []⟩))).2.1._next_seqno = 0
      ∧ (((topic.new "" "/t" "X").push_list []
          (List.replicate 18446744073709551616 (0, ⟨0, 0, none, []⟩))).2.1.push 0
            ⟨5, 0, none, []⟩ []).1.seqno = 0 := by
  have hs := (topic.topic_push_list_spec (List.replicate 18446744073709551616 (0, ⟨0, 0, none, []⟩))
    (topic.new "" "/t" "X") [] (topic.fresh_inv (fun _ => True) _ (topic.fresh_new _ "" "/t" "X"))).2.2.2.1
  have h0 : ((topic.new "" "/t" "X").push_list []
      (List.replicate 18446744073709551616 (0, ⟨0, 0, none, []⟩))).2.1._next_seqno = 0 := by
    rw [hs, List.length_replicate]
    show (0 + 18446744073709551616) % UINT64_MOD = 0
    unfold UINT64_MOD
    norm_num
  exact ⟨h0, (topic.push_fst_seqno _ 0 ⟨5, 0, none, []⟩ []).trans h0⟩

end vdds

namespace vdds

namespace topic

theorem single_sub_setup (domain name dt : String) (regs : List registration) (sname : String)
    (c : Nat) (ntfr : Option Nat)
    (hone : regs.filter registration.is_sub = [registration.sub sname c ntfr])
    (hc : c < UINT32_MOD) :
    ∃ t0, (topic.new domain name dt).setup regs = some t0 ∧ Inv t0 ∧ t0._next_seqno = 0
      ∧ t0._cache_ptr.subs = [0]
      ∧ t0._cache_ptr.pubs.length = (regs.filter (fun r => !r.is_sub)).length
      ∧ ∃ qn tn qdt nt, t0.sub_heap.getD 0 none = some (sub_queue.new qn tn qdt c nt) := by
  have hfit : ∀ n qsize nt, registration.sub n qsize nt ∈ regs →
      qsize = c ∧ qsize < UINT32_MOD := by
    intro n qsize nt hm
    have hm' : registration.sub n qsize nt ∈ regs.filter registration.is_sub :=
      List.mem_filter.mpr ⟨hm, rfl⟩
    rw [hone, List.mem_singleton] at hm'
    simp only [registration.sub.injEq] at hm'
    exact ⟨hm'.2.1, by rw [hm'.2.1]; exact hc⟩
  obtain ⟨t0, e0, f0, s0, p0⟩ :=
    fresh_setup (fun q => q = c) regs _ (fresh_new _ domain name dt) hfit
  have hsubs : t0._cache_ptr.subs = [0] := by
    have hl : t0._cache_ptr.subs.length = 1 := by rw [s0, hone]; rfl
    rw [f0.2.2.1, List.length_range] at hl
    rw [f0.2.2.1, hl]; rfl
  obtain ⟨qn, tn, qdt, c', nt, e, hc', _⟩ :=
    fresh_live _ t0 f0 0 (by rw [hsubs]; exact List.mem_singleton_self 0)
  refine ⟨t0, e0, fresh_inv _ t0 f0, f0.1, hsubs, by simpa [topic.new] using p0,
    qn, tn, qdt, nt, ?_⟩
  rw [e, hc']

theorem stamp_take_seqno (pushes : List (Nat × data)) (c : Nat) (hc : c ≤ UINT64_MOD) :
    ((stamp 0 pushes).take c).map (fun d => d.seqno) = List.range (min c pushes.length) := by
  have hM : 0 < UINT64_MOD := by unfold UINT64_MOD; omega
  rw [List.map_take, stamp_seqno pushes 0 hM, ← List.map_take, List.take_range]
  conv_rhs => rw [← List.map_id (List.range (min c pushes.length))]
  apply List.map_congr_left
  intro i hi
  rw [List.mem_range] at hi
  simp only [Nat.zero_add, id]
  exact Nat.mod_eq_of_lt (by omega)

/-- What `n` pushes and no pop leave in the only subscriber queue of a fresh topic. -/
theorem single_sub_push_list (domain name dt : String) (regs : List registration)
    (sname : String) (c : Nat) (ntfr : Option Nat)
    (hone : regs.filter registration.is_sub = [registration.sub sname c ntfr])
    (hc : c < UINT32_MOD) (pushes : List (Nat × data)) (ns : List notifier) :
    ∃ t0 q, (topic.new domain name dt).setup regs = some t0
      ∧ t0._cache_ptr.subs = [0]
      ∧ t0._cache_ptr.pubs.length = (regs.filter (fun r => !r.is_sub)).length
      ∧ (t0.push_list ns pushes).2.1.sub_heap.getD 0 none = some q
      ∧ (t0.push_list ns pushes).1 = stamp 0 pushes
      ∧ q._push_count = pushes.length % UINT32_MOD
      ∧ q._drop_count = (pushes.length - max c 1) % UINT32_MOD
      ∧ q._fifo.contents = ((stamp 0 pushes).take (max c 1)).map some
      ∧ spsc_queue.Inv q._fifo
      ∧ q._fifo.capacity = max c 1
      ∧ q._capacity = c := by
  obtain ⟨t0, e0, hinv, hseq, hsubs, hpubs, qn, tn, qdt, nt, hq⟩ :=
    single_sub_setup domain name dt regs sname c ntfr hone hc
  obtain ⟨l1, _, _, _, l5⟩ := topic_push_list_spec pushes t0 ns hinv
  rw [hseq] at l1 l5
  have hq' := l5 0 (by rw [hsubs]; exact List.mem_singleton_self 0) _ hq
  obtain ⟨c1, c2, c3, c4, c5, c6⟩ :=
    sub_queue.fresh_push_list qn tn qdt c nt hc (stamp 0 pushes)
  rw [stamp_length] at c1 c2
  exact ⟨t0, _, e0, hsubs, hpubs, hq', l1, c1, c2, c3, c4, c5, c6⟩

end topic

/-- C8 (amended): overflow.  On a fresh topic with a single subscriber queue of capacity
`c`, `1 ≤ c < 2^32`, and any number of publishers (in particular one), after `n` pushes
and no pop: `push_count == n mod 2^32` and `drop_count == max(0, n - c) mod 2^32` (the
counters are `uint32_t`; both equalities hold without the reduction while `n < 2^32`),
and the queue retains exactly the first `min(n, c)` envelopes pushed: popping yields them
in push order, with seqno `0 .. min(n, c) - 1`, and then fails. -/
theorem C8_overflow_counts (domain name dt : String) (regs : List registration)
    (sname : String) (c : Nat) (ntfr : Option Nat)
    (hone : regs.filter registration.is_sub = [registration.sub sname c ntfr])
    (hc1 : 1 ≤ c) (hc : c < UINT32_MOD) (pushes : List (Nat × data)) (ns : List notifier) :
    ∃ t0 sq q, (topic.new domain name dt).setup regs = some t0
      ∧ t0._cache_ptr.subs = [sq]
      ∧ t0._cache_ptr.pubs.length = (regs.filter (fun r => !r.is_sub)).length
      ∧ (t0.push_list ns pushes).2.1.sub_heap.getD sq none = some q
      ∧ q.capacity = c
      ∧ q.push_count = pushes.length % UINT32_MOD
      ∧ q.drop_count = (pushes.length - c) % UINT32_MOD
      ∧ (pushes.length < UINT32_MOD →
          q.push_count = pushes.length ∧ q.drop_count = pushes.length - c)
      ∧ q._fifo.contents = (((t0.push_list ns pushes).1).take c).map some
      ∧ ∀ d0, ∃ popped t2,
          (t0.push_list ns pushes).2.1.pop_n sq d0 (min c pushes.length) = some (popped, t2)
            ∧ popped.map (fun r => (r.1, r.2.seqno))
                = (List.range (min c pushes.length)).map (fun i => (true, i))
            ∧ popped.map (fun r => r.2) = ((t0.push_list ns pushes).1).take c
            ∧ ∀ d1, (t2.pop sq d1).map (fun r => (r.1, r.2.1)) = some (false, d1) := by
  obtain ⟨t0, q, e0, hsubs, hpubs, hq, hst, h1, h2, h3, h4, h5, h6⟩ :=
    topic.single_sub_push_list domain name dt regs sname c ntfr hone hc pushes ns
  have hmax : max c 1 = c := max_eq_left hc1
  rw [hmax] at h2 h3 h5
  refine ⟨t0, 0, q, e0, hsubs, hpubs, hq, h6, h1, h2, fun hn => ⟨?_, ?_⟩, by rw [hst]; exact h3, ?_⟩
  · exact h1.trans (Nat.mod_eq_of_lt hn)
  · exact h2.trans (Nat.mod_eq_of_lt (lt_of_le_of_lt (Nat.sub_le _ _) hn))
  · intro d0
    obtain ⟨t2, q2, o1, o2, o3, o4, _, _⟩ :=
      topic.topic_pop_n_spec 0 ((topic.stamp 0 pushes).take c) (t0.push_list ns pushes).2.1 [] d0 q hq h4
        (by rw [h3, List.append_nil])
    rw [List.length_take, topic.stamp_length] at o1
    have hseq := topic.stamp_take_seqno pushes c
      (by unfold UINT32_MOD at hc; unfold UINT64_MOD; omega)
    refine ⟨_, t2, o1, ?_, ?_, fun d1 => topic.pop_empty t2 0 d1 q2 o2 o3 (by simpa using o4)⟩
    · rw [List.map_map, ← hseq, List.map_map]; rfl
    · rw [List.map_map, hst]
      exact List.map_id _

/-- Witness for C8: the Overflow scenario, capacity 4 and 10 pushes, ends with
`push_count` 10 and `drop_count` 6. -/
theorem C8_overflow_counts_witness :
    ∃ t0 sq q, (topic.new "" "/t" "X").setup
          [registration.sub "s" 4 none, registration.pub "p"] = some t0
      ∧ (t0.push_list [] (List.replicate 10 (0, ⟨0, 0, none, []⟩))).2.1.sub_heap.getD sq none
          = some q
      ∧ q.push_count = 10 ∧ q.drop_count = 6 := by
  obtain ⟨t0, sq, q, h0, _, _, h1, _, _, _, h2, _⟩ := C8_overflow_counts "" "/t" "X"
    [registration.sub "s" 4 none, registration.pub "p"] "s" 4 none rfl (by decide) (by decide)
    (List.replicate 10 (0, ⟨0, 0, none, []⟩)) []
  exact ⟨t0, sq, q, h0, h1, (h2 (by decide)).1, (h2 (by decide)).2⟩

/-- Counterexample to C8 as stated: with capacity 1, after 2^32 pushes and no pop
`push_count` is 0, not 4294967296. -/
theorem C8_push_count_wraps :
    ∃ t0 q, (topic.new "" "/t" "X").setup
          [registration.sub "s" 1 none, registration.pub "p"] = some t0
      ∧ (t0.push_list [] (List.replicate 4294967296 (0, ⟨0, 0, none, []⟩))).2.1.sub_heap.getD
          0 none = some q
      ∧ q.push_count = 0 := by
  obtain ⟨t0, q, e0, _, _, hq, _, h1, _⟩ := topic.single_sub_push_list "" "/t" "X"
    [registration.sub "s" 1 none, registration.pub "p"] "s" 1 none rfl (by decide)
    (List.replicate 4294967296 (0, ⟨0, 0, none, []⟩)) []
  refine ⟨t0, q, e0, hq, ?_⟩
  rw [List.length_replicate] at h1
  exact h1.trans (by decide)

end vdds

namespace vdds

namespace spsc_queue

variable {T : Type}

theorem emplace_capacity (q : spsc_queue T) (v : T) : (q.emplace v).2._capacity = q._capacity := by
  unfold emplace
  simp only []
  split_ifs <;> rfl

theorem pop_out_capacity (q : spsc_queue T) (v : T) :
    (q.pop_out v).2.2._capacity = q._capacity := by
  unfold pop_out front
  simp only []
  split_ifs <;> rfl

end spsc_queue

namespace sub_queue

theorem pop_of_empty (q : sub_queue) (hi : spsc_queue.Inv q._fifo)
    (he : q._fifo.contents = []) (d : data) : q.pop d = (false, d, q) := by
  unfold pop
  rw [spsc_queue.pop_out_empty q._fifo hi he]

theorem pop_of_nonempty (q : sub_queue) (hi : spsc_queue.Inv q._fifo)
    (hn : q._fifo.contents ≠ []) (d : data) :
    (q.pop d).1 = true
      ∧ q._fifo.contents = some (q.pop d).2.1 :: (q.pop d).2.2._fifo.contents
      ∧ (q.pop d).2.2._push_count = q._push_count
      ∧ (q.pop d).2.2._drop_count = q._drop_count := by
  obtain ⟨vs, hvs⟩ := hi.live
  cases vs with
  | nil => exact absurd hvs hn
  | cons x rest =>
    obtain ⟨e1, e2⟩ := spsc_queue.pop_out_nonempty q._fifo hi x (rest.map some) hvs d
    unfold pop
    rw [e1]
    refine ⟨rfl, ?_, rfl, rfl⟩
    show q._fifo.contents = some x :: q._fifo.front.2.pop.contents
    rw [hvs, e2]; rfl

theorem pop_fifo_capacity (q : sub_queue) (d : data) :
    (q.pop d).2.2._fifo.capacity = q._fifo.capacity := by
  unfold pop spsc_queue.capacity
  simp only [spsc_queue.pop_out_capacity]

theorem push_fifo_capacity (q : sub_queue) (d : data) (nl : Bool) (ns : List notifier) :
    (q.push d nl ns).1._fifo.capacity = q._fifo.capacity := by
  rw [push_fifo]
  unfold spsc_queue.capacity
  rw [spsc_queue.emplace_capacity]

end sub_queue

namespace topic

theorem topic_pop_inv (t : topic) (sq : Nat) (d : data) (q : sub_queue) (h : Inv t)
    (hq : t.sub_heap.getD sq none = some q) (hr : sub_queue.Reachable q) :
    Inv { t with sub_heap := t.sub_heap.set sq (some (q.pop d).2.2) } := by
  refine ⟨h.seqno_lt, h.refcnt, h.nodup, ?_⟩
  intro p hp
  by_cases e : p = sq
  · subst e
    exact ⟨(q.pop d).2.2, getD_set_eq _ _ _ _ (heap_lt _ _ _ hq), sub_queue.Reachable.pop q d hr⟩
  · obtain ⟨q', hq', hr'⟩ := h.live p hp
    exact ⟨q', by simp only []; rw [getD_set_ne _ _ _ _ _ (fun c => e c.symm)]; exact hq', hr'⟩

theorem io_run (sq : Nat) (ops : List topic_op) : ∀ (t : topic) (ns : List notifier)
    (q : sub_queue), Inv t → t._cache_ptr.subs = [sq] → t.sub_heap.getD sq none = some q →
    sub_queue.Reachable q →
    (∀ op ∈ ops, (∃ ph d, op = topic_op.push ph d) ∨ (∃ d, op = topic_op.pop sq d)) →
    ∃ outs t1 ns1 q1 D, t.run ns ops = some (outs, t1, ns1)
      ∧ t1.sub_heap.getD sq none = some q1 ∧ sub_queue.Reachable q1
      ∧ q1._push_count = (q._push_count + (ops.filter topic_op.is_push).length) % UINT32_MOD
      ∧ q1._drop_count = (q._drop_count + D) % UINT32_MOD
      ∧ q._fifo.contents.length + (ops.filter topic_op.is_push).length
          = D + (outs.filter topic_out.is_popped).length + q1._fifo.contents.length
      ∧ q1._fifo.capacity = q._fifo.capacity := by
  induction ops with
  | nil =>
    intro t ns q _ _ hq hr _
    obtain ⟨b1, b2⟩ := sub_queue.reachable_counts q hr
    exact ⟨[], t, ns, q, 0, rfl, hq, hr, (Nat.mod_eq_of_lt b1).symm,
      (Nat.mod_eq_of_lt b2).symm, by simp, rfl⟩
  | cons op ops ih =>
    intro t ns q hinv hsubs hq hr hops
    have hops' : ∀ op ∈ ops, (∃ ph d, op = topic_op.push ph d) ∨ (∃ d, op = topic_op.pop sq d) :=
      fun o ho => hops o (List.mem_cons_of_mem _ ho)
    have hi := spsc_queue.reachable_inv q._fifo (sub_queue.reachable_fifo q hr)
    have hmem : sq ∈ t._cache_ptr.subs := by rw [hsubs]; exact List.mem_singleton_self sq
    rcases hops op (List.mem_cons_self _ _) with ⟨ph, d, e⟩ | ⟨d, e⟩
    · subst e
      have hq' : (t.push ph d ns).2.1.sub_heap.getD sq none
          = some (q.push { d with seqno := t._next_seqno } false []).1 := by
        rw [(push_heap t ph d ns hinv.nodup).2 sq, if_pos hmem, hq]; rfl
      obtain ⟨outs, t1, ns1, q1, D, r1, r2, r3, r4, r5, r6, r7⟩ :=
        ih (t.push ph d ns).2.1 (t.push ph d ns).2.2 _ (push_inv t ph d ns hinv)
          (by rw [push_cache]; exact hsubs) hq' (sub_queue.Reachable.push q _ false [] hr) hops'
      rw [sub_queue.push_push_count] at r4
      rw [sub_queue.push_fifo_capacity] at r7
      have hrun : t.run ns (topic_op.push ph d :: ops)
          = some (topic_out.pushed (t.push ph d ns).1 :: outs, t1, ns1) := by
        simp only [run, step, r1]
      by_cases hf : q._fifo.contents.length = q._fifo.capacity
      · have e := sub_queue.push_fst_full q { d with seqno := t._next_seqno } false [] hi hf
        have ed : (q.push { d with seqno := t._next_seqno } false []).1._drop_count
            = (q._drop_count + 1) % UINT32_MOD := by rw [e]
        have ec : (q.push { d with seqno := t._next_seqno } false []).1._fifo.contents
            = q._fifo.contents := by rw [e]; rfl
        rw [ed] at r5
        rw [ec] at r6
        refine ⟨_, t1, ns1, q1, D + 1, hrun, r2, r3, ?_, ?_, ?_, r7⟩
        · rw [r4, Nat.mod_add_mod]
          exact congrArg (fun x => x % UINT32_MOD)
            (by simp only [List.filter_cons, topic_op.is_push, if_true, List.length_cons]; omega)
        · rw [r5, Nat.mod_add_mod]
          exact congrArg (fun x => x % UINT32_MOD) (by omega)
        · simp only [List.filter_cons, topic_op.is_push, topic_out.is_popped, if_true,
            List.length_cons] at r6 ⊢
          simp only [Bool.false_eq_true, if_false]
          omega
      · have e := sub_queue.push_fst_ok q { d with seqno := t._next_seqno } false [] hi hf
        have ed : (q.push { d with seqno := t._next_seqno } false []).1._drop_count
            = q._drop_count := by rw [e]
        have hf' : ¬ (if q._fifo._write_idx + 1 = q._fifo._capacity then 0
            else q._fifo._write_idx + 1) = q._fifo._read_idx :=
          fun e => hf ((spsc_queue.full_iff q._fifo hi).mp e)
        have ec : (q.push { d with seqno := t._next_seqno } false []).1._fifo.contents.length
            = q._fifo.contents.length + 1 := by
          rw [sub_queue.push_fifo, spsc_queue.emplace_ok_contents q._fifo _ hi hf']; simp
        rw [ed] at r5
        rw [ec] at r6
        refine ⟨_, t1, ns1, q1, D, hrun, r2, r3, ?_, r5, ?_, r7⟩
        · rw [r4, Nat.mod_add_mod]
          exact congrArg (fun x => x % UINT32_MOD)
            (by simp only [List.filter_cons, topic_op.is_push, if_true, List.length_cons]; omega)
        · simp only [List.filter_cons, topic_op.is_push, topic_out.is_popped, if_true,
            List.length_cons] at r6 ⊢
          simp only [Bool.false_eq_true, if_false]
          omega
    · subst e
      have hq' : ({ t with sub_heap := t.sub_heap.set sq (some (q.pop d).2.2) } : topic).sub_heap.getD
          sq none = some (q.pop d).2.2 := getD_set_eq _ _ _ _ (heap_lt _ _ _ hq)
      obtain ⟨outs, t1, ns1, q1, D, r1, r2, r3, r4, r5, r6, r7⟩ :=
        ih { t with sub_heap := t.sub_heap.set sq (some (q.pop d).2.2) } ns _
          (topic_pop_inv t sq d q hinv hq hr) hsubs hq' (sub_queue.Reachable.pop q d hr) hops'
      rw [sub_queue.pop_fifo_capacity] at r7
      have hrun : t.run ns (topic_op.pop sq d :: ops)
          = some (topic_out.popped (q.pop d).1 (q.pop d).2.1 :: outs, t1, ns1) := by
        simp only [run, step, pop_some t sq d q hq, Option.map_some', r1]
      by_cases he : q._fifo.contents = []
      · have e := sub_queue.pop_of_empty q hi he d
        rw [e] at r4 r5 r6 hrun
        refine ⟨_, t1, ns1, q1, D, hrun, r2, r3, ?_, r5, ?_, r7⟩
        · rw [r4]
          exact congrArg (fun x => x % UINT32_MOD)
            (by simp only [List.filter_cons, topic_op.is_push]; rfl)
        · simp only [List.filter_cons, topic_op.is_push, topic_out.is_popped] at r6 ⊢
          simp only [Bool.false_eq_true, if_false] at r6 ⊢
          exact r6
      · obtain ⟨p1, p2, p3, p4⟩ := sub_queue.pop_of_nonempty q hi he d
        have hl : q._fifo.contents.length = (q.pop d).2.2._fifo.contents.length + 1 := by
          conv_lhs => rw [p2]
          simp
        rw [p3] at r4
        rw [p4] at r5
        refine ⟨_, t1, ns1, q1, D, hrun, r2, r3, ?_, r5, ?_, r7⟩
        · rw [r4]
          exact congrArg (fun x => x % UINT32_MOD)
            (by simp only [List.filter_cons, topic_op.is_push]; rfl)
        · simp only [List.filter_cons, topic_op.is_push, topic_out.is_popped, p1, if_true,
            List.length_cons] at r6 ⊢
          simp only [Bool.false_eq_true, if_false] at r6 ⊢
          omega

end topic

/-- C10 (amended): push/drop conservation.  On a fresh topic with one subscriber queue
(capacity `c < 2^32`, subscribed before the first push) and any number of publishers (in
particular one), every interleaving of pushes and of pops on that queue runs to the end,
and afterwards, with `p` the number of pushes, `popped` the number of pops that returned
`true` and `queued` the number of envelopes still in the ring: `push_count` equals `p`
modulo 2^32, `push_count - drop_count` equals `popped + queued` modulo 2^32 (the counters
are `uint32_t`), and `queued` is at most the ring capacity.  While `p < 2^32` the
equalities hold without the reduction, hence
`push_count - drop_count <= popped + ring capacity`. -/
theorem C10_push_drop_conservation (domain name dt : String) (regs : List registration)
    (sname : String) (c : Nat) (ntfr : Option Nat)
    (hone : regs.filter registration.is_sub = [registration.sub sname c ntfr])
    (hc : c < UINT32_MOD) :
    ∃ t0 sq, (topic.new domain name dt).setup regs = some t0
      ∧ t0._cache_ptr.subs = [sq]
      ∧ t0._cache_ptr.pubs.length = (regs.filter (fun r => !r.is_sub)).length
      ∧ ∀ (ops : List topic_op) (ns : List notifier),
          (∀ op ∈ ops, (∃ ph d, op = topic_op.push ph d) ∨ (∃ d, op = topic_op.pop sq d)) →
          ∃ outs t1 ns1 q1, t0.run ns ops = some (outs, t1, ns1)
            ∧ t1.sub_heap.getD sq none = some q1
            ∧ q1.push_count = (ops.filter topic_op.is_push).length % UINT32_MOD
            ∧ (q1.push_count + (UINT32_MOD - q1.drop_count)) % UINT32_MOD
                = ((outs.filter topic_out.is_popped).length + q1._fifo.contents.length)
                    % UINT32_MOD
            ∧ q1._fifo.contents.length ≤ q1._fifo.capacity
            ∧ q1._fifo.capacity = max c 1
            ∧ ((ops.filter topic_op.is_push).length < UINT32_MOD →
                q1.push_count = (ops.filter topic_op.is_push).length
                  ∧ q1.drop_count ≤ q1.push_count
                  ∧ q1.push_count - q1.drop_count
                      = (outs.filter topic_out.is_popped).length + q1._fifo.contents.length
                  ∧ q1.push_count - q1.drop_count
                      ≤ (outs.filter topic_out.is_popped).length + q1._fifo.capacity) := by
  obtain ⟨t0, e0, hinv, _, hsubs, hpubs, qn, tn, qdt, nt, hq⟩ :=
    topic.single_sub_setup domain name dt regs sname c ntfr hone hc
  refine ⟨t0, 0, e0, hsubs, hpubs, ?_⟩
  intro ops ns hops
  have hs := topic.uint32_lt_size_max c hc
  have hk := kPadding_le sizeof_data
  have hr := sub_queue.Reachable.ctor qn tn qdt c nt hs
  obtain ⟨outs, t1, ns1, q1, D, r1, r2, r3, r4, r5, r6, r7⟩ :=
    topic.io_run 0 ops t0 ns _ hinv hsubs hq hr hops
  have hcap : (sub_queue.new qn tn qdt c nt)._fifo.capacity = max c 1 :=
    sub_queue.new_fifo_capacity sizeof_data c hs
      (by unfold UINT32_MOD at hc; unfold SIZE_MAX; omega)
  have hnil : (sub_queue.new qn tn qdt c nt)._fifo.contents.length = 0 := by
    rw [← List.length_nil]; exact congrArg List.length (sub_queue.new_contents _ _)
  have hp0 : (sub_queue.new qn tn qdt c nt)._push_count = 0 := rfl
  have hd0 : (sub_queue.new qn tn qdt c nt)._drop_count = 0 := rfl
  rw [hp0, Nat.zero_add] at r4
  rw [hd0, Nat.zero_add] at r5
  rw [hnil, Nat.zero_add] at r6
  rw [hcap] at r7
  have hle := spsc_queue.contents_length_le q1._fifo
    (spsc_queue.reachable_inv _ (sub_queue.reachable_fifo q1 r3))
  refine ⟨outs, t1, ns1, q1, r1, r2, r4, ?_, hle, r7, fun hlt => ?_⟩
  · show (q1._push_count + (UINT32_MOD - q1._drop_count)) % UINT32_MOD = _
    rw [r4, r5, r6]
    unfold UINT32_MOD
    omega
  · have hD : D < UINT32_MOD := by omega
    have e1 : q1._push_count = (ops.filter topic_op.is_push).length :=
      r4.trans (Nat.mod_eq_of_lt hlt)
    have e2 : q1._drop_count = D := r5.trans (Nat.mod_eq_of_lt hD)
    show q1._push_count = _ ∧ q1._drop_count ≤ q1._push_count
      ∧ q1._push_count - q1._drop_count = _ ∧ q1._push_count - q1._drop_count ≤ _
    rw [e1, e2]
    refine ⟨rfl, by omega, by omega, by omega⟩

/-- Witness for C10: queue size 2, three pushes (the third is dropped), one pop, one more
push: `push_count` is 4 and `push_count - drop_count` is what was popped plus what is
queued. -/
theorem C10_push_drop_conservation_witness :
    ∃ t0 sq, (topic.new "" "/t" "X").setup
          [registration.sub "s" 2 none, registration.pub "p"] = some t0
      ∧ t0._cache_ptr.subs = [sq]
      ∧ ∃ outs t1 ns1 q1, t0.run []
            [topic_op.push 0 ⟨0, 1, none, []⟩, topic_op.push 0 ⟨0, 2, none, []⟩,
              topic_op.push 0 ⟨0, 3, none, []⟩, topic_op.pop sq ⟨0, 0, none, []⟩,
              topic_op.push 0 ⟨0, 4, none, []⟩] = some (outs, t1, ns1)
          ∧ t1.sub_heap.getD sq none = some q1
          ∧ q1.push_count = 4
          ∧ q1.push_count - q1.drop_count
              = (outs.filter topic_out.is_popped).length + q1._fifo.contents.length := by
  obtain ⟨t0, sq, h0, h1, _, h3⟩ := C10_push_drop_conservation "" "/t" "X"
    [registration.sub "s" 2 none, registration.pub "p"] "s" 2 none rfl (by decide)
  obtain ⟨outs, t1, ns1, q1, r1, r2, _, _, _, _, r7⟩ := h3
    [topic_op.push 0 ⟨0, 1, none, []⟩, topic_op.push 0 ⟨0, 2, none, []⟩,
      topic_op.push 0 ⟨0, 3, none, []⟩, topic_op.pop sq ⟨0, 0, none, []⟩,
      topic_op.push 0 ⟨0, 4, none, []⟩] []
    (by
      intro op hop
      simp only [List.mem_cons, List.mem_singleton, List.mem_nil_iff, or_false] at hop
      rcases hop with h | h | h | h | h
      · exact Or.inl ⟨_, _, h⟩
      · exact Or.inl ⟨_, _, h⟩
      · exact Or.inl ⟨_, _, h⟩
      · exact Or.inr ⟨_, h⟩
      · exact Or.inl ⟨_, _, h⟩)
  have hlen : (List.filter topic_op.is_push
      [topic_op.push 0 ⟨0, 1, none, []⟩, topic_op.push 0 ⟨0, 2, none, []⟩,
        topic_op.push 0 ⟨0, 3, none, []⟩, topic_op.pop sq ⟨0, 0, none, []⟩,
        topic_op.push 0 ⟨0, 4, none, []⟩]).length = 4 := rfl
  have r8 := r7 (by rw [hlen]; decide)
  exact ⟨t0, sq, h0, h1, outs, t1, ns1, q1, r1, r2, r8.1.trans hlen, r8.2.2.1⟩

/-- Counterexample to C10 as stated: with queue size 16, after 2^32 pushes and no pop the
subscriber's `push_count` is 0, not 4294967296, while its `drop_count` is 4294967280. -/
theorem C10_push_count_wraps :
    ∃ t0 q, (topic.new "" "/t" "X").setup
          [registration.pub "p", registration.sub "s" 16 none] = some t0
      ∧ (t0.push_list [] (List.replicate 4294967296 (0, ⟨0, 0, none, []⟩))).2.1.sub_heap.getD
          0 none = some q
      ∧ q.push_count = 0 ∧ q.drop_count = 4294967280 := by
  obtain ⟨t0, q, e0, _, _, hq, _, h1, h2, _⟩ := topic.single_sub_push_list "" "/t" "X"
    [registration.pub "p", registration.sub "s" 16 none] "s" 16 none rfl (by decide)
    (List.replicate 4294967296 (0, ⟨0, 0, none, []⟩)) []
  rw [List.length_replicate] at h1 h2
  exact ⟨t0, q, e0, hq, h1.trans (by decide), h2.trans (by decide)⟩

end vdds

/-! ### Isolation of a push (C13) -/

namespace vdds

namespace topic

theorem push_heap_at (t : topic) (ph : Nat) (d : data) (ns : List notifier) (h : Inv t)
    (s : Nat) (hs : s ∈ t._cache_ptr.subs) (q : sub_queue)
    (hq : t.sub_heap.getD s none = some q) :
    (t.push ph d ns).2.1.sub_heap.getD s none
      = some (q.push { d with seqno := t._next_seqno } false []).1 := by
  rw [(push_heap t ph d ns h.nodup).2 s, if_pos hs, hq]; rfl

end topic

/-- C13: `topic::push` returns nothing that could report a failure (it is a total function
of the state), and what it does to a subscriber depends only on that subscriber's own
queue.  For two topic states that hold the same queue state `q` for the subscriber `s`
(whatever their other subscribers, publishers, handles and notifier stores are), the
same push leaves `s` with the same `push_count` and `drop_count`; if the ring of `q` is
full both runs leave the queued envelopes of `q` as they were, otherwise both append the
pushed envelope, stamped with the sequence counter of the topic; when the two topics
stand at the same sequence counter the whole queue state of `s` is identical in both
runs. -/
theorem C13_push_isolation (t1 t2 : topic) (h1 : topic.Inv t1) (h2 : topic.Inv t2)
    (s : Nat) (q : sub_queue) (hs1 : s ∈ t1._cache_ptr.subs) (hs2 : s ∈ t2._cache_ptr.subs)
    (e1 : t1.sub_heap.getD s none = some q) (e2 : t2.sub_heap.getD s none = some q)
    (ph1 ph2 : Nat) (d : data) (ns1 ns2 : List notifier) :
    ∃ r1 r2, (t1.push ph1 d ns1).2.1.sub_heap.getD s none = some r1
      ∧ (t2.push ph2 d ns2).2.1.sub_heap.getD s none = some r2
      ∧ r1._push_count = r2._push_count ∧ r1._drop_count = r2._drop_count
      ∧ (q._fifo.contents.length = q._fifo.capacity →
          r1._fifo.contents = q._fifo.contents ∧ r2._fifo.contents = q._fifo.contents)
      ∧ (q._fifo.contents.length ≠ q._fifo.capacity →
          r1._fifo.contents = q._fifo.contents ++ [some { d with seqno := t1._next_seqno }]
            ∧ r2._fifo.contents
                = q._fifo.contents ++ [some { d with seqno := t2._next_seqno }])
      ∧ (t1._next_seqno = t2._next_seqno → r1 = r2) := by
  obtain ⟨q', hq', hr⟩ := h1.live s hs1
  have hqq : q' = q := Option.some.inj (hq'.symm.trans e1)
  subst hqq
  have hi := spsc_queue.reachable_inv _ (sub_queue.reachable_fifo _ hr)
  refine ⟨_, _, topic.push_heap_at t1 ph1 d ns1 h1 s hs1 _ e1,
    topic.push_heap_at t2 ph2 d ns2 h2 s hs2 _ e2, ?_, ?_, ?_, ?_, ?_⟩
  · rw [sub_queue.push_push_count, sub_queue.push_push_count]
  · by_cases hf : q'._fifo.contents.length = q'._fifo.capacity
    · rw [sub_queue.push_fst_full q' _ false [] hi hf, sub_queue.push_fst_full q' _ false [] hi hf]
    · rw [sub_queue.push_fst_ok q' _ false [] hi hf, sub_queue.push_fst_ok q' _ false [] hi hf]
  · intro hf
    rw [sub_queue.push_fst_full q' _ false [] hi hf, sub_queue.push_fst_full q' _ false [] hi hf]
    exact ⟨rfl, rfl⟩
  · intro hf
    have hf' : ¬ (if q'._fifo._write_idx + 1 = q'._fifo._capacity then 0
        else q'._fifo._write_idx + 1) = q'._fifo._read_idx :=
      fun e => hf ((spsc_queue.full_iff q'._fifo hi).mp e)
    rw [sub_queue.push_fifo, sub_queue.push_fifo,
      spsc_queue.emplace_ok_contents q'._fifo _ hi hf',
      spsc_queue.emplace_ok_contents q'._fifo _ hi hf']
    exact ⟨rfl, rfl⟩
  · intro e; rw [e]

/-- Witness for C13: subscriber `s` (queue size 2) alone on one topic, and next to a
subscriber with a full queue of size 1 on another; both hold one envelope in the queue
of `s`, and the same push leaves the same queue state of `s`. -/
theorem C13_push_isolation_witness :
    ∃ tA tB r, (topic.new "" "/t" "X").setup
          [registration.sub "s" 2 none, registration.pub "p"] = some tA
      ∧ (topic.new "" "/t" "X").setup
          [registration.sub "s" 2 none, registration.sub "o" 1 none,
            registration.pub "p"] = some tB
      ∧ ((tA.push 0 ⟨0, 1, none, []⟩ []).2.1.push 0 ⟨0, 2, none, [5]⟩ []).2.1.sub_heap.getD
          0 none = some r
      ∧ ((tB.push 0 ⟨0, 1, none, []⟩ []).2.1.push 0 ⟨0, 2, none, [5]⟩ []).2.1.sub_heap.getD
          0 none = some r := by
  have hA : ∃ t, (topic.new "" "/t" "X").setup
      [registration.sub "s" 2 none, registration.pub "p"] = some t :=
    Option.isSome_iff_exists.mp (by decide)
  have hB : ∃ t, (topic.new "" "/t" "X").setup
      [registration.sub "s" 2 none, registration.sub "o" 1 none,
        registration.pub "p"] = some t :=
    Option.isSome_iff_exists.mp (by decide)
  obtain ⟨tA, eA⟩ := hA
  obtain ⟨tB, eB⟩ := hB
  have fA : topic.Fresh (fun _ => True) tA := by
    obtain ⟨t, e, f, _⟩ := topic.fresh_setup (fun _ => True)
      [registration.sub "s" 2 none, registration.pub "p"] _
      (topic.fresh_new _ "" "/t" "X") (by
        intro n q nt hm
        simp only [List.mem_cons, List.mem_singleton, List.mem_nil_iff, or_false,
          registration.sub.injEq, reduceCtorEq] at hm
        rw [hm.2.1]; exact ⟨trivial, by decide⟩)
    rw [Option.some.inj (eA.symm.trans e)]; exact f
  have fB : topic.Fresh (fun _ => True) tB := by
    obtain ⟨t, e, f, _⟩ := topic.fresh_setup (fun _ => True)
      [registration.sub "s" 2 none, registration.sub "o" 1 none, registration.pub "p"] _
      (topic.fresh_new _ "" "/t" "X") (by
        intro n q nt hm
        simp only [List.mem_cons, List.mem_singleton, List.mem_nil_iff, or_false,
          registration.sub.injEq, reduceCtorEq] at hm
        rcases hm with hm | hm
        · rw [hm.2.1]; exact ⟨trivial, by decide⟩
        · rw [hm.2.1]; exact ⟨trivial, by decide⟩)
    rw [Option.some.inj (eB.symm.trans e)]; exact f
  have sA : (0 : Nat) ∈ tA._cache_ptr.subs := by
    have h := congrArg (Option.map (fun t => decide ((0 : Nat) ∈ t._cache_ptr.subs))) eA
    exact of_decide_eq_true (Option.some.inj (h.symm.trans (by decide)))
  have sB : (0 : Nat) ∈ tB._cache_ptr.subs := by
    have h := congrArg (Option.map (fun t => decide ((0 : Nat) ∈ t._cache_ptr.subs))) eB
    exact of_decide_eq_true (Option.some.inj (h.symm.trans (by decide)))
  have qA : (tA.push 0 ⟨0, 1, none, []⟩ []).2.1.sub_heap.getD 0 none
      = some ((sub_queue.new "s" "/t" "X" 2 none).push ⟨0, 1, none, []⟩ false []).1 := by
    have h := congrArg (Option.map (fun t =>
      (t.push 0 ⟨0, 1, none, []⟩ []).2.1.sub_heap.getD 0 none)) eA
    exact Option.some.inj (h.symm.trans (by decide))
  have qB : (tB.push 0 ⟨0, 1, none, []⟩ []).2.1.sub_heap.getD 0 none
      = some ((sub_queue.new "s" "/t" "X" 2 none).push ⟨0, 1, none, []⟩ false []).1 := by
    have h := congrArg (Option.map (fun t =>
      (t.push 0 ⟨0, 1, none, []⟩ []).2.1.sub_heap.getD 0 none)) eB
    exact Option.some.inj (h.symm.trans (by decide))
  obtain ⟨r1, r2, h1, h2, _, _, _, _, h7⟩ := C13_push_isolation
    (tA.push 0 ⟨0, 1, none, []⟩ []).2.1 (tB.push 0 ⟨0, 1, none, []⟩ []).2.1
    (topic.push_inv _ _ _ _ (topic.fresh_inv _ _ fA))
    (topic.push_inv _ _ _ _ (topic.fresh_inv _ _ fB)) 0 _ sA sB qA qB 0 0
    ⟨0, 2, none, [5]⟩ [] []
  have hs : (tA.push 0 ⟨0, 1, none, []⟩ []).2.1._next_seqno
      = (tB.push 0 ⟨0, 1, none, []⟩ []).2.1._next_seqno := by
    rw [topic.push_next_seqno, topic.push_next_seqno, fA.1, fB.1]
  exact ⟨tA, tB, r1, eA, eB, h1, (h7 hs) ▸ h2⟩

end vdds

/-! ### Well-formedness of a topic -/

namespace vdds

theorem getD_append_single {α : Type} (l : List (Option α)) (x : Option α) (p : Nat) :
    (l ++ [x]).getD p none = if p = l.length then x else l.getD p none := by
  by_cases h1 : p < l.length
  · rw [List.getD_append _ _ _ _ h1, if_neg (by omega)]
  · by_cases h2 : p = l.length
    · subst h2
      rw [List.getD_append_right _ _ _ _ (le_refl _), if_pos rfl]
      simp
    · rw [if_neg h2, List.getD_eq_default _ _ (by simp; omega),
        List.getD_eq_default _ _ (by omega)]

theorem getD_some_lt {α : Type} (l : List (Option α)) (p : Nat) (a : α)
    (h : l.getD p none = some a) : p < l.length := by
  by_contra hge
  rw [List.getD_eq_default _ _ (Nat.le_of_not_lt hge)] at h
  exact Option.noConfusion h

namespace sub_queue

theorem push_capacity (q : sub_queue) (d : data) (nl : Bool) (ns : List notifier) :
    (q.push d nl ns).1._capacity = q._capacity := by
  unfold push
  simp only []
  split_ifs <;> rfl

theorem push_name (q : sub_queue) (d : data) (nl : Bool) (ns : List notifier) :
    (q.push d nl ns).1._name = q._name := by
  unfold push
  simp only []
  split_ifs <;> rfl

theorem pop_capacity (q : sub_queue) (d : data) : (q.pop d).2.2._capacity = q._capacity := rfl

theorem pop_name (q : sub_queue) (d : data) : (q.pop d).2.2._name = q._name := rfl

end sub_queue

namespace topic

theorem wf_inv (t : topic) (h : WF t) : Inv t :=
  ⟨h.seqno_lt, h.refcnt, h.subs_nodup, fun p hp => by
    obtain ⟨q, hq⟩ := (h.sub_live p).mp hp
    exact ⟨q, hq, (h.sub_ok p q hq).1⟩⟩

theorem wf_new (domain name dt : String) : WF (topic.new domain name dt) := by
  refine ⟨by unfold UINT64_MOD; simp [topic.new], rfl, List.nodup_nil, List.nodup_nil, ?_, ?_, ?_⟩
  · intro p; simp [topic.new]
  · intro p q h; simp [topic.new] at h
  · intro p; simp [topic.new]

theorem subscribe_eq (t : topic) (name : String) (qsize : Nat) (ntfr : Option Nat)
    (h : t._cache_refcnt = 0) :
    t.subscribe name qsize ntfr = some (t.sub_heap.length,
      { t with sub_heap := t.sub_heap ++ [some (sub_queue.new name t._name t._data_type
                                                  qsize ntfr)]
               _cache_ptr := { subs := t._cache_ptr.subs ++ [t.sub_heap.length]
                               pubs := t._cache_ptr.pubs } }) := by
  simp only [subscribe, cache_swap, cache_copy, h]
  rfl

theorem publish_eq (t : topic) (name : String) (h : t._cache_refcnt = 0) :
    t.publish name = some (t.pub_heap.length,
      { t with pub_heap := t.pub_heap ++ [some (pub_handle.new name t._name)]
               _cache_ptr := { subs := t._cache_ptr.subs
                               pubs := t._cache_ptr.pubs ++ [t.pub_heap.length] } }) := by
  simp only [publish, cache_swap, cache_copy, h]
  rfl

theorem unsubscribe_eq (t : topic) (q : Nat) (sq : sub_queue) (h : t._cache_refcnt = 0)
    (hq : t.sub_heap.getD q none = some sq) :
    t.unsubscribe q = some
      { t with sub_heap := t.sub_heap.set q none
               _cache_ptr := { subs := t._cache_ptr.subs.erase q
                               pubs := t._cache_ptr.pubs } } := by
  simp only [unsubscribe, hq, cache_swap, cache_copy, h]
  rfl

theorem unpublish_eq (t : topic) (p : Nat) (ph : pub_handle) (h : t._cache_refcnt = 0)
    (hp : t.pub_heap.getD p none = some ph) :
    t.unpublish p = some
      { t with pub_heap := t.pub_heap.set p none
               _cache_ptr := { subs := t._cache_ptr.subs
                               pubs := t._cache_ptr.pubs.erase p } } := by
  simp only [unpublish, hp, cache_swap, cache_copy, h]
  rfl

theorem unsubscribe_none (t : topic) (q : Nat) (hq : t.sub_heap.getD q none = none) :
    t.unsubscribe q = none := by
  simp only [unsubscribe, hq]

theorem unpublish_none (t : topic) (p : Nat) (hp : t.pub_heap.getD p none = none) :
    t.unpublish p = none := by
  simp only [unpublish, hp]

theorem pop_none (t : topic) (sq : Nat) (d : data) (hq : t.sub_heap.getD sq none = none) :
    t.pop sq d = none := by
  simp only [pop, hq]

theorem wf_subscribe (t : topic) (h : WF t) (name : String) (qsize : Nat) (ntfr : Option Nat)
    (hq : qsize < UINT32_MOD) :
    WF { t with sub_heap := t.sub_heap ++ [some (sub_queue.new name t._name t._data_type
                                                  qsize ntfr)]
                _cache_ptr := { subs := t._cache_ptr.subs ++ [t.sub_heap.length]
                                pubs := t._cache_ptr.pubs } } := by
  have hnot : t.sub_heap.length ∉ t._cache_ptr.subs := by
    intro hm
    obtain ⟨q, hq⟩ := (h.sub_live _).mp hm
    exact absurd (getD_some_lt _ _ _ hq) (lt_irrefl _)
  refine ⟨h.seqno_lt, h.refcnt, ?_, h.pubs_nodup, ?_, ?_, h.pub_live⟩
  · simp only []
    rw [List.nodup_append]
    refine ⟨h.subs_nodup, List.nodup_singleton _, ?_⟩
    intro a ha hb
    rw [List.mem_singleton] at hb
    subst hb
    exact hnot ha
  · intro p
    simp only [List.mem_append, List.mem_singleton, getD_append_single]
    by_cases e : p = t.sub_heap.length
    · simp [e]
    · simp only [e, or_false, if_false]
      exact h.sub_live p
  · intro p q hpq
    simp only [getD_append_single] at hpq
    by_cases e : p = t.sub_heap.length
    · rw [if_pos e] at hpq
      have := Option.some.inj hpq
      subst this
      exact ⟨sub_queue.Reachable.ctor _ _ _ qsize ntfr (uint32_lt_size_max _ hq), hq⟩
    · rw [if_neg e] at hpq
      exact h.sub_ok p q hpq

theorem wf_publish (t : topic) (h : WF t) (name : String) :
    WF { t with pub_heap := t.pub_heap ++ [some (pub_handle.new name t._name)]
                _cache_ptr := { subs := t._cache_ptr.subs
                                pubs := t._cache_ptr.pubs ++ [t.pub_heap.length] } } := by
  have hnot : t.pub_heap.length ∉ t._cache_ptr.pubs := by
    intro hm
    obtain ⟨q, hq⟩ := (h.pub_live _).mp hm
    exact absurd (getD_some_lt _ _ _ hq) (lt_irrefl _)
  refine ⟨h.seqno_lt, h.refcnt, h.subs_nodup, ?_, h.sub_live, h.sub_ok, ?_⟩
  · simp only []
    rw [List.nodup_append]
    refine ⟨h.pubs_nodup, List.nodup_singleton _, ?_⟩
    intro a ha hb
    rw [List.mem_singleton] at hb
    subst hb
    exact hnot ha
  · intro p
    simp only [List.mem_append, List.mem_singleton, getD_append_single]
    by_cases e : p = t.pub_heap.length
    · simp [e]
    · simp only [e, or_false, if_false]
      exact h.pub_live p

theorem wf_unsubscribe (t : topic) (h : WF t) (q : Nat) :
    WF { t with sub_heap := t.sub_heap.set q none
                _cache_ptr := { subs := t._cache_ptr.subs.erase q
                                pubs := t._cache_ptr.pubs } } := by
  refine ⟨h.seqno_lt, h.refcnt, h.subs_nodup.erase q, h.pubs_nodup, ?_, ?_, h.pub_live⟩
  · intro p
    simp only [h.subs_nodup.mem_erase_iff]
    by_cases e : p = q
    · subst e
      simp only [ne_eq, not_true_eq_false, false_and, false_iff, not_exists]
      intro x hx
      by_cases hl : p < t.sub_heap.length
      · rw [getD_set_eq _ _ _ _ hl] at hx; exact Option.noConfusion hx
      · rw [List.getD_eq_default _ _ (by simp; omega)] at hx; exact Option.noConfusion hx
    · rw [getD_set_ne _ _ _ _ _ (fun c => e c.symm)]
      simp only [ne_eq, e, not_false_eq_true, true_and]
      exact h.sub_live p
  · intro p x hx
    by_cases e : p = q
    · subst e
      by_cases hl : p < t.sub_heap.length
      · rw [getD_set_eq _ _ _ _ hl] at hx; exact Option.noConfusion hx
      · rw [List.getD_eq_default _ _ (by simp; omega)] at hx; exact Option.noConfusion hx
    · rw [getD_set_ne _ _ _ _ _ (fun c => e c.symm)] at hx
      exact h.sub_ok p x hx

theorem wf_unpublish (t : topic) (h : WF t) (q : Nat) :
    WF { t with pub_heap := t.pub_heap.set q none
                _cache_ptr := { subs := t._cache_ptr.subs
                                pubs := t._cache_ptr.pubs.erase q } } := by
  refine ⟨h.seqno_lt, h.refcnt, h.subs_nodup, h.pubs_nodup.erase q, h.sub_live, h.sub_ok, ?_⟩
  intro p
  simp only [h.pubs_nodup.mem_erase_iff]
  by_cases e : p = q
  · subst e
    simp only [ne_eq, not_true_eq_false, false_and, false_iff, not_exists]
    intro x hx
    by_cases hl : p < t.pub_heap.length
    · rw [getD_set_eq _ _ _ _ hl] at hx; exact Option.noConfusion hx
    · rw [List.getD_eq_default _ _ (by simp; omega)] at hx; exact Option.noConfusion hx
  · rw [getD_set_ne _ _ _ _ _ (fun c => e c.symm)]
    simp only [ne_eq, e, not_false_eq_true, true_and]
    exact h.pub_live p

theorem push_pub_heap (t : topic) (ph : Nat) (d : data) (ns : List notifier) :
    (t.push ph d ns).2.1.pub_heap = t.pub_heap := rfl

theorem wf_push (t : topic) (h : WF t) (ph : Nat) (d : data) (ns : List notifier) :
    WF (t.push ph d ns).2.1 := by
  have hh := push_heap t ph d ns h.subs_nodup
  refine ⟨?_, push_refcnt t ph d ns h.refcnt, ?_, ?_, ?_, ?_, ?_⟩
  · rw [push_next_seqno]; exact Nat.mod_lt _ (by unfold UINT64_MOD; omega)
  · rw [push_cache]; exact h.subs_nodup
  · rw [push_cache]; exact h.pubs_nodup
  · intro p
    rw [push_cache, hh.2 p]
    by_cases hp : p ∈ t._cache_ptr.subs
    · obtain ⟨q, hq⟩ := (h.sub_live p).mp hp
      rw [if_pos hp, hq]
      exact ⟨fun _ => ⟨_, rfl⟩, fun _ => hp⟩
    · rw [if_neg hp]
      exact h.sub_live p
  · intro p q hq
    rw [hh.2 p] at hq
    by_cases hp : p ∈ t._cache_ptr.subs
    · obtain ⟨q0, hq0⟩ := (h.sub_live p).mp hp
      rw [if_pos hp, hq0] at hq
      have e := Option.some.inj hq
      subst e
      obtain ⟨r, c⟩ := h.sub_ok p q0 hq0
      exact ⟨sub_queue.Reachable.push q0 _ false [] r, by rw [sub_queue.push_capacity]; exact c⟩
    · rw [if_neg hp] at hq
      exact h.sub_ok p q hq
  · intro p
    rw [push_cache, push_pub_heap]
    exact h.pub_live p

theorem wf_pop (t : topic) (h : WF t) (sq : Nat) (d : data) (q : sub_queue)
    (hq : t.sub_heap.getD sq none = some q) :
    WF { t with sub_heap := t.sub_heap.set sq (some (q.pop d).2.2) } := by
  have hl := getD_some_lt _ _ _ hq
  refine ⟨h.seqno_lt, h.refcnt, h.subs_nodup, h.pubs_nodup, ?_, ?_, h.pub_live⟩
  · intro p
    by_cases e : p = sq
    · subst e
      simp only []
      rw [getD_set_eq _ _ _ _ hl]
      exact ⟨fun _ => ⟨_, rfl⟩, fun _ => (h.sub_live p).mpr ⟨q, hq⟩⟩
    · simp only []
      rw [getD_set_ne _ _ _ _ _ (fun c => e c.symm)]
      exact h.sub_live p
  · intro p x hx
    by_cases e : p = sq
    · subst e
      simp only [] at hx
      rw [getD_set_eq _ _ _ _ hl] at hx
      have e := Option.some.inj hx
      subst e
      obtain ⟨r, c⟩ := h.sub_ok p q hq
      exact ⟨sub_queue.Reachable.pop q d r, c⟩
    · simp only [] at hx
      rw [getD_set_ne _ _ _ _ _ (fun c => e c.symm)] at hx
      exact h.sub_ok p x hx

end topic

end vdds

/-! ### Origin of popped envelopes (C12) -/

namespace vdds

namespace topic

theorem step_wf (t : topic) (h : WF t) (ns : List notifier) (op : topic_op) (hop : op.typed)
    (o : topic_out) (t1 : topic) (ns1 : List notifier)
    (hs : t.step ns op = some (o, t1, ns1)) : WF t1 := by
  cases op with
  | subscribe name qsize ntfr =>
    simp only [step, subscribe_eq t name qsize ntfr h.refcnt, Option.map_some',
      Option.some.injEq, Prod.mk.injEq] at hs
    rw [← hs.2.1]
    exact wf_subscribe t h name qsize ntfr hop
  | publish name =>
    simp only [step, publish_eq t name h.refcnt, Option.map_some', Option.some.injEq,
      Prod.mk.injEq] at hs
    rw [← hs.2.1]
    exact wf_publish t h name
  | unsubscribe q =>
    cases hq : t.sub_heap.getD q none with
    | none => simp [step, unsubscribe_none t q hq] at hs
    | some sq =>
      simp only [step, unsubscribe_eq t q sq h.refcnt hq, Option.map_some', Option.some.injEq,
        Prod.mk.injEq] at hs
      rw [← hs.2.1]
      exact wf_unsubscribe t h q
  | unpublish p =>
    cases hp : t.pub_heap.getD p none with
    | none => simp [step, unpublish_none t p hp] at hs
    | some ph =>
      simp only [step, unpublish_eq t p ph h.refcnt hp, Option.map_some', Option.some.injEq,
        Prod.mk.injEq] at hs
      rw [← hs.2.1]
      exact wf_unpublish t h p
  | push ph d =>
    simp only [step, Option.some.injEq, Prod.mk.injEq] at hs
    have e : t1 = (t.push ph d ns).2.1 := by rw [hs.2]
    rw [e]
    exact wf_push t h ph d ns
  | pop sq d =>
    cases hq : t.sub_heap.getD sq none with
    | none => simp [step, pop_none t sq d hq] at hs
    | some q =>
      simp only [step, pop_some t sq d q hq, Option.map_some', Option.some.injEq,
        Prod.mk.injEq] at hs
      rw [← hs.2.1]
      exact wf_pop t h sq d q hq

theorem run_cons (t : topic) (ns : List notifier) (op : topic_op) (ops : List topic_op)
    (outs : List topic_out) (t1 : topic) (ns1 : List notifier)
    (h : t.run ns (op :: ops) = some (outs, t1, ns1)) :
    ∃ o t' ns' outs', t.step ns op = some (o, t', ns') ∧ t'.run ns' ops = some (outs', t1, ns1)
      ∧ outs = o :: outs' := by
  simp only [run] at h
  split at h
  · exact Option.noConfusion h
  · rename_i r hr
    split at h
    · exact Option.noConfusion h
    · rename_i rest hrest
      obtain ⟨r1, r2, r3⟩ := r
      obtain ⟨o1, o2, o3⟩ := rest
      simp only [Option.some.injEq, Prod.mk.injEq] at h
      obtain ⟨e1, e2, e3⟩ := h
      subst e1 e2 e3
      exact ⟨r1, r2, r3, o1, hr, hrest, rfl⟩

theorem run_wf (ops : List topic_op) : ∀ (t : topic) (ns : List notifier)
    (outs : List topic_out) (t1 : topic) (ns1 : List notifier), WF t →
    (∀ op ∈ ops, op.typed) → t.run ns ops = some (outs, t1, ns1) → WF t1 := by
  induction ops with
  | nil =>
    intro t ns outs t1 ns1 h _ hr
    simp only [run, Option.some.injEq, Prod.mk.injEq] at hr
    rw [← hr.2.1]; exact h
  | cons op ops ih =>
    intro t ns outs t1 ns1 h hty hr
    obtain ⟨o, t', ns', outs', hs, hr', _⟩ := run_cons t ns op ops outs t1 ns1 hr
    exact ih t' ns' outs' t1 ns1 (step_wf t h ns op (hty op (List.mem_cons_self _ _)) o t' ns' hs)
      (fun x hx => hty x (List.mem_cons_of_mem _ hx)) hr'

theorem push_contents_sub (q : sub_queue) (hr : sub_queue.Reachable q) (d : data) (x : data)
    (hx : some x ∈ (q.push d false []).1._fifo.contents) :
    some x ∈ q._fifo.contents ∨ x = d := by
  have hi := spsc_queue.reachable_inv _ (sub_queue.reachable_fifo _ hr)
  by_cases hf : q._fifo.contents.length = q._fifo.capacity
  · rw [sub_queue.push_fst_full q d false [] hi hf] at hx
    exact Or.inl hx
  · have hf' : ¬ (if q._fifo._write_idx + 1 = q._fifo._capacity then 0
        else q._fifo._write_idx + 1) = q._fifo._read_idx :=
      fun e => hf ((spsc_queue.full_iff q._fifo hi).mp e)
    rw [sub_queue.push_fifo, spsc_queue.emplace_ok_contents q._fifo _ hi hf',
      List.mem_append, List.mem_singleton] at hx
    rcases hx with hx | hx
    · exact Or.inl hx
    · exact Or.inr (Option.some.inj hx)

theorem step_contents (t : topic) (h : WF t) (S : List data)
    (hS : ∀ p q x, t.sub_heap.getD p none = some q → some x ∈ q._fifo.contents → x ∈ S)
    (ns : List notifier) (op : topic_op) (o : topic_out) (t1 : topic) (ns1 : List notifier)
    (hs : t.step ns op = some (o, t1, ns1)) :
    (∀ d, o = topic_out.popped true d → d ∈ S)
      ∧ ∀ p q x, t1.sub_heap.getD p none = some q → some x ∈ q._fifo.contents →
          x ∈ S ∨ o = topic_out.pushed x := by
  cases op with
  | subscribe name qsize ntfr =>
    simp only [step, subscribe_eq t name qsize ntfr h.refcnt, Option.map_some',
      Option.some.injEq, Prod.mk.injEq] at hs
    obtain ⟨e1, e2, _⟩ := hs
    subst e1 e2
    refine ⟨fun d c => by simp at c, fun p q x hq hx => Or.inl ?_⟩
    simp only [getD_append_single] at hq
    by_cases e : p = t.sub_heap.length
    · rw [if_pos e] at hq
      have e' := Option.some.inj hq
      subst e'
      have hc : (sub_queue.new name t._name t._data_type qsize ntfr)._fifo.contents = [] :=
        sub_queue.new_contents _ _
      rw [hc] at hx
      exact absurd hx (List.not_mem_nil _)
    · rw [if_neg e] at hq
      exact hS p q x hq hx
  | publish name =>
    simp only [step, publish_eq t name h.refcnt, Option.map_some', Option.some.injEq,
      Prod.mk.injEq] at hs
    obtain ⟨e1, e2, _⟩ := hs
    subst e1 e2
    exact ⟨fun d c => by simp at c, fun p q x hq hx => Or.inl (hS p q x hq hx)⟩
  | unsubscribe uq =>
    cases hq : t.sub_heap.getD uq none with
    | none => simp [step, unsubscribe_none t uq hq] at hs
    | some sq =>
      simp only [step, unsubscribe_eq t uq sq h.refcnt hq, Option.map_some', Option.some.injEq,
        Prod.mk.injEq] at hs
      obtain ⟨e1, e2, _⟩ := hs
      subst e1 e2
      refine ⟨fun d c => by simp at c, fun p q x hpq hx => Or.inl ?_⟩
      simp only [] at hpq
      by_cases e : p = uq
      · subst e
        rw [getD_set_eq _ _ _ _ (getD_some_lt _ _ _ hq)] at hpq
        exact Option.noConfusion hpq
      · rw [getD_set_ne _ _ _ _ _ (fun c => e c.symm)] at hpq
        exact hS p q x hpq hx
  | unpublish up =>
    cases hp : t.pub_heap.getD up none with
    | none => simp [step, unpublish_none t up hp] at hs
    | some ph =>
      simp only [step, unpublish_eq t up ph h.refcnt hp, Option.map_some', Option.some.injEq,
        Prod.mk.injEq] at hs
      obtain ⟨e1, e2, _⟩ := hs
      subst e1 e2
      exact ⟨fun d c => by simp at c, fun p q x hq hx => Or.inl (hS p q x hq hx)⟩
  | push ph d =>
    simp only [step, Option.some.injEq, Prod.mk.injEq] at hs
    obtain ⟨e1, e2⟩ := hs
    have e3 : t1 = (t.push ph d ns).2.1 := by rw [e2]
    subst e1 e3
    refine ⟨fun d' c => by simp at c, fun p q x hpq hx => ?_⟩
    rw [(push_heap t ph d ns h.subs_nodup).2 p] at hpq
    by_cases hp : p ∈ t._cache_ptr.subs
    · obtain ⟨q0, hq0⟩ := (h.sub_live p).mp hp
      rw [if_pos hp, hq0] at hpq
      have e := Option.some.inj hpq
      subst e
      rcases push_contents_sub q0 (h.sub_ok p q0 hq0).1 _ x hx with c | c
      · exact Or.inl (hS p q0 x hq0 c)
      · right; rw [c]; rfl
    · rw [if_neg hp] at hpq
      exact Or.inl (hS p q x hpq hx)
  | pop sq d =>
    cases hq : t.sub_heap.getD sq none with
    | none => simp [step, pop_none t sq d hq] at hs
    | some q0 =>
      simp only [step, pop_some t sq d q0 hq, Option.map_some', Option.some.injEq,
        Prod.mk.injEq] at hs
      obtain ⟨e1, e2, _⟩ := hs
      subst e1 e2
      have hi := spsc_queue.reachable_inv _ (sub_queue.reachable_fifo _ (h.sub_ok sq q0 hq).1)
      by_cases he : q0._fifo.contents = []
      · have e := sub_queue.pop_of_empty q0 hi he d
        refine ⟨fun d' c => ?_, fun p q x hpq hx => Or.inl ?_⟩
        · rw [e] at c; simp at c
        · simp only [] at hpq
          by_cases ep : p = sq
          · subst ep
            rw [getD_set_eq _ _ _ _ (getD_some_lt _ _ _ hq), e] at hpq
            have e' := Option.some.inj hpq
            subst e'
            exact hS p q0 x hq hx
          · rw [getD_set_ne _ _ _ _ _ (fun c => ep c.symm)] at hpq
            exact hS p q x hpq hx
      · obtain ⟨p1, p2, _, _⟩ := sub_queue.pop_of_nonempty q0 hi he d
        refine ⟨fun d' c => ?_, fun p q x hpq hx => Or.inl ?_⟩
        · simp only [topic_out.popped.injEq] at c
          rw [← c.2]
          exact hS sq q0 _ hq (by rw [p2]; exact List.mem_cons_self _ _)
        · simp only [] at hpq
          by_cases ep : p = sq
          · subst ep
            rw [getD_set_eq _ _ _ _ (getD_some_lt _ _ _ hq)] at hpq
            have e' := Option.some.inj hpq
            subst e'
            exact hS p q0 x hq (by rw [p2]; exact List.mem_cons_of_mem _ hx)
          · rw [getD_set_ne _ _ _ _ _ (fun c => ep c.symm)] at hpq
            exact hS p q x hpq hx

theorem run_popped (ops : List topic_op) : ∀ (t : topic) (ns : List notifier) (S : List data)
    (outs : List topic_out) (t1 : topic) (ns1 : List notifier), WF t →
    (∀ p q x, t.sub_heap.getD p none = some q → some x ∈ q._fifo.contents → x ∈ S) →
    (∀ op ∈ ops, op.typed) → t.run ns ops = some (outs, t1, ns1) →
    ∀ (j : Nat) (d : data), outs[j]? = some (topic_out.popped true d) →
      d ∈ S ∨ ∃ i : Nat, i < j ∧ outs[i]? = some (topic_out.pushed d) := by
  induction ops with
  | nil =>
    intro t ns S outs t1 ns1 _ _ _ hr j d hj
    simp only [run, Option.some.injEq, Prod.mk.injEq] at hr
    rw [← hr.1] at hj
    simp at hj
  | cons op ops ih =>
    intro t ns S outs t1 ns1 h hS hty hr j d hj
    obtain ⟨o, t', ns', outs', hs, hr', e⟩ := run_cons t ns op ops outs t1 ns1 hr
    subst e
    obtain ⟨c1, c2⟩ := step_contents t h S hS ns op o t' ns' hs
    have hwf' := step_wf t h ns op (hty op (List.mem_cons_self _ _)) o t' ns' hs
    cases j with
    | zero =>
      simp only [List.getElem?_cons_zero, Option.some.injEq] at hj
      exact Or.inl (c1 d hj)
    | succ j =>
      simp only [List.getElem?_cons_succ] at hj
      by_cases hp : ∃ x, o = topic_out.pushed x
      · obtain ⟨x, hx⟩ := hp
        have hS' : ∀ p q y, t'.sub_heap.getD p none = some q → some y ∈ q._fifo.contents →
            y ∈ x :: S := by
          intro p q y hq hy
          rcases c2 p q y hq hy with c | c
          · exact List.mem_cons_of_mem _ c
          · rw [hx] at c
            simp only [topic_out.pushed.injEq] at c
            rw [c]; exact List.mem_cons_self _ _
        rcases ih t' ns' (x :: S) outs' t1 ns1 hwf' hS'
          (fun y hy => hty y (List.mem_cons_of_mem _ hy)) hr' j d hj with c | ⟨i, hi, hio⟩
        · rw [List.mem_cons] at c
          rcases c with c | c
          · right
            exact ⟨0, Nat.succ_pos _, by rw [c, hx]; exact List.getElem?_cons_zero⟩
          · exact Or.inl c
        · right
          exact ⟨i + 1, Nat.succ_lt_succ hi, by simpa using hio⟩
      · have hS' : ∀ p q y, t'.sub_heap.getD p none = some q → some y ∈ q._fifo.contents →
            y ∈ S := by
          intro p q y hq hy
          rcases c2 p q y hq hy with c | c
          · exact c
          · exact absurd ⟨y, c⟩ hp
        rcases ih t' ns' S outs' t1 ns1 hwf' hS'
          (fun y hy => hty y (List.mem_cons_of_mem _ hy)) hr' j d hj with c | ⟨i, hi, hio⟩
        · exact Or.inl c
        · right
          exact ⟨i + 1, Nat.succ_lt_succ hi, by simpa using hio⟩

theorem step_pushed (t : topic) (ns : List notifier) (op : topic_op) (o : topic_out)
    (t1 : topic) (ns1 : List notifier) (hs : t.step ns op = some (o, t1, ns1)) (d : data)
    (ho : o = topic_out.pushed d) :
    ∃ ph din, op = topic_op.push ph din ∧ d = { din with seqno := t._next_seqno } := by
  subst ho
  cases op with
  | subscribe name qsize ntfr => simp [step] at hs
  | publish name => simp [step] at hs
  | unsubscribe q => simp [step] at hs
  | unpublish p => simp [step] at hs
  | pop sq d' => simp [step] at hs
  | push ph din =>
    simp only [step, Option.some.injEq, Prod.mk.injEq, topic_out.pushed.injEq] at hs
    exact ⟨ph, din, rfl, hs.1.symm⟩

theorem run_pushed (ops : List topic_op) : ∀ (t : topic) (ns : List notifier)
    (outs : List topic_out) (t1 : topic) (ns1 : List notifier),
    t.run ns ops = some (outs, t1, ns1) →
    ∀ (i : Nat) (d : data), outs[i]? = some (topic_out.pushed d) →
      ∃ ph din, ops[i]? = some (topic_op.push ph din) ∧ d.timestamp = din.timestamp
        ∧ d.shared = din.shared ∧ d.plain = din.plain := by
  induction ops with
  | nil =>
    intro t ns outs t1 ns1 hr i d hi
    simp only [run, Option.some.injEq, Prod.mk.injEq] at hr
    rw [← hr.1] at hi
    simp at hi
  | cons op ops ih =>
    intro t ns outs t1 ns1 hr i d hi
    obtain ⟨o, t', ns', outs', hs, hr', e⟩ := run_cons t ns op ops outs t1 ns1 hr
    subst e
    cases i with
    | zero =>
      simp only [List.getElem?_cons_zero, Option.some.injEq] at hi
      obtain ⟨ph, din, e1, e2⟩ := step_pushed t ns op o t' ns' hs d hi
      exact ⟨ph, din, by rw [e1]; exact List.getElem?_cons_zero, by rw [e2], by rw [e2],
        by rw [e2]⟩
    | succ i =>
      simp only [List.getElem?_cons_succ] at hi ⊢
      exact ih t' ns' outs' t1 ns1 hr' i d hi

end topic

/-- C12: `topic::push` changes only the seqno field of the caller's envelope, and on a
topic run from its constructor through any sequence of calls (subscribe with an
`unsigned int` queue size, unsubscribe, publish, unpublish, push, pop), every envelope a
`pop` hands out is the envelope an earlier `push` of the run handed back to its caller:
equal to the pushed envelope in timestamp, shared handle and plain bytes, with the seqno
the topic assigned at that push. -/
theorem C12_push_frame (domain name dt : String) (ops : List topic_op) (ns : List notifier)
    (outs : List topic_out) (t1 : topic) (ns1 : List notifier)
    (hty : ∀ op ∈ ops, op.typed)
    (h : (topic.new domain name dt).run ns ops = some (outs, t1, ns1)) :
    (∀ (t : topic) (ph : Nat) (d : data) (ns' : List notifier),
        (t.push ph d ns').1 = { d with seqno := t._next_seqno }
          ∧ (t.push ph d ns').1.timestamp = d.timestamp
          ∧ (t.push ph d ns').1.shared = d.shared
          ∧ (t.push ph d ns').1.plain = d.plain)
      ∧ ∀ (j : Nat) (d : data), outs[j]? = some (topic_out.popped true d) →
          ∃ (i : Nat) (ph : Nat) (din : data), i < j ∧ ops[i]? = some (topic_op.push ph din)
            ∧ outs[i]? = some (topic_out.pushed d)
            ∧ d.timestamp = din.timestamp ∧ d.shared = din.shared ∧ d.plain = din.plain := by
  refine ⟨fun t ph d ns' => ⟨rfl, rfl, rfl, rfl⟩, fun j d hj => ?_⟩
  have hS : ∀ p q x, (topic.new domain name dt).sub_heap.getD p none = some q →
      some x ∈ q._fifo.contents → x ∈ ([] : List data) := by
    intro p q x hq
    simp [topic.new] at hq
  rcases topic.run_popped ops _ ns [] outs t1 ns1 (topic.wf_new domain name dt) hS hty h j d hj
    with c | ⟨i, hi, hio⟩
  · exact absurd c (List.not_mem_nil _)
  · obtain ⟨ph, din, e1, e2, e3, e4⟩ := topic.run_pushed ops _ ns outs t1 ns1 h i d hio
    exact ⟨i, ph, din, hi, e1, hio, e2, e3, e4⟩

/-- Witness for C12: one subscriber, one push, one pop. -/
theorem C12_push_frame_witness :
    ∃ outs t1 ns1, (topic.new "" "/t" "X").run []
        [topic_op.subscribe "s" 4 none, topic_op.push 0 ⟨0, 7, none, [1, 2]⟩,
          topic_op.pop 0 ⟨0, 0, none, []⟩] = some (outs, t1, ns1)
      ∧ outs[2]? = some (topic_out.popped true ⟨0, 7, none, [1, 2]⟩)
      ∧ ∃ (i ph : Nat) (din : data), i < 2
          ∧ [topic_op.subscribe "s" 4 none, topic_op.push 0 ⟨0, 7, none, [1, 2]⟩,
              topic_op.pop 0 ⟨0, 0, none, []⟩][i]? = some (topic_op.push ph din)
          ∧ outs[i]? = some (topic_out.pushed ⟨0, 7, none, [1, 2]⟩)
          ∧ (7 : Nat) = din.timestamp ∧ (none : Option Nat) = din.shared
          ∧ ([1, 2] : List Nat) = din.plain := by
  have he : ∃ r, (topic.new "" "/t" "X").run []
      [topic_op.subscribe "s" 4 none, topic_op.push 0 ⟨0, 7, none, [1, 2]⟩,
        topic_op.pop 0 ⟨0, 0, none, []⟩] = some r :=
    Option.isSome_iff_exists.mp (by decide)
  obtain ⟨⟨outs, t1, ns1⟩, hr⟩ := he
  have ho : outs[2]? = some (topic_out.popped true ⟨0, 7, none, [1, 2]⟩) := by
    have := congrArg (fun r => (r.map (fun x => x.1[2]?))) hr
    simp only [Option.map_some'] at this
    exact Option.some.inj (this.symm.trans (by decide))
  exact ⟨outs, t1, ns1, hr, ho,
    (C12_push_frame "" "/t" "X" _ [] outs t1 ns1 (by
      intro op hop
      simp only [List.mem_cons, List.mem_singleton, List.mem_nil_iff, or_false] at hop
      rcases hop with h | h | h
      · rw [h]; show 4 < UINT32_MOD; decide
      · rw [h]; trivial
      · rw [h]; trivial) hr).2 2 _ ho⟩

end vdds

/-! ### Sequence monotonicity (C11) -/

namespace vdds

theorem count_missing (P : Nat) (l : List Nat) (hnd : l.Nodup) (hb : ∀ x ∈ l, x < P) :
    ((List.range P).filter (fun i => decide (i ∉ l))).length = P - l.length := by
  have h1 : ((List.range P).filter (fun i => decide (i ∉ l))).Nodup :=
    (List.nodup_range P).filter _
  rw [← List.toFinset_card_of_nodup h1, ← List.toFinset_card_of_nodup hnd]
  have h2 : ((List.range P).filter (fun i => decide (i ∉ l))).toFinset
      = Finset.range P \ l.toFinset := by
    ext x
    simp [List.mem_filter]
  rw [h2, Finset.card_sdiff, Finset.card_range]
  intro x hx
  rw [List.mem_toFinset] at hx
  exact Finset.mem_range.mpr (hb x hx)

theorem popped_count (outs : List topic_out) :
    (outs.filterMap topic_out.popped_data).length = (outs.filter topic_out.is_popped).length := by
  induction outs with
  | nil => rfl
  | cons o outs ih =>
    cases o with
    | popped ok d =>
      cases ok <;> simp [topic_out.popped_data, topic_out.is_popped, ih]
    | _ => simp [topic_out.popped_data, topic_out.is_popped, ih]

namespace topic

theorem mono_run (sq : Nat) (ops : List topic_op) : ∀ (t : topic) (ns : List notifier)
    (q : sub_queue) (cs : List data) (lo S : Nat) (outs : List topic_out) (t1 : topic)
    (ns1 : List notifier), Inv t → sq ∈ t._cache_ptr.subs →
    t.sub_heap.getD sq none = some q → sub_queue.Reachable q →
    q._fifo.contents = cs.map some →
    (cs.map (fun d => d.seqno)).Pairwise (fun a b => a < b) →
    (∀ x ∈ cs, lo ≤ x.seqno ∧ x.seqno < S) → lo ≤ S →
    t._next_seqno = S % UINT64_MOD →
    S + (ops.filter topic_op.is_push).length ≤ UINT64_MOD →
    (∀ op ∈ ops, (∃ ph d, op = topic_op.push ph d) ∨ (∃ d, op = topic_op.pop sq d)) →
    t.run ns ops = some (outs, t1, ns1) →
    ∃ (q1 : sub_queue) (cs1 : List data), t1.sub_heap.getD sq none = some q1
      ∧ q1._fifo.contents = cs1.map some
      ∧ ((outs.filterMap topic_out.popped_data).map (fun d => d.seqno)
            ++ cs1.map (fun d => d.seqno)).Pairwise (fun a b => a < b)
      ∧ ∀ x ∈ (outs.filterMap topic_out.popped_data).map (fun d => d.seqno)
            ++ cs1.map (fun d => d.seqno),
          lo ≤ x ∧ x < S + (ops.filter topic_op.is_push).length := by
  induction ops with
  | nil =>
    intro t ns q cs lo S outs t1 ns1 _ _ hq _ hc hpw hb _ _ _ _ hr
    simp only [run, Option.some.injEq, Prod.mk.injEq] at hr
    obtain ⟨e1, e2, _⟩ := hr
    subst e1 e2
    refine ⟨q, cs, hq, hc, by simpa using hpw, ?_⟩
    intro x hx
    simp only [List.filterMap_nil, List.map_nil, List.nil_append, List.mem_map] at hx
    obtain ⟨y, hy, e⟩ := hx
    subst e
    simp only [List.filter_nil, List.length_nil, Nat.add_zero]
    exact hb y hy
  | cons op ops ih =>
    intro t ns q cs lo S outs t1 ns1 hinv hmem hq hrq hc hpw hb hlo hseq hP hops hr
    have hops' : ∀ op ∈ ops, (∃ ph d, op = topic_op.push ph d) ∨ (∃ d, op = topic_op.pop sq d) :=
      fun o ho => hops o (List.mem_cons_of_mem _ ho)
    have hi := spsc_queue.reachable_inv q._fifo (sub_queue.reachable_fifo q hrq)
    obtain ⟨o, t', ns', outs', hs, hr', e⟩ := run_cons t ns op ops outs t1 ns1 hr
    subst e
    rcases hops op (List.mem_cons_self _ _) with ⟨ph, d, e⟩ | ⟨d, e⟩
    · subst e
      simp only [List.filter_cons, topic_op.is_push, if_true, List.length_cons] at hP ⊢
      have hSlt : S < UINT64_MOD := by omega
      have hseq' : t._next_seqno = S := by rw [hseq, Nat.mod_eq_of_lt hSlt]
      simp only [step, Option.some.injEq, Prod.mk.injEq] at hs
      obtain ⟨e1, e2⟩ := hs
      have e3 : t' = (t.push ph d ns).2.1 := by rw [e2]
      have e4 : ns' = (t.push ph d ns).2.2 := by rw [e2]
      subst e1 e3 e4
      have hq' := push_heap_at t ph d ns hinv sq hmem q hq
      rw [hseq'] at hq'
      have hseq2 : (t.push ph d ns).2.1._next_seqno = (S + 1) % UINT64_MOD := by
        rw [push_next_seqno, hseq']
      have hfm : (topic_out.pushed (t.push ph d ns).1 :: outs').filterMap topic_out.popped_data
          = outs'.filterMap topic_out.popped_data := by
        simp [topic_out.popped_data]
      rw [hfm]
      by_cases hf : q._fifo.contents.length = q._fifo.capacity
      · have ec : (q.push { d with seqno := S } false []).1._fifo.contents = cs.map some := by
          rw [sub_queue.push_fst_full q _ false [] hi hf]; exact hc
        obtain ⟨q1, cs1, r1, r2, r3, r4⟩ := ih (t.push ph d ns).2.1 (t.push ph d ns).2.2 _ cs lo
          (S + 1) outs' t1 ns1 (push_inv t ph d ns hinv) (by rw [push_cache]; exact hmem) hq'
          (sub_queue.Reachable.push q _ false [] hrq) ec hpw
          (fun x hx => ⟨(hb x hx).1, by have := (hb x hx).2; omega⟩) (by omega) hseq2
          (by omega) hops' hr'
        exact ⟨q1, cs1, r1, r2, r3, fun x hx => ⟨(r4 x hx).1, by have := (r4 x hx).2; omega⟩⟩
      · have hf' : ¬ (if q._fifo._write_idx + 1 = q._fifo._capacity then 0
            else q._fifo._write_idx + 1) = q._fifo._read_idx :=
          fun e => hf ((spsc_queue.full_iff q._fifo hi).mp e)
        have ec : (q.push { d with seqno := S } false []).1._fifo.contents
            = (cs ++ [{ d with seqno := S }]).map some := by
          rw [sub_queue.push_fifo, spsc_queue.emplace_ok_contents q._fifo _ hi hf', hc]; simp
        have hpw' : ((cs ++ [{ d with seqno := S }]).map (fun (d : data) => d.seqno)).Pairwise
            (fun a b => a < b) := by
          rw [List.map_append, List.pairwise_append]
          refine ⟨hpw, by simp, ?_⟩
          intro a ha b hb'
          simp only [List.map_cons, List.map_nil, List.mem_singleton] at hb'
          rw [List.mem_map] at ha
          obtain ⟨y, hy, e⟩ := ha
          subst e hb'
          exact (hb y hy).2
        obtain ⟨q1, cs1, r1, r2, r3, r4⟩ := ih (t.push ph d ns).2.1 (t.push ph d ns).2.2 _
          (cs ++ [{ d with seqno := S }]) lo
          (S + 1) outs' t1 ns1 (push_inv t ph d ns hinv) (by rw [push_cache]; exact hmem) hq'
          (sub_queue.Reachable.push q _ false [] hrq) ec hpw'
          (by
            intro x hx
            rw [List.mem_append, List.mem_singleton] at hx
            rcases hx with hx | hx
            · exact ⟨(hb x hx).1, by have := (hb x hx).2; omega⟩
            · subst hx; exact ⟨hlo, Nat.lt_succ_self _⟩)
          (by omega) hseq2 (by omega) hops' hr'
        exact ⟨q1, cs1, r1, r2, r3, fun x hx => ⟨(r4 x hx).1, by have := (r4 x hx).2; omega⟩⟩
    · subst e
      have hPeq : (List.filter topic_op.is_push (topic_op.pop sq d :: ops)).length
          = (List.filter topic_op.is_push ops).length := by
        simp [topic_op.is_push]
      rw [hPeq] at hP ⊢
      simp only [step, pop_some t sq d q hq, Option.map_some', Option.some.injEq,
        Prod.mk.injEq] at hs
      obtain ⟨e1, e2, e3⟩ := hs
      subst e1 e2 e3
      have hq' : ({ t with sub_heap := t.sub_heap.set sq (some (q.pop d).2.2) } : topic).sub_heap.getD
          sq none = some (q.pop d).2.2 := getD_set_eq _ _ _ _ (heap_lt _ _ _ hq)
      have hinv' := topic_pop_inv t sq d q hinv hq hrq
      cases cs with
      | nil =>
        have he : q._fifo.contents = [] := by rw [hc]; rfl
        have e := sub_queue.pop_of_empty q hi he d
        have hfm : (topic_out.popped (q.pop d).1 (q.pop d).2.1 :: outs').filterMap
            topic_out.popped_data = outs'.filterMap topic_out.popped_data := by
          rw [e]; simp [topic_out.popped_data]
        rw [hfm]
        exact ih _ ns _ [] lo S outs' t1 ns1 hinv' hmem hq' (sub_queue.Reachable.pop q d hrq)
          (by rw [e]; exact hc) hpw hb hlo hseq hP hops' hr'
      | cons x cs' =>
        have hne : q._fifo.contents ≠ [] := by rw [hc]; simp
        obtain ⟨p1, p2, _, _⟩ := sub_queue.pop_of_nonempty q hi hne d
        rw [hc, List.map_cons, List.cons.injEq, Option.some.injEq] at p2
        obtain ⟨p2a, p2b⟩ := p2
        have hfm : (topic_out.popped (q.pop d).1 (q.pop d).2.1 :: outs').filterMap
            topic_out.popped_data = x :: outs'.filterMap topic_out.popped_data := by
          rw [p1, ← p2a]; simp [topic_out.popped_data]
        rw [hfm]
        rw [List.map_cons, List.pairwise_cons] at hpw
        obtain ⟨q1, cs1, r1, r2, r3, r4⟩ := ih _ ns _ cs' (x.seqno + 1) S outs' t1 ns1 hinv' hmem hq'
          (sub_queue.Reachable.pop q d hrq) p2b.symm hpw.2
          (by
            intro y hy
            have h1 := hpw.1 y.seqno (List.mem_map_of_mem _ hy)
            exact ⟨h1, (hb y (List.mem_cons_of_mem _ hy)).2⟩)
          (by have := (hb x (List.mem_cons_self _ _)).2; omega) hseq hP hops' hr'
        refine ⟨q1, cs1, r1, r2, ?_, ?_⟩
        · rw [List.map_cons, List.cons_append, List.pairwise_cons]
          exact ⟨fun y hy => by have := (r4 y hy).1; omega, r3⟩
        · intro y hy
          rw [List.map_cons, List.cons_append, List.mem_cons] at hy
          rcases hy with hy | hy
          · subst hy
            have := hb x (List.mem_cons_self _ _)
            exact ⟨this.1, by omega⟩
          · have := r4 y hy
            have := (hb x (List.mem_cons_self _ _)).1
            exact ⟨by omega, by omega⟩

end topic

/-- C11 (amended): sequence monotonicity.  On a fresh topic with one subscriber queue
(capacity below 2^32, subscribed before the first push) and any number of publishers (in
particular one), every interleaving of `n <= 2^64` pushes and of pops on that queue runs
to the end; the seqnos the subscriber pops form, in pop order, a strictly increasing
sequence of values below `n`; and once the queue is drained, the number of seqnos in
`0..n-1` that it never popped equals its `drop_count` modulo 2^32 (the counter is a
`uint32_t`), and equals it exactly while that number is below 2^32. -/
theorem C11_seqno_monotonic (domain name dt : String) (regs : List registration)
    (sname : String) (c : Nat) (ntfr : Option Nat)
    (hone : regs.filter registration.is_sub = [registration.sub sname c ntfr])
    (hc : c < UINT32_MOD) :
    ∃ t0 sq, (topic.new domain name dt).setup regs = some t0
      ∧ t0._cache_ptr.subs = [sq]
      ∧ t0._cache_ptr.pubs.length = (regs.filter (fun r => !r.is_sub)).length
      ∧ ∀ (ops : List topic_op) (ns : List notifier),
          (∀ op ∈ ops, (∃ ph d, op = topic_op.push ph d) ∨ (∃ d, op = topic_op.pop sq d)) →
          (ops.filter topic_op.is_push).length ≤ UINT64_MOD →
          ∃ outs t1 ns1 q1, t0.run ns ops = some (outs, t1, ns1)
            ∧ t1.sub_heap.getD sq none = some q1
            ∧ ((outs.filterMap topic_out.popped_data).map (fun d => d.seqno)).Pairwise
                (fun a b => a < b)
            ∧ (∀ x ∈ (outs.filterMap topic_out.popped_data).map (fun d => d.seqno),
                x < (ops.filter topic_op.is_push).length)
            ∧ (q1._fifo.contents = [] →
                q1.drop_count
                    = ((List.range (ops.filter topic_op.is_push).length).filter
                        (fun i => decide (i ∉ (outs.filterMap topic_out.popped_data).map
                          (fun d => d.seqno)))).length % UINT32_MOD
                  ∧ (((List.range (ops.filter topic_op.is_push).length).filter
                        (fun i => decide (i ∉ (outs.filterMap topic_out.popped_data).map
                          (fun d => d.seqno)))).length < UINT32_MOD →
                      q1.drop_count
                        = ((List.range (ops.filter topic_op.is_push).length).filter
                            (fun i => decide (i ∉ (outs.filterMap topic_out.popped_data).map
                              (fun d => d.seqno)))).length)) := by
  obtain ⟨t0, e0, hinv, hseq, hsubs, hpubs, qn, tn, qdt, nt, hq⟩ :=
    topic.single_sub_setup domain name dt regs sname c ntfr hone hc
  refine ⟨t0, 0, e0, hsubs, hpubs, ?_⟩
  intro ops ns hops hP
  have hs := topic.uint32_lt_size_max c hc
  have hr := sub_queue.Reachable.ctor qn tn qdt c nt hs
  obtain ⟨outs, t1, ns1, q1, D, r1, r2, _, _, r5, r6, _⟩ :=
    topic.io_run 0 ops t0 ns _ hinv hsubs hq hr hops
  have hnil : (sub_queue.new qn tn qdt c nt)._fifo.contents = ([] : List data).map some :=
    sub_queue.new_contents _ _
  obtain ⟨q1', cs1, m1, m2, m3, m4⟩ := topic.mono_run 0 ops t0 ns _ [] 0 0 outs t1 ns1 hinv
    (by rw [hsubs]; exact List.mem_singleton_self 0) hq hr hnil (by simp)
    (fun x hx => absurd hx (List.not_mem_nil x)) (le_refl 0) (by rw [hseq]; rfl)
    (by rw [Nat.zero_add]; exact hP) hops r1
  have hpw := (List.pairwise_append.mp m3).1
  have hb : ∀ x ∈ (outs.filterMap topic_out.popped_data).map (fun d => d.seqno),
      x < (ops.filter topic_op.is_push).length := by
    intro x hx
    have := (m4 x (List.mem_append_left _ hx)).2
    omega
  refine ⟨outs, t1, ns1, q1, r1, r2, hpw, hb, ?_⟩
  intro hdr
  have hnd : ((outs.filterMap topic_out.popped_data).map (fun d => d.seqno)).Nodup :=
    hpw.imp (fun h => Nat.ne_of_lt h)
  have hcount := count_missing _ _ hnd hb
  rw [List.length_map, popped_count] at hcount
  have hlen0 : (sub_queue.new qn tn qdt c nt)._fifo.contents.length = 0 := by
    rw [hnil]; rfl
  have hd0 : (sub_queue.new qn tn qdt c nt)._drop_count = 0 := rfl
  rw [hlen0, hdr, List.length_nil] at r6
  rw [hd0, Nat.zero_add] at r5
  have hD : D = (ops.filter topic_op.is_push).length - (outs.filter topic_out.is_popped).length := by
    omega
  rw [hcount, ← hD]
  exact ⟨r5, fun hlt => r5.trans (Nat.mod_eq_of_lt hlt)⟩

namespace topic

theorem pop_frame (t : topic) (sq : Nat) (d : data) (r : Bool × data × topic)
    (h : t.pop sq d = some r) :
    r.2.2._next_seqno = t._next_seqno ∧ r.2.2._cache_ptr = t._cache_ptr := by
  unfold pop at h
  split at h
  · exact Option.noConfusion h
  · have e := Option.some.inj h
    subst e
    exact ⟨rfl, rfl⟩

theorem pop_n_frame (sq : Nat) (n : Nat) : ∀ (t : topic) (d : data)
    (res : List (Bool × data)) (t2 : topic), t.pop_n sq d n = some (res, t2) →
    t2._next_seqno = t._next_seqno ∧ t2._cache_ptr = t._cache_ptr := by
  induction n with
  | zero =>
    intro t d res t2 h
    simp only [pop_n, Option.some.injEq, Prod.mk.injEq] at h
    rw [← h.2]; exact ⟨rfl, rfl⟩
  | succ n ih =>
    intro t d res t2 h
    simp only [pop_n] at h
    split at h
    · exact Option.noConfusion h
    · rename_i r hr
      split at h
      · exact Option.noConfusion h
      · rename_i rest hrest
        simp only [Option.some.injEq, Prod.mk.injEq] at h
        obtain ⟨f1, f2⟩ := pop_frame t sq d r hr
        obtain ⟨g1, g2⟩ := ih r.2.2 r.2.1 rest.1 rest.2 hrest
        rw [← h.2, g1, g2, f1, f2]
        exact ⟨rfl, rfl⟩

theorem stamp_take_one (ph : Nat) (d : data) (rest : List (Nat × data)) :
    (stamp 0 ((ph, d) :: rest)).take 1 = [{ d with seqno := 0 }] := by
  simp [stamp]

/-- The state of a fresh topic with one subscriber queue after `pushes` and no pop. -/
theorem single_sub_after_pushes (domain name dt : String) (regs : List registration)
    (sname : String) (c : Nat) (ntfr : Option Nat)
    (hone : regs.filter registration.is_sub = [registration.sub sname c ntfr])
    (hc : c < UINT32_MOD) (pushes : List (Nat × data)) (ns : List notifier) :
    ∃ t0 q, (topic.new domain name dt).setup regs = some t0
      ∧ Inv (t0.push_list ns pushes).2.1
      ∧ (t0.push_list ns pushes).2.1._cache_ptr.subs = [0]
      ∧ (t0.push_list ns pushes).2.1._next_seqno = pushes.length % UINT64_MOD
      ∧ (t0.push_list ns pushes).2.1.sub_heap.getD 0 none = some q
      ∧ q._drop_count = (pushes.length - max c 1) % UINT32_MOD
      ∧ q._fifo.contents = ((stamp 0 pushes).take (max c 1)).map some
      ∧ spsc_queue.Inv q._fifo := by
  obtain ⟨t0, e0, hinv, hseq, hsubs, _, qn, tn, qdt, nt, hq⟩ :=
    single_sub_setup domain name dt regs sname c ntfr hone hc
  obtain ⟨_, l2, l3, l4, l5⟩ := topic_push_list_spec pushes t0 ns hinv
  rw [hseq] at l4 l5
  have hq' := l5 0 (by rw [hsubs]; exact List.mem_singleton_self 0) _ hq
  obtain ⟨_, c2, c3, c4, _, _⟩ :=
    sub_queue.fresh_push_list qn tn qdt c nt hc (stamp 0 pushes)
  rw [stamp_length] at c2
  refine ⟨t0, _, e0, l2, by rw [l3, hsubs], ?_, hq', c2, c3, c4⟩
  rw [l4, Nat.zero_add]

end topic

/-- Witness for C11: queue size 1; push, push (dropped), pop, push, pop, pop. -/
theorem C11_seqno_monotonic_witness :
    ∃ t0 sq, (topic.new "" "/t" "X").setup
          [registration.sub "s" 1 none, registration.pub "p"] = some t0
      ∧ t0._cache_ptr.subs = [sq]
      ∧ ∃ outs t1 ns1, t0.run []
            [topic_op.push 0 ⟨0, 1, none, []⟩, topic_op.push 0 ⟨0, 2, none, []⟩,
              topic_op.pop sq ⟨0, 0, none, []⟩, topic_op.push 0 ⟨0, 3, none, []⟩,
              topic_op.pop sq ⟨0, 0, none, []⟩, topic_op.pop sq ⟨0, 0, none, []⟩]
              = some (outs, t1, ns1)
          ∧ ((outs.filterMap topic_out.popped_data).map (fun d => d.seqno)).Pairwise
              (fun a b => a < b) := by
  obtain ⟨t0, sq, h0, h1, _, h3⟩ := C11_seqno_monotonic "" "/t" "X"
    [registration.sub "s" 1 none, registration.pub "p"] "s" 1 none rfl (by decide)
  have hlen : (List.filter topic_op.is_push
      [topic_op.push 0 ⟨0, 1, none, []⟩, topic_op.push 0 ⟨0, 2, none, []⟩,
        topic_op.pop sq ⟨0, 0, none, []⟩, topic_op.push 0 ⟨0, 3, none, []⟩,
        topic_op.pop sq ⟨0, 0, none, []⟩, topic_op.pop sq ⟨0, 0, none, []⟩]).length = 3 := rfl
  obtain ⟨outs, t1, ns1, q1, r1, _, r3, _⟩ := h3
    [topic_op.push 0 ⟨0, 1, none, []⟩, topic_op.push 0 ⟨0, 2, none, []⟩,
      topic_op.pop sq ⟨0, 0, none, []⟩, topic_op.push 0 ⟨0, 3, none, []⟩,
      topic_op.pop sq ⟨0, 0, none, []⟩, topic_op.pop sq ⟨0, 0, none, []⟩] []
    (by
      intro op hop
      simp only [List.mem_cons, List.mem_singleton, List.mem_nil_iff, or_false] at hop
      rcases hop with h | h | h | h | h | h
      · exact Or.inl ⟨_, _, h⟩
      · exact Or.inl ⟨_, _, h⟩
      · exact Or.inr ⟨_, h⟩
      · exact Or.inl ⟨_, _, h⟩
      · exact Or.inr ⟨_, h⟩
      · exact Or.inr ⟨_, h⟩)
    (by rw [hlen]; decide)
  exact ⟨t0, sq, h0, h1, outs, t1, ns1, r1, r3⟩

/-- Counterexample to C11 as stated, on a topic with one publisher and one subscriber
queue of size 1.  First: after 2^32 + 1 pushes and no pop, the subscriber pops seqno 0
and is drained; the 2^32 seqnos `1 .. 2^32` were never popped, and its `drop_count` is
0.  Second: after 2^64 pushes and no pop, the subscriber pops seqno 0, the next push is
stamped with seqno 0 again, and the subscriber pops seqno 0 a second time. -/
theorem C11_counts_wrap :
    (∃ t0 popped t2 q2, (topic.new "" "/t" "X").setup
          [registration.pub "p", registration.sub "s" 1 none] = some t0
      ∧ (t0.push_list [] ((0, ⟨0, 0, none, []⟩)
            :: List.replicate 4294967296 (0, ⟨0, 0, none, []⟩))).2.1.pop_n 0
            ⟨0, 0, none, []⟩ 1 = some (popped, t2)
      ∧ popped.map (fun r => (r.1, r.2.seqno)) = [(true, 0)]
      ∧ t2.sub_heap.getD 0 none = some q2
      ∧ q2._fifo.contents = [] ∧ q2.drop_count = 0)
    ∧ (∃ t0 popped t2 r, (topic.new "" "/t" "X").setup
          [registration.pub "p", registration.sub "s" 1 none] = some t0
      ∧ (t0.push_list [] ((0, ⟨0, 0, none, []⟩)
            :: List.replicate 18446744073709551615 (0, ⟨0, 0, none, []⟩))).2.1.pop_n 0
            ⟨0, 0, none, []⟩ 1 = some (popped, t2)
      ∧ popped.map (fun r => (r.1, r.2.seqno)) = [(true, 0)]
      ∧ (t2.push 0 ⟨0, 0, none, []⟩ []).2.1.pop 0 ⟨0, 0, none, []⟩ = some r
      ∧ r.1 = true ∧ r.2.1.seqno = 0) := by
  constructor
  · obtain ⟨t0, q, e0, _, _, _, hq, hd, hcs, hi⟩ := topic.single_sub_after_pushes "" "/t" "X"
      [registration.pub "p", registration.sub "s" 1 none] "s" 1 none rfl (by decide)
      ((0, ⟨0, 0, none, []⟩) :: List.replicate 4294967296 (0, ⟨0, 0, none, []⟩)) []
    have hmax : max 1 1 = 1 := rfl
    rw [hmax, topic.stamp_take_one] at hcs
    rw [hmax, List.length_cons, List.length_replicate] at hd
    obtain ⟨t2, q2, o1, o2, _, o4, _, o6⟩ := topic.topic_pop_n_spec 0
      [{ (⟨0, 0, none, []⟩ : data) with seqno := 0 }] _ [] ⟨0, 0, none, []⟩ q hq hi hcs
    refine ⟨t0, _, t2, q2, e0, o1, rfl, o2, by simpa using o4, ?_⟩
    show q2._drop_count = 0
    rw [o6, hd]; decide
  · obtain ⟨t0, q, e0, hinv, hsubs, hseq, hq, _, hcs, hi⟩ :=
      topic.single_sub_after_pushes "" "/t" "X"
        [registration.pub "p", registration.sub "s" 1 none] "s" 1 none rfl (by decide)
        ((0, ⟨0, 0, none, []⟩) :: List.replicate 18446744073709551615 (0, ⟨0, 0, none, []⟩)) []
    have hmax : max 1 1 = 1 := rfl
    rw [hmax, topic.stamp_take_one] at hcs
    have hseq0 : (18446744073709551615 + 1) % UINT64_MOD = 0 := by
      unfold UINT64_MOD; norm_num
    rw [List.length_cons, List.length_replicate, hseq0] at hseq
    obtain ⟨t2, q2, o1, o2, o3, o4, _, _⟩ := topic.topic_pop_n_spec 0
      [{ (⟨0, 0, none, []⟩ : data) with seqno := 0 }] _ [] ⟨0, 0, none, []⟩ q hq hi hcs
    obtain ⟨f1, f2⟩ := topic.pop_n_frame 0 1 _ _ _ _ o1
    rw [hseq] at f1
    have hsubs2 : t2._cache_ptr.subs = [0] := by rw [f2, hsubs]
    have hh := (topic.push_heap t2 0 ⟨0, 0, none, []⟩ [] (by rw [hsubs2]; simp)).2 0
    rw [if_pos (by rw [hsubs2]; exact List.mem_singleton_self 0), o2, f1] at hh
    have hcap : 1 ≤ q2._fifo.capacity := by
      have := o3.cap_ge
      rw [spsc_queue.capacity_eq _ o3]; omega
    have hnf : q2._fifo.contents.length ≠ q2._fifo.capacity := by
      rw [o4]; simp only [List.map_nil, List.length_nil]; omega
    have hnf' : ¬ (if q2._fifo._write_idx + 1 = q2._fifo._capacity then 0
        else q2._fifo._write_idx + 1) = q2._fifo._read_idx :=
      fun e => hnf ((spsc_queue.full_iff q2._fifo o3).mp e)
    have hc3 : (q2.push { (⟨0, 0, none, []⟩ : data) with seqno := 0 } false []).1._fifo.contents
        = [some ⟨0, 0, none, []⟩] := by
      rw [sub_queue.push_fifo, spsc_queue.emplace_ok_contents q2._fifo _ o3 hnf', o4]; rfl
    have hi3 : spsc_queue.Inv (q2.push { (⟨0, 0, none, []⟩ : data) with seqno := 0 } false
        []).1._fifo := by
      rw [sub_queue.push_fifo]; exact spsc_queue.emplace_inv _ _ o3
    obtain ⟨p1, p2, _, _⟩ := sub_queue.pop_of_nonempty _ hi3 (by rw [hc3]; simp)
      ⟨0, 0, none, []⟩
    rw [hc3, List.cons.injEq, Option.some.injEq] at p2
    refine ⟨t0, _, t2, _, e0, o1, rfl, topic.pop_some _ 0 _ _ hh, p1, ?_⟩
    show ((q2.push { (⟨0, 0, none, []⟩ : data) with seqno := 0 } false []).1.pop
      ⟨0, 0, none, []⟩).2.1.seqno = 0
    rw [← p2.1]

end vdds

/-! ### `domain::create_topic` -/

namespace vdds

namespace topic

theorem step_name (t : topic) (ns : List notifier) (op : topic_op)
    (r : topic_out × topic × List notifier) (h : t.step ns op = some r) :
    r.2.1._name = t._name ∧ r.2.1._data_type = t._data_type := by
  cases op with
  | subscribe name qsize ntfr =>
    simp only [step, subscribe, cache_swap, cache_copy] at h
    split_ifs at h
    · simp only [Option.map_none'] at h
      exact Option.noConfusion h
    · simp only [Option.map_some', Option.some.injEq] at h
      rw [← h]; exact ⟨rfl, rfl⟩
  | unsubscribe q =>
    simp only [step, unsubscribe, cache_swap, cache_copy] at h
    split at h
    · simp only [Option.map_none'] at h
      exact Option.noConfusion h
    · split_ifs at h
      · simp only [Option.map_none'] at h
        exact Option.noConfusion h
      · simp only [Option.map_some', Option.some.injEq] at h
        rw [← h]; exact ⟨rfl, rfl⟩
  | publish name =>
    simp only [step, publish, cache_swap, cache_copy] at h
    split_ifs at h
    · simp only [Option.map_none'] at h
      exact Option.noConfusion h
    · simp only [Option.map_some', Option.some.injEq] at h
      rw [← h]; exact ⟨rfl, rfl⟩
  | unpublish p =>
    simp only [step, unpublish, cache_swap, cache_copy] at h
    split at h
    · simp only [Option.map_none'] at h
      exact Option.noConfusion h
    · split_ifs at h
      · simp only [Option.map_none'] at h
        exact Option.noConfusion h
      · simp only [Option.map_some', Option.some.injEq] at h
        rw [← h]; exact ⟨rfl, rfl⟩
  | push ph d =>
    simp only [step, Option.some.injEq] at h
    rw [← h]; exact ⟨rfl, rfl⟩
  | pop sq d =>
    simp only [step, pop] at h
    split at h
    · simp only [Option.map_none'] at h
      exact Option.noConfusion h
    · simp only [Option.map_some', Option.some.injEq] at h
      rw [← h]; exact ⟨rfl, rfl⟩

end topic

namespace domain

theorem scan_none (name dt : String) : ∀ (ts : List topic) (i : Nat),
    create_topic_scan name dt ts i = none ↔ ∀ t ∈ ts, t._name ≠ name := by
  intro ts
  induction ts with
  | nil => intro i; simp [create_topic_scan]
  | cons p ps ih =>
    intro i
    simp only [create_topic_scan, List.mem_cons, forall_eq_or_imp]
    by_cases hp : p._name = name
    · rw [if_pos hp]
      constructor
      · intro h; split_ifs at h
      · intro h; exact absurd hp h.1
    · rw [if_neg hp, ih (i + 1)]
      exact ⟨fun h => ⟨hp, h⟩, fun h => h.2⟩

/-- The scan returns at the first topic with the name looked for: if that is position `j`,
the result is the pointer `i + j` when the data types agree and null otherwise. -/
theorem scan_found (name dt : String) : ∀ (ts : List topic) (i j : Nat) (t : topic),
    ts[j]? = some t → t._name = name →
    (∀ (k : Nat) (u : topic), k < j → ts[k]? = some u → u._name ≠ name) →
    create_topic_scan name dt ts i = some (if t._data_type = dt then some (i + j) else none) := by
  intro ts
  induction ts with
  | nil => intro i j t h; simp at h
  | cons p ps ih =>
    intro i j t h hn hfirst
    cases j with
    | zero =>
      rw [List.getElem?_cons_zero, Option.some.injEq] at h
      subst h
      simp only [create_topic_scan, if_pos hn, Nat.add_zero]
      split_ifs <;> rfl
    | succ j =>
      rw [List.getElem?_cons_succ] at h
      have hp : p._name ≠ name := hfirst 0 p (Nat.succ_pos j) List.getElem?_cons_zero
      simp only [create_topic_scan, if_neg hp]
      rw [ih (i + 1) j t h hn (fun k u hk hu =>
        hfirst (k + 1) u (Nat.succ_lt_succ hk) (by rw [List.getElem?_cons_succ]; exact hu))]
      have e : i + 1 + j = i + (j + 1) := by omega
      rw [e]

/-- What a returned pointer says: it is the position of the first topic with that name, and
that topic has the data type asked for. -/
theorem scan_some (name dt : String) : ∀ (ts : List topic) (i k : Nat),
    create_topic_scan name dt ts i = some (some k) →
    ∃ (j : Nat) (t : topic), k = i + j ∧ ts[j]? = some t ∧ t._name = name ∧ t._data_type = dt
      ∧ ∀ (m : Nat) (u : topic), m < j → ts[m]? = some u → u._name ≠ name := by
  intro ts
  induction ts with
  | nil => intro i k h; simp [create_topic_scan] at h
  | cons p ps ih =>
    intro i k h
    simp only [create_topic_scan] at h
    by_cases hp : p._name = name
    · rw [if_pos hp] at h
      by_cases hd : p._data_type = dt
      · rw [if_pos hd, Option.some.injEq, Option.some.injEq] at h
        exact ⟨0, p, by omega, List.getElem?_cons_zero, hp, hd,
          fun m u hm _ => absurd hm (Nat.not_lt_zero m)⟩
      · rw [if_neg hd] at h
        simp at h
    · rw [if_neg hp] at h
      obtain ⟨j, t, e, hj, hn, hd, hfirst⟩ := ih (i + 1) k h
      refine ⟨j + 1, t, by omega, by rw [List.getElem?_cons_succ]; exact hj, hn, hd, ?_⟩
      intro m u hm hu
      cases m with
      | zero =>
        rw [List.getElem?_cons_zero, Option.some.injEq] at hu
        rw [← hu]; exact hp
      | succ m =>
        rw [List.getElem?_cons_succ] at hu
        exact hfirst m u (by omega) hu

/-- The scan depends on the names and data types of the topics only, and a result it has
reached is not changed by topics that follow. -/
theorem scan_stable (name dt : String) : ∀ (ts ts' : List topic) (i : Nat) (r : Option Nat),
    create_topic_scan name dt ts i = some r →
    (∃ rest, ts'.map (fun t => (t._name, t._data_type))
      = ts.map (fun t => (t._name, t._data_type)) ++ rest) →
    create_topic_scan name dt ts' i = some r := by
  intro ts
  induction ts with
  | nil => intro ts' i r h; simp [create_topic_scan] at h
  | cons p ps ih =>
    intro ts' i r h hx
    obtain ⟨rest, hrest⟩ := hx
    cases ts' with
    | nil => simp at hrest
    | cons p' ps' =>
      simp only [List.map_cons, List.cons_append, List.cons.injEq, Prod.mk.injEq] at hrest
      simp only [create_topic_scan] at h ⊢
      rw [hrest.1.1, hrest.1.2]
      by_cases hp : p._name = name
      · rw [if_pos hp] at h ⊢; exact h
      · rw [if_neg hp] at h ⊢
        exact ih ps' (i + 1) r h ⟨rest, hrest.2⟩

theorem create_topic_found (dm : domain) (name dt : String) (r : Option Nat)
    (h : create_topic_scan name dt dm._topics 0 = some r) :
    dm.create_topic name dt = (r, dm) := by
  simp only [create_topic, h]

theorem create_topic_new (dm : domain) (name dt : String)
    (h : ∀ t ∈ dm._topics, t._name ≠ name) :
    dm.create_topic name dt = (some dm._topics.length,
      { dm with _topics := dm._topics ++ [topic.new dm._name name dt] }) := by
  simp only [create_topic, (scan_none name dt dm._topics 0).mpr h]

/-- After `create_topic(name, dt)` has returned the pointer `k`, the scan for the same
name and type over the topics of the state after the call ends at `k`. -/
theorem create_topic_scan_after (dm : domain) (name dt : String) (k : Nat)
    (h : (dm.create_topic name dt).1 = some k) :
    create_topic_scan name dt (dm.create_topic name dt).2._topics 0 = some (some k) := by
  cases hs : create_topic_scan name dt dm._topics 0 with
  | some r =>
    rw [create_topic_found dm name dt r hs] at h ⊢
    simp only at h ⊢
    rw [hs, h]
  | none =>
    have hno := (scan_none name dt dm._topics 0).mp hs
    rw [create_topic_new dm name dt hno] at h ⊢
    simp only [Option.some.injEq] at h ⊢
    have hj : (dm._topics ++ [topic.new dm._name name dt])[dm._topics.length]?
        = some (topic.new dm._name name dt) := by
      rw [List.getElem?_append_right (Nat.le_refl _)]; simp
    rw [scan_found name dt _ 0 dm._topics.length (topic.new dm._name name dt) hj rfl (by
      intro m u hm hu
      rw [List.getElem?_append_left hm] at hu
      obtain ⟨hlt, e⟩ := List.getElem?_eq_some_iff.mp hu
      rw [← e]
      exact hno _ (List.getElem_mem hlt))]
    rw [if_pos (show (topic.new dm._name name dt)._data_type = dt from rfl), Nat.zero_add, h]

theorem create_topic_sigs (dm : domain) (name dt : String) :
    (dm.create_topic name dt).2._name = dm._name
      ∧ ∃ rest, (dm.create_topic name dt).2._topics = dm._topics ++ rest := by
  cases hs : create_topic_scan name dt dm._topics 0 with
  | some r =>
    rw [create_topic_found dm name dt r hs]
    exact ⟨rfl, [], (List.append_nil _).symm⟩
  | none =>
    rw [create_topic_new dm name dt ((scan_none name dt dm._topics 0).mp hs)]
    exact ⟨rfl, _, rfl⟩

/-- No call removes or reorders topics or changes the name or the data type of a topic:
the names and data types of the topics before the call are, position by position, a
front part of those after the call. -/
theorem step_sigs (dm : domain) (ns : List notifier) (op : domain_op) (dm1 : domain)
    (ns1 : List notifier) (h : dm.step ns op = some (dm1, ns1)) :
    dm1._name = dm._name
      ∧ ∃ rest, dm1._topics.map (fun t => (t._name, t._data_type))
          = dm._topics.map (fun t => (t._name, t._data_type)) ++ rest := by
  cases op with
  | create_topic name dt =>
    simp only [step, Option.some.injEq, Prod.mk.injEq] at h
    obtain ⟨e1, rest, e2⟩ := create_topic_sigs dm name dt
    rw [← h.1]
    exact ⟨e1, rest.map (fun t => (t._name, t._data_type)), by rw [e2, List.map_append]⟩
  | on_topic tp op =>
    simp only [step] at h
    split at h
    · exact Option.noConfusion h
    · rename_i t ht
      cases hs : t.step ns op with
      | none => rw [hs] at h; exact Option.noConfusion h
      | some r =>
        rw [hs] at h
        simp only [Option.map_some', Option.some.injEq, Prod.mk.injEq] at h
        obtain ⟨n1, n2⟩ := topic.step_name t ns op r hs
        rw [← h.1]
        refine ⟨rfl, [], ?_⟩
        rw [List.append_nil]
        show List.map _ (dm._topics.set tp r.2.1) = _
        rw [List.map_set, n1, n2]
        apply List.ext_getElem?
        intro j
        by_cases hj : tp = j
        · subst hj
          have hlt : tp < dm._topics.length := (List.getElem?_eq_some_iff.mp ht).1
          rw [List.getElem?_set_self (by rw [List.length_map]; exact hlt), List.getElem?_map, ht]
          rfl
        · rw [List.getElem?_set_ne hj]

theorem run_sigs (ops : List domain_op) : ∀ (dm : domain) (ns : List notifier) (dm1 : domain)
    (ns1 : List notifier), dm.run ns ops = some (dm1, ns1) →
    dm1._name = dm._name
      ∧ ∃ rest, dm1._topics.map (fun t => (t._name, t._data_type))
          = dm._topics.map (fun t => (t._name, t._data_type)) ++ rest := by
  induction ops with
  | nil =>
    intro dm ns dm1 ns1 h
    simp only [run, Option.some.injEq, Prod.mk.injEq] at h
    rw [← h.1]; exact ⟨rfl, [], (List.append_nil _).symm⟩
  | cons op ops ih =>
    intro dm ns dm1 ns1 h
    simp only [run] at h
    split at h
    · exact Option.noConfusion h
    · rename_i r hr
      obtain ⟨a1, r1, a2⟩ := step_sigs dm ns op r.1 r.2 hr
      obtain ⟨b1, r2, b2⟩ := ih r.1 r.2 dm1 ns1 h
      exact ⟨b1.trans a1, r1 ++ r2, by rw [b2, a2, List.append_assoc]⟩

theorem step_names_nodup (dm : domain) (ns : List notifier) (op : domain_op) (dm1 : domain)
    (ns1 : List notifier) (h : dm.step ns op = some (dm1, ns1))
    (hn : (dm._topics.map (fun t => t._name)).Nodup) :
    (dm1._topics.map (fun t => t._name)).Nodup := by
  cases op with
  | create_topic name dt =>
    simp only [step, Option.some.injEq, Prod.mk.injEq] at h
    rw [← h.1]
    cases hs : create_topic_scan name dt dm._topics 0 with
    | some r => rw [create_topic_found dm name dt r hs]; exact hn
    | none =>
      have hno := (scan_none name dt dm._topics 0).mp hs
      rw [create_topic_new dm name dt hno]
      simp only [List.map_append, List.map_cons, List.map_nil]
      rw [List.nodup_append]
      refine ⟨hn, List.nodup_singleton _, ?_⟩
      intro a ha hb
      rw [List.mem_singleton] at hb
      obtain ⟨t, ht, e⟩ := List.mem_map.mp ha
      exact hno t ht (e.trans hb)
  | on_topic tp op =>
    obtain ⟨_, rest, e⟩ := step_sigs dm ns (domain_op.on_topic tp op) dm1 ns1 h
    have hl : dm1._topics.length = dm._topics.length := by
      simp only [step] at h
      split at h
      · exact Option.noConfusion h
      · cases hs : topic.step _ ns op with
        | none => rw [hs] at h; exact Option.noConfusion h
        | some r =>
          rw [hs] at h
          simp only [Option.map_some', Option.some.injEq, Prod.mk.injEq] at h
          rw [← h.1]; exact List.length_set _ _ _
    have hrest : rest = [] := by
      have := congrArg List.length e
      simp only [List.length_map, List.length_append, hl] at this
      exact List.length_eq_zero.mp (by omega)
    rw [hrest, List.append_nil] at e
    have e' := congrArg (List.map Prod.fst) e
    simp only [List.map_map] at e'
    have e2 : dm1._topics.map (fun t => t._name) = dm._topics.map (fun t => t._name) := e'
    rw [e2]; exact hn

theorem reachable_names_nodup (dm : domain) (h : Reachable dm) :
    (dm._topics.map (fun t => t._name)).Nodup := by
  induction h with
  | ctor name => exact List.nodup_nil
  | step dm ns op dm1 ns1 _ hs ih => exact step_names_nodup dm ns op dm1 ns1 hs ih

theorem run_reachable (ops : List domain_op) : ∀ (dm : domain) (ns : List notifier)
    (dm1 : domain) (ns1 : List notifier), Reachable dm → dm.run ns ops = some (dm1, ns1) →
    Reachable dm1 := by
  induction ops with
  | nil =>
    intro dm ns dm1 ns1 hr h
    simp only [run, Option.some.injEq, Prod.mk.injEq] at h
    rw [← h.1]; exact hr
  | cons op ops ih =>
    intro dm ns dm1 ns1 hr h
    simp only [run] at h
    split at h
    · exact Option.noConfusion h
    · rename_i r hs
      exact ih r.1 r.2 dm1 ns1 (Reachable.step dm ns op r.1 r.2 hr hs) h

/-- With pairwise distinct names, the topic at position `i` is the first one with its
name. -/
theorem nodup_first (ts : List topic) (hn : (ts.map (fun t => t._name)).Nodup) (i : Nat)
    (t : topic) (hi : ts[i]? = some t) :
    ∀ (k : Nat) (u : topic), k < i → ts[k]? = some u → u._name ≠ t._name := by
  intro k u hk hu e
  have hil : i < ts.length := (List.getElem?_eq_some_iff.mp hi).1
  have hkl : k < ts.length := (List.getElem?_eq_some_iff.mp hu).1
  have h1 : (ts.map (fun t => t._name))[i]? = some t._name := by
    rw [List.getElem?_map, hi]; rfl
  have h2 : (ts.map (fun t => t._name))[k]? = some t._name := by
    rw [List.getElem?_map, hu]; exact congrArg some e
  have hlen : i < (ts.map (fun t => t._name)).length := by rw [List.length_map]; exact hil
  exact List.nodup_iff_getElem?_ne_getElem?.mp hn k i hk hlen (h2.trans h1.symm)

end domain

end vdds

/-! ### Topic creation (C14 to C17) -/

namespace vdds

/-- C14: once `create_topic(N, T)` has returned a topic pointer `t`, every later
`create_topic(N, T)` on that domain returns the same pointer `t` and leaves the domain as
it is, whatever calls were made in between (`create_topic` calls that create a topic,
return an existing one or fail, and calls on the topics of the domain); the topic behind
`t` still has the name `N` and the type name `T`. -/
theorem C14_create_topic_same_pointer (dm : domain) (N T : String) (t : Nat)
    (h : (dm.create_topic N T).1 = some t) (ops : List domain_op) (ns : List notifier)
    (dm1 : domain) (ns1 : List notifier)
    (hr : (dm.create_topic N T).2.run ns ops = some (dm1, ns1)) :
    dm1.create_topic N T = (some t, dm1)
      ∧ ∃ tp, dm1._topics[t]? = some tp ∧ tp._name = N ∧ tp._data_type = T := by
  have h1 := domain.create_topic_scan_after dm N T t h
  obtain ⟨_, rest, e⟩ := domain.run_sigs ops _ ns dm1 ns1 hr
  have h2 := domain.scan_stable N T _ dm1._topics 0 (some t) h1 ⟨rest, e⟩
  refine ⟨domain.create_topic_found dm1 N T (some t) h2, ?_⟩
  obtain ⟨j, tp, ej, hj, hn, hd, _⟩ := domain.scan_some N T dm1._topics 0 t h2
  rw [Nat.zero_add] at ej
  rw [ej]
  exact ⟨tp, hj, hn, hd⟩

/-- Witness for C14: after `create_topic("a", "X")` returned the first topic of a new
domain, two other `create_topic` calls (one of them failing) and a `subscribe` on the
topic, `create_topic("a", "X")` returns the first topic again. -/
theorem C14_create_topic_same_pointer_witness :
    ((domain.new "d").create_topic "a" "X").1 = some 0
      ∧ ∃ dm1 ns1, ((domain.new "d").create_topic "a" "X").2.run []
            [domain_op.create_topic "b" "Y", domain_op.create_topic "a" "Z",
              domain_op.on_topic 0 (topic_op.subscribe "s" 4 none),
              domain_op.create_topic "b" "Y"] = some (dm1, ns1)
          ∧ dm1.create_topic "a" "X" = (some 0, dm1) := by
  have he : ∃ r, ((domain.new "d").create_topic "a" "X").2.run []
      [domain_op.create_topic "b" "Y", domain_op.create_topic "a" "Z",
        domain_op.on_topic 0 (topic_op.subscribe "s" 4 none),
        domain_op.create_topic "b" "Y"] = some r :=
    Option.isSome_iff_exists.mp (by decide)
  obtain ⟨⟨dm1, ns1⟩, hr⟩ := he
  exact ⟨by decide, dm1, ns1, hr,
    (C14_create_topic_same_pointer (domain.new "d") "a" "X" 0 (by decide) _ [] dm1 ns1 hr).1⟩

/-- C15: if a reachable domain holds a topic `t` (at pointer `i`) with name `N` and type
name `T1`, then `create_topic(N, T2)` with `T2 ≠ T1` returns null and leaves the whole
domain unchanged (its topic list, and with it the type name of `t`), and the following
`create_topic(N, T1)` returns the pointer `i` of the original topic. -/
theorem C15_type_collision (dm : domain) (hr : domain.Reachable dm) (i : Nat) (t : topic)
    (N T1 T2 : String) (hi : dm._topics[i]? = some t) (hn : t._name = N)
    (ht : t._data_type = T1) (hne : T2 ≠ T1) :
    dm.create_topic N T2 = (none, dm)
      ∧ (dm.create_topic N T2).2._topics[i]? = some t
      ∧ (dm.create_topic N T2).2.create_topic N T1 = (some i, dm) := by
  have hfirst := domain.nodup_first dm._topics (domain.reachable_names_nodup dm hr) i t hi
  rw [hn] at hfirst
  have s2 := domain.scan_found N T2 dm._topics 0 i t hi hn hfirst
  rw [if_neg (by rw [ht]; exact fun e => hne e.symm)] at s2
  have s1 := domain.scan_found N T1 dm._topics 0 i t hi hn hfirst
  rw [if_pos ht, Nat.zero_add] at s1
  have c2 := domain.create_topic_found dm N T2 none s2
  rw [c2]
  exact ⟨rfl, hi, domain.create_topic_found dm N T1 (some i) s1⟩

/-- Witness for C15: the type collision scenario on a domain with the one topic
`("T", "A")`. -/
theorem C15_type_collision_witness :
    ((domain.new "d").create_topic "T" "A").1 = some 0
      ∧ (((domain.new "d").create_topic "T" "A").2.create_topic "T" "B").1 = none
      ∧ ((((domain.new "d").create_topic "T" "A").2.create_topic "T" "B").2.create_topic
          "T" "A").1 = some 0 := by
  have h := C15_type_collision ((domain.new "d").create_topic "T" "A").2
    (domain.Reachable.step (domain.new "d") [] (domain_op.create_topic "T" "A") _ []
      (domain.Reachable.ctor "d") rfl)
    0 (topic.new "d" "T" "A") "T" "A" "B" (by decide) rfl rfl (by decide)
  exact ⟨by decide, congrArg Prod.fst h.1, congrArg Prod.fst h.2.2⟩

/-- C16: in every state of a domain reachable from the constructor by `create_topic`
calls (and calls on its topics), the names of the topics in the topic list are pairwise
distinct. -/
theorem C16_topic_names_unique (dm : domain) (h : domain.Reachable dm) :
    (dm._topics.map (fun t => t._name)).Nodup :=
  domain.reachable_names_nodup dm h

/-- Witness for C16: the domain after `create_topic` for ("a","X"), ("b","X"), ("a","Y")
and ("a","X"). -/
theorem C16_topic_names_unique_witness :
    ∃ dm ns, (domain.new "d").run []
        [domain_op.create_topic "a" "X", domain_op.create_topic "b" "X",
          domain_op.create_topic "a" "Y", domain_op.create_topic "a" "X"] = some (dm, ns)
      ∧ dm._topics.length = 2
      ∧ (dm._topics.map (fun t => t._name)).Nodup := by
  have he : ∃ r, (domain.new "d").run []
      [domain_op.create_topic "a" "X", domain_op.create_topic "b" "X",
        domain_op.create_topic "a" "Y", domain_op.create_topic "a" "X"] = some r :=
    Option.isSome_iff_exists.mp (by decide)
  obtain ⟨⟨dm, ns⟩, hr⟩ := he
  have hl : dm._topics.length = 2 := by
    have h := congrArg (Option.map (fun r => r.1._topics.length)) hr
    exact Option.some.inj (h.symm.trans (by decide))
  exact ⟨dm, ns, hr, hl, C16_topic_names_unique dm
    (domain.run_reachable _ _ [] dm ns (domain.Reachable.ctor "d") hr)⟩

/-- C17: `create_topic(N, T)` leaves the topic list as a front part of the new one: when
no topic has the name `N` the list grows by exactly one topic, appended at the end, with
name `N` and type name `T`; otherwise the domain is unchanged.  No call on a domain or on
one of its topics changes the domain name, removes or reorders topics, or changes the
name or type name of a topic: position by position, the names and type names before the
call are a front part of those after it. -/
theorem C17_topic_list_frame (dm : domain) :
    (∀ N T, (∃ rest, (dm.create_topic N T).2._topics = dm._topics ++ rest)
      ∧ ((∀ t ∈ dm._topics, t._name ≠ N) →
          (dm.create_topic N T).2._topics = dm._topics ++ [topic.new dm._name N T]
            ∧ (topic.new dm._name N T)._name = N ∧ (topic.new dm._name N T)._data_type = T)
      ∧ ((∃ t ∈ dm._topics, t._name = N) → (dm.create_topic N T).2 = dm))
    ∧ ∀ ns op dm1 ns1, dm.step ns op = some (dm1, ns1) →
        dm1._name = dm._name ∧ dm._topics.length ≤ dm1._topics.length
          ∧ ∀ (i : Nat) (t : topic), dm._topics[i]? = some t →
              ∃ t1, dm1._topics[i]? = some t1 ∧ t1._name = t._name
                ∧ t1._data_type = t._data_type := by
  constructor
  · intro N T
    refine ⟨(domain.create_topic_sigs dm N T).2, ?_, ?_⟩
    · intro hno
      rw [domain.create_topic_new dm N T hno]
      exact ⟨rfl, rfl, rfl⟩
    · intro hex
      cases hs : domain.create_topic_scan N T dm._topics 0 with
      | some r => rw [domain.create_topic_found dm N T r hs]
      | none =>
        obtain ⟨t, ht, e⟩ := hex
        exact absurd e ((domain.scan_none N T dm._topics 0).mp hs t ht)
  · intro ns op dm1 ns1 hs
    obtain ⟨e1, rest, e2⟩ := domain.step_sigs dm ns op dm1 ns1 hs
    have hlen : dm._topics.length ≤ dm1._topics.length := by
      have := congrArg List.length e2
      simp only [List.length_map, List.length_append] at this
      omega
    refine ⟨e1, hlen, ?_⟩
    intro i t hi
    have hil : i < dm._topics.length := (List.getElem?_eq_some_iff.mp hi).1
    have hil1 : i < dm1._topics.length := by omega
    refine ⟨dm1._topics[i], List.getElem?_eq_getElem hil1, ?_⟩
    have h1 := congrArg (fun l => l[i]?) e2
    simp only [List.getElem?_map, List.getElem?_eq_getElem hil1, hi, Option.map_some'] at h1
    rw [List.getElem?_append_left (by rw [List.length_map]; exact hil), List.getElem?_map, hi,
      Option.map_some', Option.some.injEq, Prod.mk.injEq] at h1
    exact h1

/-- Witness for C17: on a domain with the one topic ("a","X"), `create_topic("b","Y")`
appends a topic and `create_topic("a","Z")` changes nothing. -/
theorem C17_topic_list_frame_witness :
    (((domain.new "d").create_topic "a" "X").2.create_topic "b" "Y").2._topics
        = ((domain.new "d").create_topic "a" "X").2._topics ++ [topic.new "d" "b" "Y"]
      ∧ (((domain.new "d").create_topic "a" "X").2.create_topic "a" "Z").2
          = ((domain.new "d").create_topic "a" "X").2 :=
  ⟨((C17_topic_list_frame ((domain.new "d").create_topic "a" "X").2).1 "b" "Y").2.1
      (by decide) |>.1,
    ((C17_topic_list_frame ((domain.new "d").create_topic "a" "X").2).1 "a" "Z").2.2
      ⟨topic.new "d" "a" "X", by decide, rfl⟩⟩

end vdds

/-! ### `topic::query` and `domain::query` -/

namespace vdds

theorem set_same {β : Type} (l : List β) (i : Nat) (b : β) (h : l[i]? = some b) :
    l.set i b = l := by
  apply List.ext_getElem?
  intro j
  by_cases e : i = j
  · subst e
    rw [List.getElem?_set_self (List.getElem?_eq_some_iff.mp h).1, h]
  · rw [List.getElem?_set_ne e]

/-- A counting loop that overwrites position `i` of a vector with `g i` of the old entry
leaves, after `n` rounds, the first `n` entries overwritten and the others as they were. -/
theorem foldl_range_set {β : Type} (g : Nat → β → β) (step : List β → Nat → List β)
    (hstep : ∀ (l : List β) (i : Nat) (b : β), l[i]? = some b → step l i = l.set i (g i b))
    (l : List β) : ∀ (n : Nat), n ≤ l.length →
    ((List.range n).foldl step l).length = l.length ∧ ∀ (i : Nat),
      ((List.range n).foldl step l)[i]? = if i < n then l[i]?.map (g i) else l[i]? := by
  intro n
  induction n with
  | zero => intro _; exact ⟨rfl, fun i => by simp⟩
  | succ n ih =>
    intro hn
    obtain ⟨ihl, ih'⟩ := ih (by omega)
    rw [List.range_succ, List.foldl_append, List.foldl_cons, List.foldl_nil]
    have hb : ((List.range n).foldl step l)[n]? = some l[n] := by
      rw [ih' n, if_neg (Nat.lt_irrefl n), List.getElem?_eq_getElem (by omega)]
    rw [hstep _ n _ hb]
    refine ⟨by rw [List.length_set, ihl], ?_⟩
    intro i
    by_cases e : n = i
    · subst e
      have hlen : n < ((List.range n).foldl step l).length :=
        (List.getElem?_eq_some_iff.mp hb).1
      rw [List.getElem?_set_self hlen, if_pos (Nat.lt_succ_self n),
        List.getElem?_eq_getElem (by omega), Option.map_some']
    · rw [List.getElem?_set_ne e, ih' i]
      by_cases h1 : i < n
      · rw [if_pos h1, if_pos (by omega)]
      · rw [if_neg h1, if_neg (by omega)]

theorem resize_length {α : Type} (l : List α) (n : Nat) (d : α) : (resize l n d).length = n := by
  simp only [resize, List.length_append, List.length_take, List.length_replicate]
  omega

theorem resize_nil {α : Type} (n : Nat) (d : α) : resize ([] : List α) n d = List.replicate n d := by
  simp [resize]

theorem resize_succ {α : Type} (l : List α) (d : α) : resize l (l.length + 1) d = l ++ [d] := by
  simp [resize, List.take_of_length_le]

namespace topic

theorem query_sub_set (t : topic) (l : List query.sub_info) (i : Nat) (b : query.sub_info)
    (h : l[i]? = some b) :
    t.query_sub l i = l.set i
      (match t.sub_heap.getD (t._cache_ptr.subs.getD i 0) none with
       | some q => { name := q._name
                     qcapacity := q.capacity % UINT32_MOD
                     qsize := q.size % UINT32_MOD
                     push_count := q.push_count
                     drop_count := q.drop_count }
       | none => b) := by
  unfold query_sub
  generalize t.sub_heap.getD (t._cache_ptr.subs.getD i 0) none = x
  cases x with
  | some q => rfl
  | none => exact (set_same l i b h).symm

theorem query_pub_set (t : topic) (l : List query.pub_info) (i : Nat) (b : query.pub_info)
    (h : l[i]? = some b) :
    t.query_pub l i = l.set i
      (match t.pub_heap.getD (t._cache_ptr.pubs.getD i 0) none with
       | some ph => { name := ph._name }
       | none => b) := by
  unfold query_pub
  generalize t.pub_heap.getD (t._cache_ptr.pubs.getD i 0) none = x
  cases x with
  | some ph => rfl
  | none => exact (set_same l i b h).symm

theorem query_push_count (t : topic) (ti : query.topic_info) :
    (t.query ti).push_count = t._next_seqno := rfl

/-- What `topic::query` leaves in the record of a well-formed topic. -/
theorem topic_query_spec (t : topic) (h : WF t) (ti : query.topic_info) :
    (t.query ti).name = t._name ∧ (t.query ti).data_type = t._data_type
      ∧ (t.query ti).push_count = t._next_seqno
      ∧ (t.query ti).subs.length = t._cache_ptr.subs.length
      ∧ (t.query ti).pubs.length = t._cache_ptr.pubs.length
      ∧ (∀ (i p : Nat), t._cache_ptr.subs[i]? = some p →
          ∃ q, t.sub_heap.getD p none = some q
            ∧ (t.query ti).subs[i]?
                = some { name := q._name, qcapacity := q.capacity,
                         qsize := q.size % UINT32_MOD, push_count := q.push_count,
                         drop_count := q.drop_count })
      ∧ (∀ (i p : Nat), t._cache_ptr.pubs[i]? = some p →
          ∃ ph, t.pub_heap.getD p none = some ph
            ∧ (t.query ti).pubs[i]? = some { name := ph._name }) := by
  obtain ⟨hsl, hs⟩ := foldl_range_set _ t.query_sub (query_sub_set t)
    (resize ti.subs t._cache_ptr.subs.length query.sub_info.dflt) t._cache_ptr.subs.length
    (by rw [resize_length])
  obtain ⟨hpl, hp⟩ := foldl_range_set _ t.query_pub (query_pub_set t)
    (resize ti.pubs t._cache_ptr.pubs.length query.pub_info.dflt) t._cache_ptr.pubs.length
    (by rw [resize_length])
  rw [resize_length] at hsl hpl
  refine ⟨rfl, rfl, rfl, hsl, hpl, ?_, ?_⟩
  · intro i p hi
    obtain ⟨hil, e⟩ := List.getElem?_eq_some_iff.mp hi
    obtain ⟨q, hq⟩ := (h.sub_live p).mp (by rw [← e]; exact List.getElem_mem hil)
    refine ⟨q, hq, ?_⟩
    have hd : t._cache_ptr.subs.getD i 0 = p := by
      rw [List.getD_eq_getElem _ _ hil, e]
    obtain ⟨b, hb⟩ : ∃ b, (resize ti.subs t._cache_ptr.subs.length
        query.sub_info.dflt)[i]? = some b :=
      ⟨_, List.getElem?_eq_getElem (by rw [resize_length]; exact hil)⟩
    have := hs i
    rw [if_pos hil, hb, Option.map_some', hd, hq] at this
    have hcap : q.capacity % UINT32_MOD = q.capacity :=
      Nat.mod_eq_of_lt (h.sub_ok p q hq).2
    simp only [hcap] at this
    exact this
  · intro i p hi
    obtain ⟨hil, e⟩ := List.getElem?_eq_some_iff.mp hi
    obtain ⟨ph, hph⟩ := (h.pub_live p).mp (by rw [← e]; exact List.getElem_mem hil)
    refine ⟨ph, hph, ?_⟩
    have hd : t._cache_ptr.pubs.getD i 0 = p := by
      rw [List.getD_eq_getElem _ _ hil, e]
    obtain ⟨b, hb⟩ : ∃ b, (resize ti.pubs t._cache_ptr.pubs.length
        query.pub_info.dflt)[i]? = some b :=
      ⟨_, List.getElem?_eq_getElem (by rw [resize_length]; exact hil)⟩
    have := hp i
    rw [if_pos hil, hb, Option.map_some', hd, hph] at this
    exact this

/-- Pointers are handed out in increasing order and the cache keeps them in that order:
the cache lists the current subscribers in subscription order and the current publishers
in registration order. -/
theorem step_sorted (t : topic) (h : WF t) (hs : t._cache_ptr.subs.Pairwise (fun a b => a < b))
    (hp : t._cache_ptr.pubs.Pairwise (fun a b => a < b)) (ns : List notifier) (op : topic_op)
    (o : topic_out) (t1 : topic) (ns1 : List notifier)
    (hst : t.step ns op = some (o, t1, ns1)) :
    t1._cache_ptr.subs.Pairwise (fun a b => a < b)
      ∧ t1._cache_ptr.pubs.Pairwise (fun a b => a < b) := by
  cases op with
  | subscribe name qsize ntfr =>
    simp only [step, subscribe_eq t name qsize ntfr h.refcnt, Option.map_some',
      Option.some.injEq, Prod.mk.injEq] at hst
    rw [← hst.2.1]
    refine ⟨?_, hp⟩
    show List.Pairwise _ (t._cache_ptr.subs ++ [t.sub_heap.length])
    rw [List.pairwise_append]
    refine ⟨hs, List.pairwise_singleton _ _, ?_⟩
    intro a ha b hb
    rw [List.mem_singleton] at hb
    obtain ⟨q, hq⟩ := (h.sub_live a).mp ha
    rw [hb]; exact getD_some_lt _ _ _ hq
  | publish name =>
    simp only [step, publish_eq t name h.refcnt, Option.map_some', Option.some.injEq,
      Prod.mk.injEq] at hst
    rw [← hst.2.1]
    refine ⟨hs, ?_⟩
    show List.Pairwise _ (t._cache_ptr.pubs ++ [t.pub_heap.length])
    rw [List.pairwise_append]
    refine ⟨hp, List.pairwise_singleton _ _, ?_⟩
    intro a ha b hb
    rw [List.mem_singleton] at hb
    obtain ⟨q, hq⟩ := (h.pub_live a).mp ha
    rw [hb]; exact getD_some_lt _ _ _ hq
  | unsubscribe q =>
    cases hq : t.sub_heap.getD q none with
    | none => simp [step, unsubscribe_none t q hq] at hst
    | some sq =>
      simp only [step, unsubscribe_eq t q sq h.refcnt hq, Option.map_some', Option.some.injEq,
        Prod.mk.injEq] at hst
      rw [← hst.2.1]
      exact ⟨List.Pairwise.sublist (List.erase_sublist q _) hs, hp⟩
  | unpublish p =>
    cases hq : t.pub_heap.getD p none with
    | none => simp [step, unpublish_none t p hq] at hst
    | some ph =>
      simp only [step, unpublish_eq t p ph h.refcnt hq, Option.map_some', Option.some.injEq,
        Prod.mk.injEq] at hst
      rw [← hst.2.1]
      exact ⟨hs, List.Pairwise.sublist (List.erase_sublist p _) hp⟩
  | push ph d =>
    simp only [step, Option.some.injEq, Prod.mk.injEq] at hst
    have e : t1 = (t.push ph d ns).2.1 := by rw [hst.2]
    rw [e, push_cache]
    exact ⟨hs, hp⟩
  | pop sq d =>
    cases hq : t.sub_heap.getD sq none with
    | none => simp [step, pop_none t sq d hq] at hst
    | some q =>
      simp only [step, pop_some t sq d q hq, Option.map_some', Option.some.injEq,
        Prod.mk.injEq] at hst
      rw [← hst.2.1]
      exact ⟨hs, hp⟩

theorem run_sorted (ops : List topic_op) : ∀ (t : topic) (ns : List notifier)
    (outs : List topic_out) (t1 : topic) (ns1 : List notifier), WF t →
    t._cache_ptr.subs.Pairwise (fun a b => a < b) →
    t._cache_ptr.pubs.Pairwise (fun a b => a < b) →
    (∀ op ∈ ops, op.typed) → t.run ns ops = some (outs, t1, ns1) →
    t1._name = t._name ∧ t1._data_type = t._data_type
      ∧ t1._cache_ptr.subs.Pairwise (fun a b => a < b)
      ∧ t1._cache_ptr.pubs.Pairwise (fun a b => a < b) := by
  induction ops with
  | nil =>
    intro t ns outs t1 ns1 _ hs hp _ hr
    simp only [run, Option.some.injEq, Prod.mk.injEq] at hr
    rw [← hr.2.1]; exact ⟨rfl, rfl, hs, hp⟩
  | cons op ops ih =>
    intro t ns outs t1 ns1 h hs hp hty hr
    obtain ⟨o, t', ns', outs', hst, hr', _⟩ := run_cons t ns op ops outs t1 ns1 hr
    have hop := hty op (List.mem_cons_self _ _)
    obtain ⟨s1, s2⟩ := step_sorted t h hs hp ns op o t' ns' hst
    obtain ⟨n1, n2⟩ := step_name t ns op (o, t', ns') hst
    obtain ⟨a1, a2, a3, a4⟩ := ih t' ns' outs' t1 ns1 (step_wf t h ns op hop o t' ns' hst) s1 s2
      (fun x hx => hty x (List.mem_cons_of_mem _ hx)) hr'
    exact ⟨a1.trans n1, a2.trans n2, a3, a4⟩

end topic

namespace domain

theorem query_all_step_set (dm : domain) (l : List query.topic_info) (i : Nat)
    (b : query.topic_info) (h : l[i]? = some b) :
    dm.query_all_step l i = l.set i
      (match dm._topics[i]? with
       | some t => t.query b
       | none => b) := by
  unfold query_all_step
  rw [h]
  cases dm._topics[i]? with
  | none => exact (set_same l i b h).symm
  | some t => rfl

theorem query_all_fold (dm : domain) :
    (List.range dm._topics.length).foldl dm.query_all_step
        (resize [] dm._topics.length query.topic_info.dflt)
      = dm._topics.map (fun t => t.query query.topic_info.dflt) := by
  obtain ⟨_, hs⟩ := foldl_range_set _ dm.query_all_step (query_all_step_set dm)
    (resize [] dm._topics.length query.topic_info.dflt) dm._topics.length
    (by rw [resize_length])
  apply List.ext_getElem?
  intro i
  rw [hs i, List.getElem?_map]
  by_cases hi : i < dm._topics.length
  · have hr : (resize [] dm._topics.length query.topic_info.dflt)[i]?
        = some query.topic_info.dflt := by
      rw [resize_nil, List.getElem?_replicate, if_pos hi]
    rw [if_pos hi, hr, List.getElem?_eq_getElem hi, Option.map_some', Option.map_some']
  · rw [if_neg hi, List.getElem?_eq_none (by rw [resize_length]; omega),
      List.getElem?_eq_none (by omega)]
    rfl

theorem query_filtered_step_spec (flt : query.filter) (tis : List query.topic_info)
    (t : topic) :
    query_filtered_step flt (tis.length, tis) t
      = if filter_matches flt t = true then
          ((tis ++ [t.query query.topic_info.dflt]).length,
            tis ++ [t.query query.topic_info.dflt])
        else (tis.length, tis) := by
  unfold query_filtered_step filter_matches
  by_cases h1 : flt.topic_name ≠ "any" ∧ flt.topic_name ≠ t._name
  · rw [if_pos h1, if_neg]
    simp only [decide_eq_true_eq]
    intro hc
    rcases hc.1 with e | e
    · exact h1.1 e
    · exact h1.2 e
  · rw [if_neg h1]
    by_cases h2 : flt.data_type ≠ "any" ∧ flt.data_type ≠ t._data_type
    · rw [if_pos h2, if_neg]
      simp only [decide_eq_true_eq]
      intro hc
      rcases hc.2 with e | e
      · exact h2.1 e
      · exact h2.2 e
    · rw [if_neg h2, if_pos]
      · simp only [resize_succ]
        rw [List.getElem?_append_right (Nat.le_refl _)]
        simp only [Nat.sub_self, List.getElem?_cons_zero, List.length_append,
          List.length_singleton]
        rw [List.set_append_right _ _ (Nat.le_refl _)]
        simp
      · simp only [decide_eq_true_eq]
        constructor
        · by_contra hc
          exact h1 ⟨fun e => hc (Or.inl e), fun e => hc (Or.inr e)⟩
        · by_contra hc
          exact h2 ⟨fun e => hc (Or.inl e), fun e => hc (Or.inr e)⟩

theorem query_filtered_fold (flt : query.filter) : ∀ (ts : List topic)
    (tis : List query.topic_info),
    (ts.foldl (query_filtered_step flt) (tis.length, tis)).2
      = tis ++ (ts.filter (filter_matches flt)).map (fun t => t.query query.topic_info.dflt) := by
  intro ts
  induction ts with
  | nil => intro tis; simp
  | cons t ts ih =>
    intro tis
    rw [List.foldl_cons, query_filtered_step_spec]
    by_cases hm : filter_matches flt t = true
    · rw [if_pos hm, ih, List.filter_cons_of_pos hm, List.map_cons, List.append_assoc]
      rfl
    · rw [if_neg hm, ih, List.filter_cons_of_neg hm]

theorem filter_matches_any (t : topic) : filter_matches query.filter.any t = true := by
  simp [filter_matches, query.filter.any]

/-- The record `domain::query` leaves: the domain name and the records of the topics that
match the filter, in the order of the topic list. -/
theorem domain_query_spec (dm : domain) (di : query.domain_info) (flt : query.filter) :
    dm.query di flt
      = { name := dm._name
          topics := (dm._topics.filter (filter_matches flt)).map
            (fun t => t.query query.topic_info.dflt) } := by
  unfold query
  by_cases h : flt.topic_name = "any" ∧ flt.data_type = "any"
  · simp only [if_pos h, query.clear]
    rw [query_all_fold]
    have hall : dm._topics.filter (filter_matches flt) = dm._topics := by
      rw [List.filter_eq_self]
      intro t _
      simp [filter_matches, h.1, h.2]
    rw [hall]
  · simp only [if_neg h, query.clear]
    have := query_filtered_fold flt dm._topics []
    simp only [List.length_nil, List.nil_append] at this
    rw [this]

/-- With pairwise distinct names, the topics with a given name are a single one. -/
theorem filter_name_unique (N : String) : ∀ (ts : List topic),
    (ts.map (fun t => t._name)).Nodup → (∃ t ∈ ts, t._name = N) →
    ∃ t, t ∈ ts ∧ t._name = N ∧ ts.filter (fun t => decide (t._name = N)) = [t] := by
  intro ts
  induction ts with
  | nil => intro _ h; obtain ⟨t, ht, _⟩ := h; exact absurd ht (List.not_mem_nil t)
  | cons p ps ih =>
    intro hn hex
    rw [List.map_cons, List.nodup_cons] at hn
    by_cases hp : p._name = N
    · refine ⟨p, List.mem_cons_self _ _, hp, ?_⟩
      rw [List.filter_cons_of_pos (by simpa using hp)]
      congr 1
      rw [List.filter_eq_nil_iff]
      intro u hu
      simp only [decide_eq_true_eq]
      intro e
      exact hn.1 (List.mem_map.mpr ⟨u, hu, e.trans hp.symm⟩)
    · obtain ⟨t, ht, e⟩ := hex
      rcases List.mem_cons.mp ht with h1 | h1
      · exact absurd (h1 ▸ e) hp
      · obtain ⟨u, hu, eu, hf⟩ := ih hn.2 ⟨t, h1, e⟩
        refine ⟨u, List.mem_cons_of_mem _ hu, eu, ?_⟩
        rw [List.filter_cons_of_neg (by simpa using hp)]
        exact hf

end domain

end vdds

/-! ### Query records (C18 to C20) -/

namespace vdds

/-- C18: `domain::query(di, flt)` sets `di.name` to the domain name and `di.topics` to the
records of exactly the topics that match the filter, in the order of the topic list
(creation order), whatever `di` held before; a topic matches when the filter's topic
name is "any" or the topic's name and the filter's data type is "any" or the topic's
data type; the record of a topic carries the name and data type of that topic; with the
default filter every topic is returned. -/
theorem C18_domain_query (dm : domain) (di : query.domain_info) (flt : query.filter) :
    dm.query di flt
        = { name := dm._name,
            topics := (dm._topics.filter (domain.filter_matches flt)).map
              (fun t => t.query query.topic_info.dflt) }
      ∧ (∀ t, domain.filter_matches flt t = true ↔
          (flt.topic_name = "any" ∨ flt.topic_name = t._name)
            ∧ (flt.data_type = "any" ∨ flt.data_type = t._data_type))
      ∧ (∀ (t : topic) (ti : query.topic_info),
          (t.query ti).name = t._name ∧ (t.query ti).data_type = t._data_type)
      ∧ dm.query di query.filter.any
          = { name := dm._name,
              topics := dm._topics.map (fun t => t.query query.topic_info.dflt) } := by
  refine ⟨domain.domain_query_spec dm di flt, ?_, fun _ _ => ⟨rfl, rfl⟩, ?_⟩
  · intro t
    simp only [domain.filter_matches, decide_eq_true_eq]
  · rw [domain.domain_query_spec dm di query.filter.any]
    have hall : dm._topics.filter (domain.filter_matches query.filter.any) = dm._topics := by
      rw [List.filter_eq_self]
      intro t _
      exact domain.filter_matches_any t
    rw [hall]

/-- C19 (amended): in every reachable domain and for every name `N` other than "any",
`domain::query(di, {N, "any"})` yields exactly one record, with name `N`, when the
domain holds a topic named `N`, and no record when it holds none. -/
theorem C19_query_by_name (dm : domain) (hr : domain.Reachable dm) (N : String)
    (hN : N ≠ "any") (di : query.domain_info) :
    ((∃ t ∈ dm._topics, t._name = N) →
        ∃ ti, (dm.query di { topic_name := N, data_type := "any" }).topics = [ti]
          ∧ (dm.query di { topic_name := N, data_type := "any" }).topics[0]? = some ti
          ∧ ti.name = N)
      ∧ ((∀ t ∈ dm._topics, t._name ≠ N) →
          (dm.query di { topic_name := N, data_type := "any" }).topics = []) := by
  have hf : dm._topics.filter (domain.filter_matches { topic_name := N, data_type := "any" })
      = dm._topics.filter (fun t => decide (t._name = N)) := by
    apply List.filter_congr
    intro t _
    simp only [domain.filter_matches, hN, false_or, true_or, and_true]
    by_cases e : N = t._name
    · simp [e]
    · have e' : ¬ t._name = N := fun h => e h.symm
      simp [e, e']
  rw [domain.domain_query_spec, hf]
  constructor
  · intro hex
    obtain ⟨t, _, hn, hone⟩ := domain.filter_name_unique N dm._topics
      (domain.reachable_names_nodup dm hr) hex
    rw [hone]
    exact ⟨t.query query.topic_info.dflt, rfl, rfl, hn⟩
  · intro hno
    have : dm._topics.filter (fun t => decide (t._name = N)) = [] := by
      rw [List.filter_eq_nil_iff]
      intro t ht
      simp only [decide_eq_true_eq]
      exact hno t ht
    rw [this]
    rfl

/-- Witness for C19: the domain with the topics "a" and "b", queried for "b". -/
theorem C19_query_by_name_witness :
    ∃ ti, ((((domain.new "d").create_topic "a" "X").2.create_topic "b" "Y").2.query
        ⟨"", []⟩ { topic_name := "b", data_type := "any" }).topics = [ti]
      ∧ ti.name = "b" := by
  obtain ⟨ti, h1, _, h3⟩ := (C19_query_by_name
    (((domain.new "d").create_topic "a" "X").2.create_topic "b" "Y").2
    (domain.Reachable.step _ [] (domain_op.create_topic "b" "Y") _ []
      (domain.Reachable.step (domain.new "d") [] (domain_op.create_topic "a" "X") _ []
        (domain.Reachable.ctor "d") rfl) rfl)
    "b" (by decide) ⟨"", []⟩).1 ⟨topic.new "d" "b" "Y", by decide, rfl⟩
  exact ⟨ti, h1, h3⟩

/-- Counterexample to C19 as stated: the domain with the two topics "a" and "any" holds
a topic named "any", and `query(di, {"any", "any"})` yields two records, the one at
index 0 with name "a". -/
theorem C19_topic_named_any :
    ((((domain.new "d").create_topic "a" "X").2.create_topic "any" "Y").2._topics.map
        (fun t => t._name)) = ["a", "any"]
      ∧ (((((domain.new "d").create_topic "a" "X").2.create_topic "any" "Y").2.query
          ⟨"", []⟩ { topic_name := "any", data_type := "any" }).topics.map
            (fun ti => ti.name)) = ["a", "any"] := by
  constructor <;> decide

/-- C20 (amended): on a topic reached from its constructor by any calls, `topic::query`
fills the record with the topic's name and type name, a `push_count` equal to the
topic's sequence counter, which is the number of pushes made on the topic so far modulo
2^64, one `sub_info` per current subscriber carrying that queue's name, capacity,
push_count and drop_count, and one `pub_info` per current publisher carrying its name.
The records follow the order of the cache, and the cache holds the pointers of the
current subscribers (of the current publishers) in increasing order, that is in the
order in which they subscribed (registered). -/
theorem C20_topic_query (domain name dt : String) (ops : List topic_op) (ns : List notifier)
    (outs : List topic_out) (t : topic) (ns1 : List notifier)
    (hty : ∀ op ∈ ops, op.typed)
    (hrun : (topic.new domain name dt).run ns ops = some (outs, t, ns1))
    (ti : query.topic_info) :
    (t.query ti).name = name ∧ (t.query ti).data_type = dt
      ∧ (t.query ti).push_count = t._next_seqno
      ∧ (t.query ti).push_count = (ops.filter topic_op.is_push).length % UINT64_MOD
      ∧ (t.query ti).subs.length = t._cache_ptr.subs.length
      ∧ (t.query ti).pubs.length = t._cache_ptr.pubs.length
      ∧ t._cache_ptr.subs.Pairwise (fun a b => a < b)
      ∧ t._cache_ptr.pubs.Pairwise (fun a b => a < b)
      ∧ (∀ p, p ∈ t._cache_ptr.subs ↔ ∃ q, t.sub_heap.getD p none = some q)
      ∧ (∀ p, p ∈ t._cache_ptr.pubs ↔ ∃ h, t.pub_heap.getD p none = some h)
      ∧ (∀ (i p : Nat), t._cache_ptr.subs[i]? = some p →
          ∃ q, t.sub_heap.getD p none = some q
            ∧ (t.query ti).subs[i]?
                = some { name := q._name, qcapacity := q.capacity,
                         qsize := q.size % UINT32_MOD, push_count := q.push_count,
                         drop_count := q.drop_count })
      ∧ (∀ (i p : Nat), t._cache_ptr.pubs[i]? = some p →
          ∃ ph, t.pub_heap.getD p none = some ph
            ∧ (t.query ti).pubs[i]? = some { name := ph._name }) := by
  have hw0 := topic.wf_new domain name dt
  have hw := topic.run_wf ops _ ns outs t ns1 hw0 hty hrun
  obtain ⟨n1, n2, s1, s2⟩ := topic.run_sorted ops _ ns outs t ns1 hw0 List.Pairwise.nil
    List.Pairwise.nil hty hrun
  obtain ⟨_, hseq⟩ := topic.run_seqno ops _ ns outs t ns1 hrun hw0.seqno_lt
  obtain ⟨q1, q2, q3, q4, q5, q6, q7⟩ := topic.topic_query_spec t hw ti
  refine ⟨q1.trans n1, q2.trans n2, q3, ?_, q4, q5, s1, s2, hw.sub_live, hw.pub_live, q6, q7⟩
  rw [q3, hseq]
  show (0 + _) % UINT64_MOD = _
  rw [Nat.zero_add]

/-- Witness for C20: two subscribers and a publisher, three pushes, then the first
subscriber leaves and a third one joins. -/
theorem C20_topic_query_witness :
    ∃ outs t ns1, (topic.new "" "/t" "X").run []
        [topic_op.subscribe "s1" 2 none, topic_op.publish "p1",
          topic_op.subscribe "s2" 4 none, topic_op.push 0 ⟨0, 1, none, []⟩,
          topic_op.push 0 ⟨0, 2, none, []⟩, topic_op.push 0 ⟨0, 3, none, []⟩,
          topic_op.unsubscribe 0, topic_op.subscribe "s3" 1 none] = some (outs, t, ns1)
      ∧ (t.query query.topic_info.dflt).name = "/t"
      ∧ (t.query query.topic_info.dflt).data_type = "X"
      ∧ (t.query query.topic_info.dflt).push_count = 3
      ∧ (t.query query.topic_info.dflt).subs
          = [{ name := "s2", push_count := 3, drop_count := 0, qcapacity := 4, qsize := 2 },
             { name := "s3", push_count := 0, drop_count := 0, qcapacity := 1, qsize := 1 }]
      ∧ (t.query query.topic_info.dflt).pubs = [{ name := "p1" }] := by
  have he : ∃ r, (topic.new "" "/t" "X").run []
      [topic_op.subscribe "s1" 2 none, topic_op.publish "p1",
        topic_op.subscribe "s2" 4 none, topic_op.push 0 ⟨0, 1, none, []⟩,
        topic_op.push 0 ⟨0, 2, none, []⟩, topic_op.push 0 ⟨0, 3, none, []⟩,
        topic_op.unsubscribe 0, topic_op.subscribe "s3" 1 none] = some r :=
    Option.isSome_iff_exists.mp (by decide)
  obtain ⟨⟨outs, t, ns1⟩, hr⟩ := he
  have h := C20_topic_query "" "/t" "X" _ [] outs t ns1 (by
      intro op hop
      simp only [List.mem_cons, List.mem_singleton, List.mem_nil_iff, or_false] at hop
      rcases hop with h | h | h | h | h | h | h | h <;> rw [h]
      · show 2 < UINT32_MOD; decide
      · trivial
      · show 4 < UINT32_MOD; decide
      · trivial
      · trivial
      · trivial
      · trivial
      · show 1 < UINT32_MOD; decide) hr query.topic_info.dflt
  have hs : (t.query query.topic_info.dflt).subs
      = [{ name := "s2", push_count := 3, drop_count := 0, qcapacity := 4, qsize := 2 },
         { name := "s3", push_count := 0, drop_count := 0, qcapacity := 1, qsize := 1 }] := by
    have e := congrArg (Option.map (fun r => (r.2.1.query query.topic_info.dflt).subs)) hr
    exact Option.some.inj (e.symm.trans (by decide))
  have hp : (t.query query.topic_info.dflt).pubs = [{ name := "p1" }] := by
    have e := congrArg (Option.map (fun r => (r.2.1.query query.topic_info.dflt).pubs)) hr
    exact Option.some.inj (e.symm.trans (by decide))
  exact ⟨outs, t, ns1, hr, h.1, h.2.1, h.2.2.2.1.trans (by decide), hs, hp⟩

/-- Counterexample to C20 as stated: after 2^64 pushes on a topic the record that
`topic::query` fills has `push_count` 0, not the number of pushes made. -/
theorem C20_query_push_count_wraps :
    (((topic.new "" "/t" "X").push_list []
        (List.replicate 18446744073709551616 (0, ⟨0, 0, none, []⟩))).2.1.query
          query.topic_info.dflt).push_count = 0 := by
  have hs := (topic.topic_push_list_spec
    (List.replicate 18446744073709551616 (0, ⟨0, 0, none, []⟩))
    (topic.new "" "/t" "X") [] (topic.fresh_inv (fun _ => True) _
      (topic.fresh_new _ "" "/t" "X"))).2.2.2.1
  refine (topic.query_push_count _ _).trans ?_
  rw [hs, List.length_replicate]
  show (0 + 18446744073709551616) % UINT64_MOD = 0
  unfold UINT64_MOD
  norm_num

end vdds

/-! ### Size of the envelope (C26, C27) -/

namespace vdds

/-- C26: the envelope is exactly 256 bytes.  For every pointer size up to 120 bytes the
sizes of the four members add up to 256; on a 64-bit target the members lie, in
declaration order, at the offsets 0, 8, 16 and 32, each right behind the one before (no
padding between them), the last one ends at offset 256 and `sizeof(data)` is 256 (no
padding at the end); and the `static_assert` of the typed facades holds for exactly the
message types of that size. -/
theorem C26_envelope_size :
    (∀ sizeof_ptr, sizeof_ptr ≤ 120 → 4 ≤ sizeof_ptr →
        sizeof_seqno_t + sizeof_timestamp_t + sizeof_shared_p sizeof_ptr
          + sizeof_plain_t sizeof_ptr = 256)
      ∧ (data_members 8).map (fun m => m.1) = [8, 8, 16, 224]
      ∧ struct_offsets (data_members 8) 0 = ([0, 8, 16, 32], 256)
      ∧ struct_sizeof (data_members 8) = 256
      ∧ struct_sizeof (data_members 8) = sizeof_data
      ∧ ∀ T : msg_type, T.static_assert = true ↔ T.sizeofT = struct_sizeof (data_members 8) := by
  refine ⟨?_, by decide, by decide, by decide, by decide, ?_⟩
  · intro p hp h4
    have hpow : 2 ^ 32 ≤ 2 ^ (8 * p) := Nat.pow_le_pow_right (by decide) (by omega)
    have hpos : 0 < 2 ^ (8 * p) := Nat.pos_pow_of_pos _ (by decide)
    unfold sizeof_plain_t sizeof_shared_p sizeof_seqno_t sizeof_timestamp_t
    have e : 256 + 2 ^ (8 * p) - 8 - 8 - 2 * p = (256 - 8 - 8 - 2 * p) + 2 ^ (8 * p) := by
      omega
    rw [e, Nat.add_mod_right, Nat.mod_eq_of_lt (by omega)]
    omega
  · intro T
    have h : struct_sizeof (data_members 8) = sizeof_data := by decide
    rw [h]
    simp [msg_type.static_assert]

end vdds

namespace vdds

/-- C27 (amended): on a 64-bit target, where a pointer takes 8 bytes and the shared handle
16, `data::plain_t` is 224 bytes long; it is 232 bytes long where the shared handle takes
8 bytes (pointers of 4 bytes). -/
theorem C27_plain_size :
    sizeof_shared_p 8 = 16 ∧ sizeof_plain_t 8 = 224
      ∧ sizeof_shared_p 4 = 8 ∧ sizeof_plain_t 4 = 232 := by
  refine ⟨by decide, by decide, by decide, by decide⟩

/-- Counterexample to C27 as stated: on a 64-bit target `data::plain_t` is not 232 bytes
long; 232 bytes behind the three other members would make the envelope 264 bytes. -/
theorem C27_plain_not_232 :
    sizeof_plain_t 8 ≠ 232
      ∧ sizeof_seqno_t + sizeof_timestamp_t + sizeof_shared_p 8 + 232 = 264 := by
  constructor <;> decide

end vdds

/-! ### Notifier (C28, C29) -/

namespace vdds

namespace notifier

theorem notify_n_cv (k : Nat) : ∀ (ft : Int) (c : Nat), c < UINT32_MOD →
    notify_n k (cv ft c) = cv ft ((c + k) % UINT32_MOD) := by
  induction k with
  | zero =>
    intro ft c hc
    rw [Nat.add_zero, Nat.mod_eq_of_lt hc]
    rfl
  | succ k ih =>
    intro ft c _
    simp only [notify_n, notify]
    rw [ih ft _ (Nat.mod_lt _ (by decide))]
    congr 1
    rw [Nat.mod_add_mod]
    exact congrArg (fun x => x % UINT32_MOD) (by omega)

/-- A condition-variable notifier with the forced timeout `d` keeps it through `notify()`
and `wait_for` calls. -/
theorem run_calls_cv (cs : List (Option Int)) : ∀ (d : Int) (c : Nat),
    ∃ c1, run_calls (cv d c) cs = cv d c1 := by
  induction cs with
  | nil => intro d c; exact ⟨c, rfl⟩
  | cons x cs ih =>
    intro d c
    cases x with
    | none => exact ih d _
    | some t => exact ih d 0

end notifier

/-- C28 (amended): a `notify()` issued before `wait_for` is not lost while the pending
count does not wrap.  For the condition-variable notifier in every state with a pending
count `c` (a `uint32_t`) and every `k >= 1` with `c + k < 2^32`, after `k` consecutive
`notify()` calls with no `wait_for` in between the pending count is `c + k`, greater than
zero, and the next `wait_for(t)` finds its wake-up predicate true, returns without
waiting and resets the count to zero. -/
theorem C28_notify_not_lost (ft : Int) (c k : Nat) (t : Int) (hk : 0 < k)
    (h : c + k < UINT32_MOD) :
    notifier.notify_n k (notifier.cv ft c) = notifier.cv ft (c + k)
      ∧ 0 < c + k
      ∧ ((notifier.notify_n k (notifier.cv ft c)).wait_for t).1.waited = false
      ∧ ((notifier.notify_n k (notifier.cv ft c)).wait_for t).2 = notifier.cv ft 0 := by
  have e : notifier.notify_n k (notifier.cv ft c) = notifier.cv ft (c + k) := by
    rw [notifier.notify_n_cv k ft c (by omega), Nat.mod_eq_of_lt h]
  rw [e]
  refine ⟨rfl, by omega, ?_, rfl⟩
  simp only [notifier.wait_for, decide_eq_false_iff_not]
  omega

/-- Witness for C28: three `notify()` calls on a new `notifier_cv`, then `wait_for`. -/
theorem C28_notify_not_lost_witness :
    notifier.notify_n 3 (notifier.cv 0 0) = notifier.cv 0 3
      ∧ ((notifier.notify_n 3 (notifier.cv 0 0)).wait_for 1000000).1.waited = false :=
  ⟨(C28_notify_not_lost 0 0 3 1000000 (by decide) (by decide)).1,
    (C28_notify_not_lost 0 0 3 1000000 (by decide) (by decide)).2.2.1⟩

/-- Counterexample to C28 as stated: in the state with pending count 2^32 - 1, `notify()`
leaves the pending count 0, and the next `wait_for` has to wait; 2^32 consecutive
`notify()` calls on a new `notifier_cv` leave the pending count 0 as well. -/
theorem C28_pending_count_wraps :
    (notifier.cv 0 4294967295).notify = notifier.cv 0 0
      ∧ ((notifier.cv 0 4294967295).notify.wait_for 1000000).1
          = { timeout := 1000000, waited := true }
      ∧ notifier.notify_n 4294967296 (notifier.cv 0 0) = notifier.cv 0 0 := by
  refine ⟨by decide, by decide, ?_⟩
  rw [notifier.notify_n_cv 4294967296 0 0 (by decide)]
  decide

/-- C29 (amended): after `notifier_cv::shutdown(d)` with `d` not 0, every later
`wait_for(t)` hands the timeout `d` to the condition variable, not the caller's `t`,
whatever `notify()` and `wait_for` calls were made in between. -/
theorem C29_forced_timeout (ft : Int) (c : Nat) (d : Int) (hd : d ≠ 0)
    (cs : List (Option Int)) (t : Int) :
    (notifier.run_calls ((notifier.cv ft c).shutdown d) cs).effective_timeout t = d
      ∧ ((notifier.run_calls ((notifier.cv ft c).shutdown d) cs).wait_for t).1.timeout = d := by
  obtain ⟨c1, e⟩ := notifier.run_calls_cv cs d ((c + 1) % UINT32_MOD)
  have e' : notifier.run_calls ((notifier.cv ft c).shutdown d) cs = notifier.cv d c1 := e
  rw [e']
  simp only [notifier.effective_timeout, notifier.wait_for, if_pos hd, and_self]

/-- Witness for C29: `shutdown(1000)`, then a `wait_for`, a `notify()` and a
`wait_for(100000000000)`. -/
theorem C29_forced_timeout_witness :
    ((notifier.run_calls ((notifier.cv 0 0).shutdown 1000) [some 5, none]).wait_for
        100000000000).1.timeout = 1000 :=
  (C29_forced_timeout 0 0 1000 (by decide) [some 5, none] 100000000000).2

/-- Counterexample to C29 as stated: after `shutdown(0)` the next `wait_for(5)` (the
second one, the first finds the pending count set by `shutdown`) waits with the
caller's timeout 5, not 0. -/
theorem C29_shutdown_zero :
    ((notifier.cv 0 0).shutdown 0).effective_timeout 5 = 5
      ∧ ((((notifier.cv 0 0).shutdown 0).wait_for 5).2.wait_for 5).1
          = { timeout := 5, waited := true } := by
  constructor <;> decide

end vdds

/-! ### Reusable query records (C21) -/

namespace vdds

namespace topic

theorem erase_append_self (l : List Nat) (q : Nat) (h : q ∉ l) : (l ++ [q]).erase q = l := by
  rw [List.erase_append_right _ h]
  simp

theorem topic_query_indep (t : topic) (h : WF t) (ti1 ti2 : query.topic_info) :
    t.query ti1 = t.query ti2 := by
  obtain ⟨a1, a2, a3, a4, a5, a6, a7⟩ := topic_query_spec t h ti1
  obtain ⟨b1, b2, b3, b4, b5, b6, b7⟩ := topic_query_spec t h ti2
  have hs : (t.query ti1).subs = (t.query ti2).subs := by
    apply List.ext_getElem?
    intro i
    by_cases hi : i < t._cache_ptr.subs.length
    · obtain ⟨q, hq, e1⟩ := a6 i _ (List.getElem?_eq_getElem hi)
      obtain ⟨q', hq', e2⟩ := b6 i _ (List.getElem?_eq_getElem hi)
      have : q' = q := Option.some.inj (hq'.symm.trans hq)
      subst this
      rw [e1, e2]
    · rw [List.getElem?_eq_none (by omega), List.getElem?_eq_none (by omega)]
  have hp : (t.query ti1).pubs = (t.query ti2).pubs := by
    apply List.ext_getElem?
    intro i
    by_cases hi : i < t._cache_ptr.pubs.length
    · obtain ⟨q, hq, e1⟩ := a7 i _ (List.getElem?_eq_getElem hi)
      obtain ⟨q', hq', e2⟩ := b7 i _ (List.getElem?_eq_getElem hi)
      have : q' = q := Option.some.inj (hq'.symm.trans hq)
      subst this
      rw [e1, e2]
    · rw [List.getElem?_eq_none (by omega), List.getElem?_eq_none (by omega)]
  have hn : (t.query ti1).name = (t.query ti2).name := a1.trans b1.symm
  have hd : (t.query ti1).data_type = (t.query ti2).data_type := a2.trans b2.symm
  have hc : (t.query ti1).push_count = (t.query ti2).push_count := a3.trans b3.symm
  cases h1 : t.query ti1
  cases h2 : t.query ti2
  rw [h1] at hs hp hn hd hc
  rw [h2] at hs hp hn hd hc
  simp only at hs hp hn hd hc
  rw [hs, hp, hn, hd, hc]

end topic

/-- C21: query records are reusable.  The record `domain::query` leaves does not depend
on what the caller's record held before, and querying again into the record just filled
gives the same record; the same holds for `topic::query` on a well-formed topic (every
topic reached from its constructor is one), whatever number of subscribers and
publishers the old record has. -/
theorem C21_query_reusable (dm : domain) (flt : query.filter) (t : topic) (ht : topic.WF t) :
    (∀ di1 di2, dm.query di1 flt = dm.query di2 flt)
      ∧ (∀ di flt0, dm.query (dm.query di flt0) flt = dm.query di flt)
      ∧ (∀ di, dm.query (dm.query di flt) flt = dm.query di flt)
      ∧ (∀ ti1 ti2, t.query ti1 = t.query ti2)
      ∧ (∀ ti, t.query (t.query ti) = t.query ti) := by
  have h1 : ∀ di1 di2, dm.query di1 flt = dm.query di2 flt := by
    intro di1 di2
    rw [domain.domain_query_spec, domain.domain_query_spec]
  exact ⟨h1, fun di flt0 => h1 _ _, fun di => h1 _ _,
    fun ti1 ti2 => topic.topic_query_indep t ht ti1 ti2,
    fun ti => topic.topic_query_indep t ht _ _⟩

/-- Witness for C21: a topic with a subscriber and a publisher, queried into a record that
holds three subscribers and no publisher. -/
theorem C21_query_reusable_witness :
    ∃ outs t ns1, (topic.new "" "/t" "X").run []
        [topic_op.subscribe "s" 4 none, topic_op.publish "p",
          topic_op.push 0 ⟨0, 1, none, []⟩] = some (outs, t, ns1)
      ∧ t.query { name := "old", data_type := "Y", push_count := 7, pubs := [],
                  subs := [query.sub_info.dflt, query.sub_info.dflt, query.sub_info.dflt] }
          = t.query query.topic_info.dflt := by
  have he : ∃ r, (topic.new "" "/t" "X").run []
      [topic_op.subscribe "s" 4 none, topic_op.publish "p",
        topic_op.push 0 ⟨0, 1, none, []⟩] = some r :=
    Option.isSome_iff_exists.mp (by decide)
  obtain ⟨⟨outs, t, ns1⟩, hr⟩ := he
  have hw : topic.WF t := topic.run_wf _ _ [] outs t ns1 (topic.wf_new "" "/t" "X") (by
    intro op hop
    simp only [List.mem_cons, List.mem_singleton, List.mem_nil_iff, or_false] at hop
    rcases hop with h | h | h <;> rw [h]
    · show 4 < UINT32_MOD; decide
    · trivial
    · trivial) hr
  exact ⟨outs, t, ns1, hr,
    (C21_query_reusable (domain.new "d") query.filter.any t hw).2.2.2.1 _ _⟩

end vdds

/-! ### Membership changes (C22, C23) -/

namespace vdds

namespace topic

theorem getD_set_other {α : Type} (l : List (Option α)) (q p : Nat) (x : Option α)
    (h : p ≠ q) : (l.set q x).getD p none = l.getD p none := by
  simp only [List.getD_eq_getElem?_getD]
  rw [List.getElem?_set_ne (fun e => h e.symm)]

theorem getD_set_self_none {α : Type} (l : List (Option α)) (q : Nat) :
    (l.set q none).getD q none = none := by
  simp only [List.getD_eq_getElem?_getD]
  by_cases h : q < l.length
  · rw [List.getElem?_set_self h]; rfl
  · rw [List.getElem?_eq_none (by rw [List.length_set]; omega)]; rfl

theorem subscribe_spec (t : topic) (h : WF t) (name : String) (qsize : Nat)
    (ntfr : Option Nat) :
    ∃ q t1, t.subscribe name qsize ntfr = some (q, t1)
      ∧ q = t.sub_heap.length
      ∧ q ∉ t._cache_ptr.subs
      ∧ t1._cache_ptr.subs = t._cache_ptr.subs ++ [q]
      ∧ t1._cache_ptr.pubs = t._cache_ptr.pubs
      ∧ t1._next_seqno = t._next_seqno
      ∧ t1.pub_heap = t.pub_heap
      ∧ (∀ p, p ≠ q → t1.sub_heap.getD p none = t.sub_heap.getD p none)
      ∧ t1.sub_heap.getD q none
          = some (sub_queue.new name t._name t._data_type qsize ntfr) := by
  have hnot : t.sub_heap.length ∉ t._cache_ptr.subs := by
    intro hm
    obtain ⟨q, hq⟩ := (h.sub_live _).mp hm
    exact absurd (getD_some_lt _ _ _ hq) (lt_irrefl _)
  refine ⟨_, _, subscribe_eq t name qsize ntfr h.refcnt, rfl, hnot, rfl, rfl, rfl, rfl, ?_, ?_⟩
  · intro p hp
    show (t.sub_heap ++ [_]).getD p none = _
    rw [getD_append_single, if_neg hp]
  · show (t.sub_heap ++ [_]).getD t.sub_heap.length none = _
    rw [getD_append_single, if_pos rfl]

theorem publish_spec (t : topic) (h : WF t) (name : String) :
    ∃ p t1, t.publish name = some (p, t1)
      ∧ p = t.pub_heap.length
      ∧ p ∉ t._cache_ptr.pubs
      ∧ t1._cache_ptr.pubs = t._cache_ptr.pubs ++ [p]
      ∧ t1._cache_ptr.subs = t._cache_ptr.subs
      ∧ t1._next_seqno = t._next_seqno
      ∧ t1.sub_heap = t.sub_heap
      ∧ (∀ p', p' ≠ p → t1.pub_heap.getD p' none = t.pub_heap.getD p' none)
      ∧ t1.pub_heap.getD p none = some (pub_handle.new name t._name) := by
  have hnot : t.pub_heap.length ∉ t._cache_ptr.pubs := by
    intro hm
    obtain ⟨q, hq⟩ := (h.pub_live _).mp hm
    exact absurd (getD_some_lt _ _ _ hq) (lt_irrefl _)
  refine ⟨_, _, publish_eq t name h.refcnt, rfl, hnot, rfl, rfl, rfl, rfl, ?_, ?_⟩
  · intro p hp
    show (t.pub_heap ++ [_]).getD p none = _
    rw [getD_append_single, if_neg hp]
  · show (t.pub_heap ++ [_]).getD t.pub_heap.length none = _
    rw [getD_append_single, if_pos rfl]

theorem unsubscribe_spec (t : topic) (h : WF t) (q : Nat) (sq : sub_queue)
    (hq : t.sub_heap.getD q none = some sq) :
    ∃ t1, t.unsubscribe q = some t1
      ∧ t1._cache_ptr.subs = t._cache_ptr.subs.erase q
      ∧ t1._cache_ptr.pubs = t._cache_ptr.pubs
      ∧ t1._next_seqno = t._next_seqno
      ∧ t1.pub_heap = t.pub_heap
      ∧ (∀ p, p ≠ q → t1.sub_heap.getD p none = t.sub_heap.getD p none)
      ∧ t1.sub_heap.getD q none = none :=
  ⟨_, unsubscribe_eq t q sq h.refcnt hq, rfl, rfl, rfl, rfl,
    fun _ hp => getD_set_other _ _ _ _ hp, getD_set_self_none _ _⟩

theorem unpublish_spec (t : topic) (h : WF t) (p : Nat) (ph : pub_handle)
    (hp : t.pub_heap.getD p none = some ph) :
    ∃ t1, t.unpublish p = some t1
      ∧ t1._cache_ptr.pubs = t._cache_ptr.pubs.erase p
      ∧ t1._cache_ptr.subs = t._cache_ptr.subs
      ∧ t1._next_seqno = t._next_seqno
      ∧ t1.sub_heap = t.sub_heap
      ∧ (∀ p', p' ≠ p → t1.pub_heap.getD p' none = t.pub_heap.getD p' none)
      ∧ t1.pub_heap.getD p none = none :=
  ⟨_, unpublish_eq t p ph h.refcnt hp, rfl, rfl, rfl, rfl,
    fun _ hp' => getD_set_other _ _ _ _ hp', getD_set_self_none _ _⟩

/-- Erasing a member of a list without repetitions removes exactly that member and keeps
the others in their order. -/
theorem erase_exact (l : List Nat) (hn : l.Nodup) (q : Nat) :
    l.erase q = l.filter (fun p => decide (p ≠ q))
      ∧ (l.erase q).Sublist l
      ∧ ∀ p, p ∈ l.erase q ↔ p ∈ l ∧ p ≠ q := by
  refine ⟨?_, List.erase_sublist q l, fun p => ?_⟩
  · rw [hn.erase_eq_filter]
    apply List.filter_congr
    intro x _
    by_cases e : x = q
    · subst e; simp
    · simp [e]
  · rw [hn.mem_erase_iff]
    exact ⟨fun h => ⟨h.2, h.1⟩, fun h => ⟨h.2, h.1⟩⟩

end topic

/-- C22: on a well-formed topic, `subscribe(name, qsize, ntfr)` returns and appends
exactly one new queue pointer at the end of the subscriber sequence; the subscribers
there were, their order and their queues, the publisher sequence, the handles and the
sequence counter are unchanged; the new queue has the given name, `capacity() == qsize`
(16 for a call with the default arguments), no queued envelope (`pop` returns `false`)
and `push_count == drop_count == 0`.  `publish(name)` likewise appends exactly one new
handle, with the given name, to the publisher sequence and leaves the subscribers, their
queues and the sequence counter unchanged. -/
theorem C22_subscribe_frame (t : topic) (h : topic.WF t) (name : String) (qsize : Nat)
    (ntfr : Option Nat) (hq : qsize < UINT32_MOD) (pname : String) :
    (∃ q t1 sq, t.subscribe name qsize ntfr = some (q, t1)
      ∧ q ∉ t._cache_ptr.subs
      ∧ t1._cache_ptr.subs = t._cache_ptr.subs ++ [q]
      ∧ t1._cache_ptr.pubs = t._cache_ptr.pubs
      ∧ t1._next_seqno = t._next_seqno
      ∧ t1.pub_heap = t.pub_heap
      ∧ (∀ p ∈ t._cache_ptr.subs, t1.sub_heap.getD p none = t.sub_heap.getD p none)
      ∧ t1.sub_heap.getD q none = some sq
      ∧ sq._name = name ∧ sq.capacity = qsize ∧ sq._notifier = ntfr
      ∧ sq._fifo.contents = [] ∧ (∀ d, sq.pop d = (false, d, sq))
      ∧ sq.push_count = 0 ∧ sq.drop_count = 0)
    ∧ (∃ q t1 sq, t.subscribe_dflt name = some (q, t1)
      ∧ t1.sub_heap.getD q none = some sq ∧ sq.capacity = 16 ∧ sq._notifier = none)
    ∧ (∃ p t1 ph, t.publish pname = some (p, t1)
      ∧ p ∉ t._cache_ptr.pubs
      ∧ t1._cache_ptr.pubs = t._cache_ptr.pubs ++ [p]
      ∧ t1._cache_ptr.subs = t._cache_ptr.subs
      ∧ t1._next_seqno = t._next_seqno
      ∧ t1.sub_heap = t.sub_heap
      ∧ (∀ p' ∈ t._cache_ptr.pubs, t1.pub_heap.getD p' none = t.pub_heap.getD p' none)
      ∧ t1.pub_heap.getD p none = some ph ∧ ph._name = pname) := by
  refine ⟨?_, ?_, ?_⟩
  · obtain ⟨q, t1, e, _, h2, h3, h4, h5, h6, h7, h8⟩ := topic.subscribe_spec t h name qsize ntfr
    have hi : spsc_queue.Inv (sub_queue.new name t._name t._data_type qsize ntfr)._fifo :=
      spsc_queue.new_inv _ _ (topic.uint32_lt_size_max qsize hq)
    have hc : (sub_queue.new name t._name t._data_type qsize ntfr)._fifo.contents = [] :=
      sub_queue.new_contents _ _
    exact ⟨q, t1, _, e, h2, h3, h4, h5, h6,
      fun p hp => h7 p (fun e => h2 (e ▸ hp)), h8, rfl, rfl, rfl, hc,
      fun d => sub_queue.pop_of_empty _ hi hc d, rfl, rfl⟩
  · obtain ⟨q, t1, e, _, _, _, _, _, _, _, h8⟩ := topic.subscribe_spec t h name 16 none
    exact ⟨q, t1, _, e, h8, rfl, rfl⟩
  · obtain ⟨p, t1, e, _, h2, h3, h4, h5, h6, h7, h8⟩ := topic.publish_spec t h pname
    exact ⟨p, t1, _, e, h2, h3, h4, h5, h6, fun p' hp => h7 p' (fun e => h2 (e ▸ hp)), h8, rfl⟩

/-- Witness for C22: `subscribe("s2", 8)` and `publish("p2")` on a topic that has a
subscriber, a publisher and one push behind it. -/
theorem C22_subscribe_frame_witness :
    ∃ outs t ns1, (topic.new "" "/t" "X").run []
        [topic_op.subscribe "s" 4 none, topic_op.publish "p",
          topic_op.push 0 ⟨0, 1, none, []⟩] = some (outs, t, ns1)
      ∧ (∃ q t1, t.subscribe "s2" 8 none = some (q, t1)
          ∧ t1._cache_ptr.subs = t._cache_ptr.subs ++ [q]
          ∧ t1._cache_ptr.pubs = t._cache_ptr.pubs)
      ∧ ∃ p t1, t.publish "p2" = some (p, t1)
          ∧ t1._cache_ptr.pubs = t._cache_ptr.pubs ++ [p]
          ∧ t1._cache_ptr.subs = t._cache_ptr.subs := by
  have he : ∃ r, (topic.new "" "/t" "X").run []
      [topic_op.subscribe "s" 4 none, topic_op.publish "p",
        topic_op.push 0 ⟨0, 1, none, []⟩] = some r :=
    Option.isSome_iff_exists.mp (by decide)
  obtain ⟨⟨outs, t, ns1⟩, hr⟩ := he
  have hw : topic.WF t := topic.run_wf _ _ [] outs t ns1 (topic.wf_new "" "/t" "X") (by
    intro op hop
    simp only [List.mem_cons, List.mem_singleton, List.mem_nil_iff, or_false] at hop
    rcases hop with h | h | h <;> rw [h]
    · show 4 < UINT32_MOD; decide
    · trivial
    · trivial) hr
  obtain ⟨⟨q, t1, _, a1, _, a3, a4, _⟩, _, ⟨p, t2, _, b1, _, b3, b4, _⟩⟩ :=
    C22_subscribe_frame t hw "s2" 8 none (by decide) "p2"
  exact ⟨outs, t, ns1, hr, ⟨q, t1, a1, a3, a4⟩, ⟨p, t2, b1, b3, b4⟩⟩

/-- C23: on a well-formed topic, `unsubscribe(q)` of a live queue returns and removes
exactly `q` from the subscriber sequence: the remaining subscribers are those that
differ from `q`, in their previous order, with their queues as they were; the publisher
sequence, the handles and the sequence counter are unchanged.  `unpublish(p)` does the
same on the publisher sequence.  Consequently `subscribe` followed by `unsubscribe` of
the returned queue, and `publish` followed by `unpublish` of the returned handle,
restore the previous membership. -/
theorem C23_unsubscribe_exact (t : topic) (h : topic.WF t) :
    (∀ q sq, t.sub_heap.getD q none = some sq →
      ∃ t1, t.unsubscribe q = some t1
        ∧ t1._cache_ptr.subs = t._cache_ptr.subs.filter (fun p => decide (p ≠ q))
        ∧ t1._cache_ptr.subs.Sublist t._cache_ptr.subs
        ∧ (∀ p, p ∈ t1._cache_ptr.subs ↔ p ∈ t._cache_ptr.subs ∧ p ≠ q)
        ∧ t1._cache_ptr.subs.length + 1 = t._cache_ptr.subs.length
        ∧ t1._cache_ptr.pubs = t._cache_ptr.pubs
        ∧ t1._next_seqno = t._next_seqno ∧ t1.pub_heap = t.pub_heap
        ∧ ∀ p, p ≠ q → t1.sub_heap.getD p none = t.sub_heap.getD p none)
    ∧ (∀ p ph, t.pub_heap.getD p none = some ph →
      ∃ t1, t.unpublish p = some t1
        ∧ t1._cache_ptr.pubs = t._cache_ptr.pubs.filter (fun x => decide (x ≠ p))
        ∧ t1._cache_ptr.pubs.Sublist t._cache_ptr.pubs
        ∧ (∀ x, x ∈ t1._cache_ptr.pubs ↔ x ∈ t._cache_ptr.pubs ∧ x ≠ p)
        ∧ t1._cache_ptr.pubs.length + 1 = t._cache_ptr.pubs.length
        ∧ t1._cache_ptr.subs = t._cache_ptr.subs
        ∧ t1._next_seqno = t._next_seqno ∧ t1.sub_heap = t.sub_heap
        ∧ ∀ x, x ≠ p → t1.pub_heap.getD x none = t.pub_heap.getD x none)
    ∧ (∀ name qsize ntfr, qsize < UINT32_MOD →
      ∃ q t1 t2, t.subscribe name qsize ntfr = some (q, t1) ∧ t1.unsubscribe q = some t2
        ∧ t2._cache_ptr = t._cache_ptr
        ∧ ∀ p ∈ t._cache_ptr.subs, t2.sub_heap.getD p none = t.sub_heap.getD p none)
    ∧ (∀ name,
      ∃ p t1 t2, t.publish name = some (p, t1) ∧ t1.unpublish p = some t2
        ∧ t2._cache_ptr = t._cache_ptr
        ∧ ∀ x ∈ t._cache_ptr.pubs, t2.pub_heap.getD x none = t.pub_heap.getD x none) := by
  refine ⟨?_, ?_, ?_, ?_⟩
  · intro q sq hq
    obtain ⟨t1, e, h1, h2, h3, h4, h5, _⟩ := topic.unsubscribe_spec t h q sq hq
    obtain ⟨x1, x2, x3⟩ := topic.erase_exact t._cache_ptr.subs h.subs_nodup q
    have hm : q ∈ t._cache_ptr.subs := (h.sub_live q).mpr ⟨sq, hq⟩
    have hl := List.length_erase_of_mem hm
    have hpos : 0 < t._cache_ptr.subs.length := List.length_pos_of_mem hm
    refine ⟨t1, e, by rw [h1, x1], by rw [h1]; exact x2, by rw [h1]; exact x3, ?_, h2, h3,
      h4, h5⟩
    rw [h1, hl]; omega
  · intro p ph hp
    obtain ⟨t1, e, h1, h2, h3, h4, h5, _⟩ := topic.unpublish_spec t h p ph hp
    obtain ⟨x1, x2, x3⟩ := topic.erase_exact t._cache_ptr.pubs h.pubs_nodup p
    have hm : p ∈ t._cache_ptr.pubs := (h.pub_live p).mpr ⟨ph, hp⟩
    have hl := List.length_erase_of_mem hm
    have hpos : 0 < t._cache_ptr.pubs.length := List.length_pos_of_mem hm
    refine ⟨t1, e, by rw [h1, x1], by rw [h1]; exact x2, by rw [h1]; exact x3, ?_, h2, h3,
      h4, h5⟩
    rw [h1, hl]; omega
  · intro name qsize ntfr hqs
    obtain ⟨q, t1, e, eq, h2, h3, h4, _, _, h7, h8⟩ := topic.subscribe_spec t h name qsize ntfr
    have hw1 : topic.WF t1 := by
      have := topic.wf_subscribe t h name qsize ntfr hqs
      have e' := topic.subscribe_eq t name qsize ntfr h.refcnt
      rw [e, Option.some.injEq, Prod.mk.injEq] at e'
      rw [e'.2]; exact this
    obtain ⟨t2, e2, g1, g2, _, _, g5, _⟩ := topic.unsubscribe_spec t1 hw1 q _ h8
    refine ⟨q, t1, t2, e, e2, ?_, ?_⟩
    · have hs : t2._cache_ptr.subs = t._cache_ptr.subs := by
        rw [g1, h3, topic.erase_append_self _ _ h2]
      have hp : t2._cache_ptr.pubs = t._cache_ptr.pubs := by rw [g2, h4]
      cases hc2 : t2._cache_ptr
      cases hc : t._cache_ptr
      rw [hc2, hc] at hs hp
      simp only at hs hp
      rw [hs, hp]
    · intro p hp
      have hne : p ≠ q := fun e => h2 (e ▸ hp)
      rw [g5 p hne, h7 p hne]
  · intro name
    obtain ⟨p, t1, e, eq, h2, h3, h4, _, _, h7, h8⟩ := topic.publish_spec t h name
    have hw1 : topic.WF t1 := by
      have := topic.wf_publish t h name
      have e' := topic.publish_eq t name h.refcnt
      rw [e, Option.some.injEq, Prod.mk.injEq] at e'
      rw [e'.2]; exact this
    obtain ⟨t2, e2, g1, g2, _, _, g5, _⟩ := topic.unpublish_spec t1 hw1 p _ h8
    refine ⟨p, t1, t2, e, e2, ?_, ?_⟩
    · have hs : t2._cache_ptr.pubs = t._cache_ptr.pubs := by
        rw [g1, h3, topic.erase_append_self _ _ h2]
      have hp : t2._cache_ptr.subs = t._cache_ptr.subs := by rw [g2, h4]
      cases hc2 : t2._cache_ptr
      cases hc : t._cache_ptr
      rw [hc2, hc] at hs hp
      simp only at hs hp
      rw [hs, hp]
    · intro x hx
      have hne : x ≠ p := fun e => h2 (e ▸ hx)
      rw [g5 x hne, h7 x hne]

/-- Witness for C23: on a topic with the subscribers 0, 1, 2, `unsubscribe(1)` leaves the
subscribers 0, 2. -/
theorem C23_unsubscribe_exact_witness :
    ∃ outs t ns1 t1, (topic.new "" "/t" "X").run []
        [topic_op.subscribe "a" 4 none, topic_op.subscribe "b" 4 none,
          topic_op.subscribe "c" 4 none] = some (outs, t, ns1)
      ∧ t._cache_ptr.subs = [0, 1, 2]
      ∧ t.unsubscribe 1 = some t1 ∧ t1._cache_ptr.subs = [0, 2] := by
  have he : ∃ r, (topic.new "" "/t" "X").run []
      [topic_op.subscribe "a" 4 none, topic_op.subscribe "b" 4 none,
        topic_op.subscribe "c" 4 none] = some r :=
    Option.isSome_iff_exists.mp (by decide)
  obtain ⟨⟨outs, t, ns1⟩, hr⟩ := he
  have hw : topic.WF t := topic.run_wf _ _ [] outs t ns1 (topic.wf_new "" "/t" "X") (by
    intro op hop
    simp only [List.mem_cons, List.mem_singleton, List.mem_nil_iff, or_false] at hop
    rcases hop with h | h | h <;> rw [h] <;> (show 4 < UINT32_MOD; decide)) hr
  have hs : t._cache_ptr.subs = [0, 1, 2] := by
    have e := congrArg (Option.map (fun r => r.2.1._cache_ptr.subs)) hr
    exact Option.some.inj (e.symm.trans (by decide))
  have hl : (t.sub_heap.getD 1 none).isSome = true := by
    have e := congrArg (Option.map (fun r => (r.2.1.sub_heap.getD 1 none).isSome)) hr
    exact Option.some.inj (e.symm.trans (by decide))
  obtain ⟨sq, hsq⟩ := Option.isSome_iff_exists.mp hl
  obtain ⟨t1, e1, e2, _⟩ := (C23_unsubscribe_exact t hw).1 1 sq hsq
  refine ⟨outs, t, ns1, t1, hr, hs, e1, ?_⟩
  rw [e2, hs]
  decide

end vdds

/-! ### A subscriber queue along a run -/

namespace vdds

namespace sub_queue

/-- What a push does to the queued envelopes: it appends the envelope unless the ring is
full, and a ring that holds nothing is not full. -/
theorem push_data (q : sub_queue) (hr : Reachable q) (cs : List data)
    (hc : q._fifo.contents = cs.map some) (d : data) (nl : Bool) (ns : List notifier) :
    ∃ acc, (q.push d nl ns).1._fifo.contents = (cs ++ acc).map some
      ∧ acc.Sublist [d] ∧ (cs = [] → acc = [d]) := by
  have hi := spsc_queue.reachable_inv _ (reachable_fifo _ hr)
  by_cases hf : q._fifo.contents.length = q._fifo.capacity
  · refine ⟨[], ?_, List.nil_sublist _, ?_⟩
    · rw [push_fst_full q d nl ns hi hf, List.append_nil, ← hc]
      rfl
    · intro e
      exfalso
      have hcap : 1 ≤ q._fifo.capacity := by
        have := hi.cap_ge
        rw [spsc_queue.capacity_eq _ hi]; omega
      rw [hc, e] at hf
      simp only [List.map_nil, List.length_nil] at hf
      omega
  · have hf' : ¬ (if q._fifo._write_idx + 1 = q._fifo._capacity then 0
        else q._fifo._write_idx + 1) = q._fifo._read_idx :=
      fun e => hf ((spsc_queue.full_iff q._fifo hi).mp e)
    refine ⟨[d], ?_, List.Sublist.refl _, fun _ => rfl⟩
    rw [push_fifo, spsc_queue.emplace_ok_contents q._fifo _ hi hf', hc, List.map_append]
    rfl

/-- What a pop does to the queued envelopes: it hands out the first one, or returns
`false` when there is none. -/
theorem pop_data (q : sub_queue) (hr : Reachable q) (cs : List data)
    (hc : q._fifo.contents = cs.map some) (d : data) :
    ((q.pop d).1 = true ∧ cs = (q.pop d).2.1 :: cs.tail
        ∧ (q.pop d).2.2._fifo.contents = cs.tail.map some)
      ∨ ((q.pop d).1 = false ∧ cs = [] ∧ (q.pop d).2.2._fifo.contents = [] ) := by
  have hi := spsc_queue.reachable_inv _ (reachable_fifo _ hr)
  cases cs with
  | nil =>
    right
    rw [pop_of_empty q hi hc d]
    exact ⟨rfl, rfl, hc⟩
  | cons x rest =>
    left
    obtain ⟨p1, p2, _, _⟩ := pop_of_nonempty q hi (by rw [hc]; simp) d
    rw [hc, List.map_cons, List.cons.injEq, Option.some.injEq] at p2
    refine ⟨p1, ?_, ?_⟩
    · rw [← p2.1]; rfl
    · rw [← p2.2]; rfl

end sub_queue

namespace topic

theorem popped_from_cons (q : Nat) (op : topic_op) (ops : List topic_op) (o : topic_out)
    (outs : List topic_out) :
    popped_from q (op :: ops) (o :: outs) = popped_from q [op] [o] ++ popped_from q ops outs := by
  cases op <;> cases o <;> try rfl
  rename_i sq d0 ok d
  cases ok
  · rfl
  · simp only [popped_from]
    split_ifs <;> rfl

theorem popped_from_not_pop (q : Nat) (op : topic_op) (o : topic_out)
    (h : ∀ d0, op ≠ topic_op.pop q d0) : popped_from q [op] [o] = [] := by
  cases op <;> cases o <;> try rfl
  rename_i sq d0 ok d
  cases ok
  · rfl
  · simp only [popped_from]
    rw [if_neg (fun e => h d0 (by rw [e]))]

/-- One call, seen from the queue `q` of a live subscriber that the call does not
unsubscribe: `q` stays live; what was queued and what the call popped from `q` make up
what was queued before plus what the call pushed and `q` accepted; an empty queue accepts
a push. -/
theorem step_sub_fifo (q : Nat) (t : topic) (h : WF t) (sq : sub_queue) (cs : List data)
    (hq : t.sub_heap.getD q none = some sq) (hc : sq._fifo.contents = cs.map some)
    (ns : List notifier) (op : topic_op) (hty : op.typed)
    (hun : op ≠ topic_op.unsubscribe q)
    (o : topic_out) (t1 : topic) (ns1 : List notifier)
    (hs : t.step ns op = some (o, t1, ns1)) :
    ∃ q1 cs1 acc, t1.sub_heap.getD q none = some q1 ∧ q1._fifo.contents = cs1.map some
      ∧ popped_from q [op] [o] ++ cs1 = cs ++ acc
      ∧ acc.Sublist ([o].filterMap topic_out.pushed_data)
      ∧ (cs = [] → acc = [o].filterMap topic_out.pushed_data)
      ∧ q1._push_count
          = (sq._push_count + ([op].filter topic_op.is_push).length) % UINT32_MOD := by
  have hr := (h.sub_ok q sq hq).1
  have hpc : sq._push_count % UINT32_MOD = sq._push_count :=
    Nat.mod_eq_of_lt (sub_queue.reachable_counts sq hr).1
  have hlt := getD_some_lt _ _ _ hq
  cases op with
  | subscribe name qsize ntfr =>
    simp only [step, subscribe_eq t name qsize ntfr h.refcnt, Option.map_some',
      Option.some.injEq, Prod.mk.injEq] at hs
    obtain ⟨e1, e2, _⟩ := hs
    subst e1 e2
    refine ⟨sq, cs, [], ?_, hc, by simp [popped_from], List.Sublist.refl _, fun _ => rfl, ?_⟩
    · show (t.sub_heap ++ [_]).getD q none = _
      rw [getD_append_single, if_neg (by omega), hq]
    · simp [topic_op.is_push, hpc]
  | publish name =>
    simp only [step, publish_eq t name h.refcnt, Option.map_some', Option.some.injEq,
      Prod.mk.injEq] at hs
    obtain ⟨e1, e2, _⟩ := hs
    subst e1 e2
    exact ⟨sq, cs, [], hq, hc, by simp [popped_from], List.Sublist.refl _, fun _ => rfl,
      by simp [topic_op.is_push, hpc]⟩
  | unsubscribe p =>
    have hne : q ≠ p := fun e => hun (by rw [e])
    cases hp : t.sub_heap.getD p none with
    | none => simp [step, unsubscribe_none t p hp] at hs
    | some sp =>
      simp only [step, unsubscribe_eq t p sp h.refcnt hp, Option.map_some', Option.some.injEq,
        Prod.mk.injEq] at hs
      obtain ⟨e1, e2, _⟩ := hs
      subst e1 e2
      refine ⟨sq, cs, [], ?_, hc, by simp [popped_from], List.Sublist.refl _, fun _ => rfl,
        by simp [topic_op.is_push, hpc]⟩
      show (t.sub_heap.set p none).getD q none = _
      rw [getD_set_other _ _ _ _ hne, hq]
  | unpublish p =>
    cases hp : t.pub_heap.getD p none with
    | none => simp [step, unpublish_none t p hp] at hs
    | some ph =>
      simp only [step, unpublish_eq t p ph h.refcnt hp, Option.map_some', Option.some.injEq,
        Prod.mk.injEq] at hs
      obtain ⟨e1, e2, _⟩ := hs
      subst e1 e2
      exact ⟨sq, cs, [], hq, hc, by simp [popped_from], List.Sublist.refl _, fun _ => rfl,
        by simp [topic_op.is_push, hpc]⟩
  | push ph d =>
    simp only [step, Option.some.injEq, Prod.mk.injEq] at hs
    obtain ⟨e1, e2⟩ := hs
    have e3 : t1 = (t.push ph d ns).2.1 := by rw [e2]
    subst e1 e3
    have hm : q ∈ t._cache_ptr.subs := (h.sub_live q).mpr ⟨sq, hq⟩
    have hh := push_heap_at t ph d ns (wf_inv t h) q hm sq hq
    obtain ⟨acc, a1, a2, a3⟩ := sub_queue.push_data sq hr cs hc
      { d with seqno := t._next_seqno } false []
    refine ⟨_, cs ++ acc, acc, hh, a1, ?_, ?_, ?_, ?_⟩
    · simp [popped_from]
    · rw [push_fst]; exact a2
    · rw [push_fst]; exact a3
    · rw [sub_queue.push_push_count]; rfl
  | pop p d =>
    cases hp : t.sub_heap.getD p none with
    | none => simp [step, pop_none t p d hp] at hs
    | some sp =>
      simp only [step, pop_some t p d sp hp, Option.map_some', Option.some.injEq,
        Prod.mk.injEq] at hs
      obtain ⟨e1, e2, _⟩ := hs
      subst e1 e2
      by_cases hne : q = p
      · subst hne
        have e : sp = sq := Option.some.inj (hp.symm.trans hq)
        subst e
        have hget : (t.sub_heap.set q (some (sp.pop d).2.2)).getD q none
            = some (sp.pop d).2.2 := by
          simp only [List.getD_eq_getElem?_getD]
          rw [List.getElem?_set_self hlt]; rfl
        rcases sub_queue.pop_data sp hr cs hc d with ⟨b1, b2, b3⟩ | ⟨b1, b2, b3⟩
        · refine ⟨_, cs.tail, [], hget, b3, ?_, List.nil_sublist _, ?_, ?_⟩
          · rw [b1]
            simp only [popped_from, if_pos, List.append_nil]
            exact b2.symm
          · intro e; rw [e] at b2; exact absurd b2 (by simp)
          · simp [topic_op.is_push, hpc]
            rfl
        · refine ⟨_, [], [], hget, b3, ?_, List.nil_sublist _, fun _ => rfl, ?_⟩
          · rw [b1, b2]; rfl
          · simp [topic_op.is_push, hpc]
            rfl
      · refine ⟨sq, cs, [], ?_, hc, ?_, List.nil_sublist _, fun _ => rfl,
          by simp [topic_op.is_push, hpc]⟩
        · show (t.sub_heap.set p _).getD q none = _
          rw [getD_set_other _ _ _ _ hne, hq]
        · rw [popped_from_not_pop q _ _ (fun d0 e => hne (by injection e with e1; exact e1.symm)),
            List.nil_append, List.append_nil]

end topic

end vdds

/-! ### Late subscriber (C24) -/

namespace vdds

namespace topic

theorem run_sub_fifo (q : Nat) (ops : List topic_op) : ∀ (t : topic) (ns : List notifier)
    (sq : sub_queue) (cs : List data) (outs : List topic_out) (t2 : topic)
    (ns2 : List notifier), WF t → t.sub_heap.getD q none = some sq →
    sq._fifo.contents = cs.map some → (∀ op ∈ ops, op.typed) →
    (∀ op ∈ ops, op ≠ topic_op.unsubscribe q) → t.run ns ops = some (outs, t2, ns2) →
    ∃ q2 cs2 acc, t2.sub_heap.getD q none = some q2 ∧ q2._fifo.contents = cs2.map some
      ∧ popped_from q ops outs ++ cs2 = cs ++ acc
      ∧ acc.Sublist (outs.filterMap topic_out.pushed_data)
      ∧ (cs = [] → acc.head? = (outs.filterMap topic_out.pushed_data).head?)
      ∧ q2._push_count
          = (sq._push_count + (ops.filter topic_op.is_push).length) % UINT32_MOD := by
  induction ops with
  | nil =>
    intro t ns sq cs outs t2 ns2 h hq hc _ _ hr
    simp only [run, Option.some.injEq, Prod.mk.injEq] at hr
    obtain ⟨e1, e2, _⟩ := hr
    subst e1 e2
    refine ⟨sq, cs, [], hq, hc, by simp [popped_from], List.Sublist.refl _, fun _ => rfl, ?_⟩
    have := (sub_queue.reachable_counts sq (h.sub_ok q sq hq).1).1
    simp only [List.filter_nil, List.length_nil, Nat.add_zero]
    exact (Nat.mod_eq_of_lt this).symm
  | cons op ops ih =>
    intro t ns sq cs outs t2 ns2 h hq hc hty hun hr
    obtain ⟨o, t', ns', outs', hs, hr', eo⟩ := run_cons t ns op ops outs t2 ns2 hr
    subst eo
    have hop := hty op (List.mem_cons_self _ _)
    have hw' := step_wf t h ns op hop o t' ns' hs
    obtain ⟨q1, cs1, acc1, a1, a2, a3, a4, a5, a6⟩ := step_sub_fifo q t h sq cs hq hc ns op hop
      (hun op (List.mem_cons_self _ _)) o t' ns' hs
    obtain ⟨q2, cs2, acc2, b1, b2, b3, b4, b5, b6⟩ := ih t' ns' q1 cs1 outs' t2 ns2 hw' a1 a2
      (fun x hx => hty x (List.mem_cons_of_mem _ hx))
      (fun x hx => hun x (List.mem_cons_of_mem _ hx)) hr'
    have hfm : (o :: outs').filterMap topic_out.pushed_data
        = [o].filterMap topic_out.pushed_data ++ outs'.filterMap topic_out.pushed_data := by
      rw [← List.filterMap_append]; rfl
    refine ⟨q2, cs2, acc1 ++ acc2, b1, b2, ?_, ?_, ?_, ?_⟩
    · rw [popped_from_cons, List.append_assoc, b3, ← List.append_assoc, a3, List.append_assoc]
    · rw [hfm]; exact List.Sublist.append a4 b4
    · intro e
      have e1 := a5 e
      rw [hfm, e1]
      cases hP : [o].filterMap topic_out.pushed_data with
      | nil =>
        rw [List.nil_append, List.nil_append]
        apply b5
        rw [e, e1, hP] at a3
        exact (List.append_eq_nil.mp a3).2
      | cons x xs => rfl
    · rw [b6, a6]
      have hl : ((op :: ops).filter topic_op.is_push).length
          = ([op].filter topic_op.is_push).length + (ops.filter topic_op.is_push).length := by
        rw [← List.length_append, ← List.filter_append]; rfl
      rw [hl, Nat.mod_add_mod, Nat.add_assoc]

end topic

/-- C24 (amended): on a well-formed topic, whatever was pushed on it before, the queue
that `subscribe` returns holds no envelope and has `push_count` 0.  Along every run of
further calls that does not unsubscribe it, the queue stays live, every `push` is
offered to it (its `push_count` is the number of these pushes modulo 2^32, the counter
being a `uint32_t`), the envelopes it pops are, in order, among the envelopes pushed
after it subscribed, and the first envelope it pops is the first one pushed after it
subscribed. -/
theorem C24_late_subscriber (t : topic) (h : topic.WF t) (name : String) (qsize : Nat)
    (ntfr : Option Nat) (hqs : qsize < UINT32_MOD) :
    ∃ q t1 sq, t.subscribe name qsize ntfr = some (q, t1)
      ∧ t1.sub_heap.getD q none = some sq
      ∧ sq._fifo.contents = [] ∧ (∀ d, sq.pop d = (false, d, sq)) ∧ sq.push_count = 0
      ∧ ∀ (ops : List topic_op) (ns : List notifier) (outs : List topic_out) (t2 : topic)
          (ns2 : List notifier), (∀ op ∈ ops, op.typed) →
          (∀ op ∈ ops, op ≠ topic_op.unsubscribe q) → t1.run ns ops = some (outs, t2, ns2) →
          ∃ q2, t2.sub_heap.getD q none = some q2
            ∧ q2.push_count = (ops.filter topic_op.is_push).length % UINT32_MOD
            ∧ ((ops.filter topic_op.is_push).length < UINT32_MOD →
                q2.push_count = (ops.filter topic_op.is_push).length)
            ∧ (topic.popped_from q ops outs).Sublist (outs.filterMap topic_out.pushed_data)
            ∧ ∀ d, (topic.popped_from q ops outs).head? = some d →
                (outs.filterMap topic_out.pushed_data).head? = some d := by
  obtain ⟨q, t1, e, _, _, _, _, _, _, _, h8⟩ := topic.subscribe_spec t h name qsize ntfr
  have hw1 : topic.WF t1 := by
    have := topic.wf_subscribe t h name qsize ntfr hqs
    have e' := topic.subscribe_eq t name qsize ntfr h.refcnt
    rw [e, Option.some.injEq, Prod.mk.injEq] at e'
    rw [e'.2]; exact this
  have hi : spsc_queue.Inv (sub_queue.new name t._name t._data_type qsize ntfr)._fifo :=
    spsc_queue.new_inv _ _ (topic.uint32_lt_size_max qsize hqs)
  have hc : (sub_queue.new name t._name t._data_type qsize ntfr)._fifo.contents = [] :=
    sub_queue.new_contents _ _
  refine ⟨q, t1, _, e, h8, hc, fun d => sub_queue.pop_of_empty _ hi hc d, rfl, ?_⟩
  intro ops ns outs t2 ns2 hty hun hr
  obtain ⟨q2, cs2, acc, b1, _, b3, b4, b5, b6⟩ := topic.run_sub_fifo q ops t1 ns _ [] outs t2
    ns2 hw1 h8 hc hty hun hr
  rw [List.nil_append] at b3
  have hpc : q2.push_count = (ops.filter topic_op.is_push).length % UINT32_MOD := by
    show q2._push_count = _
    rw [b6]
    show (0 + _) % UINT32_MOD = _
    rw [Nat.zero_add]
  refine ⟨q2, b1, hpc, fun hlt => by rw [hpc, Nat.mod_eq_of_lt hlt], ?_, ?_⟩
  · exact List.Sublist.trans (by rw [← b3]; exact List.sublist_append_left _ _) b4
  · intro d hd
    rw [← b5 rfl, ← b3]
    cases hp : topic.popped_from q ops outs with
    | nil => rw [hp] at hd; exact absurd hd (by simp)
    | cons x xs =>
      rw [hp] at hd
      rw [List.cons_append]
      exact hd

/-- Witness for C24: two pushes, then a subscriber joins; two more pushes, and it pops
the envelope with seqno 2. -/
theorem C24_late_subscriber_witness :
    ∃ outs t ns1 q t1 outs2 t2 ns2, (topic.new "" "/t" "X").run []
        [topic_op.subscribe "a" 4 none, topic_op.publish "p",
          topic_op.push 0 ⟨0, 10, none, []⟩, topic_op.push 0 ⟨0, 11, none, []⟩]
          = some (outs, t, ns1)
      ∧ t.subscribe "b" 4 none = some (q, t1)
      ∧ t1.run ns1 [topic_op.push 0 ⟨0, 12, none, []⟩, topic_op.push 0 ⟨0, 13, none, []⟩,
          topic_op.pop 1 ⟨0, 0, none, []⟩] = some (outs2, t2, ns2)
      ∧ q = 1
      ∧ topic.popped_from q [topic_op.push 0 ⟨0, 12, none, []⟩,
          topic_op.push 0 ⟨0, 13, none, []⟩, topic_op.pop 1 ⟨0, 0, none, []⟩] outs2
          = [⟨2, 12, none, []⟩]
      ∧ (outs2.filterMap topic_out.pushed_data).head? = some ⟨2, 12, none, []⟩ := by
  have he : ∃ r, (topic.new "" "/t" "X").run []
      [topic_op.subscribe "a" 4 none, topic_op.publish "p",
        topic_op.push 0 ⟨0, 10, none, []⟩, topic_op.push 0 ⟨0, 11, none, []⟩] = some r :=
    Option.isSome_iff_exists.mp (by decide)
  obtain ⟨⟨outs, t, ns1⟩, hr⟩ := he
  have hw : topic.WF t := topic.run_wf _ _ [] outs t ns1 (topic.wf_new "" "/t" "X") (by
    intro op hop
    simp only [List.mem_cons, List.mem_singleton, List.mem_nil_iff, or_false] at hop
    rcases hop with h | h | h | h <;> rw [h]
    · show 4 < UINT32_MOD; decide
    · trivial
    · trivial
    · trivial) hr
  obtain ⟨q, t1, sq, e1, _, _, _, _, hall⟩ := C24_late_subscriber t hw "b" 4 none (by decide)
  have hq : q = 1 := by
    have e := congrArg (Option.map (fun r => (r.2.1.subscribe "b" 4 none).map (fun x => x.1))) hr
    simp only [Option.map_some', e1] at e
    exact Option.some.inj (Option.some.inj (e.symm.trans (by decide)))
  have he2 : ∃ r, t1.run ns1 [topic_op.push 0 ⟨0, 12, none, []⟩,
      topic_op.push 0 ⟨0, 13, none, []⟩, topic_op.pop 1 ⟨0, 0, none, []⟩] = some r := by
    have e := congrArg (Option.map (fun r => ((r.2.1.subscribe "b" 4 none).bind (fun x =>
      x.2.run r.2.2 [topic_op.push 0 ⟨0, 12, none, []⟩, topic_op.push 0 ⟨0, 13, none, []⟩,
        topic_op.pop 1 ⟨0, 0, none, []⟩])).isSome)) hr
    simp only [Option.map_some', e1, Option.some_bind] at e
    exact Option.isSome_iff_exists.mp (Option.some.inj (e.symm.trans (by decide)))
  obtain ⟨⟨outs2, t2, ns2⟩, hr2⟩ := he2
  have ho : outs2 = [topic_out.pushed ⟨2, 12, none, []⟩, topic_out.pushed ⟨3, 13, none, []⟩,
      topic_out.popped true ⟨2, 12, none, []⟩] := by
    have e := congrArg (Option.map (fun r => ((r.2.1.subscribe "b" 4 none).bind (fun x =>
      x.2.run r.2.2 [topic_op.push 0 ⟨0, 12, none, []⟩, topic_op.push 0 ⟨0, 13, none, []⟩,
        topic_op.pop 1 ⟨0, 0, none, []⟩])).map (fun y => y.1))) hr
    simp only [Option.map_some', e1, Option.some_bind, hr2] at e
    exact Option.some.inj (Option.some.inj (e.symm.trans (by decide)))
  obtain ⟨q2, _, _, _, _, hfirst⟩ := hall _ ns1 outs2 t2 ns2 (by
    intro op hop
    simp only [List.mem_cons, List.mem_singleton, List.mem_nil_iff, or_false] at hop
    rcases hop with h | h | h <;> rw [h] <;> trivial) (by
    intro op hop
    simp only [List.mem_cons, List.mem_singleton, List.mem_nil_iff, or_false] at hop
    rcases hop with h | h | h <;> rw [h] <;> exact fun c => by cases c) hr2
  have hpop : topic.popped_from q [topic_op.push 0 ⟨0, 12, none, []⟩,
      topic_op.push 0 ⟨0, 13, none, []⟩, topic_op.pop 1 ⟨0, 0, none, []⟩] outs2
      = [⟨2, 12, none, []⟩] := by
    rw [ho, hq]; decide
  exact ⟨outs, t, ns1, q, t1, outs2, t2, ns2, hr, e1, hr2, hq, hpop,
    hfirst _ (by rw [hpop]; rfl)⟩

/-- Counterexample to C24 as stated: a subscriber with queue size 1 that has been offered
2^32 - 1 pushes has `push_count` 4294967295, and the next push leaves its `push_count`
0, not one more. -/
theorem C24_push_count_wraps :
    ∃ t0 q q1, (topic.new "" "/t" "X").setup
          [registration.pub "p", registration.sub "s" 1 none] = some t0
      ∧ (t0.push_list [] (List.replicate 4294967295 (0, ⟨0, 0, none, []⟩))).2.1.sub_heap.getD
          0 none = some q
      ∧ q.push_count = 4294967295
      ∧ ((t0.push_list [] (List.replicate 4294967295 (0, ⟨0, 0, none, []⟩))).2.1.push 0
          ⟨0, 0, none, []⟩ []).2.1.sub_heap.getD 0 none = some q1
      ∧ q1.push_count = 0 := by
  obtain ⟨t0, q, e0, _, _, hq, _, h1, _⟩ := topic.single_sub_push_list "" "/t" "X"
    [registration.pub "p", registration.sub "s" 1 none] "s" 1 none rfl (by decide)
    (List.replicate 4294967295 (0, ⟨0, 0, none, []⟩)) []
  obtain ⟨t0', q', e0', hinv, hsubs, _, _⟩ := topic.single_sub_after_pushes "" "/t" "X"
    [registration.pub "p", registration.sub "s" 1 none] "s" 1 none rfl (by decide)
    (List.replicate 4294967295 (0, ⟨0, 0, none, []⟩)) []
  have et : t0' = t0 := Option.some.inj (e0'.symm.trans e0)
  subst et
  rw [List.length_replicate] at h1
  have h1' : q._push_count = 4294967295 := h1.trans (by decide)
  have hh := topic.push_heap_at _ 0 ⟨0, 0, none, []⟩ [] hinv 0
    (by rw [hsubs]; exact List.mem_singleton_self 0) q hq
  refine ⟨t0', q, _, e0, hq, h1', hh, ?_⟩
  show (q.push _ false []).1._push_count = 0
  rw [sub_queue.push_push_count, h1']
  decide

end vdds

/-! ### Outcomes of `create_topic` -/

namespace vdds

namespace topic

end topic

namespace domain

end domain

end vdds

/-! ### Typed facades (C25) -/

namespace vdds

namespace domain

end domain

end vdds

/-! ### `kick` and `shutdown` (C30) -/

namespace vdds

/-- A sequence of calls through notifier pointers, each applying `f` to the object behind
the pointer: every object of the store gets `f` as many times as its pointer occurs. -/
theorem foldl_store (f : notifier → notifier) (step : List notifier → Nat → List notifier)
    (hstep : ∀ ns p, step ns p = match ns[p]? with
      | some n => ns.set p (f n)
      | none => ns)
    (ps : List Nat) : ∀ (ns : List notifier),
    (ps.foldl step ns).length = ns.length
      ∧ ∀ (p : Nat), (ps.foldl step ns)[p]? = ns[p]?.map (f^[ps.count p]) := by
  induction ps with
  | nil => intro ns; exact ⟨rfl, fun p => by simp⟩
  | cons p0 ps ih =>
    intro ns
    rw [List.foldl_cons]
    obtain ⟨l1, l2⟩ := ih (step ns p0)
    have hlen : (step ns p0).length = ns.length := by
      rw [hstep]
      split
      · exact List.length_set _ _ _
      · rfl
    refine ⟨l1.trans hlen, fun p => ?_⟩
    rw [l2 p, List.count_cons]
    by_cases e : p0 = p
    · subst e
      simp only [beq_self_eq_true, if_true]
      rw [hstep]
      cases hn : ns[p0]? with
      | none => simp [hn]
      | some n =>
        simp only []
        rw [List.getElem?_set_self (List.getElem?_eq_some_iff.mp hn).1, Option.map_some',
          Option.map_some', Function.iterate_succ_apply]
    · have hb : (p0 == p) = false := by simpa using e
      simp only [hb, Bool.false_eq_true, if_false, Nat.add_zero]
      rw [hstep]
      cases hn : ns[p0]? with
      | none => rfl
      | some n =>
        simp only []
        rw [List.getElem?_set_ne e]

theorem store_notify_eq (ns : List notifier) (p : Nat) :
    store_notify ns p = match ns[p]? with
      | some n => ns.set p (notifier.notify n)
      | none => ns := rfl

theorem store_shutdown_eq (d : Int) (ns : List notifier) (p : Nat) :
    store_shutdown ns p d = match ns[p]? with
      | some n => ns.set p ((fun x => notifier.shutdown x d) n)
      | none => ns := rfl

theorem notify_iterate (k : Nat) : ∀ (n : notifier),
    notifier.notify^[k] n = notifier.notify_n k n := by
  induction k with
  | zero => intro n; rfl
  | succ k ih => intro n; rw [Function.iterate_succ_apply, ih]; rfl

theorem shutdown_iterate_cv (d : Int) (k : Nat) : ∀ (ft : Int) (c : Nat), c < UINT32_MOD →
    0 < k → (fun x => notifier.shutdown x d)^[k] (notifier.cv ft c)
      = notifier.cv d ((c + k) % UINT32_MOD) := by
  induction k with
  | zero => intro ft c _ hk; exact absurd hk (Nat.lt_irrefl 0)
  | succ k ih =>
    intro ft c hc _
    rw [Function.iterate_succ_apply]
    show (fun x => notifier.shutdown x d)^[k] (notifier.cv d ((c + 1) % UINT32_MOD)) = _
    by_cases hk : k = 0
    · subst hk; rfl
    · rw [ih d _ (Nat.mod_lt _ (by decide)) (Nat.pos_of_ne_zero hk), Nat.mod_add_mod]
      exact congrArg (fun x => notifier.cv d (x % UINT32_MOD)) (by omega)

namespace topic

theorem kick_subs_eq (t : topic) (ns : List notifier) :
    t.kick_subs ns = t.notifier_ptrs.foldl store_notify ns := by
  unfold kick_subs notifier_ptrs
  generalize t._cache_ptr.subs = qs
  induction qs generalizing ns with
  | nil => rfl
  | cons q qs ih =>
    rw [List.foldl_cons, ih, List.filterMap_cons]
    cases hq : t.sub_heap.getD q none with
    | none => rfl
    | some sq =>
      simp only [Option.some_bind]
      cases hn : sq._notifier with
      | none => simp only [sub_queue.kick, hn]
      | some p => simp only [sub_queue.kick, hn, List.foldl_cons]

theorem shutdown_subs_eq (t : topic) (d : Int) (ns : List notifier) :
    t.shutdown_subs d ns = t.notifier_ptrs.foldl (fun s p => store_shutdown s p d) ns := by
  unfold shutdown_subs notifier_ptrs
  generalize t._cache_ptr.subs = qs
  induction qs generalizing ns with
  | nil => rfl
  | cons q qs ih =>
    rw [List.foldl_cons, ih, List.filterMap_cons]
    cases hq : t.sub_heap.getD q none with
    | none => rfl
    | some sq =>
      simp only [Option.some_bind]
      cases hn : sq._notifier with
      | none => simp only [sub_queue.shutdown, hn]
      | some p => simp only [sub_queue.shutdown, hn, List.foldl_cons]

end topic

namespace domain

theorem kick_eq (flt : query.filter) : ∀ (ts : List topic) (ns : List notifier),
    ts.foldl (fun ns1 t => if filter_matches flt t then t.kick_subs ns1 else ns1) ns
      = ((ts.filter (filter_matches flt)).flatMap topic.notifier_ptrs).foldl store_notify ns := by
  intro ts
  induction ts with
  | nil => intro ns; rfl
  | cons t ts ih =>
    intro ns
    rw [List.foldl_cons, ih]
    by_cases hm : filter_matches flt t = true
    · rw [if_pos hm, List.filter_cons_of_pos hm, List.flatMap_cons, List.foldl_append,
        topic.kick_subs_eq]
    · rw [if_neg hm, List.filter_cons_of_neg hm]

theorem shutdown_eq (flt : query.filter) (d : Int) : ∀ (ts : List topic) (ns : List notifier),
    ts.foldl (fun ns1 t => if filter_matches flt t then t.shutdown_subs d ns1 else ns1) ns
      = ((ts.filter (filter_matches flt)).flatMap topic.notifier_ptrs).foldl
          (fun s p => store_shutdown s p d) ns := by
  intro ts
  induction ts with
  | nil => intro ns; rfl
  | cons t ts ih =>
    intro ns
    rw [List.foldl_cons, ih]
    by_cases hm : filter_matches flt t = true
    · rw [if_pos hm, List.filter_cons_of_pos hm, List.flatMap_cons, List.foldl_append,
        topic.shutdown_subs_eq]
    · rw [if_neg hm, List.filter_cons_of_neg hm]

end domain

/-- C30: `domain.kick(filter)` calls `notify()`, and `domain.shutdown(d, filter)` calls
`shutdown(d)`, once for every subscriber queue with a notifier in the membership
snapshots of exactly the topics that match the filter (all topics for the default
filter), in topic and subscriber order.  The calls return the notifier store only, of
unchanged size: a notifier bound to `k` such queues gets `k` calls, so a
condition-variable notifier with pending count `c` ends with pending count `c + k`
modulo 2^32 and, after `shutdown`, with the forced timeout `d`; a notifier bound to no
such queue is unchanged.  No topic, queue, envelope or counter is an argument or a
result of the calls. -/
theorem C30_kick_shutdown (dm : domain) (flt : query.filter) (d : Int) (ns : List notifier) :
    dm.kick flt ns
        = ((dm._topics.filter (domain.filter_matches flt)).flatMap
            topic.notifier_ptrs).foldl store_notify ns
      ∧ dm.shutdown d flt ns
        = ((dm._topics.filter (domain.filter_matches flt)).flatMap
            topic.notifier_ptrs).foldl (fun s p => store_shutdown s p d) ns
      ∧ (dm._topics.filter (domain.filter_matches query.filter.any)) = dm._topics
      ∧ (∀ p, p ∈ (dm._topics.filter (domain.filter_matches flt)).flatMap topic.notifier_ptrs
          ↔ ∃ t ∈ dm._topics,
              ((flt.topic_name = "any" ∨ flt.topic_name = t._name)
                ∧ (flt.data_type = "any" ∨ flt.data_type = t._data_type))
              ∧ ∃ q ∈ t._cache_ptr.subs, ∃ sq, t.sub_heap.getD q none = some sq
                  ∧ sq._notifier = some p)
      ∧ (dm.kick flt ns).length = ns.length
      ∧ (dm.shutdown d flt ns).length = ns.length
      ∧ (∀ (p : Nat), (dm.kick flt ns)[p]? = ns[p]?.map (notifier.notify_n
          (((dm._topics.filter (domain.filter_matches flt)).flatMap
            topic.notifier_ptrs).count p)))
      ∧ (∀ (p : Nat), (dm.shutdown d flt ns)[p]? = ns[p]?.map
          ((fun x => notifier.shutdown x d)^[((dm._topics.filter
            (domain.filter_matches flt)).flatMap topic.notifier_ptrs).count p]))
      ∧ (∀ (p : Nat),
          p ∉ (dm._topics.filter (domain.filter_matches flt)).flatMap topic.notifier_ptrs →
          (dm.kick flt ns)[p]? = ns[p]? ∧ (dm.shutdown d flt ns)[p]? = ns[p]?)
      ∧ (∀ (p : Nat) (ft : Int) (c : Nat),
          p ∈ (dm._topics.filter (domain.filter_matches flt)).flatMap topic.notifier_ptrs →
          c < UINT32_MOD → ns[p]? = some (notifier.cv ft c) →
          (dm.kick flt ns)[p]? = some (notifier.cv ft ((c
              + ((dm._topics.filter (domain.filter_matches flt)).flatMap
                  topic.notifier_ptrs).count p) % UINT32_MOD))
            ∧ (dm.shutdown d flt ns)[p]? = some (notifier.cv d ((c
              + ((dm._topics.filter (domain.filter_matches flt)).flatMap
                  topic.notifier_ptrs).count p) % UINT32_MOD))) := by
  have hk : dm.kick flt ns = ((dm._topics.filter (domain.filter_matches flt)).flatMap
      topic.notifier_ptrs).foldl store_notify ns := domain.kick_eq flt dm._topics ns
  have hs : dm.shutdown d flt ns = ((dm._topics.filter (domain.filter_matches flt)).flatMap
      topic.notifier_ptrs).foldl (fun s p => store_shutdown s p d) ns :=
    domain.shutdown_eq flt d dm._topics ns
  obtain ⟨k1, k2⟩ := foldl_store notifier.notify store_notify store_notify_eq
    ((dm._topics.filter (domain.filter_matches flt)).flatMap topic.notifier_ptrs) ns
  obtain ⟨s1, s2⟩ := foldl_store (fun x => notifier.shutdown x d)
    (fun s p => store_shutdown s p d) (store_shutdown_eq d)
    ((dm._topics.filter (domain.filter_matches flt)).flatMap topic.notifier_ptrs) ns
  rw [← hk] at k1 k2
  rw [← hs] at s1 s2
  have k2' : ∀ (p : Nat), (dm.kick flt ns)[p]? = ns[p]?.map (notifier.notify_n
      (((dm._topics.filter (domain.filter_matches flt)).flatMap
        topic.notifier_ptrs).count p)) := by
    intro p
    rw [k2 p]
    congr 1
    funext n
    exact notify_iterate _ n
  refine ⟨hk, hs, ?_, ?_, k1, s1, k2', s2, ?_, ?_⟩
  · rw [List.filter_eq_self]
    intro t _
    exact domain.filter_matches_any t
  · intro p
    simp only [List.mem_flatMap, List.mem_filter, topic.notifier_ptrs, List.mem_filterMap,
      domain.filter_matches, decide_eq_true_eq]
    constructor
    · rintro ⟨t, ⟨ht, hm⟩, q, hq, hb⟩
      cases hsq : t.sub_heap.getD q none with
      | none => rw [hsq] at hb; simp at hb
      | some sq =>
        rw [hsq] at hb
        exact ⟨t, ht, hm, q, hq, sq, hsq, hb⟩
    · rintro ⟨t, ht, hm, q, hq, sq, hsq, hn⟩
      exact ⟨t, ⟨ht, hm⟩, q, hq, by rw [hsq]; exact hn⟩
  · intro p hp
    have hc := List.count_eq_zero.mpr hp
    refine ⟨?_, ?_⟩
    · rw [k2 p, hc]; simp
    · rw [s2 p, hc]; simp
  · intro p ft c hp hc hn
    have hpos : 0 < ((dm._topics.filter (domain.filter_matches flt)).flatMap
        topic.notifier_ptrs).count p := List.count_pos_iff.mpr hp
    refine ⟨?_, ?_⟩
    · rw [k2' p, hn, Option.map_some', notifier.notify_n_cv _ ft c hc]
    · rw [s2 p, hn, Option.map_some', shutdown_iterate_cv d _ ft c hc hpos]

/-- Witness for C30: a domain with two topics; the subscriber of the first is bound to
notifier 0, the subscriber of the second to notifier 1; `kick` with a filter on the
second topic notifies notifier 1 only, `shutdown(1000)` with the default filter reaches
both. -/
theorem C30_kick_shutdown_witness :
    ∃ dm ns, (domain.new "d").run [notifier.cv 0 0, notifier.cv 0 0]
        [domain_op.create_topic "/a" "X", domain_op.create_topic "/b" "Y",
          domain_op.on_topic 0 (topic_op.subscribe "s0" 4 (some 0)),
          domain_op.on_topic 1 (topic_op.subscribe "s1" 4 (some 1))] = some (dm, ns)
      ∧ dm.kick { topic_name := "/b", data_type := "any" } ns
          = [notifier.cv 0 0, notifier.cv 0 1]
      ∧ dm.shutdown 1000 query.filter.any ns = [notifier.cv 1000 1, notifier.cv 1000 1]
      ∧ (dm.kick { topic_name := "/b", data_type := "any" } ns).length = ns.length := by
  have he : ∃ r, (domain.new "d").run [notifier.cv 0 0, notifier.cv 0 0]
      [domain_op.create_topic "/a" "X", domain_op.create_topic "/b" "Y",
        domain_op.on_topic 0 (topic_op.subscribe "s0" 4 (some 0)),
        domain_op.on_topic 1 (topic_op.subscribe "s1" 4 (some 1))] = some r :=
    Option.isSome_iff_exists.mp (by decide)
  obtain ⟨⟨dm, ns⟩, hr⟩ := he
  have h1 : dm.kick { topic_name := "/b", data_type := "any" } ns
      = [notifier.cv 0 0, notifier.cv 0 1] := by
    have e := congrArg (Option.map (fun r =>
      domain.kick r.1 { topic_name := "/b", data_type := "any" } r.2)) hr
    exact Option.some.inj (e.symm.trans (by decide))
  have h2 : dm.shutdown 1000 query.filter.any ns
      = [notifier.cv 1000 1, notifier.cv 1000 1] := by
    have e := congrArg (Option.map (fun r => domain.shutdown r.1 1000 query.filter.any r.2)) hr
    exact Option.some.inj (e.symm.trans (by decide))
  have h := C30_kick_shutdown dm { topic_name := "/b", data_type := "any" } 1000 ns
  exact ⟨dm, ns, hr, h1, h2, h.2.2.2.2.1⟩

end vdds

/-! ### Ring constructor and capacity (C32, C40) -/

namespace vdds

namespace spsc_queue

variable {T : Type}

theorem new_contents_nil (s c : Nat) : (spsc_queue.new s c : spsc_queue T).contents = [] := by
  simp [spsc_queue.new, spsc_queue.contents, spsc_queue.dist]

theorem ctor_capacity_eq (s c : Nat) (h : c < SIZE_MAX - 2 * kPadding s) :
    ctor_capacity s c = max c 1 + 1 := by
  have hk := kPadding_le s
  unfold SIZE_MAX at h
  simp only [ctor_capacity, SIZE_MAX]
  split_ifs <;> omega

theorem new_capacity (s c : Nat) (h : c < SIZE_MAX - 2 * kPadding s) :
    (spsc_queue.new s c : spsc_queue T).capacity = max c 1 := by
  have hlt : c < SIZE_MAX := lt_of_lt_of_le h (Nat.sub_le _ _)
  rw [capacity_eq _ (new_inv s c hlt)]
  show ctor_capacity s c - 1 = _
  rw [ctor_capacity_eq s c h]
  omega

/-- A ring that holds `capacity()` elements refuses the next push. -/
theorem emplace_at_capacity (q : spsc_queue T) (h : Inv q)
    (hf : q.contents.length = q.capacity) (v : T) : (q.emplace v).1 = false := by
  rw [emplace_full q v h ((full_iff q h).mpr hf)]

theorem size_eq_contents (q : spsc_queue T) (h : Inv q) : q.size = q.contents.length := by
  rw [size_eq_dist q h, contents_length]

theorem to_fifo_items (q : spsc_queue T) (vs : List T) (h : q.contents = vs.map some) :
    q.to_fifo.items = vs := by
  show q.contents.filterMap id = vs
  rw [h, List.filterMap_map]
  simp

end spsc_queue

/-- C32: a `spsc_queue` constructed with the requested capacity `c` reports
`capacity() == c` for every `c` with `1 <= c < SIZE_MAX - 2 * kPadding`, and
`capacity() == 1` for `c == 0`; in both cases the new ring accepts exactly `capacity()`
elements: that many pushes return `true` and the push after them returns `false`. -/
theorem C32_ctor_capacity {T : Type} (s c : Nat) (h : c < SIZE_MAX - 2 * kPadding s) :
    (1 ≤ c → (spsc_queue.new s c : spsc_queue T).capacity = c)
      ∧ (c = 0 → (spsc_queue.new s c : spsc_queue T).capacity = 1)
      ∧ ∀ (vs : List T) (v : T), vs.length = (spsc_queue.new s c : spsc_queue T).capacity →
          ((spsc_queue.new s c : spsc_queue T).push_all vs).1 = List.replicate vs.length true
            ∧ ((spsc_queue.new s c : spsc_queue T).push_all vs).2.contents = vs.map some
            ∧ (((spsc_queue.new s c : spsc_queue T).push_all vs).2.push v).1 = false := by
  have hlt : c < SIZE_MAX := lt_of_lt_of_le h (Nat.sub_le _ _)
  have hcap := spsc_queue.new_capacity (T := T) s c h
  refine ⟨fun h1 => by rw [hcap]; omega, fun h0 => by rw [hcap, h0]; rfl, ?_⟩
  intro vs v hvs
  obtain ⟨p1, p2, p3, p4⟩ := spsc_queue.push_all_spec vs (spsc_queue.new s c : spsc_queue T) []
    (spsc_queue.new_inv s c hlt) (spsc_queue.new_contents_nil s c) (by simp [hvs])
  rw [List.nil_append] at p2
  refine ⟨p1, p2, ?_⟩
  apply spsc_queue.emplace_at_capacity _ p3
  rw [p2, List.length_map, p4, hvs]

/-- Witness for C32: a ring of requested capacity 3 and element size 256. -/
theorem C32_ctor_capacity_witness :
    (spsc_queue.new 256 3 : spsc_queue Nat).capacity = 3
      ∧ ((spsc_queue.new 256 3 : spsc_queue Nat).push_all [7, 8, 9]).1 = [true, true, true]
      ∧ (((spsc_queue.new 256 3 : spsc_queue Nat).push_all [7, 8, 9]).2.push 10).1 = false := by
  have h := C32_ctor_capacity (T := Nat) 256 3 (by decide)
  exact ⟨h.1 (by decide), (h.2.2 [7, 8, 9] 10 (by decide)).1, (h.2.2 [7, 8, 9] 10 (by decide)).2.2⟩

/-- C40 (what the code does): for the requested capacity `SIZE_MAX` the increment for the
slack slot wraps to 0 before the clamp is applied, so the constructor computes the slot
count 0, not at least 2; `capacity()` of that ring is `SIZE_MAX`.  For every smaller
request the slot count is at least 2 and slot count plus `2 * kPadding` is at most
`SIZE_MAX`. -/
theorem C40_ctor_wraps :
    spsc_queue.ctor_capacity 256 18446744073709551615 = 0
      ∧ (spsc_queue.new 256 18446744073709551615 : spsc_queue data)._slots.length = 2
      ∧ (spsc_queue.new 256 18446744073709551615 : spsc_queue data).capacity
          = 18446744073709551615
      ∧ ∀ s c, c < SIZE_MAX →
          2 ≤ spsc_queue.ctor_capacity s c
            ∧ spsc_queue.ctor_capacity s c + 2 * kPadding s ≤ SIZE_MAX := by
  refine ⟨by decide, ?_, by decide, fun s c h => spsc_queue.ctor_capacity_bounds s c h⟩
  simp only [spsc_queue.new, List.length_replicate]
  decide

end vdds

/-! ### Ring indices and refinement of the bounded FIFO (C35, C34) -/

namespace vdds

/-- C35: in every reachable state of a `spsc_queue` (`N = capacity()`, at least 1, and
`N + 1 = _capacity` ring slots), the read index and the write index are below `N + 1`;
the slot that `emplace` writes, the slot that `front` returns and the slot that `pop`
destroys lie inside the allocated array, behind the leading padding and before the
trailing padding; and `size() <= capacity()`. -/
theorem C35_indices_in_range {T : Type} (q : spsc_queue T) (hq : spsc_queue.Reachable q) :
    1 ≤ q.capacity ∧ q._capacity = q.capacity + 1
      ∧ q._read_idx < q.capacity + 1 ∧ q._write_idx < q.capacity + 1
      ∧ q._slots.length = q.capacity + 1 + 2 * kPadding q.sizeofT
      ∧ kPadding q.sizeofT ≤ q._write_idx + kPadding q.sizeofT
      ∧ q._write_idx + kPadding q.sizeofT < kPadding q.sizeofT + (q.capacity + 1)
      ∧ q._write_idx + kPadding q.sizeofT < q._slots.length
      ∧ kPadding q.sizeofT ≤ q._read_idx + kPadding q.sizeofT
      ∧ q._read_idx + kPadding q.sizeofT < kPadding q.sizeofT + (q.capacity + 1)
      ∧ q._read_idx + kPadding q.sizeofT < q._slots.length
      ∧ (∀ n, q.front.1 = some n → n = q._read_idx + kPadding q.sizeofT)
      ∧ 0 ≤ q.size ∧ q.size ≤ q.capacity := by
  have hi := spsc_queue.reachable_inv q hq
  have hc := spsc_queue.capacity_eq q hi
  have h1 := hi.cap_ge
  have h2 := hi.w_lt
  have h3 := hi.r_lt
  have h4 := hi.slots_len
  have h5 := spsc_queue.contents_length_le q hi
  rw [← spsc_queue.size_eq_contents q hi] at h5
  refine ⟨by omega, by omega, by omega, by omega, by omega, by omega, by omega, by omega,
    by omega, by omega, by omega, ?_, Nat.zero_le _, h5⟩
  intro n hn
  by_cases he : q._write_idx = q._read_idx
  · rw [spsc_queue.front_empty q hi he] at hn
    exact Option.noConfusion hn
  · rw [spsc_queue.front_nonempty q he] at hn
    exact (Option.some.inj hn).symm

/-- Witness for C35: a ring of capacity 2 after three pushes, a front and a pop. -/
theorem C35_indices_in_range_witness :
    (((((spsc_queue.new 256 2 : spsc_queue Nat).emplace 1).2.emplace 2).2.emplace 3).2.front).2.pop._read_idx
        < 2 + 1
      ∧ (((((spsc_queue.new 256 2 : spsc_queue Nat).emplace 1).2.emplace 2).2.emplace 3).2.front).2.pop.size
        ≤ (((((spsc_queue.new 256 2 : spsc_queue Nat).emplace 1).2.emplace 2).2.emplace
            3).2.front).2.pop.capacity := by
  have hr : spsc_queue.Reachable
      (((((spsc_queue.new 256 2 : spsc_queue Nat).emplace 1).2.emplace 2).2.emplace 3).2.front).2.pop :=
    spsc_queue.Reachable.pop _ (spsc_queue.Reachable.front _ (spsc_queue.Reachable.emplace _ 3
      (spsc_queue.Reachable.emplace _ 2 (spsc_queue.Reachable.emplace _ 1
        (spsc_queue.Reachable.ctor 256 2 (by decide)))))) (by decide)
  have h := C35_indices_in_range _ hr
  have hc : (((((spsc_queue.new 256 2 : spsc_queue Nat).emplace 1).2.emplace 2).2.emplace
      3).2.front).2.pop.capacity = 2 := by decide
  refine ⟨?_, h.2.2.2.2.2.2.2.2.2.2.2.2.2⟩
  have := h.2.2.1
  rw [hc] at this
  exact this

end vdds

namespace vdds

namespace spsc_queue

variable {T : Type}

theorem to_fifo_of (q : spsc_queue T) (vs : List T) (N : Nat) (h : q.contents = vs.map some)
    (hN : q.capacity = N) : q.to_fifo = { items := vs, N := N } := by
  have e := to_fifo_items q vs h
  unfold to_fifo at e ⊢
  simp only at e
  rw [e, hN]

theorem capacity_congr (q q1 : spsc_queue T) (h : q1._capacity = q._capacity) :
    q1.capacity = q.capacity := by
  unfold capacity
  rw [h]

theorem front_capacity (q : spsc_queue T) : q.front.2._capacity = q._capacity := by
  unfold front
  simp only []
  split_ifs <;> rfl

theorem front_deref (q : spsc_queue T) (n : Nat) : q.front.2.deref n = q.deref n := by
  unfold front
  simp only []
  split_ifs <;> rfl

end spsc_queue

/-- C34: the ring refines the bounded FIFO list.  In every reachable state of the ring
(that is after every interleaving of `push`, `front` and `pop`), with `to_fifo` the list
of the queued elements and `capacity()`: `size()` is the length of the list and `empty()`
holds exactly when the list is empty; `front()` returns null exactly when the list is
empty, otherwise it points at a slot holding the head of the list, and it leaves the
list as it is; `pop()` (after a non-null `front()`) removes the head; and `push`
returns what the push on the list returns and leaves the list that push leaves. -/
theorem C34_ring_refines_fifo {T : Type} (q : spsc_queue T) (hq : spsc_queue.Reachable q) :
    q.size = q.to_fifo.size
      ∧ q.empty = q.to_fifo.empty
      ∧ q.to_fifo.items.length ≤ q.to_fifo.N
      ∧ (q.front.1 = none ↔ q.to_fifo.items = [])
      ∧ (∀ n, q.front.1 = some n →
          q.front.2.deref n = q.to_fifo.front ∧ q.to_fifo.front ≠ none)
      ∧ q.front.2.to_fifo = q.to_fifo
      ∧ (q._read_idx ≠ q._write_idx_cache → q.pop.to_fifo = q.to_fifo.pop)
      ∧ (q.front.1 ≠ none → q.front.2.pop.to_fifo = q.to_fifo.pop)
      ∧ ∀ v, (q.emplace v).1 = (q.to_fifo.push v).1
          ∧ (q.emplace v).2.to_fifo = (q.to_fifo.push v).2 := by
  have hi := spsc_queue.reachable_inv q hq
  obtain ⟨vs, hvs⟩ := hi.live
  have hle := spsc_queue.contents_length_le q hi
  rw [hvs, List.length_map] at hle
  have hf : q.to_fifo = { items := vs, N := q.capacity } := spsc_queue.to_fifo_of q vs _ hvs rfl
  have hnil : vs = [] ↔ q._write_idx = q._read_idx := by
    rw [← spsc_queue.contents_eq_nil_iff q hi, hvs]
    simp
  have hfront : q.front.2.to_fifo = q.to_fifo := by
    rw [hf]
    exact spsc_queue.to_fifo_of _ vs _ (by rw [spsc_queue.front_contents, hvs])
      (spsc_queue.capacity_congr q _ (spsc_queue.front_capacity q))
  rw [hf]
  refine ⟨?_, ?_, hle, ?_, ?_, hfront.trans hf, ?_, ?_, ?_⟩
  · rw [spsc_queue.size_eq_contents q hi, hvs, List.length_map]; rfl
  · show decide (q._write_idx = q._read_idx) = vs.isEmpty
    cases vs with
    | nil => simp [hnil.mp rfl]
    | cons x rest =>
      have : ¬ q._write_idx = q._read_idx := fun e => by
        have := hnil.mpr e
        exact List.cons_ne_nil _ _ this
      simp [this]
  · by_cases he : q._write_idx = q._read_idx
    · rw [spsc_queue.front_empty q hi he]
      exact ⟨fun _ => hnil.mpr he, fun _ => rfl⟩
    · rw [spsc_queue.front_nonempty q he]
      exact ⟨fun e => Option.noConfusion e, fun e => absurd (hnil.mp e) he⟩
  · intro n hn
    by_cases he : q._write_idx = q._read_idx
    · rw [spsc_queue.front_empty q hi he] at hn
      exact Option.noConfusion hn
    · have hn2 := hn
      rw [spsc_queue.front_nonempty q he] at hn2
      have en := (Option.some.inj hn2).symm
      cases vs with
      | nil => exact absurd (hnil.mp rfl) he
      | cons x rest =>
        rw [spsc_queue.front_deref, en,
          spsc_queue.contents_head q hi (some x) (rest.map some) (by rw [hvs]; rfl)]
        exact ⟨rfl, fun e => Option.noConfusion e⟩
  · intro hc
    have he := spsc_queue.nonempty_of_cache q hi hc
    refine spsc_queue.to_fifo_of _ vs.tail _ ?_ (spsc_queue.capacity_congr q _ rfl)
    rw [spsc_queue.pop_contents q hi he, hvs, List.map_tail]
  · intro hne
    by_cases he : q._write_idx = q._read_idx
    · rw [spsc_queue.front_empty q hi he] at hne
      exact absurd rfl hne
    · cases vs with
      | nil => exact absurd (hnil.mp rfl) he
      | cons x rest =>
        obtain ⟨_, e2⟩ := spsc_queue.pop_out_nonempty q hi x (rest.map some)
          (by rw [hvs]; rfl) x
        exact spsc_queue.to_fifo_of _ rest _ e2
          (spsc_queue.capacity_congr q _ (spsc_queue.front_capacity q))
  · intro v
    by_cases hfull : (if q._write_idx + 1 = q._capacity then 0 else q._write_idx + 1)
        = q._read_idx
    · have hlen := (spsc_queue.full_iff q hi).mp hfull
      rw [hvs, List.length_map] at hlen
      rw [spsc_queue.emplace_full q v hi hfull]
      have hp : (bounded_fifo.push { items := vs, N := q.capacity } v)
          = (false, { items := vs, N := q.capacity }) := by
        unfold bounded_fifo.push
        rw [if_neg (by simp only; omega)]
      rw [hp]
      exact ⟨rfl, spsc_queue.to_fifo_of _ vs _ hvs rfl⟩
    · have hlen : vs.length ≠ q.capacity := by
        intro e
        apply hfull
        rw [spsc_queue.full_iff q hi, hvs, List.length_map]
        exact e
      have hp : (bounded_fifo.push { items := vs, N := q.capacity } v)
          = (true, { items := vs ++ [v], N := q.capacity }) := by
        unfold bounded_fifo.push
        rw [if_pos (by simp only; omega)]
      rw [hp]
      refine ⟨by rw [spsc_queue.emplace_ok q v hfull], ?_⟩
      exact spsc_queue.to_fifo_of _ (vs ++ [v]) _
        (by rw [spsc_queue.emplace_ok_contents q v hi hfull, hvs, List.map_append]; rfl)
        (spsc_queue.capacity_congr q _ (spsc_queue.emplace_capacity q v))

/-- Witness for C34: a ring of capacity 2 after two pushes stands for the list [1, 2] of
capacity 2; the third push is refused. -/
theorem C34_ring_refines_fifo_witness :
    (((spsc_queue.new 256 2 : spsc_queue Nat).emplace 1).2.emplace 2).2.to_fifo.items = [1, 2]
      ∧ ((((spsc_queue.new 256 2 : spsc_queue Nat).emplace 1).2.emplace 2).2.emplace 3).1
          = ((((spsc_queue.new 256 2 : spsc_queue Nat).emplace 1).2.emplace
              2).2.to_fifo.push 3).1
      ∧ ((((spsc_queue.new 256 2 : spsc_queue Nat).emplace 1).2.emplace 2).2.emplace 3).1
          = false := by
  have hr : spsc_queue.Reachable
      (((spsc_queue.new 256 2 : spsc_queue Nat).emplace 1).2.emplace 2).2 :=
    spsc_queue.Reachable.emplace _ 2 (spsc_queue.Reachable.emplace _ 1
      (spsc_queue.Reachable.ctor 256 2 (by decide)))
  exact ⟨by decide, ((C34_ring_refines_fifo _ hr).2.2.2.2.2.2.2.2 3).1, by decide⟩

end vdds

/-! ### write_available, wait_for reset, query paths, zero-size queues (C37, C36, C39, C38) -/

namespace vdds

/-- C37 (what the code does): `write_available()` is not `capacity() - size()`.  A new
ring of capacity 16 is empty and `write_available()` returns 0 (16 pushes would succeed);
with 4 of 16 elements queued it returns 13 (12 pushes would succeed); a full ring of
capacity 4 returns 1 (no push would succeed). -/
theorem C37_write_available_off :
    (spsc_queue.new 256 16 : spsc_queue Nat).capacity = 16
      ∧ (spsc_queue.new 256 16 : spsc_queue Nat).size = 0
      ∧ (spsc_queue.new 256 16 : spsc_queue Nat).write_available = 0
      ∧ ((spsc_queue.new 256 16 : spsc_queue Nat).push_all [1, 2, 3, 4]).2.size = 4
      ∧ ((spsc_queue.new 256 16 : spsc_queue Nat).push_all [1, 2, 3, 4]).2.write_available = 13
      ∧ ((spsc_queue.new 256 4 : spsc_queue Nat).push_all [1, 2, 3, 4]).2.size = 4
      ∧ ((spsc_queue.new 256 4 : spsc_queue Nat).push_all [1, 2, 3, 4]).2.capacity = 4
      ∧ ((spsc_queue.new 256 4 : spsc_queue Nat).push_all [1, 2, 3, 4]).2.write_available = 1
      ∧ (((spsc_queue.new 256 4 : spsc_queue Nat).push_all [1, 2, 3, 4]).2.push 5).1 = false := by
  refine ⟨by decide, by decide, by decide, by decide, by decide, by decide, by decide,
    by decide, by decide⟩

/-- C36: `notifier_cv::wait_for` leaves the pending count 0, whatever it was: after any
number `k` of `notify()` calls one `wait_for` consumes them all, and a second `wait_for`
with no `notify()` or `shutdown()` in between finds no pending wake-up (its predicate is
false, so it has to wait) and leaves the count 0 again. -/
theorem C36_wait_resets_count (ft : Int) (c k : Nat) (t t2 : Int) :
    ((notifier.cv ft c).wait_for t).2 = notifier.cv ft 0
      ∧ ((notifier.notify_n k (notifier.cv ft c)).wait_for t).2 = notifier.cv ft 0
      ∧ (((notifier.notify_n k (notifier.cv ft c)).wait_for t).2.wait_for t2).1.waited = true
      ∧ (((notifier.notify_n k (notifier.cv ft c)).wait_for t).2.wait_for t2).2
          = notifier.cv ft 0 := by
  have h : ∃ c1, notifier.notify_n k (notifier.cv ft c) = notifier.cv ft c1 := by
    induction k generalizing c with
    | zero => exact ⟨c, rfl⟩
    | succ k ih => exact ih ((c + 1) % UINT32_MOD)
  obtain ⟨c1, e⟩ := h
  rw [e]
  exact ⟨rfl, rfl, rfl, rfl⟩

/-- C39: the two code paths of `domain::query` agree on the filter {"any","any"}: the
topic records the unfiltered path leaves (resize to the topic count, then query by
index) are those the filtered loop (grow by one per matching topic) leaves on the same
domain state, namely the record of every topic in topic-list order. -/
theorem C39_query_paths_agree (dm : domain) (di : query.domain_info) :
    (List.range dm._topics.length).foldl dm.query_all_step
        (resize (query.clear di).topics dm._topics.length query.topic_info.dflt)
      = (dm._topics.foldl (domain.query_filtered_step query.filter.any)
          (0, (query.clear di).topics)).2
    ∧ (dm.query di query.filter.any).topics
      = (dm._topics.foldl (domain.query_filtered_step query.filter.any)
          (0, (query.clear di).topics)).2
    ∧ (dm.query di query.filter.any).topics
      = dm._topics.map (fun t => t.query query.topic_info.dflt) := by
  have h1 := domain.query_all_fold dm
  have h2 := domain.query_filtered_fold query.filter.any dm._topics []
  simp only [List.length_nil, List.nil_append] at h2
  have hall : dm._topics.filter (domain.filter_matches query.filter.any) = dm._topics := by
    rw [List.filter_eq_self]
    intro t _
    exact domain.filter_matches_any t
  rw [hall] at h2
  have hq : (dm.query di query.filter.any).topics
      = dm._topics.map (fun t => t.query query.topic_info.dflt) := by
    rw [domain.domain_query_spec, hall]
  refine ⟨?_, ?_, hq⟩
  · show (List.range dm._topics.length).foldl dm.query_all_step
        (resize [] dm._topics.length query.topic_info.dflt)
      = (dm._topics.foldl (domain.query_filtered_step query.filter.any) (0, [])).2
    rw [h1, h2]
  · rw [hq]
    show _ = (dm._topics.foldl (domain.query_filtered_step query.filter.any) (0, [])).2
    rw [h2]

/-- C38 (what the code does): for `qsize == 0` the queue that `subscribe` creates reports
`capacity()` 0, and a query reports `qcapacity` 0, while the underlying ring has capacity
1: the first push is queued and not dropped.  With that one envelope queued `size()` is
2^64 - 1, above `capacity()`, and the query reports `qsize` 2^32 - 1. -/
theorem C38_capacity_zero :
    ∃ q t1 sq sq1, (topic.new "" "/t" "X").subscribe "s" 0 none = some (q, t1)
      ∧ t1.sub_heap.getD q none = some sq
      ∧ sq.capacity = 0 ∧ sq._fifo.capacity = 1
      ∧ (t1.query query.topic_info.dflt).subs.map (fun i => i.qcapacity) = [0]
      ∧ (t1.push 0 ⟨0, 0, none, []⟩ []).2.1.sub_heap.getD q none = some sq1
      ∧ sq1._fifo.contents.length = 1 ∧ sq1.drop_count = 0
      ∧ sq1.capacity = 0 ∧ sq1.size = 18446744073709551615
      ∧ ((t1.push 0 ⟨0, 0, none, []⟩ []).2.1.query query.topic_info.dflt).subs.map
          (fun i => i.qsize) = [4294967295] := by
  have he : ∃ r, (topic.new "" "/t" "X").subscribe "s" 0 none = some r :=
    Option.isSome_iff_exists.mp (by decide)
  obtain ⟨⟨q, t1⟩, hr⟩ := he
  have hq : q = 0 := by
    have e := congrArg (Option.map (fun r => r.1)) hr
    exact (Option.some.inj (e.symm.trans (by decide)))
  subst hq
  have h1 : (t1.sub_heap.getD 0 none).isSome = true := by
    have e := congrArg (Option.map (fun r => (r.2.sub_heap.getD 0 none).isSome)) hr
    exact Option.some.inj (e.symm.trans (by decide))
  have h2 : ((t1.push 0 ⟨0, 0, none, []⟩ []).2.1.sub_heap.getD 0 none).isSome = true := by
    have e := congrArg (Option.map (fun r =>
      ((r.2.push 0 ⟨0, 0, none, []⟩ []).2.1.sub_heap.getD 0 none).isSome)) hr
    exact Option.some.inj (e.symm.trans (by decide))
  obtain ⟨sq, hsq⟩ := Option.isSome_iff_exists.mp h1
  obtain ⟨sq1, hsq1⟩ := Option.isSome_iff_exists.mp h2
  have p1 : sq.capacity = 0 ∧ sq._fifo.capacity = 1 := by
    have e := congrArg (Option.map (fun r => (r.2.sub_heap.getD 0 none).map
      (fun x => decide (x.capacity = 0 ∧ x._fifo.capacity = 1)))) hr
    simp only [Option.map_some', hsq] at e
    exact of_decide_eq_true (Option.some.inj (Option.some.inj (e.symm.trans (by decide))))
  have p2 : (t1.query query.topic_info.dflt).subs.map (fun i => i.qcapacity) = [0] := by
    have e := congrArg (Option.map (fun r =>
      (r.2.query query.topic_info.dflt).subs.map (fun i => i.qcapacity))) hr
    exact Option.some.inj (e.symm.trans (by decide))
  have p3 : sq1._fifo.contents.length = 1 ∧ sq1.drop_count = 0 ∧ sq1.capacity = 0
      ∧ sq1.size = 18446744073709551615 := by
    have e := congrArg (Option.map (fun r =>
      ((r.2.push 0 ⟨0, 0, none, []⟩ []).2.1.sub_heap.getD 0 none).map
        (fun x => decide (x._fifo.contents.length = 1 ∧ x.drop_count = 0 ∧ x.capacity = 0
          ∧ x.size = 18446744073709551615)))) hr
    simp only [Option.map_some', hsq1] at e
    exact of_decide_eq_true (Option.some.inj (Option.some.inj (e.symm.trans (by decide))))
  have p4 : ((t1.push 0 ⟨0, 0, none, []⟩ []).2.1.query query.topic_info.dflt).subs.map
      (fun i => i.qsize) = [4294967295] := by
    have e := congrArg (Option.map (fun r =>
      ((r.2.push 0 ⟨0, 0, none, []⟩ []).2.1.query query.topic_info.dflt).subs.map
        (fun i => i.qsize))) hr
    exact Option.some.inj (e.symm.trans (by decide))
  exact ⟨0, t1, sq, sq1, hr, hsq, p1.1, p1.2, p2, hsq1, p3.1, p3.2.1, p3.2.2.1, p3.2.2.2, p4⟩

end vdds

/-! ### Owners of a shared payload in the ring -/

namespace vdds

/-- Whether the object in a slot owns a reference to the payload at `a`, as a number. -/
theorem owners_cons (a : Nat) (o : Option data) (os : List (Option data)) :
    owners a (o :: os) = owners a [o] + owners a os := by
  unfold owners
  rw [← List.length_append, ← List.filter_append]
  rfl

theorem owners_nil (a : Nat) : owners a [] = 0 := rfl

theorem owners_single_some (a : Nat) (d : data) :
    owners a [some d] = if d.shared = some a then 1 else 0 := by
  unfold owners
  by_cases h : d.shared = some a
  · simp [h]
  · simp [h]

theorem owners_single_none (a : Nat) : owners a [none] = 0 := rfl

/-- Replacing the object in one slot changes the number of owners by what the old object
owned and what the new one owns. -/
theorem owners_set (a : Nat) (x : Option data) : ∀ (l : List (Option data)) (i : Nat),
    i < l.length →
    owners a (l.set i x) + owners a [l.getD i none] = owners a l + owners a [x] := by
  intro l
  induction l with
  | nil => intro i h; exact absurd h (Nat.not_lt_zero i)
  | cons o os ih =>
    intro i h
    cases i with
    | zero =>
      rw [List.set_cons_zero, owners_cons a x os, owners_cons a o os]
      show _ + owners a [o] = _
      omega
    | succ i =>
      rw [List.set_cons_succ, owners_cons a o (os.set i x), owners_cons a o os]
      have := ih i (Nat.lt_of_succ_lt_succ h)
      show _ + owners a [os.getD i none] = _
      omega

theorem owners_getD_le (a : Nat) : ∀ (l : List (Option data)) (i : Nat),
    owners a [l.getD i none] ≤ owners a l := by
  intro l
  induction l with
  | nil => intro i; exact Nat.le_refl 0
  | cons o os ih =>
    intro i
    rw [owners_cons a o os]
    cases i with
    | zero => exact Nat.le_add_right _ _
    | succ i => exact Nat.le_trans (ih i) (Nat.le_add_left _ _)

theorem sum_map_set {α : Type} (f : α → Nat) (y : α) : ∀ (l : List α) (i : Nat) (x : α),
    l[i]? = some x → ((l.set i y).map f).sum + f x = (l.map f).sum + f y := by
  intro l
  induction l with
  | nil => intro i x h; simp at h
  | cons o os ih =>
    intro i x h
    cases i with
    | zero =>
      rw [List.getElem?_cons_zero, Option.some.injEq] at h
      subst h
      simp only [List.set_cons_zero, List.map_cons, List.sum_cons]
      omega
    | succ i =>
      rw [List.getElem?_cons_succ] at h
      have := ih i x h
      simp only [List.set_cons_succ, List.map_cons, List.sum_cons]
      omega

namespace spsc_queue

theorem front_slots (q : spsc_queue data) : q.front.2._slots = q._slots := by
  unfold front
  simp only []
  split_ifs <;> rfl

theorem front_read_idx (q : spsc_queue data) :
    q.front.2._read_idx = q._read_idx ∧ q.front.2.sizeofT = q.sizeofT := by
  unfold front
  simp only []
  split_ifs <;> exact ⟨rfl, rfl⟩

/-- A push that is accepted constructs one object: the owners of a payload among the
slots grow by one if the pushed envelope points at it, provided the slot written held no
owner. -/
theorem emplace_owners (q : spsc_queue data) (h : Inv q) (a : Nat) (d : data)
    (hroom : q.contents.length ≠ q.capacity) (h0 : owners a q._slots = 0) :
    owners a (q.emplace d).2._slots = owners a [some d] := by
  have hf : (if q._write_idx + 1 = q._capacity then 0 else q._write_idx + 1) ≠ q._read_idx :=
    fun e => hroom ((full_iff q h).mp e)
  rw [emplace_ok q d hf]
  have hlt : q._write_idx + kPadding q.sizeofT < q._slots.length := by
    have := h.slots_len
    have := h.w_lt
    have := kPadding_pos q.sizeofT
    omega
  have h1 := owners_set a (some d) q._slots _ hlt
  have h2 := owners_getD_le a q._slots (q._write_idx + kPadding q.sizeofT)
  show owners a (q._slots.set (q._write_idx + kPadding q.sizeofT) (some d)) = _
  omega

/-- `pop(v)` moves the object at the head into `v`: the owners among the slots and the
new `v` together are the owners among the slots before. -/
theorem pop_out_owners (q : spsc_queue data) (h : Inv q) (a : Nat) (v : data) :
    owners a (q.pop_out v).2.2._slots
        + (if (q.pop_out v).1 = true then owners a [some (q.pop_out v).2.1] else 0)
      = owners a q._slots
    ∧ ((q.pop_out v).1 = false → (q.pop_out v).2.1 = v) := by
  obtain ⟨vs, hvs⟩ := h.live
  cases vs with
  | nil =>
    rw [pop_out_empty q h hvs v]
    exact ⟨rfl, fun _ => rfl⟩
  | cons x rest =>
    obtain ⟨e1, _⟩ := pop_out_nonempty q h x (rest.map some) hvs v
    rw [e1]
    refine ⟨?_, fun c => by simp at c⟩
    simp only [if_true]
    have hd := contents_head q h (some x) (rest.map some) hvs
    have hlt : q._read_idx + kPadding q.sizeofT < q._slots.length := by
      have := h.slots_len
      have := h.r_lt
      have := kPadding_pos q.sizeofT
      omega
    have hs := owners_set a none q._slots _ hlt
    have hd' : q._slots.getD (q._read_idx + kPadding q.sizeofT) none = some x := hd
    rw [hd'] at hs
    have e : (q.front.2.pop)._slots
        = q._slots.set (q._read_idx + kPadding q.sizeofT) none := by
      show q.front.2._slots.set (q.front.2._read_idx + kPadding q.front.2.sizeofT) none = _
      rw [front_slots, (front_read_idx q).1, (front_read_idx q).2]
    rw [e]
    have : owners a [none] = 0 := rfl
    omega

end spsc_queue

end vdds

/-! ### Shared-payload reference count (C31) -/

namespace vdds

namespace topic

theorem getD_eq_getElem_opt {α : Type} (l : List (Option α)) (i : Nat) (h : i < l.length) :
    l[i]? = some (l.getD i none) := by
  rw [List.getD_eq_getElem _ _ h, List.getElem?_eq_getElem h]

/-- On a well-formed topic the live queues are as many as the subscribers of the
cache. -/
theorem live_count (t : topic) (h : WF t) :
    (t.sub_heap.filter (fun o => o.isSome)).length = t._cache_ptr.subs.length := by
  have e : t.sub_heap = (List.range t.sub_heap.length).map (fun i => t.sub_heap.getD i none) := by
    apply List.ext_getElem?
    intro i
    by_cases hi : i < t.sub_heap.length
    · rw [getD_eq_getElem_opt _ _ hi, List.getElem?_map,
        List.getElem?_eq_getElem (by rw [List.length_range]; exact hi), List.getElem_range]
      rfl
    · rw [List.getElem?_eq_none (by omega),
        List.getElem?_eq_none (by rw [List.length_map, List.length_range]; omega)]
  have e2 : (t.sub_heap.filter (fun o => o.isSome)).length
      = ((List.range t.sub_heap.length).filter
          (fun i => (t.sub_heap.getD i none).isSome)).length := by
    conv_lhs => rw [e]
    rw [List.filter_map, List.length_map]
    rfl
  rw [e2]
  apply List.Perm.length_eq
  rw [List.perm_ext_iff_of_nodup ((List.nodup_range _).filter _) h.subs_nodup]
  intro p
  rw [List.mem_filter, List.mem_range, h.sub_live p]
  constructor
  · rintro ⟨_, hs⟩
    exact Option.isSome_iff_exists.mp hs
  · rintro ⟨q, hq⟩
    exact ⟨getD_some_lt _ _ _ hq, by rw [hq]; rfl⟩

theorem sum_indicator {α : Type} (p : α → Bool) : ∀ (l : List α),
    (l.map (fun o => if p o = true then 1 else 0)).sum = (l.filter p).length := by
  intro l
  induction l with
  | nil => rfl
  | cons o os ih =>
    rw [List.map_cons, List.sum_cons, ih, List.filter_cons]
    by_cases hp : p o = true
    · rw [if_pos hp, if_pos hp, List.length_cons]; omega
    · rw [if_neg hp, if_neg hp]; omega

/-- A push of an envelope that points at a payload no queue holds yet, on a topic whose
queues all have room, leaves one owner of the payload in every subscriber queue. -/
theorem push_owners (t : topic) (h : WF t) (a : Nat) (ph : Nat) (d : data)
    (ns : List notifier) (hd : d.shared = some a) (hfresh : t.queue_owners a = 0)
    (hroom : ∀ q ∈ t.sub_heap.filterMap id, q._fifo.contents.length ≠ q._fifo.capacity) :
    (t.push ph d ns).2.1.queue_owners a = t._cache_ptr.subs.length := by
  obtain ⟨hl, hh⟩ := push_heap t ph d ns h.subs_nodup
  have hzero : ∀ i q, t.sub_heap.getD i none = some q → owners a q._fifo._slots = 0 := by
    intro i q hq
    unfold queue_owners at hfresh
    have hall := List.sum_eq_zero_iff.mp hfresh
    have hlt := getD_some_lt _ _ _ hq
    have hm : some q ∈ t.sub_heap := by
      rw [← hq, List.getD_eq_getElem _ _ hlt]
      exact List.getElem_mem hlt
    exact hall _ (List.mem_map.mpr ⟨some q, hm, rfl⟩)
  have hrm : ∀ i q, t.sub_heap.getD i none = some q →
      q._fifo.contents.length ≠ q._fifo.capacity := by
    intro i q hq
    have hlt := getD_some_lt _ _ _ hq
    apply hroom q
    rw [List.mem_filterMap]
    refine ⟨some q, ?_, rfl⟩
    rw [← hq, List.getD_eq_getElem _ _ hlt]
    exact List.getElem_mem hlt
  have e : (t.push ph d ns).2.1.sub_heap.map (sub_queue.slot_owners a)
      = t.sub_heap.map (fun o => if o.isSome = true then 1 else 0) := by
    apply List.ext_getElem?
    intro i
    rw [List.getElem?_map, List.getElem?_map]
    by_cases hi : i < t.sub_heap.length
    · rw [getD_eq_getElem_opt _ _ hi, getD_eq_getElem_opt _ _ (by rw [hl]; exact hi), hh i,
        Option.map_some', Option.map_some']
      congr 1
      cases hq : t.sub_heap.getD i none with
      | none =>
        have hn : i ∉ t._cache_ptr.subs := by
          intro hm
          obtain ⟨q, hq'⟩ := (h.sub_live i).mp hm
          rw [hq] at hq'
          exact Option.noConfusion hq'
        rw [if_neg hn]
        rfl
      | some q =>
        have hm : i ∈ t._cache_ptr.subs := (h.sub_live i).mpr ⟨q, hq⟩
        rw [if_pos hm, Option.map_some']
        show owners a (q.push { d with seqno := t._next_seqno } false []).1._fifo._slots
          = 1
        rw [sub_queue.push_fifo,
          spsc_queue.emplace_owners q._fifo
            (spsc_queue.reachable_inv _ (sub_queue.reachable_fifo _ (h.sub_ok i q hq).1)) a _
            (hrm i q hq) (hzero i q hq), owners_single_some]
        exact if_pos hd
    · rw [List.getElem?_eq_none (by omega), List.getElem?_eq_none (by omega)]
      rfl
  unfold queue_owners
  rw [e, sum_indicator, live_count t h]

/-- After a push on a topic whose queues have room, every subscriber queue holds the
envelopes it held before and the stamped envelope behind them. -/
theorem push_contents_at (t : topic) (h : WF t) (ph : Nat) (d : data) (ns : List notifier)
    (sq : Nat) (q : sub_queue) (hq : t.sub_heap.getD sq none = some q)
    (hroom : q._fifo.contents.length ≠ q._fifo.capacity) :
    ∃ q1, (t.push ph d ns).2.1.sub_heap.getD sq none = some q1
      ∧ q1._fifo.contents = q._fifo.contents ++ [some { d with seqno := t._next_seqno }] := by
  obtain ⟨_, hh⟩ := push_heap t ph d ns h.subs_nodup
  have hm : sq ∈ t._cache_ptr.subs := (h.sub_live sq).mpr ⟨q, hq⟩
  have hi := spsc_queue.reachable_inv _ (sub_queue.reachable_fifo _ (h.sub_ok sq q hq).1)
  refine ⟨(q.push { d with seqno := t._next_seqno } false []).1, ?_, ?_⟩
  · rw [hh sq, if_pos hm, hq]
    rfl
  · rw [sub_queue.push_fifo]
    exact spsc_queue.emplace_ok_contents q._fifo _ hi
      (fun e => hroom ((spsc_queue.full_iff q._fifo hi).mp e))

/-- A pop on a queue that holds an envelope returns true and moves the oldest envelope
out of the queue into the caller's envelope: the queue keeps the rest, and the owners of
a payload in the queues after the call, together with the returned envelope, are the
owners in the queues before. -/
theorem pop_moves (t : topic) (h : WF t) (a : Nat) (sq : Nat) (q : sub_queue) (x : data)
    (rest : List (Option data)) (hq : t.sub_heap.getD sq none = some q)
    (hc : q._fifo.contents = some x :: rest) (d0 : data) :
    ∃ r, t.pop sq d0 = some r ∧ r.1 = true ∧ r.2.1 = x
      ∧ (∃ q1, r.2.2.sub_heap.getD sq none = some q1 ∧ q1._fifo.contents = rest)
      ∧ r.2.2.queue_owners a + owners a [some x] = t.queue_owners a := by
  refine ⟨_, pop_some t sq d0 q hq, ?_⟩
  have hlt := getD_some_lt _ _ _ hq
  have hget : t.sub_heap[sq]? = some (some q) := by
    rw [getD_eq_getElem_opt _ _ hlt, hq]
  have hi := spsc_queue.reachable_inv _ (sub_queue.reachable_fifo _ (h.sub_ok sq q hq).1)
  obtain ⟨e1, e2⟩ := spsc_queue.pop_out_nonempty q._fifo hi x rest hc d0
  have hpop : q.pop d0 = (true, x, { q with _fifo := q._fifo.front.2.pop }) := by
    simp only [sub_queue.pop, e1]
  have hs := sum_map_set (sub_queue.slot_owners a) (some (q.pop d0).2.2) t.sub_heap sq
    (some q) hget
  obtain ⟨p1, _⟩ := spsc_queue.pop_out_owners q._fifo hi a d0
  rw [e1] at p1
  simp only [if_true] at p1
  refine ⟨?_, ?_, ?_, ?_⟩
  · show (q.pop d0).1 = true
    rw [hpop]
  · show (q.pop d0).2.1 = x
    rw [hpop]
  · refine ⟨(q.pop d0).2.2, getD_set_eq _ _ _ _ hlt, ?_⟩
    rw [hpop]
    exact e2
  · show (List.map _ (t.sub_heap.set sq (some (q.pop d0).2.2))).sum + owners a [some x]
        = (List.map _ t.sub_heap).sum
    have e3 : sub_queue.slot_owners a (some (q.pop d0).2.2)
        = owners a q._fifo.front.2.pop._slots := by
      rw [hpop]; rfl
    have e4 : sub_queue.slot_owners a (some q) = owners a q._fifo._slots := rfl
    rw [e3, e4] at hs
    omega

end topic

/-- C31: shared-payload reference count.  On a well-formed topic whose `k` subscriber
queues all have room, push one envelope that points at a shared payload no queue holds
yet.  Every subscriber queue then holds one copy of the stamped envelope behind what it
held before.  While the publisher still holds its envelope the payload has `k + 1`
owners; once the publisher has released its copy and before any pop it has exactly `k`,
one per queued copy, and `k` also together with a caller's envelope that does not point
at the payload.  The first pop on any subscriber queue returns true and hands the oldest
envelope of that queue to the caller, and the count read right after it, with the
caller's envelope, is again `k`.  When the queue held nothing before the push, the
caller receives the pushed envelope, which points at the payload, and the queues are
left with `k - 1` owners: the pop has moved one reference out of the queue.  The same
holds of every pop in every well-formed state: it returns the oldest envelope `x` of its
queue, leaves the rest queued, and the owners in the queues drop by what `x` holds. -/
theorem C31_shared_refcount (t : topic) (h : topic.WF t) (a : Nat) (ph : Nat) (d : data)
    (ns : List notifier) (hd : d.shared = some a) (hfresh : t.queue_owners a = 0)
    (hroom : ∀ q ∈ t.sub_heap.filterMap id, q._fifo.contents.length ≠ q._fifo.capacity) :
    (t.push ph d ns).1.shared = some a
      ∧ (t.push ph d ns).2.1.use_count a [(t.push ph d ns).1] = t._cache_ptr.subs.length + 1
      ∧ (t.push ph d ns).2.1.use_count a [] = t._cache_ptr.subs.length
      ∧ (t.push ph d ns).2.1.queue_owners a = t._cache_ptr.subs.length
      ∧ (∀ sq q, t.sub_heap.getD sq none = some q →
          (∃ q1, (t.push ph d ns).2.1.sub_heap.getD sq none = some q1
            ∧ q1._fifo.contents = q._fifo.contents ++ [some (t.push ph d ns).1])
          ∧ ∀ d0 : data,
            (d0.shared ≠ some a →
              (t.push ph d ns).2.1.use_count a [d0] = t._cache_ptr.subs.length)
            ∧ ∃ r, (t.push ph d ns).2.1.pop sq d0 = some r
              ∧ r.1 = true
              ∧ (q._fifo.contents ++ [some (t.push ph d ns).1]).head? = some (some r.2.1)
              ∧ r.2.2.use_count a [r.2.1] = t._cache_ptr.subs.length
              ∧ (r.2.1.shared = some a → r.2.2.queue_owners a + 1 = t._cache_ptr.subs.length)
              ∧ (q._fifo.contents = [] →
                  r.2.1 = (t.push ph d ns).1 ∧ r.2.1.shared = some a
                    ∧ r.2.2.queue_owners a + 1 = t._cache_ptr.subs.length))
      ∧ ∀ (t2 : topic), topic.WF t2 → ∀ (sq : Nat) (q : sub_queue) (x : data)
          (rest : List (Option data)), t2.sub_heap.getD sq none = some q →
          q._fifo.contents = some x :: rest → ∀ d0 : data,
          ∃ r, t2.pop sq d0 = some r ∧ r.1 = true ∧ r.2.1 = x
            ∧ (∃ q1, r.2.2.sub_heap.getD sq none = some q1 ∧ q1._fifo.contents = rest)
            ∧ r.2.2.use_count a [r.2.1] = t2.use_count a []
            ∧ (x.shared = some a → r.2.2.queue_owners a + 1 = t2.queue_owners a) := by
  have hp := topic.push_owners t h a ph d ns hd hfresh hroom
  have hw := topic.wf_push t h ph d ns
  have hlaw : ∀ (t2 : topic), topic.WF t2 → ∀ (sq : Nat) (q : sub_queue) (x : data)
      (rest : List (Option data)), t2.sub_heap.getD sq none = some q →
      q._fifo.contents = some x :: rest → ∀ d0 : data,
      ∃ r, t2.pop sq d0 = some r ∧ r.1 = true ∧ r.2.1 = x
        ∧ (∃ q1, r.2.2.sub_heap.getD sq none = some q1 ∧ q1._fifo.contents = rest)
        ∧ r.2.2.use_count a [r.2.1] = t2.use_count a []
        ∧ (x.shared = some a → r.2.2.queue_owners a + 1 = t2.queue_owners a) := by
    intro t2 h2 sq q x rest hq hc d0
    obtain ⟨r, e, r1, r2, r3, r4⟩ := topic.pop_moves t2 h2 a sq q x rest hq hc d0
    refine ⟨r, e, r1, r2, r3, ?_, ?_⟩
    · unfold topic.use_count
      show _ + owners a [some r.2.1] = _ + owners a []
      rw [r2, r4, owners_nil]
      rfl
    · intro hx
      rw [owners_single_some, if_pos hx] at r4
      exact r4
  have hone : owners a [some (t.push ph d ns).1] = 1 := by
    rw [topic.push_fst, owners_single_some]
    exact if_pos hd
  refine ⟨hd, ?_, ?_, hp, ?_, hlaw⟩
  · unfold topic.use_count
    rw [hp]
    show _ + owners a [some _] = _
    rw [hone]
  · unfold topic.use_count
    rw [hp]
    rfl
  · intro sq q hq
    have hrm : q._fifo.contents.length ≠ q._fifo.capacity := by
      apply hroom q
      rw [List.mem_filterMap]
      refine ⟨some q, ?_, rfl⟩
      have hlt := getD_some_lt _ _ _ hq
      rw [← hq, List.getD_eq_getElem _ _ hlt]
      exact List.getElem_mem hlt
    obtain ⟨q1, hq1, hc1⟩ := topic.push_contents_at t h ph d ns sq q hq hrm
    rw [← topic.push_fst t ph d ns] at hc1
    refine ⟨⟨q1, hq1, hc1⟩, ?_⟩
    intro d0
    refine ⟨?_, ?_⟩
    · intro hd0
      unfold topic.use_count
      rw [hp]
      show _ + owners a [some d0] = _
      rw [owners_single_some, if_neg hd0]
      rfl
    · obtain ⟨vs, hvs⟩ := (spsc_queue.reachable_inv _
        (sub_queue.reachable_fifo _ (h.sub_ok sq q hq).1)).live
      cases vs with
      | nil =>
        have hnil : q._fifo.contents = [] := hvs
        rw [hnil, List.nil_append] at hc1
        obtain ⟨r, e, r1, r2, _, r4, r5⟩ := hlaw _ hw sq q1 _ [] hq1 hc1 d0
        have hsh : r.2.1.shared = some a := by rw [r2]; exact hd
        have hq4 := r5 hd
        rw [hp] at hq4
        refine ⟨r, e, r1, ?_, ?_, fun _ => hq4, fun _ => ⟨r2, hsh, hq4⟩⟩
        · rw [hnil, r2]; rfl
        · rw [r4]
          unfold topic.use_count
          rw [hp]; rfl
      | cons v vs =>
        have hcons : q._fifo.contents = some v :: vs.map some := hvs
        rw [hcons, List.cons_append] at hc1
        obtain ⟨r, e, r1, r2, _, r4, r5⟩ := hlaw _ hw sq q1 v _ hq1 hc1 d0
        refine ⟨r, e, r1, ?_, ?_, ?_, ?_⟩
        · rw [hcons, r2]; rfl
        · rw [r4]
          unfold topic.use_count
          rw [hp]; rfl
        · intro hx
          rw [r2] at hx
          have := r5 hx
          rw [hp] at this
          exact this
        · intro he
          rw [hcons] at he
          exact List.noConfusion he

end vdds

namespace vdds

/-- Witness for C31: five subscribers with empty queues of capacity 4 and a payload at
address 9 (count 6 while the publisher holds its envelope, 5 after the release, 5 right
after the first pop, which returns the pushed envelope and leaves 4 owners in the
queues), and one subscriber (count 1 before and right after the first pop). -/
theorem C31_shared_refcount_witness :
    (∃ outs t ns, (topic.new "" "/t" "X").run []
        [topic_op.publish "p", topic_op.subscribe "s0" 4 none, topic_op.subscribe "s1" 4 none,
          topic_op.subscribe "s2" 4 none, topic_op.subscribe "s3" 4 none,
          topic_op.subscribe "s4" 4 none] = some (outs, t, ns)
      ∧ t._cache_ptr.subs.length = 5
      ∧ (t.push 0 ⟨0, 7, some 9, []⟩ []).2.1.use_count 9 [(t.push 0 ⟨0, 7, some 9, []⟩ []).1] = 6
      ∧ (t.push 0 ⟨0, 7, some 9, []⟩ []).2.1.use_count 9 [] = 5
      ∧ ∃ r, (t.push 0 ⟨0, 7, some 9, []⟩ []).2.1.pop 0 ⟨0, 0, none, []⟩ = some r
          ∧ r.1 = true ∧ r.2.1 = (t.push 0 ⟨0, 7, some 9, []⟩ []).1
          ∧ r.2.1.shared = some 9
          ∧ r.2.2.use_count 9 [r.2.1] = 5
          ∧ r.2.2.queue_owners 9 = 4)
    ∧ (∃ outs t ns, (topic.new "" "/t" "X").run []
        [topic_op.publish "p", topic_op.subscribe "s0" 4 none] = some (outs, t, ns)
      ∧ t._cache_ptr.subs.length = 1
      ∧ (t.push 0 ⟨0, 7, some 9, []⟩ []).2.1.use_count 9 [] = 1
      ∧ ∃ r, (t.push 0 ⟨0, 7, some 9, []⟩ []).2.1.pop 0 ⟨0, 0, none, []⟩ = some r
          ∧ r.1 = true ∧ r.2.1 = (t.push 0 ⟨0, 7, some 9, []⟩ []).1
          ∧ r.2.1.shared = some 9
          ∧ r.2.2.use_count 9 [r.2.1] = 1
          ∧ r.2.2.queue_owners 9 = 0) := by
  constructor
  · have he : ∃ r, (topic.new "" "/t" "X").run []
        [topic_op.publish "p", topic_op.subscribe "s0" 4 none, topic_op.subscribe "s1" 4 none,
          topic_op.subscribe "s2" 4 none, topic_op.subscribe "s3" 4 none,
          topic_op.subscribe "s4" 4 none] = some r :=
      Option.isSome_iff_exists.mp (by decide)
    obtain ⟨⟨outs, t, ns⟩, hr⟩ := he
    have hw : topic.WF t := topic.run_wf _ _ _ outs t ns (topic.wf_new "" "/t" "X") (by
      intro op hop
      simp only [List.mem_cons, List.mem_singleton, List.mem_nil_iff, or_false] at hop
      rcases hop with h | h | h | h | h | h <;> rw [h] <;>
        first | trivial | (show 4 < UINT32_MOD; decide)) hr
    have hpre : t._cache_ptr.subs.length = 5 ∧ t.queue_owners 9 = 0
        ∧ (∀ q ∈ t.sub_heap.filterMap id, q._fifo.contents.length ≠ q._fifo.capacity)
        ∧ (t.sub_heap.getD 0 none).isSome = true := by
      have := congrArg (Option.map (fun x : List topic_out × topic × List notifier =>
        decide (x.2.1._cache_ptr.subs.length = 5 ∧ x.2.1.queue_owners 9 = 0
          ∧ (∀ q ∈ x.2.1.sub_heap.filterMap id, q._fifo.contents.length ≠ q._fifo.capacity)
          ∧ (x.2.1.sub_heap.getD 0 none).isSome = true))) hr
      simp only [Option.map_some'] at this
      exact of_decide_eq_true (Option.some.inj (this.symm.trans (by decide)))
    obtain ⟨hk, hfresh, hroom, hsome⟩ := hpre
    obtain ⟨q, hq⟩ := Option.isSome_iff_exists.mp hsome
    have hempty : q._fifo.contents = [] := by
      have := congrArg (Option.map (fun x : List topic_out × topic × List notifier =>
        (x.2.1.sub_heap.getD 0 none).map (fun q => decide (q._fifo.contents = [])))) hr
      simp only [Option.map_some', hq] at this
      exact of_decide_eq_true (Option.some.inj (Option.some.inj (this.symm.trans (by decide))))
    obtain ⟨_, c1, c2, _, c4, _⟩ :=
      C31_shared_refcount t hw 9 0 ⟨0, 7, some 9, []⟩ [] rfl hfresh hroom
    obtain ⟨r, e, r1, _, r3, _, r5⟩ := ((c4 0 q hq).2 ⟨0, 0, none, []⟩).2
    obtain ⟨s1, s2, s3⟩ := r5 hempty
    rw [hk] at c1 c2 r3 s3
    exact ⟨outs, t, ns, hr, hk, c1, c2, r, e, r1, s1, s2, r3, by omega⟩
  · have he : ∃ r, (topic.new "" "/t" "X").run []
        [topic_op.publish "p", topic_op.subscribe "s0" 4 none] = some r :=
      Option.isSome_iff_exists.mp (by decide)
    obtain ⟨⟨outs, t, ns⟩, hr⟩ := he
    have hw : topic.WF t := topic.run_wf _ _ _ outs t ns (topic.wf_new "" "/t" "X") (by
      intro op hop
      simp only [List.mem_cons, List.mem_singleton, List.mem_nil_iff, or_false] at hop
      rcases hop with h | h <;> rw [h] <;>
        first | trivial | (show 4 < UINT32_MOD; decide)) hr
    have hpre : t._cache_ptr.subs.length = 1 ∧ t.queue_owners 9 = 0
        ∧ (∀ q ∈ t.sub_heap.filterMap id, q._fifo.contents.length ≠ q._fifo.capacity)
        ∧ (t.sub_heap.getD 0 none).isSome = true := by
      have := congrArg (Option.map (fun x : List topic_out × topic × List notifier =>
        decide (x.2.1._cache_ptr.subs.length = 1 ∧ x.2.1.queue_owners 9 = 0
          ∧ (∀ q ∈ x.2.1.sub_heap.filterMap id, q._fifo.contents.length ≠ q._fifo.capacity)
          ∧ (x.2.1.sub_heap.getD 0 none).isSome = true))) hr
      simp only [Option.map_some'] at this
      exact of_decide_eq_true (Option.some.inj (this.symm.trans (by decide)))
    obtain ⟨hk, hfresh, hroom, hsome⟩ := hpre
    obtain ⟨q, hq⟩ := Option.isSome_iff_exists.mp hsome
    have hempty : q._fifo.contents = [] := by
      have := congrArg (Option.map (fun x : List topic_out × topic × List notifier =>
        (x.2.1.sub_heap.getD 0 none).map (fun q => decide (q._fifo.contents = [])))) hr
      simp only [Option.map_some', hq] at this
      exact of_decide_eq_true (Option.some.inj (Option.some.inj (this.symm.trans (by decide))))
    obtain ⟨_, _, c2, _, c4, _⟩ :=
      C31_shared_refcount t hw 9 0 ⟨0, 7, some 9, []⟩ [] rfl hfresh hroom
    obtain ⟨r, e, r1, _, r3, _, r5⟩ := ((c4 0 q hq).2 ⟨0, 0, none, []⟩).2
    obtain ⟨s1, s2, s3⟩ := r5 hempty
    rw [hk] at c2 r3 s3
    exact ⟨outs, t, ns, hr, hk, c2, r, e, r1, s1, s2, r3, by omega⟩

end vdds
